import Mathlib

/-!
# NoteBlockchain ledger core: block index, active chain and UTXO overlay cache

A shallow embedding of `src/chain.h`, `src/chain.cpp`, `src/coins.h`,
`src/coins.cpp`, the parts of `src/arith_uint256.h` and
`src/arith_uint256.cpp` they use, the compact encoding of targets, and the
amount compression of `src/compressor.cpp` with the money range of
`src/amount.h`, followed by theorems about the embedded functions.

Conventions of the embedding.

* A `CBlockIndex*` is an `Option Nat`: `none` is `nullptr`, `some i` is the
  address of the node stored in cell `i` of the heap (`Arena`).  Pointer
  equality in the source is equality of addresses here.
* The C++ `int` heights are `Int`.  Every arithmetic step the embedded functions
  perform on heights stays inside the `int` range as long as the heights
  themselves do, so no wrap-around is modelled for them.
* A C++ exception, a failed `assert` and an out-of-range vector access are
  results `Except.error _`; a state-changing operation returns the state it
  leaves behind together with its result.
* A `while` loop whose termination the source does not make evident takes an
  explicit bound on the number of iterations (`fuel`) and answers
  `Err.outOfFuel` when the bound is exhausted before the loop exits.
-/

namespace NoteChain

/-! ## Errors -/

/-- The ways an embedded operation can fail to return normally. -/
inductive Err where
  /-- A failed `assert(...)`. -/
  | assertion
  /-- An access `v[i]` outside the bounds of a `std::vector`, or a `resize`
  to a negative (that is, astronomically large `size_t`) length. -/
  | outOfRange
  /-- The function `std::logic_error("Adding new coin that replaces non-pruned entry")`. -/
  | replacesNonPruned
  /-- The function `std::logic_error("FRESH flag misapplied to base transaction with spendable outputs")`. -/
  | freshMisapplied
  /-- The iteration bound handed to a loop was used up. -/
  | outOfFuel
  /-- A null pointer was dereferenced. -/
  | nullDeref
  /-- The function `uint_error("Division by zero")`. -/
  | divisionByZero
  deriving DecidableEq

/-! ## Block index (`chain.h`, `chain.cpp`) -/

/-- A `CBlockIndex*`. -/
abbrev Ptr := Option Nat

/-- The fields of `class CBlockIndex` (chain.h:103-123) that the embedded
functions read.  `phashBlock` is represented by the hash it points to. -/
structure CBlockIndex where
  phashBlock : Nat := 0
  pprev : Ptr := none
  pskip : Ptr := none
  nHeight : Int := 0
  nChainWork : Nat := 0
  nTime : Nat := 0
  nBits : Nat := 0
  nTimeMax : Nat := 0
  deriving DecidableEq

/-- The heap of block-index nodes: cell `i` holds the node at address `i`. -/
abbrev Arena := Nat → CBlockIndex

/-- The function `InvertLowestOne` of chain.cpp:67-69: `n & (n - 1)`. -/
def InvertLowestOne (n : Int) : Int := Int.land n (n - 1)

/-- The function `GetSkipHeight` of chain.cpp:72-77. -/
def GetSkipHeight (height : Int) : Int :=
  if height < 2 then 0
  else if Int.land height 1 ≠ 0 then
    InvertLowestOne (InvertLowestOne (height - 1)) + 1
  else
    InvertLowestOne height

/-- The `while (heightWalk > height)` loop of `CBlockIndex::GetAncestor`
(chain.cpp:86-101), with `pindexWalk` and `heightWalk` as arguments. -/
def GetAncestorLoop (A : Arena) (height : Int) : Nat → Nat → Int → Except Err Ptr
  | 0, pindexWalk, heightWalk =>
    if heightWalk > height then .error .outOfFuel else .ok (some pindexWalk)
  | fuel + 1, pindexWalk, heightWalk =>
    if heightWalk > height then
      let heightSkip := GetSkipHeight heightWalk
      let heightSkipPrev := GetSkipHeight (heightWalk - 1)
      match (A pindexWalk).pskip with
      | some pskip =>
        if heightSkip = height ∨
            (heightSkip > height ∧
              ¬ (heightSkipPrev < heightSkip - 2 ∧ heightSkipPrev ≥ height)) then
          GetAncestorLoop A height fuel pskip heightSkip
        else
          match (A pindexWalk).pprev with
          | some pprev => GetAncestorLoop A height fuel pprev (heightWalk - 1)
          | none => .error .assertion
      | none =>
        match (A pindexWalk).pprev with
        | some pprev => GetAncestorLoop A height fuel pprev (heightWalk - 1)
        | none => .error .assertion
    else .ok (some pindexWalk)

/-- The method `CBlockIndex::GetAncestor` of chain.cpp:80-104, called on the
node at address `self`.  Every iteration lowers `heightWalk` by at least
one, so `nHeight - height` iterations are all the loop can make. -/
def GetAncestor (A : Arena) (self : Nat) (height : Int) : Except Err Ptr :=
  if height > (A self).nHeight ∨ height < 0 then .ok none
  else GetAncestorLoop A height ((A self).nHeight - height).toNat self (A self).nHeight

/-- The method `CBlockIndex::BuildSkip` of chain.cpp:113-117, called on the
node at address `self`; it returns the heap with that node updated. -/
def BuildSkip (A : Arena) (self : Nat) : Except Err Arena :=
  match (A self).pprev with
  | some pprev =>
    (GetAncestor A pprev (GetSkipHeight (A self).nHeight)).map fun p =>
      Function.update A self { A self with pskip := p }
  | none => .ok A

/-- The node reached from `p` by following `pprev` exactly `k` times
(`none` once the walk has run off the genesis node). -/
def pprevWalk (A : Arena) : Ptr → Nat → Ptr
  | p, 0 => p
  | none, _ + 1 => none
  | some i, k + 1 => pprevWalk A (A i).pprev k

/-- Node `m` lies on the `pprev`-chain of node `a` (`a` itself included). -/
def OnChain (A : Arena) (a m : Nat) : Prop := ∃ k, pprevWalk A (some a) k = some m

/-- The conditions a single linked node satisfies: its height is not negative;
a node without parent has height 0 and a node with a parent sits exactly one
above it; the skip pointer, when set, is the node the `pprev` walk reaches at
height `GetSkipHeight(nHeight)`. -/
def NodeOK (A : Arena) (i : Nat) : Prop :=
  0 ≤ (A i).nHeight ∧
  (match (A i).pprev with
    | none => (A i).nHeight = 0
    | some q => (A q).nHeight = (A i).nHeight - 1) ∧
  (match (A i).pskip with
    | none => True
    | some s =>
      pprevWalk A (some i) ((A i).nHeight - GetSkipHeight (A i).nHeight).toNat = some s)

/-- A well-formed block-index node: the node and all the nodes on its
`pprev`-chain satisfy `NodeOK`. -/
def WellFormed (A : Arena) (n : Nat) : Prop :=
  ∀ k m, pprevWalk A (some n) k = some m → NodeOK A m

/-- The exit test and body of the loop of `LastCommonAncestor`
(chain.cpp:161-164); it returns the final `(pa, pb)`. -/
def LastCommonAncestorLoop (A : Arena) : Nat → Ptr → Ptr → Except Err (Ptr × Ptr)
  | fuel, some a, some b =>
    if a ≠ b then
      match fuel with
      | 0 => .error .outOfFuel
      | fuel + 1 => LastCommonAncestorLoop A fuel (A a).pprev (A b).pprev
    else .ok (some a, some b)
  | _, pa, pb => .ok (pa, pb)

/-- The function `LastCommonAncestor` of chain.cpp:153-168; `fuel` bounds the
iterations of its loop. -/
def LastCommonAncestor (A : Arena) (fuel : Nat) (pa pb : Ptr) : Except Err Ptr :=
  match pa, pb with
  | some a, some b =>
    let eq : Except Err (Ptr × Ptr) :=
      if (A a).nHeight > (A b).nHeight then
        (GetAncestor A a (A b).nHeight).map fun pa => (pa, some b)
      else if (A b).nHeight > (A a).nHeight then
        (GetAncestor A b (A a).nHeight).map fun pb => (some a, pb)
      else .ok (some a, some b)
    match eq with
    | .error e => .error e
    | .ok (pa, pb) =>
      match LastCommonAncestorLoop A fuel pa pb with
      | .error e => .error e
      | .ok (pa, pb) => if pa = pb then .ok pa else .error .assertion
  | _, _ => .error .assertion

/-! ## Active chain (`CChain`, chain.h:192-225, chain.cpp:12-22) -/

/-- The class `CChain`: the vector `vChain` of node pointers. -/
structure CChain where
  vChain : List Ptr := []
  deriving DecidableEq

/-- The method `CChain::Tip` (chain.h:199). -/
def CChain.Tip (c : CChain) : Ptr :=
  if c.vChain.isEmpty then none else c.vChain.getD (c.vChain.length - 1) none

/-- The method `CChain::Genesis` (chain.h:198). -/
def CChain.Genesis (c : CChain) : Ptr :=
  if c.vChain.isEmpty then none else c.vChain.getD 0 none

/-- The method `CChain::Height` (chain.h:200). -/
def CChain.Height (c : CChain) : Int := (c.vChain.length : Int) - 1

/-- The operator `CChain::operator[]` (chain.h:202-204). -/
def CChain.at (c : CChain) (nHeight : Int) : Ptr :=
  if nHeight ≥ 0 ∧ nHeight < (c.vChain.length : Int) then
    c.vChain.getD nHeight.toNat none
  else none

/-- The method `CChain::Contains` (chain.h:206-208). -/
def CChain.Contains (A : Arena) (c : CChain) (pindex : Nat) : Bool :=
  c.at (A pindex).nHeight == some pindex

/-- The call `std::vector::resize(n)` on a vector of pointers: cut to `n`
slots, or pad with null pointers up to `n` slots. -/
def resize (v : List Ptr) (n : Nat) : List Ptr :=
  v.take n ++ List.replicate (n - v.length) none

/-- The loop of `CChain::SetTip` (chain.cpp:18-21). -/
def SetTipLoop (A : Arena) : Nat → List Ptr → Ptr → Except Err (List Ptr)
  | _, vChain, none => .ok vChain
  | fuel, vChain, some pindex =>
    let nHeight := (A pindex).nHeight
    if nHeight < 0 ∨ nHeight ≥ (vChain.length : Int) then .error .outOfRange
    else if vChain.getD nHeight.toNat none ≠ some pindex then
      match fuel with
      | 0 => .error .outOfFuel
      | fuel + 1 =>
        SetTipLoop A fuel (vChain.set nHeight.toNat (some pindex)) (A pindex).pprev
    else .ok vChain

/-- The method `CChain::SetTip` of chain.cpp:12-22; `fuel` bounds the
iterations of its loop. -/
def CChain.SetTip (A : Arena) (fuel : Nat) (c : CChain) (pindex : Ptr) : Except Err CChain :=
  match pindex with
  | none => .ok { vChain := [] }
  | some p =>
    if (A p).nHeight + 1 < 0 then .error .outOfRange
    else
      (SetTipLoop A fuel (resize c.vChain ((A p).nHeight + 1).toNat) (some p)).map
        fun v => { vChain := v }

/-- The chain states the program can reach: the empty chain of a newly
constructed `CChain`, and whatever a returning `SetTip` call on the null
pointer or on a well-formed node makes of a reachable chain. -/
inductive CChain.Reachable (A : Arena) : CChain → Prop where
  | empty : CChain.Reachable A { vChain := [] }
  | setTip (fuel : Nat) (c c' : CChain) (pindex : Ptr) :
      CChain.Reachable A c → (∀ n, pindex = some n → WellFormed A n) →
      CChain.SetTip A fuel c pindex = .ok c' → CChain.Reachable A c'

/-- The ActiveChain invariant: no slot is null, the node in slot `i` has
height `i`, slot 0 holds a node without parent, and the node in slot `i + 1`
has the node in slot `i` as its `pprev`. -/
def CChain.Inv (A : Arena) (c : CChain) : Prop :=
  ∀ i, i < c.vChain.length → ∃ p, c.vChain.getD i none = some p ∧
    (A p).nHeight = (i : Int) ∧
    (i = 0 → (A p).pprev = none) ∧
    (0 < i → (A p).pprev = c.vChain.getD (i - 1) none)

/-- A chain of `N` linked nodes at addresses `0 .. N-1`: node `i` has height
`i`, its parent is node `i - 1` and its skip pointer is the node at height
`GetSkipHeight(i)`, the pointer `BuildSkip` stores (`linkedChain_BuildSkip`);
the cells from `N` on hold default-constructed nodes. -/
def linkedChain (N : Nat) : Arena := fun i =>
  if i < N ∧ 0 < i then
    { nHeight := (i : Int), pprev := some (i - 1),
      pskip := some (GetSkipHeight (i : Int)).toNat }
  else {}

/-- An arena with a fork: the eight linked nodes `0 .. 7` of `linkedChain 8`
and a side branch of two nodes, 10 (height 6) and 11 (height 7), that leaves
the main branch at node 5. -/
def forkedChain : Arena := fun i =>
  if i = 10 then { nHeight := 6, pprev := some 5, pskip := some 4 }
  else if i = 11 then { nHeight := 7, pprev := some 10, pskip := some 1 }
  else linkedChain 8 i

/-- What the slots up to `j` of a vector must satisfy for the loop of `SetTip`
to stop correctly at a slot that already holds the walked node: a non-null
slot holds a node of the slot's height whose `pprev` is the slot below. -/
def SlotsLinked (A : Arena) (v : List Ptr) (j : Nat) : Prop :=
  ∀ i p, i ≤ j → v.getD i none = some p →
    (A p).nHeight = (i : Int) ∧ (0 < i → (A p).pprev = v.getD (i - 1) none)

/-! ## Coins and cache entries (`coins.h`) -/

/-- A block or transaction hash (`uint256`); the null hash is `0`. -/
abbrev uint256 := Nat

/-- Modelled from the spec: the outpoint of the glossary, a transaction id
and an output index (`COutPoint` is declared in primitives/transaction.h,
which is not among the sources). -/
structure COutPoint where
  hash : uint256
  n : Nat
  deriving DecidableEq

/-- A script (`CScript`), as its bytes. -/
abbrev CScript := List Nat

/-- Modelled from the spec: the transaction output of a coin, "output value,
locking script", whose null state marks the spent sentinel (`CTxOut` is
declared in primitives/transaction.h, which is not among the sources).  A
default-constructed output is null: value `-1` and an empty script. -/
structure CTxOut where
  nValue : Int := -1
  scriptPubKey : CScript := []
  deriving DecidableEq

/-- Modelled from the spec: the test `CTxOut::IsNull`, true of the null output. -/
def CTxOut.IsNull (o : CTxOut) : Bool := decide (o.nValue = -1)

/-- The two functions of the script and memory-accounting modules that the
cache calls and whose definitions are not among the sources:
`CScript::IsUnspendable` and `memusage::DynamicUsage` of a script. -/
structure ScriptOps where
  IsUnspendable : CScript → Bool
  DynamicUsage : CScript → Nat

/-- The class `Coin` of coins.h:22-68.  A default-constructed `Coin` holds the
null output, is not a coinbase and has height 0. -/
structure Coin where
  out : CTxOut := {}
  fCoinBase : Bool := false
  nHeight : Nat := 0
  deriving DecidableEq

/-- The coin `Coin::Clear` leaves behind (coins.h:34-38). -/
def Coin.Clear (_ : Coin) : Coin := { out := {}, fCoinBase := false, nHeight := 0 }

/-- The method `Coin::IsSpent` (coins.h:40-42). -/
def Coin.IsSpent (c : Coin) : Bool := c.out.IsNull

/-- The method `Coin::DynamicMemoryUsage` (coins.h:48-50). -/
def Coin.DynamicMemoryUsage (X : ScriptOps) (c : Coin) : Nat := X.DynamicUsage c.out.scriptPubKey

/-- The flag `CCoinsCacheEntry::DIRTY` (coins.h:90). -/
def DIRTY : Nat := 1

/-- The flag `CCoinsCacheEntry::FRESH` (coins.h:91). -/
def FRESH : Nat := 2

/-- The struct `CCoinsCacheEntry` of coins.h:85-96. -/
structure CCoinsCacheEntry where
  coin : Coin := {}
  flags : Nat := 0
  deriving DecidableEq

/-- The map type `CCoinsMap` (coins.h:98): a finite map with one entry per key.
The list of its entries stands for the iteration order of the hash map. -/
abbrev CCoinsMap := AList (fun _ : COutPoint => CCoinsCacheEntry)

/-- Addition on the `size_t` counter `cachedCoinsUsage`. -/
def usageAdd (u m : Nat) : Nat := (u + m) % 2 ^ 64

/-- Subtraction on the `size_t` counter `cachedCoinsUsage`. -/
def usageSub (u m : Nat) : Nat := (u + (2 ^ 64 - m % 2 ^ 64)) % 2 ^ 64

/-! ## The view hierarchy (`coins.h`, `coins.cpp`) -/

/-- A `CCoinsView` object together with the views below it. -/
inductive CCoinsView where
  /-- Modelled from the spec: the persistent backing store of section 6, an
  external collaborator whose code is not among the sources.  Its `GetCoin`
  answers from the table `coins` (`none`: it returns false), its `BatchWrite`
  returns `writeOk`, and `written` lists the batches it has been handed, each
  with the block hash that came with it. -/
  | store (coins : COutPoint → Option Coin) (writeOk : Bool)
      (written : List (CCoinsMap × uint256))
  /-- A `CCoinsViewCache`: its backing view `base` and its members `hashBlock`,
  `cacheCoins` and `cachedCoinsUsage` (coins.h:154-158). -/
  | cache (base : CCoinsView) (hashBlock : uint256) (cacheCoins : CCoinsMap)
      (cachedCoinsUsage : Nat)

/-- The members of a `CCoinsViewCache` object (coins.h:136-158). -/
structure CCoinsViewCache where
  base : CCoinsView
  hashBlock : uint256 := 0
  cacheCoins : CCoinsMap := ∅
  cachedCoinsUsage : Nat := 0

/-- A cache seen as a `CCoinsView`. -/
def CCoinsViewCache.view (c : CCoinsViewCache) : CCoinsView :=
  .cache c.base c.hashBlock c.cacheCoins c.cachedCoinsUsage

/-- The method `CCoinsViewCache::FetchCoin` of coins.cpp:50-64, with the
virtual call `base->GetCoin` as the argument `baseGetCoin`.  The result is the
entry the returned iterator points to (`none` for `cacheCoins.end()`). -/
def CCoinsViewCache.FetchCoinVia (X : ScriptOps)
    (baseGetCoin : COutPoint → Coin → (Bool × Coin) × CCoinsView)
    (c : CCoinsViewCache) (outpoint : COutPoint) :
    Option CCoinsCacheEntry × CCoinsViewCache :=
  match c.cacheCoins.lookup outpoint with
  | some e => (some e, c)
  | none =>
    match baseGetCoin outpoint {} with
    | ((false, _), base') => (none, { c with base := base' })
    | ((true, tmp), base') =>
      let ret : CCoinsCacheEntry :=
        { coin := tmp, flags := if tmp.IsSpent then FRESH else 0 }
      (some ret,
        { c with
          base := base'
          cacheCoins := c.cacheCoins.insert outpoint ret
          cachedCoinsUsage := usageAdd c.cachedCoinsUsage (ret.coin.DynamicMemoryUsage X) })

/-- The method `CCoinsViewCache::GetCoin` of coins.cpp:66-72, with the virtual
call `base->GetCoin` as the argument `baseGetCoin`; `coin` is the value of the
out-parameter before the call, and the result holds its value after it. -/
def CCoinsViewCache.GetCoinVia (X : ScriptOps)
    (baseGetCoin : COutPoint → Coin → (Bool × Coin) × CCoinsView)
    (c : CCoinsViewCache) (outpoint : COutPoint) (coin : Coin) :
    (Bool × Coin) × CCoinsViewCache :=
  match c.FetchCoinVia X baseGetCoin outpoint with
  | (none, c') => ((false, coin), c')
  | (some e, c') => ((!e.coin.IsSpent, e.coin), c')

/-- The virtual method `GetCoin` (coins.cpp:66-72 for a cache). -/
def CCoinsView.GetCoin (X : ScriptOps) :
    CCoinsView → COutPoint → Coin → (Bool × Coin) × CCoinsView
  | .store coins writeOk written, outpoint, coin =>
    match coins outpoint with
    | some c => ((true, c), .store coins writeOk written)
    | none => ((false, coin), .store coins writeOk written)
  | .cache base hashBlock cacheCoins cachedCoinsUsage, outpoint, coin =>
    match CCoinsViewCache.GetCoinVia X (fun o t => CCoinsView.GetCoin X base o t)
        { base := base, hashBlock := hashBlock, cacheCoins := cacheCoins,
          cachedCoinsUsage := cachedCoinsUsage } outpoint coin with
    | (r, c') => (r, c'.view)

/-- The method `CCoinsViewCache::FetchCoin` of coins.cpp:50-64. -/
def CCoinsViewCache.FetchCoin (X : ScriptOps) (c : CCoinsViewCache) (outpoint : COutPoint) :
    Option CCoinsCacheEntry × CCoinsViewCache :=
  c.FetchCoinVia X (c.base.GetCoin X) outpoint

/-- The method `CCoinsViewCache::GetCoin` of coins.cpp:66-72. -/
def CCoinsViewCache.GetCoin (X : ScriptOps) (c : CCoinsViewCache) (outpoint : COutPoint)
    (coin : Coin) : (Bool × Coin) × CCoinsViewCache :=
  c.GetCoinVia X (c.base.GetCoin X) outpoint coin

/-- The method `CCoinsViewCache::HaveCoin` of coins.cpp:130-133. -/
def CCoinsViewCache.HaveCoin (X : ScriptOps) (c : CCoinsViewCache) (outpoint : COutPoint) :
    Bool × CCoinsViewCache :=
  match c.FetchCoin X outpoint with
  | (none, c') => (false, c')
  | (some e, c') => (!e.coin.IsSpent, c')

/-- The method `CCoinsViewCache::AccessCoin` of coins.cpp:125-128; the empty
coin is the static `coinEmpty`. -/
def CCoinsViewCache.AccessCoin (X : ScriptOps) (c : CCoinsViewCache) (outpoint : COutPoint) :
    Coin × CCoinsViewCache :=
  match c.FetchCoin X outpoint with
  | (none, c') => ({}, c')
  | (some e, c') => (e.coin, c')

/-- The method `CCoinsViewCache::HaveCoinInCache` of coins.cpp:135-138. -/
def CCoinsViewCache.HaveCoinInCache (c : CCoinsViewCache) (outpoint : COutPoint) : Bool :=
  match c.cacheCoins.lookup outpoint with
  | none => false
  | some e => !e.coin.IsSpent

/-- The virtual method `HaveCoin`: coins.cpp:17-20 for the store (the base
class calls `GetCoin`), coins.cpp:130-133 for a cache. -/
def CCoinsView.HaveCoin (X : ScriptOps) : CCoinsView → COutPoint → Bool × CCoinsView
  | .store coins writeOk written, outpoint =>
    ((coins outpoint).isSome, .store coins writeOk written)
  | .cache base hashBlock cacheCoins cachedCoinsUsage, outpoint =>
    match CCoinsViewCache.HaveCoin X
        { base := base, hashBlock := hashBlock, cacheCoins := cacheCoins,
          cachedCoinsUsage := cachedCoinsUsage } outpoint with
    | (r, c') => (r, c'.view)

/-- The method `CCoinsViewCache::AddCoin` of coins.cpp:74-94.  The state
returned with an error is the one the object is left in when the exception
leaves the method. -/
def CCoinsViewCache.AddCoin (X : ScriptOps) (c : CCoinsViewCache) (outpoint : COutPoint)
    (coin : Coin) (possible_overwrite : Bool) : Except Err Unit × CCoinsViewCache :=
  if coin.IsSpent then (.error .assertion, c)
  else if X.IsUnspendable coin.out.scriptPubKey then (.ok (), c)
  else
    -- `cacheCoins.emplace(outpoint, {})` and the iterator it returns
    let inserted : Bool := (c.cacheCoins.lookup outpoint).isNone
    let it : CCoinsCacheEntry := (c.cacheCoins.lookup outpoint).getD {}
    let cacheCoins1 := if inserted then c.cacheCoins.insert outpoint {} else c.cacheCoins
    let usage1 :=
      if !inserted then usageSub c.cachedCoinsUsage (it.coin.DynamicMemoryUsage X)
      else c.cachedCoinsUsage
    if !possible_overwrite && !it.coin.IsSpent then
      (.error .replacesNonPruned,
        { c with cacheCoins := cacheCoins1, cachedCoinsUsage := usage1 })
    else
      let fresh : Bool := !possible_overwrite && (it.flags &&& DIRTY == 0)
      let entry : CCoinsCacheEntry :=
        { coin := coin, flags := it.flags ||| (DIRTY ||| (if fresh then FRESH else 0)) }
      (.ok (),
        { c with
          cacheCoins := cacheCoins1.insert outpoint entry
          cachedCoinsUsage := usageAdd usage1 (entry.coin.DynamicMemoryUsage X) })

/-- The method `CCoinsViewCache::SpendCoin` of coins.cpp:106-121.  `moveout`
tells whether the pointer argument is non-null; the result holds the returned
flag and the coin written through the pointer, if any. -/
def CCoinsViewCache.SpendCoin (X : ScriptOps) (c : CCoinsViewCache) (outpoint : COutPoint)
    (moveout : Bool) : (Bool × Option Coin) × CCoinsViewCache :=
  match c.FetchCoin X outpoint with
  | (none, c') => ((false, none), c')
  | (some e, c') =>
    let usage := usageSub c'.cachedCoinsUsage (e.coin.DynamicMemoryUsage X)
    let moved := if moveout then some e.coin else none
    if e.flags &&& FRESH ≠ 0 then
      ((true, moved),
        { c' with cacheCoins := c'.cacheCoins.erase outpoint, cachedCoinsUsage := usage })
    else
      ((true, moved),
        { c' with
          cacheCoins := c'.cacheCoins.insert outpoint
            { coin := e.coin.Clear, flags := e.flags ||| DIRTY }
          cachedCoinsUsage := usage })

/-- The body of the loop of `CCoinsViewCache::BatchWrite` (coins.cpp:151-178),
run over the entries of the incoming map in iteration order.  It returns the
receiving map and counter, and what is left of the incoming map: nothing after
a complete run, and the entries from the offending one on when the logic
error is raised (every entry is erased only once it has been processed). -/
def BatchWriteLoop (X : ScriptOps) :
    (l : List (Sigma fun _ : COutPoint => CCoinsCacheEntry)) → l.NodupKeys →
    CCoinsMap → Nat → Except Err Unit × CCoinsMap × Nat × CCoinsMap
  | [], _, cacheCoins, usage => (.ok (), cacheCoins, usage, ∅)
  | ⟨key, it⟩ :: rest, hnd, cacheCoins, usage =>
    have hrest : rest.NodupKeys := (List.nodupKeys_cons.1 hnd).2
    if it.flags &&& DIRTY = 0 then BatchWriteLoop X rest hrest cacheCoins usage
    else
      match cacheCoins.lookup key with
      | none =>
        if ¬ (it.flags &&& FRESH ≠ 0 ∧ it.coin.IsSpent) then
          let entry : CCoinsCacheEntry :=
            { coin := it.coin
              flags := DIRTY ||| (if it.flags &&& FRESH ≠ 0 then FRESH else 0) }
          BatchWriteLoop X rest hrest (cacheCoins.insert key entry)
            (usageAdd usage (entry.coin.DynamicMemoryUsage X))
        else BatchWriteLoop X rest hrest cacheCoins usage
      | some itUs =>
        if it.flags &&& FRESH ≠ 0 ∧ ¬ itUs.coin.IsSpent then
          (.error .freshMisapplied, cacheCoins, usage, ⟨⟨key, it⟩ :: rest, hnd⟩)
        else if itUs.flags &&& FRESH ≠ 0 ∧ it.coin.IsSpent then
          BatchWriteLoop X rest hrest (cacheCoins.erase key)
            (usageSub usage (itUs.coin.DynamicMemoryUsage X))
        else
          BatchWriteLoop X rest hrest
            (cacheCoins.insert key { coin := it.coin, flags := itUs.flags ||| DIRTY })
            (usageAdd (usageSub usage (itUs.coin.DynamicMemoryUsage X))
              (it.coin.DynamicMemoryUsage X))

/-- The method `CCoinsViewCache::BatchWrite` of coins.cpp:150-182.  The result
holds the receiving cache and what is left of `mapCoins`. -/
def CCoinsViewCache.BatchWrite (X : ScriptOps) (c : CCoinsViewCache) (mapCoins : CCoinsMap)
    (hashBlockIn : uint256) : Except Err Bool × CCoinsViewCache × CCoinsMap :=
  match BatchWriteLoop X mapCoins.entries mapCoins.nodupKeys c.cacheCoins c.cachedCoinsUsage with
  | (.error e, cacheCoins, usage, left) =>
    (.error e, { c with cacheCoins := cacheCoins, cachedCoinsUsage := usage }, left)
  | (.ok (), cacheCoins, usage, left) =>
    (.ok true,
      { c with cacheCoins := cacheCoins, cachedCoinsUsage := usage, hashBlock := hashBlockIn },
      left)

/-- The virtual method `BatchWrite`: the store records the batch and answers
`writeOk`; a cache runs coins.cpp:150-182. -/
def CCoinsView.BatchWrite (X : ScriptOps) :
    CCoinsView → CCoinsMap → uint256 → Except Err Bool × CCoinsView × CCoinsMap
  | .store coins writeOk written, mapCoins, hashBlock =>
    (.ok writeOk, .store coins writeOk (written ++ [(mapCoins, hashBlock)]), mapCoins)
  | .cache base hashBlock cacheCoins cachedCoinsUsage, mapCoins, hashBlockIn =>
    match CCoinsViewCache.BatchWrite X
        { base := base, hashBlock := hashBlock, cacheCoins := cacheCoins,
          cachedCoinsUsage := cachedCoinsUsage } mapCoins hashBlockIn with
    | (r, c', left) => (r, c'.view, left)

/-- The method `CCoinsViewCache::Flush` of coins.cpp:184-189.  When
`BatchWrite` raises, the exception leaves `Flush` before the map is cleared. -/
def CCoinsViewCache.Flush (X : ScriptOps) (c : CCoinsViewCache) :
    Except Err Bool × CCoinsViewCache :=
  match c.base.BatchWrite X c.cacheCoins c.hashBlock with
  | (.error e, base', left) => (.error e, { c with base := base', cacheCoins := left })
  | (.ok fOk, base', _) =>
    (.ok fOk, { c with base := base', cacheCoins := ∅, cachedCoinsUsage := 0 })

/-- The method `CCoinsViewCache::Uncache` of coins.cpp:191-197. -/
def CCoinsViewCache.Uncache (X : ScriptOps) (c : CCoinsViewCache) (outpoint : COutPoint) :
    CCoinsViewCache :=
  match c.cacheCoins.lookup outpoint with
  | some e =>
    if e.flags = 0 then
      { c with
        cacheCoins := c.cacheCoins.erase outpoint
        cachedCoinsUsage := usageSub c.cachedCoinsUsage (e.coin.DynamicMemoryUsage X) }
    else c
  | none => c

/-- The method `CCoinsViewCache::GetCacheSize` of coins.cpp:199-201. -/
def CCoinsViewCache.GetCacheSize (c : CCoinsViewCache) : Nat := c.cacheCoins.entries.length

/-- What a view yields for an outpoint: the coin `GetCoin` produces when it
returns true, spent or not, and nothing when it returns false. -/
def CCoinsView.found (X : ScriptOps) (v : CCoinsView) (outpoint : COutPoint) : Option Coin :=
  match (v.GetCoin X outpoint {}).1 with
  | (true, c) => some c
  | (false, _) => none

/-- What a view reports for an outpoint: the coin `GetCoin` produces when it
returns true with an unspent coin, and nothing otherwise. -/
def CCoinsView.reports (X : ScriptOps) (v : CCoinsView) (outpoint : COutPoint) : Option Coin :=
  match (v.GetCoin X outpoint {}).1 with
  | (true, c) => if c.IsSpent then none else some c
  | (false, _) => none

/-- The coin an entry stands for: nothing when the stored coin is spent. -/
def CCoinsCacheEntry.unspent (e : CCoinsCacheEntry) : Option Coin :=
  if e.coin.IsSpent then none else some e.coin

/-- Every entry of the map that does not carry DIRTY (a flagless one, or one
that carries only FRESH) holds the coin the backing view reports for its key. -/
def NonDirtyAgree (X : ScriptOps) (m : CCoinsMap) (backing : CCoinsView) : Prop :=
  ∀ k e, m.lookup k = some e → e.flags &&& DIRTY = 0 → backing.reports X k = e.unspent

/-- What one iteration of the loop of `BatchWrite` (coins.cpp:152-177) makes
of the receiving cache's entry `us` for the key of the incoming entry `it`:
the entry the receiving cache holds for that key afterwards, or the logic
error. -/
def mergeEntry (it : CCoinsCacheEntry) (us : Option CCoinsCacheEntry) :
    Except Err (Option CCoinsCacheEntry) :=
  if it.flags &&& DIRTY = 0 then .ok us
  else
    match us with
    | none =>
      if ¬ (it.flags &&& FRESH ≠ 0 ∧ it.coin.IsSpent) then
        .ok (some { coin := it.coin
                    flags := DIRTY ||| (if it.flags &&& FRESH ≠ 0 then FRESH else 0) })
      else .ok none
    | some itUs =>
      if it.flags &&& FRESH ≠ 0 ∧ ¬ itUs.coin.IsSpent then .error .freshMisapplied
      else if itUs.flags &&& FRESH ≠ 0 ∧ it.coin.IsSpent then .ok none
      else .ok (some { coin := it.coin, flags := itUs.flags ||| DIRTY })

/-- A choice of the two script functions: a script is unspendable when it
starts with the byte `0x6a` (`OP_RETURN`), and it uses as many bytes of
dynamic memory as it is long. -/
def sampleOps : ScriptOps :=
  { IsUnspendable := fun s => s.head? == some 106, DynamicUsage := fun s => s.length }

/-- The outpoint `(T, 0)` with `T = 7`. -/
def outT : COutPoint := { hash := 7, n := 0 }

/-- An unspent coin of value 50 with a spendable script. -/
def coin50 : Coin := { out := { nValue := 50, scriptPubKey := [118, 169] }, nHeight := 3 }

/-- An unspent coin of value 20 with a spendable script. -/
def coin20 : Coin := { out := { nValue := 20, scriptPubKey := [81] }, nHeight := 5 }

/-- A backing store that holds no coin and accepts batches. -/
def emptyStore : CCoinsView := .store (fun _ => none) true []

/-- A backing store that holds `coin50` at `outT` and nothing else. -/
def storeWith50 : CCoinsView :=
  .store (fun o => if o = outT then some coin50 else none) true []

/-- A child map whose only entry holds `coin50` at `outT`, flagged FRESH and
not DIRTY. -/
def freshOnlyMap : CCoinsMap := AList.insert outT { coin := coin50, flags := FRESH } ∅

/-- A backing store that holds `coin20` at `(T, 1)` and nothing else. -/
def sampleStore : CCoinsView :=
  .store (fun o => if o = { hash := 7, n := 1 } then some coin20 else none) true []

/-- A parent map: `coin50` created in the parent at `(T, 0)` (DIRTY and
FRESH) and `coin20` fetched from the store at `(T, 1)` (no flags). -/
def sampleParentMap : CCoinsMap :=
  AList.insert outT { coin := coin50, flags := DIRTY ||| FRESH }
    (AList.insert { hash := 7, n := 1 } { coin := coin20, flags := 0 } ∅)

/-- A child map: `(T, 0)` spent in the child (DIRTY, spent coin), `(T, 1)`
fetched from the parent (no flags) and `coin50` created at `(T, 2)` (DIRTY and
FRESH). -/
def sampleChildMap : CCoinsMap :=
  AList.insert outT { coin := {}, flags := DIRTY }
    (AList.insert { hash := 7, n := 1 } { coin := coin20, flags := 0 }
      (AList.insert { hash := 7, n := 2 } { coin := coin50, flags := DIRTY ||| FRESH } ∅))

/-! ## More of the active chain (`chain.cpp:24-64`) -/

/-- The loop of `CChain::FindFork` (chain.cpp:51-52). -/
def FindForkLoop (A : Arena) (c : CChain) : Nat → Ptr → Except Err Ptr
  | _, none => .ok none
  | fuel, some pindex =>
    if !c.Contains A pindex then
      match fuel with
      | 0 => .error .outOfFuel
      | fuel + 1 => FindForkLoop A c fuel (A pindex).pprev
    else .ok (some pindex)

/-- The method `CChain::FindFork` of chain.cpp:46-55; `fuel` bounds the
iterations of its loop. -/
def CChain.FindFork (A : Arena) (fuel : Nat) (c : CChain) (pindex : Ptr) : Except Err Ptr :=
  match pindex with
  | none => .ok none
  | some p =>
    let clamped : Except Err Ptr :=
      if (A p).nHeight > c.Height then GetAncestor A p c.Height else .ok (some p)
    match clamped with
    | .error e => .error e
    | .ok pindex => FindForkLoop A c fuel pindex

/-- The method `CBlockIndex::GetBlockTimeMax` (chain.h:134). -/
def CBlockIndex.GetBlockTimeMax (b : CBlockIndex) : Int := (b.nTimeMax : Int)

/-- The method `CBlockIndex::GetBlockHash`: the hash `phashBlock` points to. -/
def CBlockIndex.GetBlockHash (b : CBlockIndex) : Nat := b.phashBlock

/-- The binary search of `std::lower_bound` over the vector `v`, with the
comparison of chain.cpp:60-62 (`pBlock->GetBlockTimeMax() < time`): the search
range starts at index `first` and is `len` slots long.  Every round at least
halves `len`, so `len` rounds are all the search can make.  The result is the
index the returned iterator points to (`v.length` for `end()`). -/
def lowerBoundLoop (A : Arena) (v : List Ptr) (time : Int) : Nat → Nat → Nat → Except Err Nat
  | 0, first, len => if len > 0 then .error .outOfFuel else .ok first
  | fuel + 1, first, len =>
    if len > 0 then
      let half := len / 2
      let middle := first + half
      match v[middle]? with
      | none => .error .outOfRange
      | some none => .error .nullDeref
      | some (some pBlock) =>
        if (A pBlock).GetBlockTimeMax < time then
          lowerBoundLoop A v time fuel (middle + 1) (len - half - 1)
        else
          lowerBoundLoop A v time fuel first half
    else .ok first

/-- The method `CChain::FindEarliestAtLeast` of chain.cpp:58-64. -/
def CChain.FindEarliestAtLeast (A : Arena) (c : CChain) (nTime : Int) : Except Err Ptr :=
  match lowerBoundLoop A c.vChain nTime c.vChain.length 0 c.vChain.length with
  | .error e => .error e
  | .ok lower => if lower = c.vChain.length then .ok none else .ok (c.vChain.getD lower none)

/-- The loop of `CChain::GetLocator` (chain.cpp:32-40), with `pindex`, `vHave`
and `nStep` as arguments.  `nStep` is an unbounded integer here; the `int` of
the source holds every value it takes as long as the starting height is at
most `2^30`. -/
def GetLocatorLoop (A : Arena) (c : CChain) :
    Nat → Ptr → List Nat → Int → Except Err (List Nat)
  | _, none, vHave, _ => .ok vHave
  | fuel, some pindex, vHave, nStep =>
    let vHave := vHave ++ [(A pindex).GetBlockHash]
    if (A pindex).nHeight = 0 then .ok vHave
    else
      match fuel with
      | 0 => .error .outOfFuel
      | fuel + 1 =>
        let nHeight := max ((A pindex).nHeight - nStep) 0
        let next : Except Err Ptr :=
          if c.Contains A pindex then .ok (c.at nHeight) else GetAncestor A pindex nHeight
        match next with
        | .error e => .error e
        | .ok pnext =>
          GetLocatorLoop A c fuel pnext vHave (if vHave.length > 10 then nStep * 2 else nStep)

/-- The method `CChain::GetLocator` of chain.cpp:25-43; the result is the list
of hashes `vHave` the locator is built from, and `fuel` bounds the iterations
of the loop. -/
def CChain.GetLocator (A : Arena) (fuel : Nat) (c : CChain) (pindex : Ptr) :
    Except Err (List Nat) :=
  GetLocatorLoop A c fuel (if pindex.isNone then c.Tip else pindex) [] 1

/-- A chain of `N` linked nodes as `linkedChain N`, each with its own hash
(`1000 + i` for node `i`) and with `nTimeMax` growing by 10 from node to node. -/
def timedChain (N : Nat) : Arena := fun i =>
  { linkedChain N i with phashBlock := 1000 + i, nTimeMax := 10 * i }

/-- The active chain over the first `N` nodes of `linkedChain N` or
`timedChain N`: slot `i` holds node `i`. -/
def rangeChain (N : Nat) : CChain := { vChain := (List.range N).map some }

/-! ## More of the view hierarchy -/

/-- The base class `CCoinsView` of coins.cpp:11-20 as a view of its own: its
`GetCoin` returns false for every outpoint and its `BatchWrite` returns false. -/
def defaultView : CCoinsView := .store (fun _ => none) false []

/-- The scenario of section 8 of the specification, run on the cache `c`:
`AddCoin(id, coin, false)`, `GetCoin(id)`, `SpendCoin(id, &moved)`,
`HaveCoin(id)`, `Flush()` and `GetCacheSize()`, each on the state the call
before it left.  The result lists what the calls answer, in this order. -/
def coinScenario (X : ScriptOps) (c : CCoinsViewCache) (id : COutPoint) (coin : Coin) :
    Except Err Unit × (Bool × Coin) × (Bool × Option Coin) × Bool × Except Err Bool × Nat :=
  let r1 := c.AddCoin X id coin false
  let r2 := r1.2.GetCoin X id {}
  let r3 := r2.2.SpendCoin X id true
  let r4 := r3.2.HaveCoin X id
  let r5 := r4.2.Flush X
  (r1.1, r2.1, r3.1, r4.1, r5.1, r5.2.GetCacheSize)

/-! ## 256-bit unsigned integers (`arith_uint256.h`, `arith_uint256.cpp`)

A `base_uint<256>` is represented by the number its eight 32-bit limbs spell,
`pn[0] + pn[1] * 2^32 + ... + pn[7] * 2^224`, a natural number below `2^256`.
Every operator is embedded as the function it computes on that number, with
the reduction modulo `2^256` made explicit where limbs are dropped. -/

/-- The class `arith_uint256` (arith_uint256.h:112-121), as the value of its limbs. -/
abbrev arith_uint256 := Nat

/-- The constructor `base_uint(uint64_t b)` of arith_uint256.h:28-32: limbs 0
and 1 take the two halves of `b`, the others are zero. -/
def base_uint.ofUint64 (b : Nat) : arith_uint256 := b % 2 ^ 64

/-- Modelled from the spec: the operator `operator~` of "256-bit arithmetic",
the complement of all 256 bits (declared at arith_uint256.h:48; its definition
is not among the sources). -/
def base_uint.not (a : arith_uint256) : arith_uint256 := 2 ^ 256 - 1 - a % 2 ^ 256

/-- Modelled from the spec: addition in "256-bit arithmetic" (`operator+` of
arith_uint256.h:85 through `operator+=`, which is declared at
arith_uint256.h:59 and defined nowhere among the sources). -/
def base_uint.add (a b : arith_uint256) : arith_uint256 := (a + b) % 2 ^ 256

/-- Modelled from the spec: subtraction in "256-bit arithmetic" (`operator-` of
arith_uint256.h:86 through `operator-=`, which is declared at
arith_uint256.h:60 and defined nowhere among the sources). -/
def base_uint.sub (a b : arith_uint256) : arith_uint256 :=
  (a + (2 ^ 256 - b % 2 ^ 256)) % 2 ^ 256

/-- The operator `operator<<=` of arith_uint256.cpp:22-36: the limbs move up by
`shift` bits and those pushed past limb 7 are dropped. -/
def base_uint.shl (a : arith_uint256) (shift : Nat) : arith_uint256 :=
  (a * 2 ^ shift) % 2 ^ 256

/-- The operator `operator>>=` of arith_uint256.cpp:38-52: the limbs move down
by `shift` bits. -/
def base_uint.shr (a : arith_uint256) (shift : Nat) : arith_uint256 := a / 2 ^ shift

/-- The operator `operator*=(const base_uint&)` of arith_uint256.cpp:65-78:
the schoolbook product of the limbs, of which the loop bound `i + j < WIDTH`
keeps limbs 0 to 7. -/
def base_uint.mul (a b : arith_uint256) : arith_uint256 := (a * b) % 2 ^ 256

/-- The method `CompareTo` of arith_uint256.cpp:98-105: the limbs are compared
from the most significant one down. -/
def base_uint.CompareTo (a b : arith_uint256) : Int :=
  if a < b then -1 else if a > b then 1 else 0

/-- The method `EqualTo` of arith_uint256.cpp:107-113, for a `uint64_t` argument. -/
def base_uint.EqualTo (a : arith_uint256) (b : Nat) : Bool := a == b % 2 ^ 64

/-- The scan of `bits()` (arith_uint256.cpp:142-152) over the bit positions
below `n`, from the top down: one more than the position of the highest set
bit, and 0 when no bit is set. -/
def base_uint.bitsBelow (a : arith_uint256) : Nat → Nat
  | 0 => 0
  | n + 1 => if a.testBit n then n + 1 else base_uint.bitsBelow a n

/-- The method `bits()` of arith_uint256.cpp:142-152. -/
def base_uint.bits (a : arith_uint256) : Nat := base_uint.bitsBelow a 256

/-- The method `GetLow64` of arith_uint256.h:78-81. -/
def base_uint.GetLow64 (a : arith_uint256) : Nat := a % 2 ^ 64

/-- The loop `while (shift >= 0)` of `operator/=` (arith_uint256.cpp:87-94),
with `shift + 1` as first argument and the quotient built so far as last. -/
def base_uint.divLoop : Nat → arith_uint256 → arith_uint256 → arith_uint256 → arith_uint256
  | 0, _, _, quot => quot
  | shift + 1, num, div, quot =>
    if base_uint.CompareTo num div ≥ 0 then
      base_uint.divLoop shift (base_uint.sub num div) (base_uint.shr div 1) (quot ||| 2 ^ shift)
    else
      base_uint.divLoop shift num (base_uint.shr div 1) quot

/-- The operator `operator/=` of arith_uint256.cpp:76-96 (shift-and-subtract
long division).  Its first line tests the divisor with `IsNull()` and throws
`uint_error("Division by zero")`. -/
def base_uint.div (a b : arith_uint256) : Except Err arith_uint256 :=
  if b = 0 then .error .divisionByZero
  else
    let shift : Int := (base_uint.bits a : Int) - (base_uint.bits b : Int)
    if shift < 0 then .ok 0
    else .ok (base_uint.divLoop (shift.toNat + 1) a (base_uint.shl b shift.toNat) 0)

/-- The method `arith_uint256::SetCompact` of arith_uint256.cpp:166-183: the
decoded value, `*pfNegative` and `*pfOverflow`. -/
def SetCompact (nCompact : Nat) : arith_uint256 × Bool × Bool :=
  let size : Nat := nCompact >>> 24
  let word : Nat := nCompact &&& 0x007fffff
  let word : Nat := if size ≤ 3 then word >>> (8 * (3 - size)) else word
  let value : arith_uint256 :=
    if size ≤ 3 then base_uint.ofUint64 word
    else base_uint.shl (base_uint.ofUint64 word) (8 * (size - 3))
  let fNegative : Bool := word ≠ 0 && (nCompact &&& 0x00800000) ≠ 0
  let fOverflow : Bool :=
    word ≠ 0 && (size > 34 || (word > 0xff && size > 33) || (word > 0xffff && size > 32))
  (value, fNegative, fOverflow)

/-! ## Work of a block (`chain.cpp:119-150`) -/

/-- The function `GetBlockProof` of chain.cpp:120-130. -/
def GetBlockProof (block : CBlockIndex) : Except Err arith_uint256 :=
  match SetCompact block.nBits with
  | (bnTarget, fNegative, fOverflow) =>
    if fNegative || fOverflow || base_uint.EqualTo bnTarget 0 then .ok 0
    else
      match base_uint.div (base_uint.not bnTarget) (base_uint.add bnTarget 1) with
      | .error e => .error e
      | .ok q => .ok (base_uint.add q 1)

/-- The field of `Consensus::Params` (consensus/params.h:78) that
`GetBlockProofEquivalentTime` reads, an `int64_t`. -/
structure Consensus.Params where
  nPowTargetSpacing : Int

/-- The conversion of a signed integer to `uint64_t`. -/
def toUint64 (x : Int) : Nat := (x % 2 ^ 64).toNat

/-- The conversion of a `uint64_t` to `int64_t` (two's complement). -/
def toInt64 (x : Nat) : Int := if x % 2 ^ 64 < 2 ^ 63 then (x % 2 ^ 64 : Nat) else (x % 2 ^ 64 : Nat) - 2 ^ 64

/-- The function `GetBlockProofEquivalentTime` of chain.cpp:133-150.  In
`sign * r.GetLow64()` the `int` is converted to `uint64_t`, the product is
taken modulo `2^64` and the result is converted to the returned `int64_t`. -/
def GetBlockProofEquivalentTime (blockTo blockFrom tip : CBlockIndex)
    (params : Consensus.Params) : Except Err Int :=
  let rs : arith_uint256 × Int :=
    if base_uint.CompareTo blockTo.nChainWork blockFrom.nChainWork > 0 then
      (base_uint.sub blockTo.nChainWork blockFrom.nChainWork, 1)
    else (base_uint.sub blockFrom.nChainWork blockTo.nChainWork, -1)
  match GetBlockProof tip with
  | .error e => .error e
  | .ok proof =>
    match base_uint.div
        (base_uint.mul rs.1 (base_uint.ofUint64 (toUint64 params.nPowTargetSpacing))) proof with
    | .error e => .error e
    | .ok r =>
      if base_uint.bits r > 63 then .ok (rs.2 * (2 ^ 63 - 1))
      else .ok (toInt64 (toUint64 rs.2 * base_uint.GetLow64 r))

/-! ## More sample objects -/

/-- A child map that the merge refuses half-way: `coin20` created at `(T, 2)`
(DIRTY), processed first, and `coin50` at `(T, 1)` flagged DIRTY and FRESH. -/
def raisingChildMap : CCoinsMap :=
  AList.insert { hash := 7, n := 2 } { coin := coin20, flags := DIRTY }
    (AList.insert { hash := 7, n := 1 } { coin := coin50, flags := DIRTY ||| FRESH } ∅)

/-- A child map that spends `(T, 1)`: a spent coin flagged DIRTY. -/
def spendingChildMap : CCoinsMap :=
  AList.insert { hash := 7, n := 1 } { coin := {}, flags := DIRTY } ∅

/-- A child map whose only entry was created and spent within the child: a
spent coin at `(T, 3)` flagged DIRTY and FRESH. -/
def cancelledChildMap : CCoinsMap :=
  AList.insert { hash := 7, n := 3 } { coin := {}, flags := DIRTY ||| FRESH } ∅

/-- A cache over `sampleStore` that holds `sampleParentMap`, with best block 1
and the three bytes of script memory of its two coins on the counter. -/
def sampleParent : CCoinsViewCache :=
  { base := sampleStore, hashBlock := 1, cacheCoins := sampleParentMap, cachedCoinsUsage := 3 }

/-- An unspent coin of value 30 whose script is 40 bytes long. -/
def coin30 : Coin :=
  { out := { nValue := 30, scriptPubKey := List.replicate 40 81 }, nHeight := 6 }

/-! ## The byte counter and sequences of operations -/

/-- The sum of `DynamicMemoryUsage()` over the coins of all entries of a map. -/
def coinsUsage (X : ScriptOps) (m : CCoinsMap) : Nat :=
  (m.entries.map fun e => e.2.coin.DynamicMemoryUsage X).sum

/-- The byte-counter invariant: `cachedCoinsUsage`, a `size_t`, holds the sum
of `DynamicMemoryUsage()` over the coins of all entries of the cache map. -/
abbrev UsageOK (X : ScriptOps) (c : CCoinsViewCache) : Prop :=
  c.cachedCoinsUsage = coinsUsage X c.cacheCoins % 2 ^ 64

/-- A call of one of the public operations of a cache, with its arguments. -/
inductive CacheOp where
  | GetCoin (outpoint : COutPoint)
  | HaveCoin (outpoint : COutPoint)
  | AccessCoin (outpoint : COutPoint)
  | AddCoin (outpoint : COutPoint) (coin : Coin) (possible_overwrite : Bool)
  | SpendCoin (outpoint : COutPoint) (moveout : Bool)
  | BatchWrite (mapCoins : CCoinsMap) (hashBlockIn : uint256)
  | Flush
  | Uncache (outpoint : COutPoint)

/-- Whether the call is a call of `BatchWrite`. -/
def CacheOp.isBatchWrite : CacheOp → Bool
  | .BatchWrite _ _ => true
  | _ => false

/-- The call made on the cache `c`: what it raised, if anything, and the
cache it leaves behind. -/
def CacheOp.run (X : ScriptOps) (c : CCoinsViewCache) : CacheOp → Option Err × CCoinsViewCache
  | .GetCoin outpoint => (none, (c.GetCoin X outpoint {}).2)
  | .HaveCoin outpoint => (none, (c.HaveCoin X outpoint).2)
  | .AccessCoin outpoint => (none, (c.AccessCoin X outpoint).2)
  | .AddCoin outpoint coin possible_overwrite =>
    match c.AddCoin X outpoint coin possible_overwrite with
    | (.ok _, c') => (none, c')
    | (.error e, c') => (some e, c')
  | .SpendCoin outpoint moveout => (none, (c.SpendCoin X outpoint moveout).2)
  | .BatchWrite mapCoins hashBlockIn =>
    match c.BatchWrite X mapCoins hashBlockIn with
    | (.ok _, c', _) => (none, c')
    | (.error e, c', _) => (some e, c')
  | .Flush =>
    match c.Flush X with
    | (.ok _, c') => (none, c')
    | (.error e, c') => (some e, c')
  | .Uncache outpoint => (none, c.Uncache X outpoint)

/-- The calls `ops` made one after the other, starting on the cache `c`, by a
caller that goes on after an exception: what each call raised, and the cache
left behind by the last one. -/
def runOps (X : ScriptOps) : List CacheOp → CCoinsViewCache → List (Option Err) × CCoinsViewCache
  | [], c => ([], c)
  | op :: ops, c =>
    ((op.run X c).1 :: (runOps X ops (op.run X c).2).1, (runOps X ops (op.run X c).2).2)

/-! ## The loop of `GetAncestor`, one iteration at a time -/

/-- The body of the loop of `CBlockIndex::GetAncestor` (chain.cpp:87-100), run
from `pindexWalk` and `heightWalk`: the new `pindexWalk` and `heightWalk`, or
the failed assertion. -/
def GetAncestorStep (A : Arena) (height : Int) (pindexWalk : Nat) (heightWalk : Int) :
    Except Err (Nat × Int) :=
  let heightSkip := GetSkipHeight heightWalk
  let heightSkipPrev := GetSkipHeight (heightWalk - 1)
  match (A pindexWalk).pskip with
  | some pskip =>
    if heightSkip = height ∨
        (heightSkip > height ∧
          ¬ (heightSkipPrev < heightSkip - 2 ∧ heightSkipPrev ≥ height)) then
      .ok (pskip, heightSkip)
    else
      match (A pindexWalk).pprev with
      | some pprev => .ok (pprev, heightWalk - 1)
      | none => .error .assertion
  | none =>
    match (A pindexWalk).pprev with
    | some pprev => .ok (pprev, heightWalk - 1)
    | none => .error .assertion

/-- The number of iterations the loop of `CBlockIndex::GetAncestor`
(chain.cpp:86-101) makes from `pindexWalk` and `heightWalk`: one pointer edge,
`pskip` or `pprev`, is followed in each. -/
def GetAncestorHops (A : Arena) (height : Int) : Nat → Nat → Int → Except Err Nat
  | 0, _, heightWalk => if heightWalk > height then .error .outOfFuel else .ok 0
  | fuel + 1, pindexWalk, heightWalk =>
    if heightWalk > height then
      match GetAncestorStep A height pindexWalk heightWalk with
      | .error e => .error e
      | .ok (pindexWalk, heightWalk) =>
        (GetAncestorHops A height fuel pindexWalk heightWalk).map (· + 1)
    else .ok 0

/-- The heap after `N` nodes have been created one after the other at the
addresses `0 .. N-1`, node `i` with height `i` and parent `i - 1` (none for
node 0), each given its skip pointer by `BuildSkip` before the next one is
created. -/
def buildChain : Nat → Except Err Arena
  | 0 => .ok fun _ => {}
  | N + 1 =>
    match buildChain N with
    | .error e => .error e
    | .ok A =>
      BuildSkip
        (Function.update A N
          { nHeight := (N : Int), pprev := if N = 0 then none else some (N - 1) }) N

/-! ## Amounts (`amount.h`, `compressor.cpp:136-175`) -/

/-- The constant `COIN` of amount.h:15. -/
def COIN : Int := 100000000

/-- The constant `MAX_MONEY` of amount.h:25. -/
def MAX_MONEY : Int := 55000000000 * COIN

/-- The function `MoneyRange` of amount.h:28-30. -/
def MoneyRange (nValue : Int) : Bool := nValue ≥ 0 && nValue ≤ MAX_MONEY

/-- The loop of `CompressAmount` (compressor.cpp:139-142), with `n` and `e` as
arguments; the test `e < 9` lets it make nine iterations at most. -/
def CompressAmountLoop : Nat → Nat → Nat → Nat × Nat
  | 0, n, e => (n, e)
  | fuel + 1, n, e =>
    if n % 10 = 0 ∧ e < 9 then CompressAmountLoop fuel (n / 10) (e + 1) else (n, e)

/-- The function `CTxOutCompressor::CompressAmount` of compressor.cpp:136-151,
in `uint64_t` arithmetic. -/
def CompressAmount (n : Nat) : Except Err Nat :=
  if n = 0 then .ok 0
  else
    match CompressAmountLoop 9 n 0 with
    | (n, e) =>
      if e < 9 then
        let d := n % 10
        if d ≥ 1 ∧ d ≤ 9 then
          let n := n / 10
          .ok ((1 + ((n * 9 + d + (2 ^ 64 - 1)) % 2 ^ 64 * 10) % 2 ^ 64 + e) % 2 ^ 64)
        else .error .assertion
      else .ok ((1 + ((n + (2 ^ 64 - 1)) % 2 ^ 64 * 10) % 2 ^ 64 + 9) % 2 ^ 64)

/-- The function `CTxOutCompressor::DecompressAmount` of compressor.cpp:154-175,
in `uint64_t` arithmetic; the final loop multiplies by 10 `e` times. -/
def DecompressAmount (x : Nat) : Nat :=
  if x = 0 then 0
  else
    let x := x - 1
    let e := x % 10
    let x := x / 10
    let n :=
      if e < 9 then
        let d := x % 9 + 1
        let x := x / 9
        (x * 10 + d) % 2 ^ 64
      else (x + 1) % 2 ^ 64
    (List.range e).foldl (fun n _ => n * 10 % 2 ^ 64) n

/-! ## Compact targets (`arith_uint256.cpp:185-205`) -/

/-- The method `arith_uint256::GetCompact` of arith_uint256.cpp:185-205; the
result is a `uint32_t`. -/
def GetCompact (a : arith_uint256) (fNegative : Bool) : Nat :=
  let size : Nat := (base_uint.bits a + 7) / 8
  let compact : Nat :=
    if size ≤ 3 then (base_uint.GetLow64 a * 2 ^ (8 * (3 - size))) % 2 ^ 64 % 2 ^ 32
    else base_uint.GetLow64 (base_uint.shr a (8 * (size - 3))) % 2 ^ 32
  let shifted : Bool := compact &&& 0x00800000 ≠ 0
  let compact : Nat := if shifted then compact >>> 8 else compact
  let size : Nat := if shifted then size + 1 else size
  let compact : Nat := compact ||| (size <<< 24) % 2 ^ 32
  if fNegative ∧ compact &&& 0x007fffff ≠ 0 then compact ||| 0x00800000 else compact

/-! ## `AddCoins` (`coins.cpp:96-104`) -/

/-- Modelled from the spec: what `AddCoins` reads of a transaction, its id
(`GetHash()`), its outputs (`vout`) and whether it is a coinbase
(`IsCoinBase()`); `CTransaction` is declared in primitives/transaction.h,
which is not among the sources. -/
structure CTransaction where
  hash : uint256
  vout : List CTxOut
  fCoinBase : Bool

/-- The loop of `AddCoins` (coins.cpp:100-103) over the outputs from index `i`
on.  The coin constructor stores the height in a bit-field of 31 bits and the
outpoint constructor takes the index as a `uint32_t`. -/
def AddCoinsLoop (X : ScriptOps) (txid : uint256) (nHeight : Int) (fCoinBase check : Bool) :
    List CTxOut → Nat → CCoinsViewCache → Except Err Unit × CCoinsViewCache
  | [], _, cache => (.ok (), cache)
  | out :: rest, i, cache =>
    let outpoint : COutPoint := { hash := txid, n := i % 2 ^ 32 }
    let r : Bool × CCoinsViewCache :=
      if check then cache.HaveCoin X outpoint else (fCoinBase, cache)
    match r.2.AddCoin X outpoint
        { out := out, fCoinBase := fCoinBase, nHeight := (nHeight % 2 ^ 31).toNat } r.1 with
    | (.error e, cache) => (.error e, cache)
    | (.ok _, cache) => AddCoinsLoop X txid nHeight fCoinBase check rest (i + 1) cache

/-- The function `AddCoins` of coins.cpp:96-104. -/
def AddCoins (X : ScriptOps) (cache : CCoinsViewCache) (tx : CTransaction) (nHeight : Int)
    (check : Bool) : Except Err Unit × CCoinsViewCache :=
  AddCoinsLoop X tx.hash nHeight tx.fCoinBase check tx.vout 0 cache

/-! ## The height schedule of a locator -/

/-- The value of `nStep` of `GetLocator` (chain.cpp:28, 39) when `k` hashes
have been collected and the next one is about to be pushed: 1 up to the
eleventh push, doubled after the eleventh push and after each later one. -/
def locatorStep (k : Nat) : Int := if k ≤ 10 then 1 else 2 ^ (k - 10)

/-- The height of entry `k` (counted from 0) of the locator of a node of
height `H`, as the statement about the step schedule has it once the
doubling starts with the eleventh hash: `H - k` for the first twelve entries,
then gaps of 2, 4, 8, ..., the height being clamped at 0. -/
def locatorHeight (H : Int) (k : Nat) : Int :=
  max (if k ≤ 11 then H - (k : Int) else H - 9 - 2 ^ (k - 10)) 0

/-- The height of entry `k` (counted from 1) of the locator of a node of
height `H` under the schedule that doubles the step from the iteration that
collects the tenth hash onward: entries 1 to 11 at `H, H-1, ..., H-10`, then
gaps of 2, 4, 8, ..., the height being clamped at 0. -/
def doubledFromTenthHeight (H : Int) (k : Nat) : Int :=
  max (if k ≤ 11 then H - ((k : Int) - 1) else H - 10 - (2 ^ (k - 10) - 2)) 0

/-! ## The flags the cache operations write -/

theorem InvertLowestOne_zero : InvertLowestOne 0 = 0 := by
  show Int.land 0 (0 - 1) = 0
  have : (0 : Int) - 1 = Int.negSucc 0 := rfl
  rw [this]
  show ((Nat.ldiff 0 0 : Nat) : Int) = 0
  simp [Nat.ldiff]

theorem InvertLowestOne_succ (k : Nat) :
    InvertLowestOne ((k + 1 : Nat) : Int) = (((k + 1) &&& k : Nat) : Int) := by
  show Int.land ((k + 1 : Nat) : Int) (((k + 1 : Nat) : Int) - 1) = _
  have : ((k + 1 : Nat) : Int) - 1 = ((k : Nat) : Int) := by push_cast; ring
  rw [this]
  rfl

theorem InvertLowestOne_bounds {n : Int} (h : 0 ≤ n) :
    0 ≤ InvertLowestOne n ∧ InvertLowestOne n ≤ n ∧ (1 ≤ n → InvertLowestOne n ≤ n - 1) := by
  obtain ⟨m, rfl⟩ := Int.eq_ofNat_of_zero_le h
  cases m with
  | zero => simp [InvertLowestOne_zero]
  | succ k =>
    rw [InvertLowestOne_succ]
    have h1 : (k + 1) &&& k ≤ k := Nat.and_le_right
    refine ⟨by positivity, by omega, fun _ => by omega⟩

theorem GetSkipHeight_bounds {h : Int} (h1 : 1 ≤ h) :
    0 ≤ GetSkipHeight h ∧ GetSkipHeight h < h := by
  unfold GetSkipHeight
  split
  · omega
  · split
    · have a := InvertLowestOne_bounds (n := h - 1) (by omega)
      have b := InvertLowestOne_bounds (n := InvertLowestOne (h - 1)) a.1
      have := a.2.2 (by omega)
      omega
    · have a := InvertLowestOne_bounds (n := h) (by omega)
      have := a.2.2 h1
      omega

/-! ## The `pprev` walk on well-formed nodes -/

theorem pprevWalk_none (A : Arena) (k : Nat) : pprevWalk A none k = none := by
  cases k <;> rfl

theorem pprevWalk_zero (A : Arena) (p : Ptr) : pprevWalk A p 0 = p := by
  cases p <;> rfl

theorem pprevWalk_succ (A : Arena) (i k : Nat) :
    pprevWalk A (some i) (k + 1) = pprevWalk A (A i).pprev k := rfl

theorem pprevWalk_add (A : Arena) (p : Ptr) (j k : Nat) :
    pprevWalk A p (j + k) = pprevWalk A (pprevWalk A p j) k := by
  induction j generalizing p with
  | zero => simp [pprevWalk]
  | succ j ih =>
    cases p with
    | none => simp [pprevWalk_none]
    | some i =>
      have : j + 1 + k = (j + k) + 1 := by omega
      rw [this, pprevWalk_succ, pprevWalk_succ, ih]

theorem WellFormed.nodeOK {A : Arena} {n : Nat} (h : WellFormed A n) : NodeOK A n :=
  h 0 n rfl

theorem WellFormed.walk {A : Arena} {n m k : Nat} (h : WellFormed A n)
    (hm : pprevWalk A (some n) k = some m) : WellFormed A m := by
  intro j x hx
  apply h (k + j) x
  rw [pprevWalk_add, hm, hx]

theorem WellFormed.pprev_height {A : Arena} {n q : Nat} (h : WellFormed A n)
    (hq : (A n).pprev = some q) : (A q).nHeight = (A n).nHeight - 1 := by
  have := h.nodeOK.2.1
  rw [hq] at this
  exact this

theorem WellFormed.pprev_isSome {A : Arena} {n : Nat} (h : WellFormed A n)
    (hpos : 1 ≤ (A n).nHeight) : ∃ q, (A n).pprev = some q := by
  have := h.nodeOK.2.1
  cases hp : (A n).pprev with
  | none => rw [hp] at this; simp at this; omega
  | some q => exact ⟨q, rfl⟩

theorem WellFormed.pprev_none {A : Arena} {n : Nat} (h : WellFormed A n)
    (h0 : (A n).nHeight = 0) : (A n).pprev = none := by
  cases hp : (A n).pprev with
  | none => rfl
  | some q =>
    have h1 := h.pprev_height hp
    have h2 := (h.walk (k := 1) (m := q) (by rw [pprevWalk_succ, hp]; rfl)).nodeOK.1
    omega

theorem WellFormed.walk_height {A : Arena} {n m k : Nat} (h : WellFormed A n)
    (hm : pprevWalk A (some n) k = some m) : (A m).nHeight = (A n).nHeight - k := by
  induction k generalizing n with
  | zero =>
    simp [pprevWalk] at hm
    subst hm
    simp
  | succ k ih =>
    rw [pprevWalk_succ] at hm
    cases hp : (A n).pprev with
    | none => rw [hp, pprevWalk_none] at hm; cases hm
    | some q =>
      rw [hp] at hm
      have hq : WellFormed A q := h.walk (k := 1) (by rw [pprevWalk_succ, hp]; rfl)
      rw [ih hq hm, h.pprev_height hp]
      push_cast
      ring

theorem WellFormed.walk_exists {A : Arena} {n : Nat} (h : WellFormed A n) (k : Nat)
    (hk : (k : Int) ≤ (A n).nHeight) : ∃ m, pprevWalk A (some n) k = some m := by
  induction k generalizing n with
  | zero => exact ⟨n, rfl⟩
  | succ k ih =>
    obtain ⟨q, hq⟩ := h.pprev_isSome (by push_cast at hk; omega)
    have hwq : WellFormed A q := h.walk (k := 1) (by rw [pprevWalk_succ, hq]; rfl)
    have := ih hwq (by rw [h.pprev_height hq]; push_cast at hk; omega)
    rw [pprevWalk_succ, hq]
    exact this

/-- On a well-formed chain the walk ends exactly below the genesis node. -/
theorem WellFormed.walk_beyond {A : Arena} {n : Nat} (h : WellFormed A n) (k : Nat)
    (hk : (A n).nHeight < (k : Int)) : pprevWalk A (some n) k = none := by
  cases hw : pprevWalk A (some n) k with
  | none => rfl
  | some m =>
    have h1 := h.walk_height hw
    have h2 := (h.walk hw).nodeOK.1
    omega

/-- Two nodes of the same height on the chain of a well-formed node coincide. -/
theorem WellFormed.walk_unique {A : Arena} {n m m' j k : Nat} (h : WellFormed A n)
    (hm : pprevWalk A (some n) j = some m) (hm' : pprevWalk A (some n) k = some m')
    (hh : (A m).nHeight = (A m').nHeight) : m = m' := by
  have h1 := h.walk_height hm
  have h2 := h.walk_height hm'
  have : j = k := by omega
  subst this
  rw [hm] at hm'
  exact Option.some.inj hm'

/-! ## `GetAncestor` is the linear walk -/

theorem GetAncestorLoop_eq_walk (A : Arena) (height : Int) (h0 : 0 ≤ height) :
    ∀ (fuel q : Nat) (hw : Int), WellFormed A q → (A q).nHeight = hw → height ≤ hw →
      (hw - height).toNat ≤ fuel →
      GetAncestorLoop A height fuel q hw = .ok (pprevWalk A (some q) (hw - height).toNat) := by
  intro fuel
  induction fuel with
  | zero =>
    intro q hw _ _ hle hf
    have : hw = height := by omega
    subst this
    simp [GetAncestorLoop, pprevWalk]
  | succ fuel ih =>
    intro q hw hwf hq hle hf
    unfold GetAncestorLoop
    by_cases hgt : hw > height
    · rw [if_pos hgt]
      have hb := GetSkipHeight_bounds (h := hw) (by omega)
      obtain ⟨q', hq'⟩ := hwf.pprev_isSome (by omega)
      have hwq' : WellFormed A q' := hwf.walk (k := 1) (by rw [pprevWalk_succ, hq']; rfl)
      have hstep : GetAncestorLoop A height fuel q' (hw - 1)
          = .ok (pprevWalk A (some q) (hw - height).toNat) := by
        rw [ih q' (hw - 1) hwq' (by rw [hwf.pprev_height hq', hq]) (by omega) (by omega)]
        have : (hw - height).toNat = (hw - 1 - height).toNat + 1 := by omega
        rw [this, pprevWalk_succ, hq']
      cases hs : (A q).pskip with
      | none => simp only [hq']; exact hstep
      | some s =>
        simp only [hq']
        split
        · rename_i hc
          have hge : height ≤ GetSkipHeight hw := by
            rcases hc with hc | hc
            · omega
            · omega
          have hsk := hwf.nodeOK.2.2
          rw [hs, hq] at hsk
          simp only at hsk
          have hws : WellFormed A s := hwf.walk hsk
          have hsh : (A s).nHeight = GetSkipHeight hw := by
            rw [hwf.walk_height hsk, hq]; omega
          rw [ih s (GetSkipHeight hw) hws hsh hge (by omega)]
          have : (hw - height).toNat
              = (hw - GetSkipHeight hw).toNat + (GetSkipHeight hw - height).toNat := by omega
          rw [this, pprevWalk_add, hsk]
        · exact hstep
    · rw [if_neg hgt]
      have : hw = height := by omega
      subst this
      simp [pprevWalk]

/-! ## The linked chain `linkedChain N` -/

theorem linkedChain_nHeight (N i : Nat) (h : i < N) : (linkedChain N i).nHeight = (i : Int) := by
  unfold linkedChain
  split
  · rfl
  · have : i = 0 := by omega
    subst this
    rfl

theorem linkedChain_pprev (N i : Nat) (h : i < N) :
    (linkedChain N i).pprev = if i = 0 then none else some (i - 1) := by
  unfold linkedChain
  by_cases hi : i = 0
  · subst hi; simp
  · have : i < N ∧ 0 < i := ⟨h, by omega⟩
    simp [this, hi]

theorem linkedChain_pskip (N i : Nat) (h : i < N) :
    (linkedChain N i).pskip = if i = 0 then none else some (GetSkipHeight (i : Int)).toNat := by
  unfold linkedChain
  by_cases hi : i = 0
  · subst hi; simp
  · have : i < N ∧ 0 < i := ⟨h, by omega⟩
    simp [this, hi]

theorem linkedChain_walk (N : Nat) (k i : Nat) (h : i < N) :
    pprevWalk (linkedChain N) (some i) k = if k ≤ i then some (i - k) else none := by
  induction k generalizing i with
  | zero => simp [pprevWalk]
  | succ k ih =>
    rw [pprevWalk_succ, linkedChain_pprev N i h]
    by_cases hi : i = 0
    · subst hi; simp [pprevWalk_none]
    · rw [if_neg hi, ih (i - 1) (by omega)]
      by_cases hk : k ≤ i - 1
      · rw [if_pos hk, if_pos (by omega)]
        congr 1
        omega
      · rw [if_neg hk, if_neg (by omega)]

theorem linkedChain_nodeOK (N i : Nat) (h : i < N) : NodeOK (linkedChain N) i := by
  refine ⟨by rw [linkedChain_nHeight N i h]; positivity, ?_, ?_⟩
  · rw [linkedChain_pprev N i h]
    by_cases hi : i = 0
    · subst hi; simp [linkedChain_nHeight N 0 h]
    · simp only [if_neg hi]
      rw [linkedChain_nHeight N i h, linkedChain_nHeight N (i - 1) (by omega)]
      omega
  · rw [linkedChain_pskip N i h]
    by_cases hi : i = 0
    · subst hi; simp
    · simp only [if_neg hi]
      rw [linkedChain_nHeight N i h, linkedChain_walk N _ i h]
      have hb := GetSkipHeight_bounds (h := (i : Int)) (by omega)
      rw [if_pos (by omega)]
      congr 1
      omega

theorem linkedChain_wellFormed (N i : Nat) (h : i < N) : WellFormed (linkedChain N) i := by
  intro k m hm
  rw [linkedChain_walk N k i h] at hm
  split at hm
  · cases hm
    exact linkedChain_nodeOK N _ (by omega)
  · cases hm

/-! ## `SetTip` -/

theorem resize_length (v : List Ptr) (n : Nat) : (resize v n).length = n := by
  simp [resize]
  omega

theorem replicate_none_getD (m k : Nat) :
    ((List.replicate m (none : Ptr))[k]?).getD none = none := by
  rw [List.getElem?_replicate]
  split <;> rfl

theorem resize_getD (v : List Ptr) (n i : Nat) :
    (resize v n).getD i none = if i < n then v.getD i none else none := by
  simp only [resize, List.getD_eq_getElem?_getD]
  by_cases h1 : i < (v.take n).length
  · rw [List.getElem?_append_left h1]
    have : i < n := by simp at h1; omega
    simp [this, List.getElem?_take]
  · rw [List.getElem?_append_right (by omega), replicate_none_getD]
    simp only [List.length_take] at h1
    by_cases h2 : i < n
    · have h3 : v.length ≤ i := by omega
      rw [if_pos h2, List.getElem?_eq_none h3]
      rfl
    · rw [if_neg h2]

theorem set_getD (v : List Ptr) (j i : Nat) (p : Ptr) (hj : j < v.length) :
    (v.set j p).getD i none = if i = j then p else v.getD i none := by
  simp only [List.getD_eq_getElem?_getD, List.getElem?_set]
  by_cases h : j = i
  · subst h; simp [hj]
  · have : ¬ i = j := fun e => h e.symm
    simp [h, this]

theorem SetTipLoop_unfold (A : Arena) (fuel : Nat) (v : List Ptr) (q : Nat) :
    SetTipLoop A fuel v (some q) =
      if (A q).nHeight < 0 ∨ (A q).nHeight ≥ (v.length : Int) then .error .outOfRange
      else if v.getD (A q).nHeight.toNat none ≠ some q then
        match fuel with
        | 0 => .error .outOfFuel
        | fuel + 1 => SetTipLoop A fuel (v.set (A q).nHeight.toNat (some q)) (A q).pprev
      else .ok v := by
  cases fuel <;> rfl

theorem SetTipLoop_null (A : Arena) (fuel : Nat) (v : List Ptr) :
    SetTipLoop A fuel v none = .ok v := by
  cases fuel <;> rfl

/-- More iterations than needed do not change the result of the loop. -/
theorem SetTipLoop_mono (A : Arena) (fuel : Nat) :
    ∀ (d : Nat) (v : List Ptr) (p : Ptr) (v' : List Ptr),
      SetTipLoop A fuel v p = .ok v' → SetTipLoop A (fuel + d) v p = .ok v' := by
  induction fuel with
  | zero =>
    intro d v p v' h
    cases p with
    | none => rw [SetTipLoop_null] at h ⊢; exact h
    | some q =>
      rw [SetTipLoop_unfold] at h ⊢
      split at h
      · cases h
      · rename_i h1
        rw [if_neg h1]
        split at h
        · cases h
        · rename_i h2
          rw [if_neg h2]
          exact h
  | succ fuel ih =>
    intro d v p v' h
    cases p with
    | none => rw [SetTipLoop_null] at h ⊢; exact h
    | some q =>
      rw [SetTipLoop_unfold] at h ⊢
      split at h
      · cases h
      · rename_i h1
        rw [if_neg h1]
        split at h
        · rename_i h2
          rw [if_pos h2]
          have : fuel + 1 + d = (fuel + d) + 1 := by omega
          rw [this]
          exact ih d _ _ _ h
        · rename_i h2
          rw [if_neg h2]
          exact h

theorem SlotsLinked_walk {A : Arena} {v : List Ptr} {j q : Nat} (hl : SlotsLinked A v j)
    (hwf : WellFormed A q) (hq : (A q).nHeight = (j : Int)) (hv : v.getD j none = some q) :
    ∀ d, d ≤ j → v.getD (j - d) none = pprevWalk A (some q) d := by
  intro d
  induction d with
  | zero => intro _; simpa [pprevWalk] using hv
  | succ d ih =>
    intro hd
    have h1 := ih (by omega)
    obtain ⟨p, hp⟩ := hwf.walk_exists d (by rw [hq]; omega)
    rw [hp] at h1
    have h2 := (hl (j - d) p (by omega) h1).2 (by omega)
    have : j - d - 1 = j - (d + 1) := by omega
    rw [this] at h2
    rw [← h2, pprevWalk_add, hp, pprevWalk_succ, pprevWalk_zero]

theorem SetTipLoop_spec (A : Arena) (fuel : Nat) :
    ∀ (q j : Nat) (v : List Ptr), WellFormed A q → (A q).nHeight = (j : Int) →
      j < v.length → j + 1 ≤ fuel → SlotsLinked A v j →
      ∃ v', SetTipLoop A fuel v (some q) = .ok v' ∧ v'.length = v.length ∧
        (∀ i, j < i → v'.getD i none = v.getD i none) ∧
        (∀ i, i ≤ j → v'.getD i none = pprevWalk A (some q) (j - i)) := by
  induction fuel with
  | zero => intro q j v _ _ _ hf; omega
  | succ fuel ih =>
    intro q j v hwf hq hj hf hl
    rw [SetTipLoop_unfold, if_neg (by rw [hq]; omega)]
    have hjn : (A q).nHeight.toNat = j := by rw [hq]; rfl
    rw [hjn]
    by_cases hv : v.getD j none = some q
    · rw [if_neg (by simpa using hv)]
      refine ⟨v, rfl, rfl, fun _ _ => rfl, ?_⟩
      intro i hi
      have := SlotsLinked_walk hl hwf hq hv (j - i) (by omega)
      have e : j - (j - i) = i := by omega
      rw [e] at this
      exact this
    · rw [if_pos hv]
      simp only
      cases hp : (A q).pprev with
      | none =>
        rw [SetTipLoop_null]
        have hj0 : j = 0 := by
          have := hwf.nodeOK.2.1
          rw [hp] at this
          simp only at this
          omega
        subst hj0
        refine ⟨_, rfl, by simp, ?_, ?_⟩
        · intro i hi
          rw [set_getD _ _ _ _ hj, if_neg (by omega)]
        · intro i hi
          have : i = 0 := by omega
          subst this
          rw [set_getD _ _ _ _ hj]
          simp [pprevWalk]
      | some q' =>
        have hq' : (A q').nHeight = (A q).nHeight - 1 := hwf.pprev_height hp
        have hwq' : WellFormed A q' := hwf.walk (k := 1) (by rw [pprevWalk_succ, hp]; rfl)
        have hpos : 1 ≤ j := by
          have := hwq'.nodeOK.1
          omega
        obtain ⟨v', h1, h2, h3, h4⟩ := ih q' (j - 1) (v.set j (some q)) hwq'
          (by rw [hq', hq]; omega) (by simp; omega) (by omega)
          (by
            intro i p hi hip
            rw [set_getD _ _ _ _ hj, if_neg (by omega)] at hip
            have := hl i p (by omega) hip
            refine ⟨this.1, fun h0 => ?_⟩
            rw [set_getD _ _ _ _ hj, if_neg (by omega)]
            exact this.2 h0)
        refine ⟨v', h1, by rw [h2]; simp, ?_, ?_⟩
        · intro i hi
          rw [h3 i (by omega), set_getD _ _ _ _ hj, if_neg (by omega)]
        · intro i hi
          by_cases hij : i = j
          · subst hij
            rw [h3 i (by omega), set_getD _ _ _ _ hj, if_pos rfl]
            simp [pprevWalk]
          · rw [h4 i (by omega)]
            have : j - i = (j - 1 - i) + 1 := by omega
            rw [this, pprevWalk_succ, hp]

/-- The effect of `SetTip` on a chain that satisfies the invariant: with
enough iterations allowed it returns, and slot `i` of the new vector holds
the node `nHeight - i` parent steps below the new tip. -/
theorem SetTip_spec (A : Arena) (c : CChain) (n H : Nat) (fuel : Nat)
    (hinv : c.Inv A) (hwf : WellFormed A n) (hH : (A n).nHeight = (H : Int))
    (hf : H + 1 ≤ fuel) :
    ∃ c', c.SetTip A fuel (some n) = .ok c' ∧ c'.vChain.length = H + 1 ∧
      ∀ i, i ≤ H → c'.vChain.getD i none = pprevWalk A (some n) (H - i) := by
  have hlen : (resize c.vChain (H + 1)).length = H + 1 := resize_length _ _
  obtain ⟨v', h1, h2, -, h4⟩ := SetTipLoop_spec A fuel n H (resize c.vChain (H + 1)) hwf hH
    (by omega) hf (by
      intro i p hi hip
      rw [resize_getD, if_pos (by omega)] at hip
      have hic : i < c.vChain.length := by
        by_contra hc
        rw [List.getD_eq_getElem?_getD, List.getElem?_eq_none (by omega)] at hip
        cases hip
      obtain ⟨p', e1, e2, -, e4⟩ := hinv i hic
      rw [hip] at e1
      cases e1
      refine ⟨e2, fun h0 => ?_⟩
      rw [resize_getD, if_pos (by omega)]
      exact e4 h0)
  refine ⟨{ vChain := v' }, ?_, by rw [h2, hlen], h4⟩
  unfold CChain.SetTip
  simp only
  rw [if_neg (by rw [hH]; omega)]
  have : ((A n).nHeight + 1).toNat = H + 1 := by rw [hH]; rfl
  rw [this, h1]
  rfl

/-- The chain `SetTip` produces from a well-formed node satisfies the invariant. -/
theorem Inv_of_slots (A : Arena) (c' : CChain) (n H : Nat) (hwf : WellFormed A n)
    (hH : (A n).nHeight = (H : Int)) (hlen : c'.vChain.length = H + 1)
    (hs : ∀ i, i ≤ H → c'.vChain.getD i none = pprevWalk A (some n) (H - i)) :
    c'.Inv A := by
  intro i hi
  obtain ⟨p, hp⟩ := hwf.walk_exists (H - i) (by rw [hH]; omega)
  have hph : (A p).nHeight = (i : Int) := by rw [hwf.walk_height hp, hH]; omega
  refine ⟨p, by rw [hs i (by omega), hp], hph, ?_, ?_⟩
  · intro h0
    exact (hwf.walk hp).pprev_none (by rw [hph, h0]; rfl)
  · intro h0
    rw [hs (i - 1) (by omega)]
    have : H - (i - 1) = (H - i) + 1 := by omega
    rw [this, pprevWalk_add, hp, pprevWalk_succ, pprevWalk_zero]

theorem Inv_empty (A : Arena) : CChain.Inv A { vChain := [] } := by
  intro i hi
  simp at hi

theorem SetTip_mono (A : Arena) (fuel d : Nat) (c c' : CChain) (p : Ptr)
    (h : c.SetTip A fuel p = .ok c') : c.SetTip A (fuel + d) p = .ok c' := by
  cases p with
  | none => exact h
  | some n =>
    unfold CChain.SetTip at h ⊢
    simp only at h ⊢
    split at h
    · cases h
    · rename_i h1
      rw [if_neg h1]
      cases hl : SetTipLoop A fuel (resize c.vChain ((A n).nHeight + 1).toNat) (some n) with
      | error e => rw [hl] at h; cases h
      | ok v =>
        rw [hl] at h
        rw [SetTipLoop_mono A fuel d _ _ _ hl]
        exact h

theorem Reachable_inv (A : Arena) (c : CChain) (h : c.Reachable A) : c.Inv A := by
  induction h with
  | empty => exact Inv_empty A
  | setTip fuel c c' pindex _ hwf hset ih =>
    cases pindex with
    | none =>
      have : c' = { vChain := [] } := by
        unfold CChain.SetTip at hset
        cases hset
        rfl
      rw [this]
      exact Inv_empty A
    | some n =>
      have hw := hwf n rfl
      obtain ⟨H, hH⟩ := Int.eq_ofNat_of_zero_le hw.nodeOK.1
      have hm := SetTip_mono A fuel (H + 1) c c' (some n) hset
      obtain ⟨c'', h1, h2, h3⟩ := SetTip_spec A c n H (fuel + (H + 1)) ih hw hH (by omega)
      rw [hm] at h1
      cases h1
      exact Inv_of_slots A c' n H hw hH h2 h3

/-! ## `LastCommonAncestor` -/

theorem OnChain.refl (A : Arena) (a : Nat) : OnChain A a a := ⟨0, rfl⟩

theorem OnChain.trans {A : Arena} {a b c : Nat} (h1 : OnChain A a b) (h2 : OnChain A b c) :
    OnChain A a c := by
  obtain ⟨j, hj⟩ := h1
  obtain ⟨k, hk⟩ := h2
  exact ⟨j + k, by rw [pprevWalk_add, hj, hk]⟩

theorem OnChain.height_le {A : Arena} {a m : Nat} (hwf : WellFormed A a) (h : OnChain A a m) :
    (A m).nHeight ≤ (A a).nHeight := by
  obtain ⟨k, hk⟩ := h
  rw [hwf.walk_height hk]
  omega

/-- On the chain of a well-formed node, a node not higher than another one
lies on the chain of that other one. -/
theorem OnChain.below {A : Arena} {a x m : Nat} (hwf : WellFormed A a) (hx : OnChain A a x)
    (hm : OnChain A a m) (hle : (A m).nHeight ≤ (A x).nHeight) : OnChain A x m := by
  obtain ⟨i, hi⟩ := hx
  obtain ⟨j, hj⟩ := hm
  have h1 := hwf.walk_height hi
  have h2 := hwf.walk_height hj
  refine ⟨j - i, ?_⟩
  have : j = i + (j - i) := by omega
  rw [this, pprevWalk_add, hi] at hj
  exact hj

theorem GetAncestor_spec (A : Arena) (n : Nat) (hwf : WellFormed A n) (h : Int)
    (h0 : 0 ≤ h) (hle : h ≤ (A n).nHeight) :
    ∃ m, pprevWalk A (some n) ((A n).nHeight - h).toNat = some m ∧
      GetAncestor A n h = .ok (some m) ∧ (A m).nHeight = h := by
  obtain ⟨m, hm⟩ := hwf.walk_exists ((A n).nHeight - h).toNat (by omega)
  refine ⟨m, hm, ?_, ?_⟩
  · unfold GetAncestor
    rw [if_neg (by omega),
      GetAncestorLoop_eq_walk A h h0 _ n (A n).nHeight hwf rfl hle (le_refl _), hm]
  · rw [hwf.walk_height hm]
    omega

/-- Every node of the linked chain already holds the skip pointer `BuildSkip`
computes for it: `BuildSkip` leaves the heap as it is. -/
theorem linkedChain_BuildSkip (N i : Nat) (h : i < N) :
    BuildSkip (linkedChain N) i = .ok (linkedChain N) := by
  unfold BuildSkip
  rw [linkedChain_pprev N i h]
  by_cases hi : i = 0
  · rw [if_pos hi]
  · rw [if_neg hi]
    simp only
    have hga : GetAncestor (linkedChain N) (i - 1) (GetSkipHeight (linkedChain N i).nHeight)
        = .ok (linkedChain N i).pskip := by
      have hb := GetSkipHeight_bounds (h := (i : Int)) (by omega)
      have hh := linkedChain_nHeight N (i - 1) (by omega)
      obtain ⟨m, w1, w2, -⟩ := GetAncestor_spec (linkedChain N) (i - 1)
        (linkedChain_wellFormed N (i - 1) (by omega)) (GetSkipHeight (i : Int)) hb.1
        (by rw [hh]; omega)
      rw [linkedChain_walk N _ (i - 1) (by omega), if_pos (by rw [hh]; omega)] at w1
      rw [linkedChain_nHeight N i h, w2, ← w1, linkedChain_pskip N i h, if_neg hi, hh]
      congr 2
      omega
    rw [hga]
    show Except.ok (Function.update (linkedChain N) i (linkedChain N i)) = _
    rw [Function.update_eq_self]

theorem LastCommonAncestorLoop_unfold (A : Arena) (fuel a b : Nat) :
    LastCommonAncestorLoop A fuel (some a) (some b) =
      if a ≠ b then
        match fuel with
        | 0 => .error .outOfFuel
        | fuel + 1 => LastCommonAncestorLoop A fuel (A a).pprev (A b).pprev
      else .ok (some a, some b) := by
  cases fuel <;> rfl

theorem LastCommonAncestorLoop_spec (A : Arena) (h : Nat) :
    ∀ (fuel a b : Nat), WellFormed A a → WellFormed A b →
      (A a).nHeight = (h : Int) → (A b).nHeight = (h : Int) →
      (∃ r, OnChain A a r ∧ OnChain A b r) → h ≤ fuel →
      ∃ c, LastCommonAncestorLoop A fuel (some a) (some b) = .ok (some c, some c) ∧
        OnChain A a c ∧ OnChain A b c ∧
        ∀ m, OnChain A a m → OnChain A b m → (A m).nHeight ≤ (A c).nHeight := by
  induction h with
  | zero =>
    intro fuel a b hwa hwb ha hb ⟨r, ⟨j, hj⟩, ⟨k, hk⟩⟩ _
    have h1 := hwa.walk_height hj
    have h2 := hwb.walk_height hk
    have h3 := (hwa.walk hj).nodeOK.1
    have hj0 : j = 0 := by omega
    have hk0 : k = 0 := by omega
    subst hj0 hk0
    rw [pprevWalk_zero] at hj hk
    cases hj
    cases hk
    rw [LastCommonAncestorLoop_unfold, if_neg (by simp)]
    exact ⟨a, rfl, OnChain.refl A a, OnChain.refl A a,
      fun m hm _ => hm.height_le hwa⟩
  | succ h ih =>
    intro fuel a b hwa hwb ha hb hr hf
    rw [LastCommonAncestorLoop_unfold]
    by_cases hab : a = b
    · subst hab
      rw [if_neg (by simp)]
      exact ⟨a, rfl, OnChain.refl A a, OnChain.refl A a,
        fun m hm _ => hm.height_le hwa⟩
    · rw [if_pos hab]
      obtain ⟨fuel', rfl⟩ : ∃ f, fuel = f + 1 := ⟨fuel - 1, by omega⟩
      simp only
      obtain ⟨a', ha'⟩ := hwa.pprev_isSome (by omega)
      obtain ⟨b', hb'⟩ := hwb.pprev_isSome (by omega)
      have hwa' : WellFormed A a' := hwa.walk (k := 1) (by rw [pprevWalk_succ, ha']; rfl)
      have hwb' : WellFormed A b' := hwb.walk (k := 1) (by rw [pprevWalk_succ, hb']; rfl)
      have hha' := hwa.pprev_height ha'
      have hhb' := hwb.pprev_height hb'
      -- a common node of the two chains lies on the chains of both parents
      have hcommon : ∀ m, OnChain A a m → OnChain A b m → OnChain A a' m ∧ OnChain A b' m := by
        intro m ⟨j, hj⟩ ⟨k, hk⟩
        have h1 := hwa.walk_height hj
        have h2 := hwb.walk_height hk
        have hjk : j = k := by omega
        subst hjk
        cases j with
        | zero =>
          rw [pprevWalk_zero] at hj hk
          cases hj
          cases hk
          exact absurd rfl hab
        | succ j =>
          rw [pprevWalk_succ, ha'] at hj
          rw [pprevWalk_succ, hb'] at hk
          exact ⟨⟨j, hj⟩, ⟨j, hk⟩⟩
      obtain ⟨r, hra, hrb⟩ := hr
      obtain ⟨c, hc1, hc2, hc3, hc4⟩ := ih fuel' a' b' hwa' hwb' (by omega) (by omega)
        ⟨r, hcommon r hra hrb⟩ (by omega)
      rw [ha', hb']
      refine ⟨c, hc1, ?_, ?_, ?_⟩
      · exact OnChain.trans ⟨1, by rw [pprevWalk_succ, ha']; rfl⟩ hc2
      · exact OnChain.trans ⟨1, by rw [pprevWalk_succ, hb']; rfl⟩ hc3
      · intro m hma hmb
        exact hc4 m (hcommon m hma hmb).1 (hcommon m hma hmb).2

theorem LastCommonAncestor_correct (A : Arena) (a b : Nat)
    (hwa : WellFormed A a) (hwb : WellFormed A b)
    (hr : ∃ r, OnChain A a r ∧ OnChain A b r)
    (fuel : Nat) (hf : min (A a).nHeight (A b).nHeight ≤ (fuel : Int)) :
    ∃ c, LastCommonAncestor A fuel (some a) (some b) = .ok (some c) ∧
      OnChain A a c ∧ OnChain A b c ∧
      ∀ m, OnChain A a m → OnChain A b m → (A m).nHeight ≤ (A c).nHeight := by
  obtain ⟨r, hra, hrb⟩ := hr
  have hna := hwa.nodeOK.1
  have hnb := hwb.nodeOK.1
  -- the two nodes after the heights have been equalized
  have heq : ∃ a' b', WellFormed A a' ∧ WellFormed A b' ∧ OnChain A a a' ∧ OnChain A b b' ∧
      (A a').nHeight = min (A a).nHeight (A b).nHeight ∧
      (A b').nHeight = min (A a).nHeight (A b).nHeight ∧
      (if (A a).nHeight > (A b).nHeight then
          (GetAncestor A a (A b).nHeight).map fun pa => (pa, some b)
        else if (A b).nHeight > (A a).nHeight then
          (GetAncestor A b (A a).nHeight).map fun pb => (some a, pb)
        else (.ok (some a, some b) : Except Err (Ptr × Ptr))) = .ok (some a', some b') := by
    by_cases h1 : (A a).nHeight > (A b).nHeight
    · obtain ⟨a', w1, w2, w3⟩ := GetAncestor_spec A a hwa (A b).nHeight hnb (by omega)
      refine ⟨a', b, hwa.walk w1, hwb, ⟨_, w1⟩, OnChain.refl A b, by omega, by omega, ?_⟩
      rw [if_pos h1, w2]
      rfl
    · by_cases h2 : (A b).nHeight > (A a).nHeight
      · obtain ⟨b', w1, w2, w3⟩ := GetAncestor_spec A b hwb (A a).nHeight hna (by omega)
        refine ⟨a, b', hwa, hwb.walk w1, OnChain.refl A a, ⟨_, w1⟩, by omega, by omega, ?_⟩
        rw [if_neg h1, if_pos h2, w2]
        rfl
      · refine ⟨a, b, hwa, hwb, OnChain.refl A a, OnChain.refl A b, by omega, by omega, ?_⟩
        rw [if_neg h1, if_neg h2]
  obtain ⟨a', b', hwa', hwb', hoa, hob, hha, hhb, hcall⟩ := heq
  have hbelow : ∀ m, OnChain A a m → OnChain A b m → OnChain A a' m ∧ OnChain A b' m := by
    intro m hma hmb
    have h1 := hma.height_le hwa
    have h2 := hmb.height_le hwb
    exact ⟨OnChain.below hwa hoa hma (by omega), OnChain.below hwb hob hmb (by omega)⟩
  obtain ⟨H, hH⟩ := Int.eq_ofNat_of_zero_le hwa'.nodeOK.1
  obtain ⟨c, hc1, hc2, hc3, hc4⟩ := LastCommonAncestorLoop_spec A H fuel a' b' hwa' hwb' hH
    (by omega) ⟨r, hbelow r hra hrb⟩ (by omega)
  refine ⟨c, ?_, hoa.trans hc2, hob.trans hc3, fun m hma hmb =>
    hc4 m (hbelow m hma hmb).1 (hbelow m hma hmb).2⟩
  unfold LastCommonAncestor
  simp only [hcall, hc1]
  rfl

/-! ## The forked arena `forkedChain` -/

theorem forkedChain_low (i : Nat) (h : i < 8) : forkedChain i = linkedChain 8 i := by
  unfold forkedChain
  rw [if_neg (by omega), if_neg (by omega)]

theorem forkedChain_walk (k i : Nat) (h : i < 8) :
    pprevWalk forkedChain (some i) k = pprevWalk (linkedChain 8) (some i) k := by
  induction k generalizing i with
  | zero => rfl
  | succ k ih =>
    rw [pprevWalk_succ, pprevWalk_succ, forkedChain_low i h, linkedChain_pprev 8 i h]
    by_cases hi : i = 0
    · simp [hi, pprevWalk_none]
    · rw [if_neg hi]
      exact ih (i - 1) (by omega)

theorem forkedChain_wellFormed_low (i : Nat) (h : i < 8) : WellFormed forkedChain i := by
  intro k m hm
  rw [forkedChain_walk k i h, linkedChain_walk 8 k i h] at hm
  split at hm
  · cases hm
    have hlt : i - k < 8 := by omega
    have hok := linkedChain_nodeOK 8 (i - k) hlt
    unfold NodeOK at hok ⊢
    rw [forkedChain_low _ hlt, forkedChain_walk _ _ hlt]
    refine ⟨hok.1, ?_, hok.2.2⟩
    have hp := hok.2.1
    rw [linkedChain_pprev 8 _ hlt] at hp ⊢
    by_cases h0 : i - k = 0
    · rw [if_pos h0] at hp ⊢; exact hp
    · rw [if_neg h0] at hp ⊢
      simp only at hp ⊢
      rw [forkedChain_low _ (by omega)]
      exact hp
  · cases hm

theorem forkedChain_wellFormed_10 : WellFormed forkedChain 10 := by
  intro k m hm
  cases k with
  | zero =>
    rw [pprevWalk_zero] at hm
    cases hm
    refine ⟨by decide, ?_, ?_⟩
    · show (forkedChain 5).nHeight = (forkedChain 10).nHeight - 1
      decide
    show pprevWalk forkedChain (some 10) 2 = some 4
    rw [show (2 : Nat) = 1 + 1 from rfl, pprevWalk_succ]
    show pprevWalk forkedChain (some 5) 1 = some 4
    rw [forkedChain_walk 1 5 (by decide), linkedChain_walk 8 1 5 (by decide)]
    rfl
  | succ k => exact forkedChain_wellFormed_low 5 (by decide) k m hm

theorem forkedChain_wellFormed_11 : WellFormed forkedChain 11 := by
  intro k m hm
  cases k with
  | zero =>
    rw [pprevWalk_zero] at hm
    cases hm
    refine ⟨by decide, ?_, ?_⟩
    · show (forkedChain 10).nHeight = (forkedChain 11).nHeight - 1
      decide
    show pprevWalk forkedChain (some 11) 6 = some 1
    rw [show (6 : Nat) = 4 + 1 + 1 from rfl, pprevWalk_succ]
    show pprevWalk forkedChain (some 10) (4 + 1) = some 1
    rw [pprevWalk_succ]
    show pprevWalk forkedChain (some 5) 4 = some 1
    rw [forkedChain_walk 4 5 (by decide), linkedChain_walk 8 4 5 (by decide)]
    rfl
  | succ k => exact forkedChain_wellFormed_10 k m hm

/-! ## `FindFork` -/

theorem OnChain.of_pprev {A : Arena} {p q m : Nat} (hq : (A p).pprev = some q)
    (h : OnChain A q m) : OnChain A p m := by
  obtain ⟨k, hk⟩ := h
  exact ⟨k + 1, by rw [pprevWalk_succ, hq]; exact hk⟩

theorem OnChain.cases {A : Arena} {p m : Nat} (h : OnChain A p m) :
    m = p ∨ ∃ q, (A p).pprev = some q ∧ OnChain A q m := by
  obtain ⟨k, hk⟩ := h
  cases k with
  | zero =>
    rw [pprevWalk_zero] at hk
    exact Or.inl (Option.some.inj hk).symm
  | succ k =>
    rw [pprevWalk_succ] at hk
    cases hp : (A p).pprev with
    | none => rw [hp, pprevWalk_none] at hk; cases hk
    | some q => rw [hp] at hk; exact Or.inr ⟨q, rfl, k, hk⟩

theorem FindForkLoop_unfold (A : Arena) (c : CChain) (fuel p : Nat) :
    FindForkLoop A c fuel (some p) =
      if !c.Contains A p then
        match fuel with
        | 0 => .error .outOfFuel
        | fuel + 1 => FindForkLoop A c fuel (A p).pprev
      else .ok (some p) := by
  cases fuel <;> rfl

theorem FindForkLoop_null (A : Arena) (c : CChain) (fuel : Nat) :
    FindForkLoop A c fuel none = .ok none := by
  cases fuel <;> rfl

/-- A node the chain contains sits at a height inside the chain. -/
theorem Contains_height {A : Arena} {c : CChain} {m : Nat} (h : c.Contains A m = true) :
    0 ≤ (A m).nHeight ∧ (A m).nHeight ≤ c.Height := by
  unfold CChain.Contains CChain.at at h
  unfold CChain.Height
  split at h
  · omega
  · simp at h

/-- The loop of `FindFork`, started at a well-formed node: it returns the
highest node of the `pprev`-chain that the chain contains, or null when the
chain contains none of them. -/
theorem FindForkLoop_spec (A : Arena) (c : CChain) (j : Nat) :
    ∀ (fuel p : Nat), WellFormed A p → (A p).nHeight = (j : Int) → j + 1 ≤ fuel →
      ∃ r, FindForkLoop A c fuel (some p) = .ok r ∧
        (r = none → ∀ m, OnChain A p m → c.Contains A m = false) ∧
        (∀ m, r = some m → OnChain A p m ∧ c.Contains A m = true ∧
          ∀ m', OnChain A p m' → c.Contains A m' = true → (A m').nHeight ≤ (A m).nHeight) := by
  induction j with
  | zero =>
    intro fuel p hwf hp hf
    rw [FindForkLoop_unfold]
    by_cases hc : c.Contains A p = true
    · rw [if_neg (by simp [hc])]
      refine ⟨some p, rfl, (fun h => by cases h), ?_⟩
      intro m hm
      cases hm
      exact ⟨OnChain.refl A p, hc, fun m' hm' _ => hm'.height_le hwf⟩
    · rw [if_pos (by simpa using hc)]
      obtain ⟨fuel', rfl⟩ : ∃ f, fuel = f + 1 := ⟨fuel - 1, by omega⟩
      simp only
      rw [hwf.pprev_none (by rw [hp]; rfl), FindForkLoop_null]
      refine ⟨none, rfl, ?_, fun m h => by cases h⟩
      intro _ m hm
      rcases hm.cases with rfl | ⟨q, hq, -⟩
      · simpa using hc
      · rw [hwf.pprev_none (by rw [hp]; rfl)] at hq; cases hq
  | succ j ih =>
    intro fuel p hwf hp hf
    rw [FindForkLoop_unfold]
    by_cases hc : c.Contains A p = true
    · rw [if_neg (by simp [hc])]
      refine ⟨some p, rfl, (fun h => by cases h), ?_⟩
      intro m hm
      cases hm
      exact ⟨OnChain.refl A p, hc, fun m' hm' _ => hm'.height_le hwf⟩
    · rw [if_pos (by simpa using hc)]
      obtain ⟨fuel', rfl⟩ : ∃ f, fuel = f + 1 := ⟨fuel - 1, by omega⟩
      simp only
      obtain ⟨q, hq⟩ := hwf.pprev_isSome (by rw [hp]; push_cast; omega)
      have hwq : WellFormed A q := hwf.walk (k := 1) (by rw [pprevWalk_succ, hq]; rfl)
      obtain ⟨r, h1, h2, h3⟩ := ih fuel' q hwq
        (by rw [hwf.pprev_height hq, hp]; push_cast; omega) (by omega)
      rw [hq]
      refine ⟨r, h1, ?_, ?_⟩
      · intro hr m hm
        rcases hm.cases with rfl | ⟨q', hq', hm'⟩
        · simpa using hc
        · rw [hq] at hq'; cases hq'; exact h2 hr m hm'
      · intro m hr
        obtain ⟨a1, a2, a3⟩ := h3 m hr
        refine ⟨a1.of_pprev hq, a2, ?_⟩
        intro m' hm' hc'
        rcases hm'.cases with rfl | ⟨q', hq', hm''⟩
        · exact absurd hc' hc
        · rw [hq] at hq'; cases hq'; exact a3 m' hm'' hc'

/-- `FindFork` on a well-formed node, for any chain: it returns the highest
node of the node's `pprev`-chain that the chain contains, or null when the
chain contains none of them. -/
theorem FindFork_spec (A : Arena) (c : CChain) (n : Nat) (hwf : WellFormed A n)
    (fuel : Nat) (hf : (A n).nHeight + 1 ≤ (fuel : Int)) :
    ∃ r, c.FindFork A fuel (some n) = .ok r ∧
      (r = none → ∀ m, OnChain A n m → c.Contains A m = false) ∧
      (∀ m, r = some m → OnChain A n m ∧ c.Contains A m = true ∧
        ∀ m', OnChain A n m' → c.Contains A m' = true → (A m').nHeight ≤ (A m).nHeight) := by
  have hn0 := hwf.nodeOK.1
  unfold CChain.FindFork
  simp only
  by_cases hgt : (A n).nHeight > c.Height
  · rw [if_pos hgt]
    by_cases hneg : c.Height < 0
    · have : GetAncestor A n c.Height = .ok none := by
        unfold GetAncestor
        rw [if_pos (Or.inr hneg)]
      rw [this]
      simp only
      rw [FindForkLoop_null]
      refine ⟨none, rfl, ?_, fun m h => by cases h⟩
      intro _ m _
      by_contra hc
      have := Contains_height (A := A) (c := c) (m := m) (by simpa using hc)
      omega
    · obtain ⟨a, w1, w2, w3⟩ := GetAncestor_spec A n hwf c.Height (by omega) (by omega)
      rw [w2]
      simp only
      have hwa : WellFormed A a := hwf.walk w1
      obtain ⟨J, hJ⟩ := Int.eq_ofNat_of_zero_le (show 0 ≤ (A a).nHeight by omega)
      obtain ⟨r, h1, h2, h3⟩ := FindForkLoop_spec A c J fuel a hwa hJ (by omega)
      have hoa : OnChain A n a := ⟨_, w1⟩
      have hlift : ∀ m, OnChain A n m → c.Contains A m = true → OnChain A a m := by
        intro m hm hc
        have := Contains_height hc
        exact OnChain.below hwf hoa hm (by omega)
      refine ⟨r, h1, ?_, ?_⟩
      · intro hr m hm
        by_contra hc
        have hc' : c.Contains A m = true := by simpa using hc
        rw [h2 hr m (hlift m hm hc')] at hc'
        cases hc'
      · intro m hr
        obtain ⟨a1, a2, a3⟩ := h3 m hr
        exact ⟨hoa.trans a1, a2, fun m' hm' hc' => a3 m' (hlift m' hm' hc') hc'⟩
  · rw [if_neg hgt]
    simp only
    obtain ⟨J, hJ⟩ := Int.eq_ofNat_of_zero_le hn0
    exact FindForkLoop_spec A c J fuel n hwf hJ (by omega)

/-! ## `FindEarliestAtLeast` -/

/-- The search of `std::lower_bound` on a vector without null slots whose
`nTimeMax` values do not decrease from slot to slot: it returns the index
that separates the slots with a time below `t` from the slots with a time of
at least `t`. -/
theorem lowerBoundLoop_spec (A : Arena) (v : List Ptr) (t : Int)
    (hnn : ∀ i, i < v.length → ∃ p, v[i]? = some (some p))
    (hmono : ∀ (i j p q : Nat), i ≤ j → v[i]? = some (some p) → v[j]? = some (some q) →
      (A p).GetBlockTimeMax ≤ (A q).GetBlockTimeMax) :
    ∀ (fuel first len : Nat), len ≤ fuel → first + len ≤ v.length →
      (∀ (i p : Nat), i < first → v[i]? = some (some p) → (A p).GetBlockTimeMax < t) →
      (∀ (i p : Nat), first + len ≤ i → v[i]? = some (some p) → ¬ (A p).GetBlockTimeMax < t) →
      ∃ idx, lowerBoundLoop A v t fuel first len = .ok idx ∧ idx ≤ v.length ∧
        (∀ (i p : Nat), i < idx → v[i]? = some (some p) → (A p).GetBlockTimeMax < t) ∧
        (∀ (i p : Nat), idx ≤ i → v[i]? = some (some p) → ¬ (A p).GetBlockTimeMax < t) := by
  intro fuel
  induction fuel with
  | zero =>
    intro first len hf hlen hlo hhi
    have : len = 0 := by omega
    subst this
    exact ⟨first, by simp [lowerBoundLoop], by omega, hlo, fun i p hi => hhi i p (by omega)⟩
  | succ fuel ih =>
    intro first len hf hlen hlo hhi
    unfold lowerBoundLoop
    by_cases hpos : len > 0
    · rw [if_pos hpos]
      simp only
      have hmid : first + len / 2 < v.length := by
        have : len / 2 < len := Nat.div_lt_self hpos (by decide)
        omega
      obtain ⟨pm, hpm⟩ := hnn (first + len / 2) hmid
      rw [hpm]
      simp only
      have hhalf : len / 2 < len := Nat.div_lt_self hpos (by decide)
      by_cases hc : (A pm).GetBlockTimeMax < t
      · rw [if_pos hc]
        apply ih
        · omega
        · omega
        · intro i p hi hp
          have := hmono i (first + len / 2) p pm (by omega) hp hpm
          omega
        · intro i p hi hp
          exact hhi i p (by omega) hp
      · rw [if_neg hc]
        apply ih
        · omega
        · omega
        · exact hlo
        · intro i p hi hp
          have := hmono (first + len / 2) i pm p hi hpm hp
          omega
    · rw [if_neg hpos]
      have : len = 0 := by omega
      subst this
      exact ⟨first, rfl, by omega, hlo, fun i p hi => hhi i p (by omega)⟩

theorem FindEarliestAtLeast_spec (A : Arena) (c : CChain) (t : Int)
    (hnn : ∀ i, i < c.vChain.length → ∃ p, c.vChain[i]? = some (some p))
    (hmono : ∀ (i j p q : Nat), i ≤ j → c.vChain[i]? = some (some p) → c.vChain[j]? = some (some q) →
      (A p).GetBlockTimeMax ≤ (A q).GetBlockTimeMax) :
    ∃ r, c.FindEarliestAtLeast A t = .ok r ∧
      (r = none ↔ ∀ (i p : Nat), c.vChain[i]? = some (some p) → (A p).GetBlockTimeMax < t) ∧
      (∀ p, r = some p → ∃ i : Nat, c.vChain[i]? = some (some p) ∧ t ≤ (A p).GetBlockTimeMax ∧
        ∀ (j q : Nat), j < i → c.vChain[j]? = some (some q) → (A q).GetBlockTimeMax < t) := by
  obtain ⟨idx, h1, h2, h3, h4⟩ := lowerBoundLoop_spec A c.vChain t hnn hmono c.vChain.length 0
    c.vChain.length (le_refl _) (by omega) (fun i p hi => by omega)
    (fun i p hi hp => by
      rw [List.getElem?_eq_none (by omega)] at hp
      cases hp)
  unfold CChain.FindEarliestAtLeast
  rw [h1]
  simp only
  by_cases he : idx = c.vChain.length
  · rw [if_pos he]
    refine ⟨none, rfl, ⟨fun _ i p hp => ?_, fun _ => rfl⟩, (fun p h => by cases h)⟩
    have hi : i < c.vChain.length := by
      by_contra hc
      rw [List.getElem?_eq_none (by omega)] at hp
      cases hp
    exact h3 i p (by omega) hp
  · rw [if_neg he]
    obtain ⟨p, hp⟩ := hnn idx (by omega)
    have hget : c.vChain.getD idx none = some p := by
      rw [List.getD_eq_getElem?_getD, hp]
      rfl
    rw [hget]
    refine ⟨some p, rfl, ⟨(fun h => by cases h), fun hall => ?_⟩, ?_⟩
    · exact absurd (hall idx p hp) (h4 idx p (le_refl _) hp)
    · intro p' hp'
      cases hp'
      exact ⟨idx, hp, by have := h4 idx p (le_refl _) hp; omega,
        fun j q hj hq => h3 j q hj hq⟩

theorem Inv_slot {A : Arena} {c : CChain} (hinv : c.Inv A) (i : Nat)
    (hi : i < c.vChain.length) :
    ∃ p, c.vChain[i]? = some (some p) ∧ (A p).nHeight = (i : Int) := by
  obtain ⟨p, h1, h2, -, -⟩ := hinv i hi
  refine ⟨p, ?_, h2⟩
  rw [List.getD_eq_getElem?_getD, List.getElem?_eq_getElem hi] at h1
  rw [List.getElem?_eq_getElem hi]
  simp only [Option.getD_some] at h1
  rw [h1]

/-! ## The chains `timedChain N` and `rangeChain N` -/

/-- Well-formedness depends on the heights and the two pointers only. -/
theorem pprevWalk_congr (A B : Arena) (h : ∀ i, (B i).pprev = (A i).pprev) :
    ∀ (k : Nat) (p : Ptr), pprevWalk B p k = pprevWalk A p k := by
  intro k
  induction k with
  | zero => intro p; rw [pprevWalk_zero, pprevWalk_zero]
  | succ k ih =>
    intro p
    cases p with
    | none => rw [pprevWalk_none, pprevWalk_none]
    | some i => rw [pprevWalk_succ, pprevWalk_succ, h i, ih]

theorem WellFormed_congr (A B : Arena)
    (h : ∀ i, (B i).nHeight = (A i).nHeight ∧ (B i).pprev = (A i).pprev ∧
      (B i).pskip = (A i).pskip)
    (n : Nat) (hwf : WellFormed A n) : WellFormed B n := by
  intro k m hm
  rw [pprevWalk_congr A B (fun i => (h i).2.1)] at hm
  have hok := hwf k m hm
  unfold NodeOK at hok ⊢
  rw [(h m).1, (h m).2.1, (h m).2.2, pprevWalk_congr A B (fun i => (h i).2.1)]
  refine ⟨hok.1, ?_, hok.2.2⟩
  have hp := hok.2.1
  cases hpp : (A m).pprev with
  | none => rw [hpp] at hp; exact hp
  | some q => rw [hpp] at hp; simp only at hp ⊢; rw [(h q).1]; exact hp

theorem timedChain_wellFormed (N i : Nat) (h : i < N) : WellFormed (timedChain N) i :=
  WellFormed_congr (linkedChain N) (timedChain N) (fun _ => ⟨rfl, rfl, rfl⟩) i
    (linkedChain_wellFormed N i h)

theorem timedChain_time (N i : Nat) : (timedChain N i).GetBlockTimeMax = ((10 * i : Nat) : Int) :=
  rfl

theorem rangeChain_slot (N i : Nat) :
    (rangeChain N).vChain[i]? = if i < N then some (some i) else none := by
  unfold rangeChain
  simp only [List.getElem?_map, List.getElem?_range]
  by_cases h : i < N
  · rw [if_pos h, List.getElem?_range h]; rfl
  · rw [if_neg h, List.getElem?_eq_none (by simp; omega)]; rfl

theorem rangeChain_length (N : Nat) : (rangeChain N).vChain.length = N := by
  simp [rangeChain]

theorem rangeChain_inv (N M : Nat) (hNM : N ≤ M) : (rangeChain N).Inv (timedChain M) := by
  intro i hi
  rw [rangeChain_length] at hi
  have hslot : ∀ j, j < N → (rangeChain N).vChain.getD j none = some j := by
    intro j hj
    rw [List.getD_eq_getElem?_getD, rangeChain_slot, if_pos hj]
    rfl
  refine ⟨i, hslot i hi, linkedChain_nHeight M i (by omega), ?_, ?_⟩
  · intro h0
    subst h0
    show (linkedChain M 0).pprev = none
    rw [linkedChain_pprev M 0 (by omega)]
    rfl
  · intro h0
    show (linkedChain M i).pprev = _
    rw [linkedChain_pprev M i (by omega), if_neg (by omega), hslot (i - 1) (by omega)]

/-! ## `GetLocator` -/

theorem GetLocatorLoop_unfold (A : Arena) (c : CChain) (fuel p : Nat) (vHave : List Nat)
    (nStep : Int) :
    GetLocatorLoop A c fuel (some p) vHave nStep =
      if (A p).nHeight = 0 then .ok (vHave ++ [(A p).GetBlockHash])
      else
        match fuel with
        | 0 => .error .outOfFuel
        | fuel + 1 =>
          match (if c.Contains A p then .ok (c.at (max ((A p).nHeight - nStep) 0))
            else GetAncestor A p (max ((A p).nHeight - nStep) 0) : Except Err Ptr) with
          | .error e => .error e
          | .ok pnext =>
            GetLocatorLoop A c fuel pnext (vHave ++ [(A p).GetBlockHash])
              (if (vHave ++ [(A p).GetBlockHash]).length > 10 then nStep * 2 else nStep) := by
  cases fuel <;> rfl

/-- In a chain that satisfies the invariant, the slots below a contained
well-formed node hold the nodes of its `pprev`-chain. -/
theorem Inv_at_below (A : Arena) (c : CChain) (hinv : c.Inv A) (p : Nat)
    (hwf : WellFormed A p) (hc : c.Contains A p = true) (h : Int) (h0 : 0 ≤ h)
    (hle : h ≤ (A p).nHeight) :
    c.at h = pprevWalk A (some p) ((A p).nHeight - h).toNat := by
  obtain ⟨J, hJ⟩ := Int.eq_ofNat_of_zero_le hwf.nodeOK.1
  have hch := Contains_height hc
  unfold CChain.Height at hch
  have hslot : c.vChain.getD J none = some p := by
    unfold CChain.Contains CChain.at at hc
    rw [if_pos ⟨by omega, by omega⟩, hJ] at hc
    simpa using hc
  have hl : SlotsLinked A c.vChain J := by
    intro i q hi hq
    have hic : i < c.vChain.length := by omega
    obtain ⟨q', e1, e2, -, e4⟩ := hinv i hic
    rw [hq] at e1
    cases e1
    exact ⟨e2, e4⟩
  have := SlotsLinked_walk hl hwf hJ hslot ((A p).nHeight - h).toNat (by omega)
  unfold CChain.at
  rw [if_pos ⟨h0, by omega⟩, ← this]
  congr 1
  omega

theorem GetLocatorLoop_spec (A : Arena) (c : CChain) (hinv : c.Inv A) (fuel : Nat) :
    ∀ (p : Nat) (vHave : List Nat) (nStep : Int), WellFormed A p → 1 ≤ nStep →
      (A p).nHeight + 1 ≤ (fuel : Int) →
      ∃ nodes : List Nat,
        GetLocatorLoop A c fuel (some p) vHave nStep
          = .ok (vHave ++ nodes.map fun m => (A m).GetBlockHash) ∧
        nodes.head? = some p ∧
        (∀ m ∈ nodes, OnChain A p m) ∧
        nodes.Chain' (fun a b => (A b).nHeight < (A a).nHeight) ∧
        ∃ g, nodes.getLast? = some g ∧ (A g).nHeight = 0 := by
  induction fuel with
  | zero =>
    intro p vHave nStep hwf _ hf
    have := hwf.nodeOK.1
    omega
  | succ fuel ih =>
    intro p vHave nStep hwf hstep hf
    rw [GetLocatorLoop_unfold]
    have hn0 := hwf.nodeOK.1
    by_cases hz : (A p).nHeight = 0
    · rw [if_pos hz]
      refine ⟨[p], rfl, rfl, ?_, List.chain'_singleton p, p, rfl, hz⟩
      intro m hm
      simp only [List.mem_singleton] at hm
      subst hm
      exact OnChain.refl A m
    · rw [if_neg hz]
      simp only
      have hlt : max ((A p).nHeight - nStep) 0 < (A p).nHeight := by omega
      have hge : 0 ≤ max ((A p).nHeight - nStep) 0 := le_max_right _ _
      obtain ⟨p', w1, w2, w3⟩ := GetAncestor_spec A p hwf _ hge (le_of_lt hlt)
      have hnext : (if c.Contains A p then .ok (c.at (max ((A p).nHeight - nStep) 0))
            else GetAncestor A p (max ((A p).nHeight - nStep) 0) : Except Err Ptr)
          = .ok (some p') := by
        by_cases hc : c.Contains A p = true
        · rw [if_pos hc, Inv_at_below A c hinv p hwf hc _ hge (le_of_lt hlt), w1]
        · rw [if_neg hc, w2]
      rw [hnext]
      simp only
      have hwp' : WellFormed A p' := hwf.walk w1
      obtain ⟨nodes', n1, n2, n3, n4, g, n5, n6⟩ := ih p' (vHave ++ [(A p).GetBlockHash])
        (if (vHave ++ [(A p).GetBlockHash]).length > 10 then nStep * 2 else nStep) hwp'
        (by split <;> omega) (by omega)
      refine ⟨p :: nodes', ?_, rfl, ?_, ?_, g, ?_, n6⟩
      · rw [n1, List.append_assoc]
        rfl
      · intro m hm
        rcases List.mem_cons.1 hm with rfl | hm
        · exact OnChain.refl A m
        · exact OnChain.trans ⟨_, w1⟩ (n3 m hm)
      · rw [List.chain'_cons']
        refine ⟨?_, n4⟩
        intro y hy
        rw [n2] at hy
        cases hy
        omega
      · cases nodes' with
        | nil => cases n2
        | cons x xs => rw [List.getLast?_cons_cons]; exact n5

/-! ## 256-bit arithmetic -/

theorem testBit_top (a n : Nat) (h : a < 2 ^ (n + 1)) : a.testBit n = decide (2 ^ n ≤ a) := by
  rw [Nat.testBit_to_div_mod]
  have hpos : 0 < 2 ^ n := Nat.two_pow_pos _
  have hq : a / 2 ^ n < 2 := by
    rw [Nat.div_lt_iff_lt_mul hpos]
    rw [pow_succ] at h
    omega
  by_cases hle : 2 ^ n ≤ a
  · have h1 : 1 ≤ a / 2 ^ n := (Nat.le_div_iff_mul_le hpos).2 (by omega)
    have : a / 2 ^ n % 2 = 1 := by omega
    simp [this, hle]
  · have h0 : a / 2 ^ n = 0 := Nat.div_eq_of_lt (by omega)
    simp [h0, hle]

/-- The result of the scan of `bits()` brackets the scanned number. -/
theorem bitsBelow_spec (a : Nat) :
    ∀ n, a < 2 ^ n → base_uint.bitsBelow a n ≤ n ∧ a < 2 ^ base_uint.bitsBelow a n ∧
      (a ≠ 0 → base_uint.bitsBelow a n ≠ 0 ∧ 2 ^ (base_uint.bitsBelow a n - 1) ≤ a) := by
  intro n
  induction n with
  | zero =>
    intro h
    have : a = 0 := by simpa using h
    subst this
    exact ⟨le_refl _, by simp [base_uint.bitsBelow], fun h => absurd rfl h⟩
  | succ n ih =>
    intro h
    unfold base_uint.bitsBelow
    rw [testBit_top a n h]
    by_cases hle : 2 ^ n ≤ a
    · rw [if_pos (by simpa using hle)]
      exact ⟨le_refl _, h, fun _ => ⟨Nat.succ_ne_zero _, by simpa using hle⟩⟩
    · rw [if_neg (by simpa using hle)]
      obtain ⟨h1, h2, h3⟩ := ih (by omega)
      exact ⟨by omega, h2, h3⟩

theorem bits_spec (a : Nat) (h : a < 2 ^ 256) :
    base_uint.bits a ≤ 256 ∧ a < 2 ^ base_uint.bits a ∧
      (a ≠ 0 → base_uint.bits a ≠ 0 ∧ 2 ^ (base_uint.bits a - 1) ≤ a) :=
  bitsBelow_spec a 256 h

/-- The test `bits() > 63` asks whether the number is at least `2^63`. -/
theorem bits_gt_63 (a : Nat) (h : a < 2 ^ 256) : base_uint.bits a > 63 ↔ 2 ^ 63 ≤ a := by
  obtain ⟨-, h2, h3⟩ := bits_spec a h
  constructor
  · intro hb
    have ha : a ≠ 0 := by
      intro h0
      subst h0
      have : base_uint.bits 0 = 0 := by
        unfold base_uint.bits
        have : ∀ n, base_uint.bitsBelow 0 n = 0 := by
          intro n
          induction n with
          | zero => rfl
          | succ n ih => unfold base_uint.bitsBelow; simp [ih]
        exact this 256
      omega
    obtain ⟨-, h4⟩ := h3 ha
    exact le_trans (Nat.pow_le_pow_right (by decide) (by omega)) h4
  · intro ha
    by_contra hb
    have : (2 : Nat) ^ base_uint.bits a ≤ 2 ^ 63 := Nat.pow_le_pow_right (by decide) (by omega)
    omega

theorem sub_of_le (a b : Nat) (hab : b ≤ a) (ha : a < 2 ^ 256) : base_uint.sub a b = a - b := by
  unfold base_uint.sub
  have hb : b % 2 ^ 256 = b := Nat.mod_eq_of_lt (by omega)
  rw [hb]
  have : a + (2 ^ 256 - b) = (a - b) + 2 ^ 256 := by omega
  rw [this, Nat.add_mod_right, Nat.mod_eq_of_lt (by omega)]

theorem or_two_pow (q s : Nat) (h : 2 ^ (s + 1) ∣ q) : q ||| 2 ^ s = q + 2 ^ s := by
  obtain ⟨k, rfl⟩ := h
  exact (Nat.mul_add_lt_is_or (Nat.pow_lt_pow_right (by decide) (Nat.lt_succ_self s)) k).symm

/-- The loop of the long division adds the quotient of what is left of the
numerator to the quotient bits already set. -/
theorem divLoop_spec (b : Nat) (hb : 0 < b) :
    ∀ (n num quot : Nat), num < b * 2 ^ n → b * 2 ^ n < 2 ^ 257 → 2 ^ n ∣ quot →
      base_uint.divLoop n num (b * 2 ^ n / 2) quot = quot + num / b := by
  intro n
  induction n with
  | zero =>
    intro num quot h _ _
    have : num / b = 0 := Nat.div_eq_of_lt (by simpa using h)
    simp [base_uint.divLoop, this]
  | succ s ih =>
    intro num quot h hbd hq
    have hd : b * 2 ^ (s + 1) = b * 2 ^ s * 2 := by rw [pow_succ, ← Nat.mul_assoc]
    rw [hd] at h hbd ⊢
    rw [Nat.mul_div_cancel _ (by decide : 0 < 2)]
    have h257 : (2 : Nat) ^ 257 = 2 ^ 256 * 2 := by norm_num
    have hq' : 2 ^ s ∣ quot := Dvd.dvd.trans (pow_dvd_pow 2 (Nat.le_succ s)) hq
    obtain ⟨D, hDdef⟩ : ∃ D, D = b * 2 ^ s := ⟨_, rfl⟩
    rw [← hDdef] at h hbd ⊢
    have hD : D < 2 ^ 256 := by omega
    unfold base_uint.divLoop base_uint.CompareTo base_uint.shr
    rw [pow_one]
    by_cases hge : D ≤ num
    · have hc : (if num < D then (-1 : Int) else if num > D then 1 else 0) ≥ 0 := by
        rw [if_neg (by omega)]
        split <;> decide
      rw [if_pos hc, or_two_pow quot s hq]
      have hsub : base_uint.sub num D = num - D := by
        unfold base_uint.sub
        rw [Nat.mod_eq_of_lt hD]
        have : num + (2 ^ 256 - D) = (num - D) + 2 ^ 256 := by omega
        rw [this, Nat.add_mod_right, Nat.mod_eq_of_lt (by omega)]
      rw [hsub, hDdef]
      rw [ih (num - b * 2 ^ s) (quot + 2 ^ s) (by omega) (by omega)
        ((Nat.dvd_add_right hq').2 (dvd_refl _))]
      have hdiv : num / b = (num - b * 2 ^ s) / b + 2 ^ s := by
        have h1 : num = (num - b * 2 ^ s) + 2 ^ s * b := by rw [Nat.mul_comm (2 ^ s) b]; omega
        conv_lhs => rw [h1]
        exact Nat.add_mul_div_right _ _ hb
      rw [hdiv, Nat.add_assoc, Nat.add_comm (2 ^ s)]
    · have hc : ¬ (if num < D then (-1 : Int) else if num > D then 1 else 0) ≥ 0 := by
        rw [if_pos (by omega)]
        decide
      rw [if_neg hc, hDdef]
      exact ih num quot (by omega) (by omega) hq'

/-- The operator `/` returns the integer quotient. -/
theorem div_spec (a b : Nat) (ha : a < 2 ^ 256) (hb : b < 2 ^ 256) (hb0 : b ≠ 0) :
    base_uint.div a b = .ok (a / b) := by
  unfold base_uint.div
  rw [if_neg hb0]
  obtain ⟨ha1, ha2, ha3⟩ := bits_spec a ha
  obtain ⟨hb1, hb2, hb3⟩ := bits_spec b hb
  obtain ⟨hb4, hb5⟩ := hb3 hb0
  simp only
  by_cases hs : (base_uint.bits a : Int) - (base_uint.bits b : Int) < 0
  · rw [if_pos hs]
    have hlt : a < b := by
      have : (2 : Nat) ^ base_uint.bits a ≤ 2 ^ (base_uint.bits b - 1) :=
        Nat.pow_le_pow_right (by decide) (by omega)
      omega
    rw [Nat.div_eq_of_lt hlt]
  · rw [if_neg hs]
    obtain ⟨n, hn⟩ : ∃ n : Nat, base_uint.bits a = base_uint.bits b + n :=
      ⟨base_uint.bits a - base_uint.bits b, by omega⟩
    have htn : ((base_uint.bits a : Int) - (base_uint.bits b : Int)).toNat = n := by
      rw [hn]
      push_cast
      simp
    rw [htn]
    have hbn : b * 2 ^ n < 2 ^ 256 := by
      have h1 : b * 2 ^ n < 2 ^ base_uint.bits b * 2 ^ n :=
        Nat.mul_lt_mul_of_pos_right hb2 (Nat.two_pow_pos _)
      rw [← pow_add, ← hn] at h1
      exact lt_of_lt_of_le h1 (Nat.pow_le_pow_right (by decide) ha1)
    have hshl : base_uint.shl b n = b * 2 ^ (n + 1) / 2 := by
      unfold base_uint.shl
      rw [Nat.mod_eq_of_lt hbn, pow_succ, ← Nat.mul_assoc, Nat.mul_div_cancel _ (by decide : 0 < 2)]
    rw [hshl, divLoop_spec b (Nat.pos_of_ne_zero hb0) (n + 1) a 0 ?_ ?_ (dvd_zero _), Nat.zero_add]
    · have h1 : 2 ^ (base_uint.bits b - 1) * 2 ^ (n + 1) ≤ b * 2 ^ (n + 1) :=
        Nat.mul_le_mul_right _ hb5
      rw [← pow_add] at h1
      have h2 : base_uint.bits b - 1 + (n + 1) = base_uint.bits a := by omega
      rw [h2] at h1
      omega
    · rw [pow_succ, ← Nat.mul_assoc]
      have : (2 : Nat) ^ 257 = 2 ^ 256 * 2 := by norm_num
      omega

/-! ## `SetCompact` and `GetBlockProof` -/

/-- The decoded target is a 256-bit number, and not the largest one. -/
theorem SetCompact_lt (nCompact : Nat) : (SetCompact nCompact).1 + 1 < 2 ^ 256 := by
  unfold SetCompact
  simp only
  by_cases hs : nCompact >>> 24 ≤ 3
  · rw [if_pos hs, if_pos hs]
    unfold base_uint.ofUint64
    generalize (nCompact &&& 0x007fffff) >>> (8 * (3 - nCompact >>> 24)) = w
    have := Nat.mod_lt w (by decide : 0 < 2 ^ 64)
    unfold arith_uint256
    omega
  · rw [if_neg hs]
    unfold base_uint.shl
    obtain ⟨k, hk⟩ : ∃ k, 8 * (nCompact >>> 24 - 3) = k + 1 :=
      ⟨8 * (nCompact >>> 24 - 3) - 1, by omega⟩
    rw [hk, pow_succ, ← Nat.mul_assoc]
    generalize base_uint.ofUint64 _ * 2 ^ k = x
    have h1 := Nat.mod_lt (x * 2) (by decide : 0 < 2 ^ 256)
    have h2 : x * 2 % 2 ^ 256 % 2 = 0 := by
      rw [Nat.mod_mod_of_dvd _ (by norm_num : 2 ∣ 2 ^ 256)]
      exact Nat.mul_mod_left _ _
    generalize x * 2 % 2 ^ 256 = v at h1 h2
    unfold arith_uint256 at *
    omega

theorem not_eq (t : Nat) (ht : t < 2 ^ 256) : base_uint.not t = 2 ^ 256 - 1 - t := by
  unfold base_uint.not
  rw [Nat.mod_eq_of_lt ht]

theorem add_one_eq (t : Nat) (ht : t + 1 < 2 ^ 256) : base_uint.add t 1 = t + 1 := by
  unfold base_uint.add
  rw [Nat.mod_eq_of_lt ht]

/-- The work formula of `GetBlockProof` in 256-bit arithmetic, and the
quotient it equals. -/
theorem work_formula (t : Nat) (ht : t + 1 < 2 ^ 256) (h0 : t ≠ 0) :
    base_uint.div (base_uint.not t) (base_uint.add t 1) = .ok ((2 ^ 256 - 1 - t) / (t + 1)) ∧
    base_uint.add ((2 ^ 256 - 1 - t) / (t + 1)) 1 = 2 ^ 256 / (t + 1) ∧
    2 ^ 256 / (t + 1) ≤ 2 ^ 255 ∧ 2 ^ 256 / (t + 1) ≠ 0 := by
  have hq : 2 ^ 256 / (t + 1) = (2 ^ 256 - 1 - t) / (t + 1) + 1 := by
    have : 2 ^ 256 = (2 ^ 256 - 1 - t) + (t + 1) := by omega
    conv_lhs => rw [this]
    exact Nat.add_div_right _ (Nat.succ_pos t)
  have hle : 2 ^ 256 / (t + 1) ≤ 2 ^ 255 := by
    have h2 : 2 ^ 256 / (t + 1) ≤ 2 ^ 256 / 2 := Nat.div_le_div_left (by omega) (by decide)
    have h3 : (2 : Nat) ^ 256 / 2 = 2 ^ 255 := by norm_num
    omega
  refine ⟨?_, ?_, hle, ?_⟩
  · rw [not_eq t (by omega), add_one_eq t ht]
    exact div_spec _ _ (by omega) ht (Nat.succ_ne_zero t)
  · unfold base_uint.add
    rw [← hq]
    exact Nat.mod_eq_of_lt (by omega)
  · rw [hq]
    exact Nat.succ_ne_zero _

/-- The value of `GetBlockProof`: it always returns, with 0 for a target that
decodes as negative, overflowed or zero and with `2^256 / (target + 1)` otherwise. -/
theorem GetBlockProof_eq (block : CBlockIndex) :
    GetBlockProof block =
      .ok (if (SetCompact block.nBits).2.1 = true ∨ (SetCompact block.nBits).2.2 = true ∨
              (SetCompact block.nBits).1 = 0 then 0
           else 2 ^ 256 / ((SetCompact block.nBits).1 + 1)) := by
  have hlt := SetCompact_lt block.nBits
  unfold GetBlockProof
  rcases hsc : SetCompact block.nBits with ⟨t, fNegative, fOverflow⟩
  rw [hsc] at hlt
  simp only at hlt ⊢
  have heq : base_uint.EqualTo t 0 = decide (t = 0) := by
    unfold base_uint.EqualTo
    rw [Bool.eq_iff_iff]
    simp
  rw [heq]
  by_cases hbad : fNegative = true ∨ fOverflow = true ∨ t = 0
  · rw [if_pos hbad, if_pos]
    rcases hbad with h | h | h
    · simp [h]
    · simp [h]
    · simp [h]
  · rw [if_neg hbad, if_neg]
    · have ht0 : t ≠ 0 := fun h => hbad (Or.inr (Or.inr h))
      obtain ⟨h1, h2, -, -⟩ := work_formula t hlt ht0
      rw [h1]
      simp only
      rw [h2]
    · intro h
      apply hbad
      simp only [Bool.or_eq_true, decide_eq_true_eq] at h
      tauto

theorem GetBlockProof_lt (block : CBlockIndex) (p : Nat) (h : GetBlockProof block = .ok p) :
    p < 2 ^ 256 := by
  rw [GetBlockProof_eq] at h
  have hp := Except.ok.inj h
  rw [← hp]
  split
  · exact Nat.two_pow_pos _
  · exact Nat.div_lt_self (Nat.two_pow_pos _) (Nat.succ_lt_succ (Nat.pos_of_ne_zero (by tauto)))

/-! ## `GetBlockProofEquivalentTime` -/

theorem sub_mod (a b : Nat) (h : b ≤ a) : base_uint.sub a b = (a - b) % 2 ^ 256 := by
  unfold base_uint.sub arith_uint256
  omega

/-- The scaled work difference, when it fits 256 bits. -/
theorem mul_sub_spacing (a b s : Nat) (h : b ≤ a) (hlt : (a - b) * s < 2 ^ 256) :
    base_uint.mul (base_uint.sub a b) s = (a - b) * s := by
  unfold base_uint.mul
  rw [sub_mod a b h, Nat.mul_mod, Nat.mod_mod, ← Nat.mul_mod, Nat.mod_eq_of_lt hlt]

theorem toUint64_of_nonneg (s : Int) (h0 : 0 ≤ s) (h1 : s < 2 ^ 63) : toUint64 s = s.toNat := by
  unfold toUint64
  rw [Int.emod_eq_of_lt h0 (by omega)]

theorem toInt64_pos (r : Nat) (h : r < 2 ^ 63) : toInt64 (toUint64 1 * base_uint.GetLow64 r) = r := by
  unfold toInt64 toUint64 base_uint.GetLow64
  have h1 : ((1 : Int) % 2 ^ 64).toNat = 1 := by decide
  rw [h1, Nat.one_mul, Nat.mod_mod]
  have h2 : r % 2 ^ 64 = r := Nat.mod_eq_of_lt (by omega)
  rw [h2, if_pos h]

theorem toInt64_neg (r : Nat) (h : r < 2 ^ 63) :
    toInt64 (toUint64 (-1) * base_uint.GetLow64 r) = -(r : Int) := by
  unfold toInt64 toUint64 base_uint.GetLow64
  have h1 : ((-1 : Int) % 2 ^ 64).toNat = 2 ^ 64 - 1 := by decide
  have h2 : r % 2 ^ 64 = r := Nat.mod_eq_of_lt (by omega)
  rw [h1, h2]
  by_cases hr : r = 0
  · subst hr
    simp
  · have h3 : (2 ^ 64 - 1) * r % 2 ^ 64 = 2 ^ 64 - r := by omega
    rw [h3, if_neg (by omega)]
    omega

/-- The value of `GetBlockProofEquivalentTime`, with `d` the absolute work
difference and `s` the target spacing. -/
theorem GetBlockProofEquivalentTime_spec (blockTo blockFrom tip : CBlockIndex)
    (params : Consensus.Params) (p : Nat)
    (hp : GetBlockProof tip = .ok p) (hp0 : p ≠ 0)
    (hs0 : 0 ≤ params.nPowTargetSpacing) (hs1 : params.nPowTargetSpacing < 2 ^ 63)
    (hlt : Int.natAbs ((blockTo.nChainWork : Int) - (blockFrom.nChainWork : Int)) *
      params.nPowTargetSpacing.toNat < 2 ^ 256) :
    GetBlockProofEquivalentTime blockTo blockFrom tip params =
      .ok ((if blockTo.nChainWork > blockFrom.nChainWork then 1 else -1) *
        ((min (Int.natAbs ((blockTo.nChainWork : Int) - (blockFrom.nChainWork : Int)) *
          params.nPowTargetSpacing.toNat / p) (2 ^ 63 - 1) : Nat) : Int)) := by
  have hp256 := GetBlockProof_lt tip p hp
  unfold GetBlockProofEquivalentTime
  rw [hp]
  simp only
  rw [toUint64_of_nonneg _ hs0 hs1]
  have hs : params.nPowTargetSpacing.toNat < 2 ^ 63 := by omega
  have hof : base_uint.ofUint64 params.nPowTargetSpacing.toNat = params.nPowTargetSpacing.toNat := by
    unfold base_uint.ofUint64
    exact Nat.mod_eq_of_lt (by omega)
  rw [hof]
  generalize params.nPowTargetSpacing.toNat = s at hlt hs ⊢
  generalize blockTo.nChainWork = a at hlt ⊢
  generalize blockFrom.nChainWork = b at hlt ⊢
  have key : ∀ (d : Nat) (sign : Int), (sign = 1 ∨ sign = -1) → d * s < 2 ^ 256 →
      (match base_uint.div (d * s) p with
        | .error e => (.error e : Except Err Int)
        | .ok r =>
          if base_uint.bits r > 63 then .ok (sign * (2 ^ 63 - 1))
          else .ok (toInt64 (toUint64 sign * base_uint.GetLow64 r))) =
        .ok (sign * ((min (d * s / p) (2 ^ 63 - 1) : Nat) : Int)) := by
    intro d sign hsign hd
    rw [div_spec (d * s) p hd hp256 hp0]
    simp only
    have hr : d * s / p < 2 ^ 256 := lt_of_le_of_lt (Nat.div_le_self _ _) hd
    generalize d * s / p = r at hr
    by_cases hb : base_uint.bits r > 63
    · rw [if_pos hb]
      have h63 := (bits_gt_63 r hr).1 hb
      rw [Nat.min_eq_right (by omega)]
      norm_num
    · rw [if_neg hb]
      have h63 : r < 2 ^ 63 := by
        by_contra hge
        exact hb ((bits_gt_63 r hr).2 (by omega))
      rw [Nat.min_eq_left (by omega)]
      rcases hsign with h | h
      · rw [h, toInt64_pos r h63, Int.one_mul]
      · rw [h, toInt64_neg r h63]
        rw [neg_one_mul (r : Int)]
  unfold base_uint.CompareTo
  by_cases hab : a > b
  · have hc : (if a < b then (-1 : Int) else if a > b then 1 else 0) > 0 := by
      rw [if_neg (by omega), if_pos hab]
      decide
    rw [if_pos hc, if_pos hab]
    have hn : Int.natAbs ((a : Int) - (b : Int)) = a - b := by omega
    rw [hn] at hlt ⊢
    simp only
    rw [mul_sub_spacing a b s (by omega) hlt]
    exact key (a - b) 1 (Or.inl rfl) hlt
  · have hc : ¬ (if a < b then (-1 : Int) else if a > b then 1 else 0) > 0 := by
      rw [if_neg hab]
      split <;> decide
    rw [if_neg hc, if_neg hab]
    have hn : Int.natAbs ((a : Int) - (b : Int)) = b - a := by omega
    rw [hn] at hlt ⊢
    simp only
    rw [mul_sub_spacing b a s (by omega) hlt]
    exact key (b - a) (-1) (Or.inr rfl) hlt

/-! ## When `GetBlockProofEquivalentTime` raises -/

theorem mul_lt (a b : Nat) : base_uint.mul a b < 2 ^ 256 := by
  unfold base_uint.mul
  exact Nat.mod_lt _ (Nat.two_pow_pos _)

/-- The work of a block is zero exactly when its target decodes as negative,
overflowed or zero. -/
theorem GetBlockProof_zero_iff (block : CBlockIndex) :
    GetBlockProof block = .ok 0 ↔
      ((SetCompact block.nBits).2.1 = true ∨ (SetCompact block.nBits).2.2 = true ∨
        (SetCompact block.nBits).1 = 0) := by
  rw [GetBlockProof_eq]
  constructor
  · intro h
    by_contra hbad
    rw [if_neg hbad] at h
    have ht0 : (SetCompact block.nBits).1 ≠ 0 := fun h0 => hbad (Or.inr (Or.inr h0))
    obtain ⟨-, -, -, h4⟩ := work_formula _ (SetCompact_lt block.nBits) ht0
    exact h4 (Except.ok.inj h)
  · intro hbad
    rw [if_pos hbad]

/-- The function `GetBlockProofEquivalentTime` raises the division error when
the work of the tip is zero, and returns otherwise. -/
theorem GetBlockProofEquivalentTime_cases (blockTo blockFrom tip : CBlockIndex)
    (params : Consensus.Params) (p : Nat) (hp : GetBlockProof tip = .ok p) :
    (p = 0 → GetBlockProofEquivalentTime blockTo blockFrom tip params = .error .divisionByZero) ∧
    (p ≠ 0 → ∃ v, GetBlockProofEquivalentTime blockTo blockFrom tip params = .ok v) := by
  have hp256 := GetBlockProof_lt tip p hp
  unfold GetBlockProofEquivalentTime
  rw [hp]
  simp only
  constructor
  · intro h0
    subst h0
    unfold base_uint.div
    rw [if_pos rfl]
  · intro h0
    rw [div_spec _ p (mul_lt _ _) hp256 h0]
    simp only
    split_ifs <;> exact ⟨_, rfl⟩

/-! ## The skip height in terms of powers of two -/

/-- The function `InvertLowestOne` on a natural number. -/
theorem InvertLowestOne_nat (n : Nat) :
    InvertLowestOne (n : Int) = ((n &&& (n - 1) : Nat) : Int) := by
  cases n with
  | zero => exact InvertLowestOne_zero
  | succ k => exact InvertLowestOne_succ k

/-- Clearing the lowest set bit: `n & (n - 1)` takes the largest power of two
that divides `n` off `n`. -/
theorem and_pred (k m : Nat) :
    (2 ^ k * (2 * m + 1)) &&& (2 ^ k * (2 * m + 1) - 1) = 2 ^ k * (2 * m + 1) - 2 ^ k := by
  have hpos : 0 < 2 ^ k := Nat.two_pow_pos k
  have e1 : 2 ^ k * (2 * m + 1) = 2 ^ (k + 1) * m + 2 ^ k := by
    rw [pow_succ]
    ring
  have e2 : 2 ^ k * (2 * m + 1) - 1 = 2 ^ (k + 1) * m + (2 ^ k - 1) := by
    rw [e1]
    omega
  have hlt1 : 2 ^ k < 2 ^ (k + 1) := Nat.pow_lt_pow_right (by decide) (Nat.lt_succ_self k)
  rw [e2, e1, Nat.mul_add_lt_is_or hlt1, Nat.mul_add_lt_is_or (by omega : 2 ^ k - 1 < 2 ^ (k + 1)),
    ← Nat.or_and_distrib_left, Nat.and_pow_two_sub_one_eq_mod, Nat.mod_self, Nat.or_zero]
  rw [← Nat.mul_add_lt_is_or hlt1]
  omega

/-- Every positive number has a lowest set bit `2^k`, the largest power of two
that divides it, and `InvertLowestOne` takes it off. -/
theorem InvertLowestOne_pos (n : Nat) (hn : n ≠ 0) :
    ∃ k : Nat, 2 ^ k ∣ n ∧ ¬ 2 ^ (k + 1) ∣ n ∧ 2 ^ k ≤ n ∧ 2 ^ (k + 1) ∣ n - 2 ^ k ∧
      InvertLowestOne (n : Int) = ((n - 2 ^ k : Nat) : Int) := by
  obtain ⟨k, m, hodd, hnm⟩ := Nat.exists_eq_two_pow_mul_odd hn
  obtain ⟨j, hj⟩ := hodd
  subst hj
  refine ⟨k, ⟨_, hnm⟩, ?_, ?_, ?_, ?_⟩
  · rintro ⟨c, hc⟩
    rw [hnm, pow_succ, Nat.mul_assoc] at hc
    have := Nat.eq_of_mul_eq_mul_left (Nat.two_pow_pos k) hc
    omega
  · rw [hnm]
    exact Nat.le_mul_of_pos_right _ (by omega)
  · refine ⟨j, ?_⟩
    rw [hnm, pow_succ]
    have : 2 ^ k * (2 * j + 1) = 2 ^ k * 2 * j + 2 ^ k := by ring
    rw [this, Nat.add_sub_cancel]
  · rw [InvertLowestOne_nat, hnm, and_pred]

theorem Int_land_one (n : Nat) : Int.land (n : Int) 1 = ((n % 2 : Nat) : Int) := by
  show ((n &&& 1 : Nat) : Int) = _
  rw [Nat.and_one_is_mod]

/-- The function `GetSkipHeight` on a natural number, with the bit operations
taken on natural numbers. -/
theorem GetSkipHeight_nat (n : Nat) :
    GetSkipHeight (n : Int) =
      if n < 2 then 0
      else if n % 2 = 1 then
        ((((n - 1) &&& (n - 2)) &&& (((n - 1) &&& (n - 2)) - 1) : Nat) : Int) + 1
      else ((n &&& (n - 1) : Nat) : Int) := by
  unfold GetSkipHeight
  by_cases h2 : n < 2
  · rw [if_pos (by omega), if_pos h2]
  · rw [if_neg (by omega), if_neg h2, Int_land_one]
    have hn1 : (n : Int) - 1 = ((n - 1 : Nat) : Int) := by omega
    by_cases hodd : n % 2 = 1
    · rw [if_pos (by rw [hodd]; decide), if_pos hodd, hn1, InvertLowestOne_nat,
        InvertLowestOne_nat]
      have : n - 1 - 1 = n - 2 := by omega
      rw [this]
    · rw [if_neg hodd, InvertLowestOne_nat]
      have : n % 2 = 0 := by omega
      rw [this]
      simp

/-! ## `BuildSkip` -/

/-- Changing a cell that is not on the `pprev`-chain of `q` does not change
the walk from `q`. -/
theorem pprevWalk_update (A : Arena) (n : Nat) (x : CBlockIndex) (q : Nat)
    (hav : ∀ k m, pprevWalk A (some q) k = some m → m ≠ n) :
    ∀ k, pprevWalk (Function.update A n x) (some q) k = pprevWalk A (some q) k := by
  intro k
  induction k generalizing q with
  | zero => rfl
  | succ k ih =>
    rw [pprevWalk_succ, pprevWalk_succ]
    have hq : q ≠ n := hav 0 q rfl
    rw [Function.update_noteq hq]
    cases hp : (A q).pprev with
    | none => rw [pprevWalk_none, pprevWalk_none]
    | some q' =>
      apply ih
      intro j m hm
      apply hav (j + 1) m
      rw [pprevWalk_succ, hp]
      exact hm

/-- Changing a cell that is not on the `pprev`-chain of a well-formed node
leaves the node well-formed. -/
theorem WellFormed_update (A : Arena) (n : Nat) (x : CBlockIndex) (q : Nat)
    (hwf : WellFormed A q) (hav : ∀ k m, pprevWalk A (some q) k = some m → m ≠ n) :
    WellFormed (Function.update A n x) q := by
  intro k m hm
  rw [pprevWalk_update A n x q hav] at hm
  have hok := hwf k m hm
  have hmn : m ≠ n := hav k m hm
  have havm : ∀ j y, pprevWalk A (some m) j = some y → y ≠ n := by
    intro j y hy
    apply hav (k + j) y
    rw [pprevWalk_add, hm, hy]
  unfold NodeOK at hok ⊢
  rw [Function.update_noteq hmn]
  refine ⟨hok.1, ?_, ?_⟩
  · have hp := hok.2.1
    cases hpp : (A m).pprev with
    | none => rw [hpp] at hp; exact hp
    | some q' =>
      rw [hpp] at hp
      simp only at hp ⊢
      have : q' ≠ n := havm 1 q' (by rw [pprevWalk_succ, hpp]; rfl)
      rw [Function.update_noteq this]
      exact hp
  · have hs := hok.2.2
    cases hss : (A m).pskip with
    | none => trivial
    | some s =>
      rw [hss] at hs
      simp only at hs ⊢
      rw [pprevWalk_update A n x m havm]
      exact hs

/-- What `BuildSkip` does to a node whose parent is well-formed and sits one
below it: the skip pointer becomes the node the `pprev` walk reaches at height
`GetSkipHeight(nHeight)`, and the node is well-formed afterwards. -/
theorem BuildSkip_spec (A : Arena) (n q : Nat) (hp : (A n).pprev = some q)
    (hwf : WellFormed A q) (hq : (A q).nHeight = (A n).nHeight - 1) :
    ∃ s, BuildSkip A n = .ok (Function.update A n { A n with pskip := some s }) ∧
      pprevWalk A (some n) ((A n).nHeight - GetSkipHeight (A n).nHeight).toNat = some s ∧
      (A s).nHeight = GetSkipHeight (A n).nHeight ∧
      WellFormed (Function.update A n { A n with pskip := some s }) n := by
  have hq0 := hwf.nodeOK.1
  have hb := GetSkipHeight_bounds (h := (A n).nHeight) (by omega)
  obtain ⟨s, w1, w2, w3⟩ := GetAncestor_spec A q hwf (GetSkipHeight (A n).nHeight) hb.1
    (by omega)
  have hwalk : pprevWalk A (some n) ((A n).nHeight - GetSkipHeight (A n).nHeight).toNat
      = some s := by
    have : ((A n).nHeight - GetSkipHeight (A n).nHeight).toNat
        = ((A q).nHeight - GetSkipHeight (A n).nHeight).toNat + 1 := by omega
    rw [this, pprevWalk_succ, hp]
    exact w1
  have hav : ∀ k m, pprevWalk A (some q) k = some m → m ≠ n := by
    intro k m hm hmn
    have h1 := hwf.walk_height hm
    rw [hmn] at h1
    omega
  refine ⟨s, ?_, hwalk, w3, ?_⟩
  · unfold BuildSkip
    rw [hp]
    simp only
    rw [w2]
    rfl
  · intro k m hm
    have hpp : ∀ i, (Function.update A n { A n with pskip := some s } i).pprev = (A i).pprev := by
      intro i
      by_cases hi : i = n
      · subst hi
        rw [Function.update_same]
      · rw [Function.update_noteq hi]
    rw [pprevWalk_congr A _ hpp] at hm
    cases k with
    | zero =>
      rw [pprevWalk_zero] at hm
      have hmn : m = n := (Option.some.inj hm).symm
      subst hmn
      unfold NodeOK
      rw [Function.update_same]
      refine ⟨by show 0 ≤ (A m).nHeight; omega, ?_, ?_⟩
      · show (match (A m).pprev with
          | none => (A m).nHeight = 0
          | some q' => (Function.update A m { A m with pskip := some s } q').nHeight
              = (A m).nHeight - 1)
        rw [hp]
        simp only
        rw [Function.update_noteq (hav 0 q rfl)]
        exact hq
      · show pprevWalk _ (some m) ((A m).nHeight - GetSkipHeight (A m).nHeight).toNat = some s
        rw [pprevWalk_congr A _ hpp]
        exact hwalk
    | succ k =>
      rw [pprevWalk_succ, hp] at hm
      exact WellFormed_update A n _ q hwf hav k m (by rw [pprevWalk_update A n _ q hav]; exact hm)

/-- The function `BuildSkip` on a node without parent. -/
theorem BuildSkip_null (A : Arena) (n : Nat) (hp : (A n).pprev = none) :
    BuildSkip A n = .ok A := by
  unfold BuildSkip
  rw [hp]

/-! ## The loop of `GetAncestor` -/

/-- The loop of `GetAncestor` runs its body while `heightWalk > height`. -/
theorem GetAncestorLoop_step (A : Arena) (height : Int) (fuel p : Nat) (hw : Int) :
    GetAncestorLoop A height (fuel + 1) p hw =
      if hw > height then
        match GetAncestorStep A height p hw with
        | .error e => .error e
        | .ok (p', hw') => GetAncestorLoop A height fuel p' hw'
      else .ok (some p) := by
  rw [GetAncestorLoop]
  unfold GetAncestorStep
  split
  · cases (A p).pskip with
    | none => cases (A p).pprev <;> rfl
    | some s =>
      simp only
      split
      · rfl
      · cases (A p).pprev <;> rfl
  · rfl

/-- One iteration of the loop of `GetAncestor` from a well-formed node above
the target height: the assertion holds, the new node is a well-formed node of
the new height on the chain of the old one, and the new height is below the
old one and not below the target. -/
theorem GetAncestorStep_spec (A : Arena) (height : Int) (p : Nat) (hw : Int)
    (hwf : WellFormed A p) (hp : (A p).nHeight = hw) (h0 : 0 ≤ height) (hgt : height < hw) :
    ∃ p' hw', GetAncestorStep A height p hw = .ok (p', hw') ∧ height ≤ hw' ∧ hw' < hw ∧
      (A p').nHeight = hw' ∧ WellFormed A p' ∧ OnChain A p p' := by
  have hb := GetSkipHeight_bounds (h := hw) (by omega)
  obtain ⟨q, hq⟩ := hwf.pprev_isSome (by omega)
  have hwq : WellFormed A q := hwf.walk (k := 1) (by rw [pprevWalk_succ, hq]; rfl)
  have hqh : (A q).nHeight = hw - 1 := by rw [hwf.pprev_height hq, hp]
  have hprev : ∃ p' hw', (Except.ok (q, hw - 1) : Except Err (Nat × Int)) = .ok (p', hw') ∧
      height ≤ hw' ∧ hw' < hw ∧ (A p').nHeight = hw' ∧ WellFormed A p' ∧ OnChain A p p' :=
    ⟨q, hw - 1, rfl, by omega, by omega, hqh, hwq, ⟨1, by rw [pprevWalk_succ, hq]; rfl⟩⟩
  unfold GetAncestorStep
  cases hs : (A p).pskip with
  | none =>
    simp only [hq]
    exact hprev
  | some s =>
    simp only [hq]
    split
    · rename_i hc
      have hge : height ≤ GetSkipHeight hw := by
        rcases hc with hc | hc
        · omega
        · omega
      have hsk := hwf.nodeOK.2.2
      rw [hs, hp] at hsk
      simp only at hsk
      refine ⟨s, GetSkipHeight hw, rfl, hge, hb.2, ?_, hwf.walk hsk, ⟨_, hsk⟩⟩
      rw [hwf.walk_height hsk, hp]
      omega
    · exact hprev

/-- The number of iterations of the loop of `GetAncestor` from a well-formed
node: the loop finishes within `heightWalk - height` iterations. -/
theorem GetAncestorHops_spec (A : Arena) (height : Int) (h0 : 0 ≤ height) :
    ∀ (fuel p : Nat) (hw : Int), WellFormed A p → (A p).nHeight = hw → height ≤ hw →
      (hw - height).toNat ≤ fuel →
      ∃ k, GetAncestorHops A height fuel p hw = .ok k ∧ (k : Int) ≤ hw - height := by
  intro fuel
  induction fuel with
  | zero =>
    intro p hw _ _ hle hf
    refine ⟨0, ?_, by omega⟩
    unfold GetAncestorHops
    rw [if_neg (by omega)]
  | succ fuel ih =>
    intro p hw hwf hp hle hf
    unfold GetAncestorHops
    by_cases hgt : hw > height
    · rw [if_pos hgt]
      obtain ⟨p', hw', e1, e2, e3, e4, e5, -⟩ := GetAncestorStep_spec A height p hw hwf hp h0 hgt
      rw [e1]
      simp only
      obtain ⟨k, hk1, hk2⟩ := ih p' hw' e5 e4 e2 (by omega)
      rw [hk1]
      exact ⟨k + 1, rfl, by push_cast; omega⟩
    · rw [if_neg hgt]
      exact ⟨0, rfl, by omega⟩

/-! ## The chain built node by node -/

theorem linkedChain_succ_ne (N i : Nat) (hi : i ≠ N) : linkedChain (N + 1) i = linkedChain N i := by
  unfold linkedChain
  by_cases h : i < N
  · by_cases h0 : 0 < i
    · rw [if_pos ⟨by omega, h0⟩, if_pos ⟨h, h0⟩]
    · rw [if_neg (fun hc => h0 hc.2), if_neg (fun hc => h0 hc.2)]
  · rw [if_neg (fun hc => by omega), if_neg (fun hc => h hc.1)]

/-- Creating the nodes one after the other and calling `BuildSkip` on each
gives the heap `linkedChain N`. -/
theorem buildChain_eq (N : Nat) : buildChain N = .ok (linkedChain N) := by
  induction N with
  | zero =>
    show Except.ok (fun _ => ({} : CBlockIndex)) = Except.ok (linkedChain 0)
    congr 1
  | succ N ih =>
    rw [buildChain, ih]
    simp only
    by_cases hN : N = 0
    · subst hN
      rw [BuildSkip_null _ 0 (by rw [Function.update_same]; rfl)]
      congr 1
      funext i
      by_cases hi : i = 0
      · subst hi
        rw [Function.update_same]
        rfl
      · rw [Function.update_noteq hi, linkedChain_succ_ne 0 i hi]
    · rw [if_neg hN]
      have hav : ∀ k m, pprevWalk (linkedChain N) (some (N - 1)) k = some m → m ≠ N := by
        intro k m hm
        rw [linkedChain_walk N k (N - 1) (by omega)] at hm
        split at hm
        · cases hm
          omega
        · cases hm
      have hwf := WellFormed_update (linkedChain N) N
        { nHeight := (N : Int), pprev := some (N - 1) } (N - 1)
        (linkedChain_wellFormed N (N - 1) (by omega)) hav
      have hne : N - 1 ≠ N := by omega
      obtain ⟨s, h1, h2, -, -⟩ := BuildSkip_spec
        (Function.update (linkedChain N) N { nHeight := (N : Int), pprev := some (N - 1) })
        N (N - 1) (by rw [Function.update_same]) hwf
        (by
          rw [Function.update_same, Function.update_noteq hne,
            linkedChain_nHeight N (N - 1) (by omega)]
          show ((N - 1 : Nat) : Int) = (N : Int) - 1
          omega)
      rw [h1]
      rw [Function.update_same] at h2
      have hb := GetSkipHeight_bounds (h := (N : Int)) (by omega)
      have hs : s = (GetSkipHeight (N : Int)).toNat := by
        have hcast : (((N : Int) - GetSkipHeight (N : Int)).toNat)
            = ((N : Int) - GetSkipHeight (N : Int)).toNat - 1 + 1 := by omega
        have h3 : pprevWalk (Function.update (linkedChain N) N
            { nHeight := (N : Int), pprev := some (N - 1) }) (some N)
            ((N : Int) - GetSkipHeight (N : Int)).toNat = some s := h2
        rw [hcast, pprevWalk_succ, Function.update_same] at h3
        simp only at h3
        rw [pprevWalk_update _ N _ (N - 1) hav, linkedChain_walk N _ (N - 1) (by omega)] at h3
        split at h3
        · have := Option.some.inj h3
          omega
        · cases h3
      congr 1
      funext i
      by_cases hi : i = N
      · subst hi
        rw [Function.update_same, Function.update_same, hs]
        unfold linkedChain
        rw [if_pos ⟨by omega, by omega⟩]
      · rw [Function.update_noteq hi, Function.update_noteq hi, linkedChain_succ_ne N i hi]

/-! ## Counting the iterations of `GetAncestor` on the linked chain -/

/-- The value of `GetSkipHeight` at a natural number, with the bit operations
evaluated on natural numbers. -/
theorem GetSkipHeight_val (n v : Nat)
    (h : (if n < 2 then 0
      else if n % 2 = 1 then (((n - 1) &&& (n - 2)) &&& (((n - 1) &&& (n - 2)) - 1)) + 1
      else n &&& (n - 1)) = v) :
    GetSkipHeight (n : Int) = (v : Int) := by
  rw [GetSkipHeight_nat, ← h]
  split
  · rfl
  · split
    · exact (Nat.cast_succ _).symm
    · rfl

/-- An iteration of `GetAncestor` on the linked chain that takes the skip edge. -/
theorem linkedChain_step_skip (N p sk skp : Nat) (h : Int) (hp : 0 < p) (hpN : p < N)
    (hsk : GetSkipHeight (p : Int) = (sk : Int))
    (hskp : GetSkipHeight ((p : Int) - 1) = (skp : Int))
    (hc : (sk : Int) = h ∨ ((sk : Int) > h ∧ ¬ ((skp : Int) < (sk : Int) - 2 ∧ (skp : Int) ≥ h))) :
    GetAncestorStep (linkedChain N) h p (p : Int) = .ok (sk, (sk : Int)) := by
  unfold GetAncestorStep
  rw [linkedChain_pskip N p hpN, if_neg (by omega), hsk, hskp]
  simp only
  rw [if_pos hc]
  rfl

/-- An iteration of `GetAncestor` on the linked chain that takes the parent edge. -/
theorem linkedChain_step_prev (N p sk skp : Nat) (h : Int) (hp : 0 < p) (hpN : p < N)
    (hsk : GetSkipHeight (p : Int) = (sk : Int))
    (hskp : GetSkipHeight ((p : Int) - 1) = (skp : Int))
    (hc : ¬ ((sk : Int) = h ∨
      ((sk : Int) > h ∧ ¬ ((skp : Int) < (sk : Int) - 2 ∧ (skp : Int) ≥ h)))) :
    GetAncestorStep (linkedChain N) h p (p : Int) = .ok (p - 1, ((p - 1 : Nat) : Int)) := by
  unfold GetAncestorStep
  rw [linkedChain_pskip N p hpN, if_neg (by omega), hsk, hskp, linkedChain_pprev N p hpN,
    if_neg (by omega)]
  simp only
  rw [if_neg hc]
  congr 2
  omega

theorem GetAncestorHops_of_step (A : Arena) (h : Int) (fuel p : Nat) (hw : Int) (p' : Nat)
    (hw' : Int) (hf : 0 < fuel) (hgt : hw > h)
    (hs : GetAncestorStep A h p hw = .ok (p', hw')) :
    GetAncestorHops A h fuel p hw = (GetAncestorHops A h (fuel - 1) p' hw').map (· + 1) := by
  obtain ⟨f, rfl⟩ : ∃ f, fuel = f + 1 := ⟨fuel - 1, by omega⟩
  rw [GetAncestorHops, if_pos hgt, hs]
  rfl

theorem GetAncestorHops_done (A : Arena) (h : Int) (fuel p : Nat) (hw : Int) (hle : ¬ hw > h) :
    GetAncestorHops A h fuel p hw = .ok 0 := by
  cases fuel with
  | zero => rw [GetAncestorHops, if_neg hle]
  | succ f => rw [GetAncestorHops, if_neg hle]

/-- The ten iterations of `GetAncestor(500)` from node 999 of the chain of
1000 nodes: skip edges to 993, 897 and 513, parent edges to 512 and 511, the
skip edge to 505, parent edges to 504, 503 and 502, and the skip edge to 500. -/
theorem linkedChain_1000_hops :
    GetAncestorHops (linkedChain 1000) 500 499 999 999 = .ok 10 := by
  have s999 := linkedChain_step_skip 1000 999 993 996 500 (by decide) (by decide)
    (GetSkipHeight_val 999 993 (by decide)) (GetSkipHeight_val 998 996 (by decide)) (by decide)
  have s993 := linkedChain_step_skip 1000 993 897 960 500 (by decide) (by decide)
    (GetSkipHeight_val 993 897 (by decide)) (GetSkipHeight_val 992 960 (by decide)) (by decide)
  have s897 := linkedChain_step_skip 1000 897 513 768 500 (by decide) (by decide)
    (GetSkipHeight_val 897 513 (by decide)) (GetSkipHeight_val 896 768 (by decide)) (by decide)
  have s513 := linkedChain_step_prev 1000 513 1 0 500 (by decide) (by decide)
    (GetSkipHeight_val 513 1 (by decide)) (GetSkipHeight_val 512 0 (by decide)) (by decide)
  have s512 := linkedChain_step_prev 1000 512 0 505 500 (by decide) (by decide)
    (GetSkipHeight_val 512 0 (by decide)) (GetSkipHeight_val 511 505 (by decide)) (by decide)
  have s511 := linkedChain_step_skip 1000 511 505 508 500 (by decide) (by decide)
    (GetSkipHeight_val 511 505 (by decide)) (GetSkipHeight_val 510 508 (by decide)) (by decide)
  have s505 := linkedChain_step_prev 1000 505 481 496 500 (by decide) (by decide)
    (GetSkipHeight_val 505 481 (by decide)) (GetSkipHeight_val 504 496 (by decide)) (by decide)
  have s504 := linkedChain_step_prev 1000 504 496 497 500 (by decide) (by decide)
    (GetSkipHeight_val 504 496 (by decide)) (GetSkipHeight_val 503 497 (by decide)) (by decide)
  have s503 := linkedChain_step_prev 1000 503 497 500 500 (by decide) (by decide)
    (GetSkipHeight_val 503 497 (by decide)) (GetSkipHeight_val 502 500 (by decide)) (by decide)
  have s502 := linkedChain_step_skip 1000 502 500 481 500 (by decide) (by decide)
    (GetSkipHeight_val 502 500 (by decide)) (GetSkipHeight_val 501 481 (by decide)) (by decide)
  rw [GetAncestorHops_of_step _ 500 499 999 999 993 993 (by decide) (by decide) s999,
    GetAncestorHops_of_step _ 500 _ 993 993 897 897 (by decide) (by decide) s993,
    GetAncestorHops_of_step _ 500 _ 897 897 513 513 (by decide) (by decide) s897,
    GetAncestorHops_of_step _ 500 _ 513 513 512 512 (by decide) (by decide) s513,
    GetAncestorHops_of_step _ 500 _ 512 512 511 511 (by decide) (by decide) s512,
    GetAncestorHops_of_step _ 500 _ 511 511 505 505 (by decide) (by decide) s511,
    GetAncestorHops_of_step _ 500 _ 505 505 504 504 (by decide) (by decide) s505,
    GetAncestorHops_of_step _ 500 _ 504 504 503 503 (by decide) (by decide) s504,
    GetAncestorHops_of_step _ 500 _ 503 503 502 502 (by decide) (by decide) s503,
    GetAncestorHops_of_step _ 500 _ 502 502 500 500 (by decide) (by decide) s502,
    GetAncestorHops_done _ 500 _ 500 500 (by decide)]
  rfl

/-! ## What `SetTip` leaves in place -/

/-- After `SetTip(n)` the slots at and below a node of `n`'s chain that the
chain contained hold what they held before. -/
theorem SetTip_frame_below (A : Arena) (c c' : CChain) (n H : Nat) (hinv : c.Inv A)
    (hwf : WellFormed A n) (hH : (A n).nHeight = (H : Int))
    (hlen : c'.vChain.length = H + 1)
    (hs : ∀ i, i ≤ H → c'.vChain.getD i none = pprevWalk A (some n) (H - i))
    (f : Nat) (hon : OnChain A n f) (hc : c.Contains A f = true) (i : Int)
    (hi : i ≤ (A f).nHeight) : c'.at i = c.at i := by
  obtain ⟨k, hk⟩ := hon
  have hfh := hwf.walk_height hk
  have hwff := hwf.walk hk
  have hf0 := hwff.nodeOK.1
  by_cases h0 : 0 ≤ i
  · obtain ⟨I, rfl⟩ := Int.eq_ofNat_of_zero_le h0
    rw [Inv_at_below A c hinv f hwff hc (I : Int) h0 hi]
    unfold CChain.at
    rw [if_pos ⟨h0, by omega⟩]
    show c'.vChain.getD I none = _
    rw [hs I (by omega)]
    have e : H - I = k + ((A f).nHeight - (I : Int)).toNat := by omega
    rw [e, pprevWalk_add, hk]
  · unfold CChain.at
    rw [if_neg (fun h => h0 h.1), if_neg (fun h => h0 h.1)]

/-- In a chain that satisfies the invariant, the tip is null exactly when the
chain is empty, and a non-null tip has height `Height()`. -/
theorem Inv_tip (A : Arena) (c : CChain) (hinv : c.Inv A) :
    (c.Tip = none → c.vChain.length = 0) ∧
    (∀ t, c.Tip = some t → c.vChain.length ≠ 0 ∧
      c.vChain.getD (c.vChain.length - 1) none = some t ∧
      (A t).nHeight = ((c.vChain.length - 1 : Nat) : Int)) := by
  unfold CChain.Tip
  by_cases he : c.vChain.length = 0
  · have : c.vChain = [] := List.length_eq_zero.mp he
    rw [this]
    exact ⟨fun _ => rfl, fun t ht => by cases ht⟩
  · have hne : c.vChain.isEmpty = false := by
      cases hv : c.vChain with
      | nil => rw [hv] at he; exact absurd rfl he
      | cons a l => rfl
    rw [hne]
    obtain ⟨p, h1, h2, -, -⟩ := hinv (c.vChain.length - 1) (by omega)
    simp only [Bool.false_eq_true, if_false]
    rw [h1]
    refine ⟨fun h => (by cases h), fun t ht => ?_⟩
    cases ht
    exact ⟨he, rfl, h2⟩

/-- When `n.pprev` is the tip, `SetTip(n)` appends one slot holding `n`. -/
theorem SetTip_append (A : Arena) (c c' : CChain) (n H : Nat) (hinv : c.Inv A)
    (hwf : WellFormed A n) (hH : (A n).nHeight = (H : Int))
    (hlen : c'.vChain.length = H + 1)
    (hs : ∀ i, i ≤ H → c'.vChain.getD i none = pprevWalk A (some n) (H - i))
    (hp : (A n).pprev = c.Tip) : c'.vChain = c.vChain ++ [some n] := by
  have htip := Inv_tip A c hinv
  have hcl : c.vChain.length = H ∧
      ∀ i, i < H → c.vChain.getD i none = pprevWalk A (some n) (H - i) := by
    cases ht : c.Tip with
    | none =>
      rw [ht] at hp
      have h1 := htip.1 ht
      have h2 := hwf.nodeOK.2.1
      rw [hp] at h2
      simp only at h2
      refine ⟨by omega, fun i hi => by omega⟩
    | some t =>
      rw [ht] at hp
      obtain ⟨h1, h2, h3⟩ := htip.2 t ht
      have h4 := hwf.pprev_height hp
      have hL : c.vChain.length = H := by omega
      refine ⟨hL, fun i hi => ?_⟩
      have hwft : WellFormed A t := hwf.walk (k := 1) (by rw [pprevWalk_succ, hp, pprevWalk_zero])
      have hct : c.Contains A t = true := by
        unfold CChain.Contains CChain.at
        rw [if_pos ⟨by omega, by omega⟩, h3]
        show (c.vChain.getD (c.vChain.length - 1) none == some t) = true
        rw [h2]
        exact beq_self_eq_true _
      have h5 := Inv_at_below A c hinv t hwft hct (i : Int) (by omega) (by omega)
      unfold CChain.at at h5
      rw [if_pos ⟨by omega, by omega⟩] at h5
      have h6 : c.vChain.getD i none = pprevWalk A (some t) ((A t).nHeight - (i : Int)).toNat := h5
      rw [h6]
      have e : H - i = 1 + ((A t).nHeight - (i : Int)).toNat := by omega
      rw [e, pprevWalk_add, pprevWalk_succ, hp, pprevWalk_zero]
  apply List.ext_getElem
  · rw [hlen, List.length_append, hcl.1]
    rfl
  · intro i h1 h2
    have e1 := hs i (by omega)
    rw [List.getD_eq_getElem _ _ h1] at e1
    rw [e1]
    by_cases hi : i < H
    · rw [List.getElem_append_left (by omega), ← hcl.2 i hi,
        List.getD_eq_getElem _ _ (by omega)]
    · have hiH : i = H := by omega
      subst hiH
      rw [List.getElem_append_right (by omega)]
      simp [hcl.1, pprevWalk]

/-- The main branch of the forked arena, as the chain `SetTip(node 7)` builds
from the empty chain, satisfies the invariant. -/
theorem forkedChain_main_inv :
    CChain.Inv forkedChain
      { vChain := [some 0, some 1, some 2, some 3, some 4, some 5, some 6, some 7] } := by
  obtain ⟨c', h1, h2, h3⟩ := SetTip_spec forkedChain { vChain := [] } 7 7 8
    (Inv_empty forkedChain) (forkedChain_wellFormed_low 7 (by decide)) rfl (by decide)
  have he : c' = { vChain := [some 0, some 1, some 2, some 3, some 4, some 5, some 6, some 7] } :=
    (Except.ok.inj h1).symm
  rw [← he]
  exact Inv_of_slots forkedChain c' 7 7 (forkedChain_wellFormed_low 7 (by decide)) rfl h2 h3

/-- The main branch of the forked arena up to node 5 satisfies the invariant. -/
theorem forkedChain_stem_inv :
    CChain.Inv forkedChain
      { vChain := [some 0, some 1, some 2, some 3, some 4, some 5] } := by
  obtain ⟨c', h1, h2, h3⟩ := SetTip_spec forkedChain { vChain := [] } 5 5 6
    (Inv_empty forkedChain) (forkedChain_wellFormed_low 5 (by decide)) rfl (by decide)
  have he : c' = { vChain := [some 0, some 1, some 2, some 3, some 4, some 5] } :=
    (Except.ok.inj h1).symm
  rw [← he]
  exact Inv_of_slots forkedChain c' 5 5 (forkedChain_wellFormed_low 5 (by decide)) rfl h2 h3

/-! ## The height schedule of `GetLocator` -/

theorem locatorStep_succ (k : Nat) :
    (if k + 1 > 10 then locatorStep k * 2 else locatorStep k) = locatorStep (k + 1) := by
  unfold locatorStep
  by_cases h : k + 1 > 10
  · rw [if_pos h, if_neg (show ¬ k + 1 ≤ 10 by omega)]
    by_cases h10 : k = 10
    · subst h10
      rfl
    · rw [if_neg (show ¬ k ≤ 10 by omega)]
      have : k + 1 - 10 = (k - 10) + 1 := by omega
      rw [this, pow_succ]
  · rw [if_neg h, if_pos (show k ≤ 10 by omega), if_pos (show k + 1 ≤ 10 by omega)]

theorem locatorStep_pos (k : Nat) : 1 ≤ locatorStep k := by
  unfold locatorStep
  split
  · exact le_refl _
  · have : (0 : Int) < 2 ^ (k - 10) := by positivity
    omega

theorem locatorHeight_succ (H : Int) (k : Nat) (h : locatorHeight H k ≠ 0) :
    max (locatorHeight H k - locatorStep k) 0 = locatorHeight H (k + 1) := by
  unfold locatorHeight locatorStep at *
  by_cases h10 : k ≤ 10
  · rw [if_pos (by omega), if_pos h10, if_pos (by omega)]
    rw [if_pos (by omega)] at h
    push_cast
    omega
  · by_cases h11 : k = 11
    · subst h11
      rw [if_pos (by omega), if_neg (by omega), if_neg (by omega)]
      rw [if_pos (by omega)] at h
      norm_num
      norm_num at h
      omega
    · rw [if_neg (by omega), if_neg h10, if_neg (by omega)]
      rw [if_neg (by omega)] at h
      have e : k + 1 - 10 = (k - 10) + 1 := by omega
      rw [e, pow_succ]
      generalize (2 : Int) ^ (k - 10) = x at *
      omega

/-- The loop of `GetLocator` from the state it is in when `k` hashes have been
collected: the nodes it visits from there are on the chain of `n`, the `j`-th
of them at height `locatorHeight H (k + j)`, and the loop stops at the first
one of height 0. -/
theorem GetLocatorLoop_schedule (A : Arena) (c : CChain) (hinv : c.Inv A) (n : Nat)
    (hwfn : WellFormed A n) (H : Int) (fuel : Nat) :
    ∀ (k p : Nat) (vHave : List Nat), vHave.length = k → OnChain A n p →
      (A p).nHeight = locatorHeight H k → (A p).nHeight + 1 ≤ (fuel : Int) →
      ∃ nodes : List Nat,
        GetLocatorLoop A c fuel (some p) vHave (locatorStep k)
          = .ok (vHave ++ nodes.map fun m => (A m).GetBlockHash) ∧
        nodes ≠ [] ∧
        ∀ j m, nodes[j]? = some m → OnChain A n m ∧ (A m).nHeight = locatorHeight H (k + j) ∧
          ((A m).nHeight = 0 ↔ j + 1 = nodes.length) := by
  induction fuel with
  | zero =>
    intro k p vHave _ hon _ hf
    obtain ⟨d, hd⟩ := hon
    have := (hwfn.walk hd).nodeOK.1
    omega
  | succ fuel ih =>
    intro k p vHave hk hon hp hf
    obtain ⟨d, hd⟩ := hon
    have hwf : WellFormed A p := hwfn.walk hd
    rw [GetLocatorLoop_unfold]
    have hn0 := hwf.nodeOK.1
    by_cases hz : (A p).nHeight = 0
    · rw [if_pos hz]
      refine ⟨[p], rfl, List.cons_ne_nil _ _, ?_⟩
      intro j m hj
      cases j with
      | zero =>
        have : m = p := by
          rw [List.getElem?_cons_zero] at hj
          exact (Option.some.inj hj).symm
        subst this
        exact ⟨⟨d, hd⟩, hp, fun _ => rfl, fun _ => hz⟩
      | succ j => cases hj
    · rw [if_neg hz]
      simp only
      have hstep := locatorStep_pos k
      have hlt : max ((A p).nHeight - locatorStep k) 0 < (A p).nHeight := by omega
      have hge : 0 ≤ max ((A p).nHeight - locatorStep k) 0 := le_max_right _ _
      obtain ⟨p', w1, w2, w3⟩ := GetAncestor_spec A p hwf _ hge (le_of_lt hlt)
      have hnext : (if c.Contains A p then .ok (c.at (max ((A p).nHeight - locatorStep k) 0))
            else GetAncestor A p (max ((A p).nHeight - locatorStep k) 0) : Except Err Ptr)
          = .ok (some p') := by
        by_cases hc : c.Contains A p = true
        · rw [if_pos hc, Inv_at_below A c hinv p hwf hc _ hge (le_of_lt hlt), w1]
        · rw [if_neg hc, w2]
      rw [hnext]
      simp only
      have hlen : (vHave ++ [(A p).GetBlockHash]).length = k + 1 := by
        rw [List.length_append, hk]
        rfl
      rw [hlen, locatorStep_succ]
      have hp' : (A p').nHeight = locatorHeight H (k + 1) := by
        rw [w3, hp]
        exact locatorHeight_succ H k (by rw [← hp]; exact hz)
      obtain ⟨nodes', n1, n2, n3⟩ := ih (k + 1) p' (vHave ++ [(A p).GetBlockHash]) hlen
        (OnChain.trans ⟨d, hd⟩ ⟨_, w1⟩) hp' (by omega)
      refine ⟨p :: nodes', ?_, List.cons_ne_nil _ _, ?_⟩
      · rw [n1, List.append_assoc]
        rfl
      · intro j m hj
        have hl' : nodes'.length ≠ 0 := fun h => n2 (List.length_eq_zero.mp h)
        cases j with
        | zero =>
          have : m = p := by
            rw [List.getElem?_cons_zero] at hj
            exact (Option.some.inj hj).symm
          subst this
          refine ⟨⟨d, hd⟩, hp, fun h => absurd h hz, fun h => ?_⟩
          rw [List.length_cons] at h
          omega
        | succ j =>
          rw [List.getElem?_cons_succ] at hj
          obtain ⟨e1, e2, e3⟩ := n3 j m hj
          refine ⟨e1, ?_, ?_⟩
          · rw [e2]
            congr 1
            omega
          · rw [e3, List.length_cons]
            omega

/-! ## The compact encoding (`arith_uint256.cpp:166-205`) -/

theorem bitsBelow_zero (n : Nat) : base_uint.bitsBelow 0 n = 0 := by
  induction n with
  | zero => rfl
  | succ n ih => rw [base_uint.bitsBelow, if_neg (by simp), ih]

/-- The number of bytes `(bits() + 7) / 8` of a non-zero number brackets it. -/
theorem size_bounds (a : Nat) (ha : a < 2 ^ 256) (h0 : a ≠ 0) :
    0 < (base_uint.bits a + 7) / 8 ∧ (base_uint.bits a + 7) / 8 ≤ 32 ∧
    2 ^ (8 * ((base_uint.bits a + 7) / 8 - 1)) ≤ a ∧
    a < 2 ^ (8 * ((base_uint.bits a + 7) / 8)) := by
  obtain ⟨h1, h2, h3⟩ := bits_spec a ha
  obtain ⟨h4, h5⟩ := h3 h0
  refine ⟨by omega, by omega, ?_, ?_⟩
  · exact le_trans (Nat.pow_le_pow_right (by decide) (by omega)) h5
  · exact lt_of_lt_of_le h2 (Nat.pow_le_pow_right (by decide) (by omega))

/-- A number between `2^(8(s-1))` and `2^(8s)` has `s` bytes. -/
theorem size_eq (a s : Nat) (hs : 0 < s) (h1 : 2 ^ (8 * (s - 1)) ≤ a) (h2 : a < 2 ^ (8 * s))
    (ha : a < 2 ^ 256) : (base_uint.bits a + 7) / 8 = s := by
  have h0 : a ≠ 0 := by
    have := Nat.two_pow_pos (8 * (s - 1))
    omega
  obtain ⟨b1, b2, b3, b4⟩ := size_bounds a ha h0
  generalize (base_uint.bits a + 7) / 8 = t at *
  have e1 : 8 * (s - 1) < 8 * t :=
    (Nat.pow_lt_pow_iff_right (by decide : 1 < 2)).1 (lt_of_le_of_lt h1 b4)
  have e2 : 8 * (t - 1) < 8 * s :=
    (Nat.pow_lt_pow_iff_right (by decide : 1 < 2)).1 (lt_of_le_of_lt b3 h2)
  omega

theorem and_bit23 (x : Nat) (hx : x < 2 ^ 24) :
    x &&& 0x00800000 = if 2 ^ 23 ≤ x then 2 ^ 23 else 0 := by
  have e : (0x00800000 : Nat) = 2 ^ 23 := by norm_num
  rw [e, Nat.and_two_pow, testBit_top x 23 hx]
  by_cases h : 2 ^ 23 ≤ x
  · rw [if_pos h, decide_eq_true h]
    decide
  · rw [if_neg h, decide_eq_false h]
    decide

theorem or_size (x s : Nat) (hx : x < 2 ^ 24) (hs : s < 256) :
    x ||| (s <<< 24) % 2 ^ 32 = x + s * 2 ^ 24 := by
  rw [Nat.shiftLeft_eq, Nat.mod_eq_of_lt (by omega), Nat.or_comm, Nat.mul_comm,
    ← Nat.mul_add_lt_is_or hx, Nat.add_comm]

/-- The encoding `GetCompact` computes from the byte count `s` and the
mantissa `c0` before normalisation. -/
theorem GetCompact_eq (v s c0 : Nat) (hsz : (base_uint.bits v + 7) / 8 = s) (hs : s ≤ 32)
    (hc0 : (if s ≤ 3 then (base_uint.GetLow64 v * 2 ^ (8 * (3 - s))) % 2 ^ 64 % 2 ^ 32
      else base_uint.GetLow64 (base_uint.shr v (8 * (s - 3))) % 2 ^ 32) = c0)
    (hlt : c0 < 2 ^ 24) :
    GetCompact v false =
      if 2 ^ 23 ≤ c0 then c0 / 2 ^ 8 + (s + 1) * 2 ^ 24 else c0 + s * 2 ^ 24 := by
  unfold GetCompact
  simp only [hsz, hc0, and_bit23 c0 hlt]
  by_cases h : 2 ^ 23 ≤ c0
  · simp only [if_pos h]
    have e := or_size (c0 / 2 ^ 8) (s + 1) (by omega) (by omega)
    simpa [Nat.shiftRight_eq_div_pow] using e
  · simp only [if_neg h]
    have e := or_size c0 s hlt (by omega)
    simpa using e

/-- Decoding a compact number with mantissa `m` below `2^23` and byte count
`s` at most 33 (the mantissa below `2^16` when `s` is 33): no flag is set. -/
theorem SetCompact_eq (m s : Nat) (hm : m < 2 ^ 23) (hs : s ≤ 33)
    (h33 : s = 33 → m < 2 ^ 16) :
    SetCompact (m + s * 2 ^ 24) =
      (if s ≤ 3 then m / 2 ^ (8 * (3 - s)) else m * 2 ^ (8 * (s - 3)), false, false) := by
  have e1 : (m + s * 2 ^ 24) >>> 24 = s := by
    rw [Nat.shiftRight_eq_div_pow, Nat.add_mul_div_right _ _ (by decide : 0 < 2 ^ 24)]
    omega
  have e2 : (m + s * 2 ^ 24) &&& 0x007fffff = m := by
    have e : (0x007fffff : Nat) = 2 ^ 23 - 1 := by norm_num
    rw [e, Nat.and_pow_two_sub_one_eq_mod]
    omega
  have e3 : (m + s * 2 ^ 24) &&& 0x00800000 = 0 := by
    have e : (0x00800000 : Nat) = 2 ^ 23 := by norm_num
    rw [e, Nat.and_two_pow, Nat.testBit_to_div_mod]
    have : (m + s * 2 ^ 24) / 2 ^ 23 % 2 = 0 := by omega
    rw [this]
    rfl
  unfold SetCompact
  simp only [e1, e2, e3]
  by_cases h3 : s ≤ 3
  · simp only [if_pos h3]
    have hw : m >>> (8 * (3 - s)) = m / 2 ^ (8 * (3 - s)) := Nat.shiftRight_eq_div_pow _ _
    have hlt : m / 2 ^ (8 * (3 - s)) < 2 ^ 64 :=
      lt_of_le_of_lt (Nat.div_le_self _ _) (by omega)
    rw [hw]
    unfold base_uint.ofUint64
    rw [Nat.mod_eq_of_lt hlt]
    have ho : (decide (s > 34) || (decide (m / 2 ^ (8 * (3 - s)) > 0xff) && decide (s > 33)) ||
        (decide (m / 2 ^ (8 * (3 - s)) > 0xffff) && decide (s > 32))) = false := by
      rw [decide_eq_false (by omega : ¬ s > 34), decide_eq_false (by omega : ¬ s > 33),
        decide_eq_false (by omega : ¬ s > 32)]
      simp
    simp [ho]
  · simp only [if_neg h3]
    unfold base_uint.ofUint64 base_uint.shl
    rw [Nat.mod_eq_of_lt (by omega : m < 2 ^ 64)]
    have hlt : m * 2 ^ (8 * (s - 3)) < 2 ^ 256 := by
      by_cases hs33 : s = 33
      · subst hs33
        have := h33 rfl
        have e : 8 * (33 - 3) = 240 := rfl
        rw [e]
        omega
      · have hle : 2 ^ (8 * (s - 3)) ≤ 2 ^ 232 := Nat.pow_le_pow_right (by decide) (by omega)
        calc m * 2 ^ (8 * (s - 3)) ≤ m * 2 ^ 232 := Nat.mul_le_mul_left _ hle
          _ < 2 ^ 23 * 2 ^ 232 := Nat.mul_lt_mul_of_pos_right hm (by decide)
          _ < 2 ^ 256 := by decide
    rw [Nat.mod_eq_of_lt hlt]
    have ho : (decide (s > 34) || (decide (m > 0xff) && decide (s > 33)) ||
        (decide (m > 0xffff) && decide (s > 32))) = false := by
      rw [decide_eq_false (by omega : ¬ s > 34), decide_eq_false (by omega : ¬ s > 33)]
      by_cases h32 : s > 32
      · have := h33 (by omega)
        rw [decide_eq_false (by omega : ¬ m > 0xffff)]
        simp
      · rw [decide_eq_false h32]
        simp
    simp [ho]

theorem mantissa_small (v s : Nat) (hs : s ≤ 3) (h2 : v < 2 ^ (8 * s)) :
    (base_uint.GetLow64 v * 2 ^ (8 * (3 - s))) % 2 ^ 64 % 2 ^ 32 = v * 2 ^ (8 * (3 - s)) ∧
    v * 2 ^ (8 * (3 - s)) < 2 ^ 24 ∧
    (0 < s → 2 ^ (8 * (s - 1)) ≤ v → 2 ^ 16 ≤ v * 2 ^ (8 * (3 - s))) := by
  unfold base_uint.GetLow64
  unfold arith_uint256 at *
  interval_cases s <;> norm_num at h2 ⊢ <;> omega

theorem mantissa_large (v s : Nat) (hs : 3 < s) (h1 : 2 ^ (8 * (s - 1)) ≤ v)
    (h2 : v < 2 ^ (8 * s)) :
    base_uint.GetLow64 (base_uint.shr v (8 * (s - 3))) % 2 ^ 32 = v / 2 ^ (8 * (s - 3)) ∧
    v / 2 ^ (8 * (s - 3)) < 2 ^ 24 ∧ 2 ^ 16 ≤ v / 2 ^ (8 * (s - 3)) := by
  have hpos : 0 < 2 ^ (8 * (s - 3)) := Nat.two_pow_pos _
  have e1 : 2 ^ (8 * s) = 2 ^ (8 * (s - 3)) * 2 ^ 24 := by
    rw [← pow_add]
    congr 1
    omega
  have e2 : 2 ^ (8 * (s - 1)) = 2 ^ 16 * 2 ^ (8 * (s - 3)) := by
    rw [← pow_add]
    congr 1
    omega
  have hlt : v / 2 ^ (8 * (s - 3)) < 2 ^ 24 := Nat.div_lt_of_lt_mul (by rw [← e1]; exact h2)
  have hge : 2 ^ 16 ≤ v / 2 ^ (8 * (s - 3)) :=
    (Nat.le_div_iff_mul_le hpos).2 (by rw [← e2]; exact h1)
  refine ⟨?_, hlt, hge⟩
  unfold base_uint.GetLow64 base_uint.shr
  unfold arith_uint256 at *
  omega

/-- Decoding the compact encoding of a 256-bit number sets no flag and gives a
number with the same encoding. -/
theorem compact_roundtrip (v : Nat) (hv : v < 2 ^ 256) :
    ∃ w, SetCompact (GetCompact v false) = (w, false, false) ∧ w < 2 ^ 256 ∧ w ≤ v ∧
      GetCompact w false = GetCompact v false := by
  by_cases h0 : v = 0
  · subst h0
    have hg : GetCompact 0 false = 0 := by
      have h := GetCompact_eq 0 0 0 (by unfold base_uint.bits; rw [bitsBelow_zero])
        (Nat.zero_le _) (by simp [base_uint.GetLow64]) (Nat.two_pow_pos _)
      rw [h]
      simp
    refine ⟨0, ?_, Nat.two_pow_pos _, le_refl _, rfl⟩
    rw [hg]
    exact SetCompact_eq 0 0 (by decide) (by decide) (fun h => by cases h)
  · obtain ⟨s1, s2, s3, s4⟩ := size_bounds v hv h0
    obtain ⟨s, hsdef⟩ : ∃ s, (base_uint.bits v + 7) / 8 = s := ⟨_, rfl⟩
    rw [hsdef] at s1 s2 s3 s4
    by_cases h3 : s ≤ 3
    · -- at most three bytes: the decoded number is `v` itself
      obtain ⟨m1, m2, m3⟩ := mantissa_small v s h3 s4
      have hc0 : (if s ≤ 3 then (base_uint.GetLow64 v * 2 ^ (8 * (3 - s))) % 2 ^ 64 % 2 ^ 32
          else base_uint.GetLow64 (base_uint.shr v (8 * (s - 3))) % 2 ^ 32)
          = v * 2 ^ (8 * (3 - s)) := by rw [if_pos h3, m1]
      have hg := GetCompact_eq v s _ hsdef s2 hc0 m2
      by_cases h23 : 2 ^ 23 ≤ v * 2 ^ (8 * (3 - s))
      · rcases (by omega : s = 1 ∨ s = 2 ∨ s = 3) with h | h | h
        · refine ⟨v, ?_, hv, le_refl _, rfl⟩
          rw [hg, if_pos h23, SetCompact_eq _ (s + 1) (by omega) (by omega) (fun _ => by omega)]
          congr 1
          subst h
          norm_num
          omega
        · refine ⟨v, ?_, hv, le_refl _, rfl⟩
          rw [hg, if_pos h23, SetCompact_eq _ (s + 1) (by omega) (by omega) (fun _ => by omega)]
          congr 1
          subst h
          norm_num
        · -- three bytes with the top bit set: the lowest byte is dropped
          subst h
          have e0 : v * 2 ^ (8 * (3 - 3)) = v := by norm_num
          rw [e0] at hg h23 m2
          have e8 : (2 : Nat) ^ (8 * (3 + 1 - 3)) = 2 ^ 8 := by norm_num
          have e24 : (2 : Nat) ^ (8 * 3) = 2 ^ 24 := by norm_num
          have e16 : (2 : Nat) ^ (8 * (3 - 1)) = 2 ^ 16 := by norm_num
          rw [hg, if_pos h23,
            SetCompact_eq _ (3 + 1) (by omega) (by omega) (fun _ => by omega),
            if_neg (by omega), e8]
          have hw1 : 2 ^ (8 * (3 - 1)) ≤ v / 2 ^ 8 * 2 ^ 8 := by rw [e16]; omega
          have hwlt : v / 2 ^ 8 * 2 ^ 8 < 2 ^ (8 * 3) := by rw [e24]; omega
          refine ⟨_, rfl, lt_of_lt_of_le hwlt (Nat.pow_le_pow_right (by decide) (by decide)),
            Nat.div_mul_le_self _ _, ?_⟩
          obtain ⟨n1, n2, -⟩ := mantissa_small (v / 2 ^ 8 * 2 ^ 8) 3 (le_refl _) hwlt
          have e1 : v / 2 ^ 8 * 2 ^ 8 * 2 ^ (8 * (3 - 3)) = v / 2 ^ 8 * 2 ^ 8 := by norm_num
          rw [e1] at n1 n2
          have hc0w : (if 3 ≤ 3 then
              (base_uint.GetLow64 (v / 2 ^ 8 * 2 ^ 8) * 2 ^ (8 * (3 - 3))) % 2 ^ 64 % 2 ^ 32
              else base_uint.GetLow64
                (base_uint.shr (v / 2 ^ 8 * 2 ^ 8) (8 * (3 - 3))) % 2 ^ 32)
              = v / 2 ^ 8 * 2 ^ 8 := by rw [if_pos (le_refl _), n1]
          rw [GetCompact_eq _ 3 _ (size_eq _ 3 (by decide) hw1 hwlt (by omega)) (by decide)
            hc0w n2, if_pos (by omega), Nat.mul_div_cancel _ (by decide : 0 < 2 ^ 8)]
      · refine ⟨v, ?_, hv, le_refl _, rfl⟩
        rw [hg, if_neg h23, SetCompact_eq _ s (by omega) (by omega) (fun _ => by omega),
          if_pos h3, Nat.mul_div_cancel _ (Nat.two_pow_pos _)]
    · -- more than three bytes
      have h3lt : 3 < s := by omega
      obtain ⟨m1, m2, m3⟩ := mantissa_large v s h3lt s3 s4
      have hc0 : (if s ≤ 3 then (base_uint.GetLow64 v * 2 ^ (8 * (3 - s))) % 2 ^ 64 % 2 ^ 32
          else base_uint.GetLow64 (base_uint.shr v (8 * (s - 3))) % 2 ^ 32)
          = v / 2 ^ (8 * (s - 3)) := by rw [if_neg h3, m1]
      have hg := GetCompact_eq v s _ hsdef s2 hc0 m2
      have hpos : 0 < 2 ^ (8 * (s - 3)) := Nat.two_pow_pos _
      have e2 : 2 ^ (8 * (s - 1)) = 2 ^ 16 * 2 ^ (8 * (s - 3)) := by
        rw [← pow_add]
        congr 1
        omega
      have e3 : 2 ^ (8 * (s + 1 - 3)) = 2 ^ 8 * 2 ^ (8 * (s - 3)) := by
        rw [← pow_add]
        congr 1
        omega
      have hs256 : 2 ^ (8 * s) ≤ 2 ^ 256 := Nat.pow_le_pow_right (by decide) (by omega)
      rw [hg]
      generalize hc : v / 2 ^ (8 * (s - 3)) = c0 at *
      have hcv : c0 * 2 ^ (8 * (s - 3)) ≤ v := by
        rw [← hc]
        exact Nat.div_mul_le_self _ _
      by_cases h23 : 2 ^ 23 ≤ c0
      · rw [if_pos h23, SetCompact_eq _ (s + 1) (by omega) (by omega) (fun _ => by omega),
          if_neg (by omega)]
        have hw1 : 2 ^ (8 * (s - 1)) ≤ c0 / 2 ^ 8 * 2 ^ (8 * (s + 1 - 3)) := by
          rw [e2, e3, ← Nat.mul_assoc]
          exact Nat.mul_le_mul_right _ (by omega)
        have hw2 : c0 / 2 ^ 8 * 2 ^ (8 * (s + 1 - 3)) ≤ v := by
          rw [e3, ← Nat.mul_assoc]
          exact le_trans (Nat.mul_le_mul_right _ (Nat.div_mul_le_self _ _)) hcv
        have hwlt : c0 / 2 ^ 8 * 2 ^ (8 * (s + 1 - 3)) < 2 ^ (8 * s) := lt_of_le_of_lt hw2 s4
        refine ⟨_, rfl, lt_of_lt_of_le hwlt hs256, hw2, ?_⟩
        obtain ⟨n1, n2, n3⟩ := mantissa_large _ s h3lt hw1 hwlt
        have hq : c0 / 2 ^ 8 * 2 ^ (8 * (s + 1 - 3)) / 2 ^ (8 * (s - 3)) = c0 / 2 ^ 8 * 2 ^ 8 := by
          rw [e3, ← Nat.mul_assoc, Nat.mul_div_cancel _ hpos]
        rw [hq] at n1 n2 n3
        have hc0w : (if s ≤ 3 then
            (base_uint.GetLow64 (c0 / 2 ^ 8 * 2 ^ (8 * (s + 1 - 3))) * 2 ^ (8 * (3 - s)))
              % 2 ^ 64 % 2 ^ 32
            else base_uint.GetLow64
              (base_uint.shr (c0 / 2 ^ 8 * 2 ^ (8 * (s + 1 - 3))) (8 * (s - 3))) % 2 ^ 32)
            = c0 / 2 ^ 8 * 2 ^ 8 := by rw [if_neg h3, n1]
        rw [GetCompact_eq _ s _ (size_eq _ s s1 hw1 hwlt (by omega)) s2 hc0w n2,
          if_pos (by omega), Nat.mul_div_cancel _ (by decide : 0 < 2 ^ 8)]
      · rw [if_neg h23, SetCompact_eq _ s (by omega) (by omega) (fun _ => by omega),
          if_neg h3]
        have hw1 : 2 ^ (8 * (s - 1)) ≤ c0 * 2 ^ (8 * (s - 3)) := by
          rw [e2]
          exact Nat.mul_le_mul_right _ m3
        have hwlt : c0 * 2 ^ (8 * (s - 3)) < 2 ^ (8 * s) := lt_of_le_of_lt hcv s4
        refine ⟨_, rfl, lt_of_lt_of_le hwlt hs256, hcv, ?_⟩
        obtain ⟨n1, n2, n3⟩ := mantissa_large _ s h3lt hw1 hwlt
        rw [Nat.mul_div_cancel _ hpos] at n1 n2 n3
        have hc0w : (if s ≤ 3 then
            (base_uint.GetLow64 (c0 * 2 ^ (8 * (s - 3))) * 2 ^ (8 * (3 - s))) % 2 ^ 64 % 2 ^ 32
            else base_uint.GetLow64
              (base_uint.shr (c0 * 2 ^ (8 * (s - 3))) (8 * (s - 3))) % 2 ^ 32)
            = c0 := by rw [if_neg h3, n1]
        rw [GetCompact_eq _ s _ (size_eq _ s s1 hw1 hwlt (by omega)) s2 hc0w n2, if_neg h23]

/-! ## Amount compression below the overflow -/

/-- The loop of `CompressAmount` strips at most nine trailing zeros. -/
theorem CompressAmountLoop_spec :
    ∀ (fuel n e : Nat), e + fuel = 9 → n ≠ 0 →
      ∃ n' e', CompressAmountLoop fuel n e = (n', e') ∧ e ≤ e' ∧ e' ≤ 9 ∧
        n = n' * 10 ^ (e' - e) ∧ n' ≠ 0 ∧ (e' < 9 → n' % 10 ≠ 0) := by
  intro fuel
  induction fuel with
  | zero =>
    intro n e he hn
    refine ⟨n, e, rfl, le_refl _, by omega, ?_, hn, fun h => by omega⟩
    rw [Nat.sub_self, pow_zero, Nat.mul_one]
  | succ fuel ih =>
    intro n e he hn
    rw [CompressAmountLoop]
    by_cases h : n % 10 = 0 ∧ e < 9
    · rw [if_pos h]
      obtain ⟨n', e', h1, h2, h3, h4, h5, h6⟩ := ih (n / 10) (e + 1) (by omega) (by omega)
      refine ⟨n', e', h1, by omega, h3, ?_, h5, h6⟩
      have e1 : e' - e = (e' - (e + 1)) + 1 := by omega
      rw [e1, pow_succ, ← Nat.mul_assoc, ← h4]
      omega
    · rw [if_neg h]
      refine ⟨n, e, rfl, le_refl _, by omega, ?_, hn, fun _ h0 => h ⟨h0, by omega⟩⟩
      rw [Nat.sub_self, pow_zero, Nat.mul_one]

/-- The loop of `DecompressAmount` multiplies by ten `e` times. -/
theorem decompress_foldl (e n0 : Nat) (h : n0 * 10 ^ e < 2 ^ 64) :
    (List.range e).foldl (fun n _ => n * 10 % 2 ^ 64) n0 = n0 * 10 ^ e := by
  induction e with
  | zero =>
    rw [pow_zero, Nat.mul_one]
    rfl
  | succ e ih =>
    have hle : n0 * 10 ^ e ≤ n0 * 10 ^ (e + 1) :=
      Nat.mul_le_mul_left _ (Nat.pow_le_pow_right (by decide) (by omega))
    rw [List.range_succ, List.foldl_append, ih (by omega)]
    show n0 * 10 ^ e * 10 % 2 ^ 64 = n0 * 10 ^ (e + 1)
    have e1 : n0 * 10 ^ (e + 1) = n0 * 10 ^ e * 10 := by rw [pow_succ, Nat.mul_assoc]
    rw [e1] at h ⊢
    exact Nat.mod_eq_of_lt h

theorem DecompressAmount_eq (x e m : Nat) (hx : x ≠ 0) (he : (x - 1) % 10 = e)
    (hm : (if e < 9 then ((x - 1) / 10 / 9 * 10 + ((x - 1) / 10 % 9 + 1)) % 2 ^ 64
      else ((x - 1) / 10 + 1) % 2 ^ 64) = m) :
    DecompressAmount x = (List.range e).foldl (fun n _ => n * 10 % 2 ^ 64) m := by
  unfold DecompressAmount
  rw [if_neg hx]
  simp only [he, hm]

/-- Below 2049638230412172403 the sum in `CompressAmount` stays below `2^64`,
and `DecompressAmount` restores the amount. -/
theorem CompressAmount_roundtrip_below (n : Nat) (h : n < 2049638230412172403) :
    (CompressAmount n).map DecompressAmount = .ok n := by
  by_cases h0 : n = 0
  · subst h0
    rfl
  · obtain ⟨n', e', h1, -, h3, h4, h5, h6⟩ := CompressAmountLoop_spec 9 n 0 rfl h0
    rw [Nat.sub_zero] at h4
    have hpow : e' = 0 ∨ 10 ≤ 10 ^ e' := by
      by_cases he : e' = 0
      · exact Or.inl he
      · right
        calc 10 = 10 ^ 1 := rfl
          _ ≤ 10 ^ e' := Nat.pow_le_pow_right (by decide) (by omega)
    have hn' : n' ≤ n ∧ (e' ≠ 0 → n' * 10 ≤ n) := by
      rcases hpow with he | he
      · subst he
        rw [pow_zero, Nat.mul_one] at h4
        exact ⟨by omega, fun h => absurd rfl h⟩
      · have := Nat.mul_le_mul_left n' he
        rw [← h4] at this
        exact ⟨by omega, fun _ => this⟩
    have hfold : n' * 10 ^ e' < 2 ^ 64 := by
      rw [← h4]
      omega
    unfold CompressAmount
    rw [if_neg h0, h1]
    simp only
    obtain ⟨q, hq⟩ : ∃ q, n' / 10 = q := ⟨_, rfl⟩
    obtain ⟨d, hd⟩ : ∃ d, n' % 10 = d := ⟨_, rfl⟩
    have hqd : n' = 10 * q + d := by omega
    have hd9 : d ≤ 9 := by omega
    rw [hq, hd]
    by_cases he9 : e' < 9
    · have hd1 : 1 ≤ d := by
        have := h6 he9
        omega
      have hbound : 1 + (q * 9 + d - 1) * 10 + e' < 2 ^ 64 := by
        by_cases he0 : e' = 0
        · have := hn'.1
          by_cases hq' : q ≤ 204963823041217239
          · omega
          · omega
        · have := hn'.2 he0
          omega
      have e1 : (q * 9 + d + (2 ^ 64 - 1)) % 2 ^ 64 = q * 9 + d - 1 := by
        have : q * 9 + d + (2 ^ 64 - 1) = (q * 9 + d - 1) + 2 ^ 64 := by omega
        rw [this, Nat.add_mod_right, Nat.mod_eq_of_lt (by omega)]
      have e2 : (q * 9 + d - 1) * 10 % 2 ^ 64 = (q * 9 + d - 1) * 10 :=
        Nat.mod_eq_of_lt (by omega)
      have e3 : (1 + (q * 9 + d - 1) * 10 + e') % 2 ^ 64 = 1 + (q * 9 + d - 1) * 10 + e' :=
        Nat.mod_eq_of_lt hbound
      rw [if_pos he9, if_pos ⟨hd1, hd9⟩, e1, e2, e3]
      show Except.ok (DecompressAmount _) = _
      refine congrArg Except.ok ?_
      rw [DecompressAmount_eq _ e' n' (by omega) (by omega)
          (by rw [if_pos he9, Nat.mod_eq_of_lt (by omega)]; omega),
        decompress_foldl e' n' hfold, ← h4]
    · have e9 : e' = 9 := by omega
      subst e9
      have hsmall : n' * 10 ≤ n := hn'.2 (by decide)
      have e1 : (n' + (2 ^ 64 - 1)) % 2 ^ 64 = n' - 1 := by
        have : n' + (2 ^ 64 - 1) = (n' - 1) + 2 ^ 64 := by omega
        rw [this, Nat.add_mod_right, Nat.mod_eq_of_lt (by omega)]
      have e2 : (n' - 1) * 10 % 2 ^ 64 = (n' - 1) * 10 := Nat.mod_eq_of_lt (by omega)
      have e3 : (1 + (n' - 1) * 10 + 9) % 2 ^ 64 = 1 + (n' - 1) * 10 + 9 :=
        Nat.mod_eq_of_lt (by omega)
      rw [if_neg he9, e1, e2, e3]
      show Except.ok (DecompressAmount _) = _
      refine congrArg Except.ok ?_
      rw [DecompressAmount_eq _ 9 n' (by omega) (by omega)
          (by rw [if_neg he9, Nat.mod_eq_of_lt (by omega)]; omega),
        decompress_foldl 9 n' hfold, ← h4]

/-! ## Basic facts about the cache operations -/

theorem Coin.default_isSpent : ({} : Coin).IsSpent = true := rfl

theorem Coin.clear_isSpent (c : Coin) : c.Clear.IsSpent = true := rfl

theorem FetchCoin_hit (X : ScriptOps) (c : CCoinsViewCache) (k : COutPoint)
    (e : CCoinsCacheEntry) (h : c.cacheCoins.lookup k = some e) :
    c.FetchCoin X k = (some e, c) := by
  unfold CCoinsViewCache.FetchCoin CCoinsViewCache.FetchCoinVia
  rw [h]

theorem GetCoin_hit (X : ScriptOps) (c : CCoinsViewCache) (k : COutPoint)
    (e : CCoinsCacheEntry) (h : c.cacheCoins.lookup k = some e) (coin0 : Coin) :
    c.GetCoin X k coin0 = ((!e.coin.IsSpent, e.coin), c) := by
  unfold CCoinsViewCache.GetCoin CCoinsViewCache.GetCoinVia CCoinsViewCache.FetchCoinVia
  rw [h]

theorem HaveCoin_hit (X : ScriptOps) (c : CCoinsViewCache) (k : COutPoint)
    (e : CCoinsCacheEntry) (h : c.cacheCoins.lookup k = some e) :
    c.HaveCoin X k = (!e.coin.IsSpent, c) := by
  unfold CCoinsViewCache.HaveCoin
  rw [FetchCoin_hit X c k e h]

/-- What `AddCoin` does when it neither asserts, nor drops the coin, nor throws. -/
theorem AddCoin_ok (X : ScriptOps) (c : CCoinsViewCache) (k : COutPoint) (coin : Coin)
    (ow : Bool) (hs : coin.IsSpent = false) (hu : X.IsUnspendable coin.out.scriptPubKey = false)
    (hc : ow = true ∨ ∀ e, c.cacheCoins.lookup k = some e → e.coin.IsSpent = true) :
    ∃ entry : CCoinsCacheEntry, entry.coin = coin ∧
      entry.flags = ((c.cacheCoins.lookup k).getD {}).flags |||
        (DIRTY ||| (if (!ow && (((c.cacheCoins.lookup k).getD {}).flags &&& DIRTY == 0)) = true
          then FRESH else 0)) ∧
      (c.AddCoin X k coin ow).1 = .ok () ∧
      (c.AddCoin X k coin ow).2.cacheCoins.lookup k = some entry ∧
      (∀ k', k' ≠ k →
        (c.AddCoin X k coin ow).2.cacheCoins.lookup k' = c.cacheCoins.lookup k') ∧
      (c.AddCoin X k coin ow).2.base = c.base := by
  have hit : (!ow && !((c.cacheCoins.lookup k).getD {}).coin.IsSpent) = false := by
    rcases hc with hc | hc
    · simp [hc]
    · cases hl : c.cacheCoins.lookup k with
      | none => simp [Coin.default_isSpent]
      | some e => simp [hc e hl]
  refine ⟨{ coin := coin,
             flags := ((c.cacheCoins.lookup k).getD {}).flags |||
               (DIRTY ||| (if (!ow && (((c.cacheCoins.lookup k).getD {}).flags &&& DIRTY == 0))
                 = true then FRESH else 0)) }, rfl, rfl, ?_, ?_, ?_, ?_⟩
  · unfold CCoinsViewCache.AddCoin
    simp only [hs, hu, hit, Bool.false_eq_true, if_false]
  · unfold CCoinsViewCache.AddCoin
    simp only [hs, hu, hit, Bool.false_eq_true, if_false]
    rw [AList.lookup_insert]
  · intro k' hk
    unfold CCoinsViewCache.AddCoin
    simp only [hs, hu, hit, Bool.false_eq_true, if_false]
    rw [AList.lookup_insert_ne hk]
    split
    · rw [AList.lookup_insert_ne hk]
    · rfl
  · unfold CCoinsViewCache.AddCoin
    simp only [hs, hu, hit, Bool.false_eq_true, if_false]

/-! ## Reads are stable -/

theorem view_GetCoin_cache (X : ScriptOps) (c : CCoinsViewCache) (k : COutPoint) (coin0 : Coin) :
    c.view.GetCoin X k coin0 = ((c.GetCoin X k coin0).1, (c.GetCoin X k coin0).2.view) := rfl

theorem found_store (X : ScriptOps) (coins : COutPoint → Option Coin) (ok : Bool)
    (w : List (CCoinsMap × uint256)) (k : COutPoint) :
    (CCoinsView.store coins ok w).found X k = coins k := by
  unfold CCoinsView.found CCoinsView.GetCoin
  cases coins k <;> rfl

/-- The entry a fetched coin is cached under (coins.cpp:57-60). -/
theorem FetchCoin_miss (X : ScriptOps) (c : CCoinsViewCache) (k : COutPoint)
    (h : c.cacheCoins.lookup k = none) :
    (c.base.found X k = none ∧ (c.FetchCoin X k).1 = none ∧
      (c.FetchCoin X k).2 = { c with base := (c.base.GetCoin X k {}).2 }) ∨
    (∃ tmp, c.base.found X k = some tmp ∧
      (c.FetchCoin X k).1 = some { coin := tmp, flags := if tmp.IsSpent then FRESH else 0 } ∧
      (c.FetchCoin X k).2 = { c with
        base := (c.base.GetCoin X k {}).2
        cacheCoins := c.cacheCoins.insert k
          { coin := tmp, flags := if tmp.IsSpent then FRESH else 0 }
        cachedCoinsUsage := usageAdd c.cachedCoinsUsage (tmp.DynamicMemoryUsage X) }) := by
  unfold CCoinsViewCache.FetchCoin CCoinsViewCache.FetchCoinVia CCoinsView.found
  rw [h]
  rcases hg : c.base.GetCoin X k {} with ⟨⟨b, tmp⟩, base'⟩
  cases b with
  | false => left; exact ⟨rfl, rfl, rfl⟩
  | true => right; exact ⟨tmp, rfl, rfl, rfl⟩

/-- The entry `FetchCoin` returns: the cached one, or else the one made from
what the backing view yields. -/
theorem FetchCoin_entry (X : ScriptOps) (c : CCoinsViewCache) (k : COutPoint) :
    (c.FetchCoin X k).1 =
      match c.cacheCoins.lookup k with
      | some e => some e
      | none => (c.base.found X k).map fun tmp =>
          { coin := tmp, flags := if tmp.IsSpent then FRESH else 0 } := by
  cases hl : c.cacheCoins.lookup k with
  | some e => rw [FetchCoin_hit X c k e hl]
  | none =>
    rcases FetchCoin_miss X c k hl with ⟨h1, h2, -⟩ | ⟨tmp, h1, h2, -⟩
    · rw [h1, h2]; rfl
    · rw [h1, h2]; rfl

/-- The state `FetchCoin` leaves: the entry it returns is the cached entry of
its key; other keys are untouched; the backing view has at most been read. -/
theorem FetchCoin_state (X : ScriptOps) (c : CCoinsViewCache) (k : COutPoint) :
    (c.FetchCoin X k).2.cacheCoins.lookup k = (c.FetchCoin X k).1 ∧
    (∀ k', k' ≠ k → (c.FetchCoin X k).2.cacheCoins.lookup k' = c.cacheCoins.lookup k') ∧
    ((c.FetchCoin X k).2.base = c.base ∨
      (c.FetchCoin X k).2.base = (c.base.GetCoin X k {}).2) := by
  cases hl : c.cacheCoins.lookup k with
  | some e =>
    rw [FetchCoin_hit X c k e hl]
    exact ⟨hl, fun _ _ => rfl, Or.inl rfl⟩
  | none =>
    rcases FetchCoin_miss X c k hl with ⟨-, h2, h3⟩ | ⟨tmp, -, h2, h3⟩
    · rw [h2, h3]
      exact ⟨hl, fun _ _ => rfl, Or.inr rfl⟩
    · rw [h2, h3]
      exact ⟨AList.lookup_insert _, fun k' hk => AList.lookup_insert_ne hk, Or.inr rfl⟩

theorem GetCoin_eq_FetchCoin (X : ScriptOps) (c : CCoinsViewCache) (k : COutPoint)
    (coin0 : Coin) :
    (c.GetCoin X k coin0).1 = (match (c.FetchCoin X k).1 with
      | none => (false, coin0)
      | some e => (!e.coin.IsSpent, e.coin)) ∧
    (c.GetCoin X k coin0).2 = (c.FetchCoin X k).2 := by
  unfold CCoinsViewCache.GetCoin CCoinsViewCache.GetCoinVia CCoinsViewCache.FetchCoin
  rcases CCoinsViewCache.FetchCoinVia X (c.base.GetCoin X) c k with ⟨it, c'⟩
  cases it <;> exact ⟨rfl, rfl⟩

theorem HaveCoin_eq_FetchCoin (X : ScriptOps) (c : CCoinsViewCache) (k : COutPoint) :
    (c.HaveCoin X k).1 = (match (c.FetchCoin X k).1 with
      | none => false
      | some e => !e.coin.IsSpent) ∧
    (c.HaveCoin X k).2 = (c.FetchCoin X k).2 := by
  unfold CCoinsViewCache.HaveCoin
  rcases c.FetchCoin X k with ⟨it, c'⟩
  cases it <;> exact ⟨rfl, rfl⟩

/-- The state a read leaves does not depend on the initial out-parameter. -/
theorem GetCoin_state (X : ScriptOps) (v : CCoinsView) (k : COutPoint) (coin0 : Coin) :
    (v.GetCoin X k coin0).2 = (v.GetCoin X k {}).2 := by
  cases v with
  | store coins ok w =>
    unfold CCoinsView.GetCoin
    cases coins k <;> rfl
  | cache base hb m u =>
    show ((CCoinsViewCache.mk base hb m u).view.GetCoin X k coin0).2 = _
    rw [view_GetCoin_cache]
    show _ = ((CCoinsViewCache.mk base hb m u).view.GetCoin X k {}).2
    rw [view_GetCoin_cache]
    simp only
    rw [(GetCoin_eq_FetchCoin X _ k coin0).2, (GetCoin_eq_FetchCoin X _ k {}).2]

theorem found_cache (X : ScriptOps) (c : CCoinsViewCache) (k : COutPoint) :
    c.view.found X k = (match (c.FetchCoin X k).1 with
      | none => none
      | some e => if e.coin.IsSpent then none else some e.coin) := by
  unfold CCoinsView.found
  rw [view_GetCoin_cache]
  simp only
  rw [(GetCoin_eq_FetchCoin X c k {}).1]
  cases (c.FetchCoin X k).1 with
  | none => rfl
  | some e => cases h : e.coin.IsSpent <;> simp [h]

/-- Reading through a view does not change what the view yields. -/
theorem found_GetCoin (X : ScriptOps) (v : CCoinsView) :
    ∀ (k' : COutPoint) (coin0 : Coin) (k : COutPoint),
      ((v.GetCoin X k' coin0).2).found X k = v.found X k := by
  induction v with
  | store coins ok w =>
    intro k' coin0 k
    have : ((CCoinsView.store coins ok w).GetCoin X k' coin0).2
        = CCoinsView.store coins ok w := by
      unfold CCoinsView.GetCoin
      cases coins k' <;> rfl
    rw [this]
  | cache base hb m u ih =>
    intro k' coin0 k
    have key : ∀ (c : CCoinsViewCache), c.base = base →
        ((c.view.GetCoin X k' coin0).2).found X k = c.view.found X k := by
      intro c hcb
      rw [view_GetCoin_cache]
      simp only
      rw [found_cache, found_cache, (GetCoin_eq_FetchCoin X c k' coin0).2]
      suffices hs : ((c.FetchCoin X k').2.FetchCoin X k).1 = (c.FetchCoin X k).1 by rw [hs]
      obtain ⟨s1, s2, s3⟩ := FetchCoin_state X c k'
      have hbase : (c.FetchCoin X k').2.base.found X k = c.base.found X k := by
        rcases s3 with s3 | s3
        · rw [s3]
        · rw [s3, hcb]; exact ih k' {} k
      rw [FetchCoin_entry, FetchCoin_entry X c k, hbase]
      by_cases hkk : k = k'
      · subst hkk
        rw [s1, FetchCoin_entry X c k]
        cases hl : c.cacheCoins.lookup k with
        | some e => rfl
        | none =>
          simp only
          cases c.base.found X k <;> rfl
      · rw [s2 k hkk]
    exact key { base := base, hashBlock := hb, cacheCoins := m, cachedCoinsUsage := u } rfl

/-! ## `SpendCoin` -/

theorem reports_eq_found (X : ScriptOps) (v : CCoinsView) (k : COutPoint) :
    v.reports X k = (match v.found X k with
      | none => none
      | some c => if c.IsSpent then none else some c) := by
  unfold CCoinsView.reports CCoinsView.found
  rcases (v.GetCoin X k {}).1 with ⟨b, c⟩
  cases b <;> rfl

theorem AddCoin_base (X : ScriptOps) (c : CCoinsViewCache) (k : COutPoint) (coin : Coin)
    (ow : Bool) : (c.AddCoin X k coin ow).2.base = c.base := by
  unfold CCoinsViewCache.AddCoin
  split
  · rfl
  · split
    · rfl
    · simp only
      split <;> rfl

theorem SpendCoin_eq (X : ScriptOps) (c : CCoinsViewCache) (k : COutPoint) (mv : Bool) :
    c.SpendCoin X k mv =
      match (c.FetchCoin X k).1 with
      | none => ((false, none), (c.FetchCoin X k).2)
      | some e =>
        if e.flags &&& FRESH ≠ 0 then
          ((true, if mv then some e.coin else none),
            { (c.FetchCoin X k).2 with
              cacheCoins := (c.FetchCoin X k).2.cacheCoins.erase k
              cachedCoinsUsage :=
                usageSub (c.FetchCoin X k).2.cachedCoinsUsage (e.coin.DynamicMemoryUsage X) })
        else
          ((true, if mv then some e.coin else none),
            { (c.FetchCoin X k).2 with
              cacheCoins := (c.FetchCoin X k).2.cacheCoins.insert k
                { coin := e.coin.Clear, flags := e.flags ||| DIRTY }
              cachedCoinsUsage :=
                usageSub (c.FetchCoin X k).2.cachedCoinsUsage (e.coin.DynamicMemoryUsage X) }) := by
  unfold CCoinsViewCache.SpendCoin
  rcases c.FetchCoin X k with ⟨it, c'⟩
  cases it <;> rfl

/-- The base of the state `FetchCoin` leaves yields what the base yielded. -/
theorem FetchCoin_base_found (X : ScriptOps) (c : CCoinsViewCache) (k k' : COutPoint) :
    (c.FetchCoin X k).2.base.found X k' = c.base.found X k' := by
  rcases (FetchCoin_state X c k).2.2 with h | h
  · rw [h]
  · rw [h, found_GetCoin]

theorem zero_and_FRESH : (0 : Nat) &&& FRESH = 0 := by decide

theorem SpendCoin_HaveCoin_false (X : ScriptOps) (c : CCoinsViewCache) (id : COutPoint)
    (mv : Bool)
    (hfresh : ∀ e, c.cacheCoins.lookup id = some e → e.flags &&& FRESH ≠ 0 →
      c.base.reports X id = none) :
    ((c.SpendCoin X id mv).2.HaveCoin X id).1 = false := by
  rw [(HaveCoin_eq_FetchCoin X _ id).1, FetchCoin_entry, SpendCoin_eq]
  obtain ⟨s1, -, -⟩ := FetchCoin_state X c id
  have hb := FetchCoin_base_found X c id id
  have he := FetchCoin_entry X c id
  cases hr : (c.FetchCoin X id).1 with
  | none =>
    simp only
    rw [s1, hr]
    simp only
    rw [hb]
    rw [hr] at he
    cases hl : c.cacheCoins.lookup id with
    | some e => rw [hl] at he; cases he
    | none =>
      rw [hl] at he
      simp only at he
      cases hf : c.base.found X id with
      | none => rfl
      | some t => rw [hf] at he; cases he
  | some e =>
    simp only
    by_cases hF : e.flags &&& FRESH ≠ 0
    · rw [if_pos hF]
      simp only
      rw [AList.lookup_erase]
      simp only
      rw [hb]
      -- the base yields nothing, or a spent coin
      have hrep : c.base.reports X id = none := by
        rw [hr] at he
        cases hl : c.cacheCoins.lookup id with
        | some e' =>
          rw [hl] at he
          cases he
          exact hfresh e hl hF
        | none =>
          rw [hl] at he
          simp only at he
          rw [reports_eq_found]
          cases hf : c.base.found X id with
          | none => rfl
          | some t =>
            rw [hf] at he
            simp only [Option.map_some'] at he
            cases he
            simp only at hF ⊢
            by_cases hs : t.IsSpent = true
            · rw [if_pos hs]
            · rw [if_neg hs] at hF
              exact absurd zero_and_FRESH hF
      rw [reports_eq_found] at hrep
      cases hf : c.base.found X id with
      | none => rfl
      | some t =>
        rw [hf] at hrep
        simp only at hrep
        by_cases hs : t.IsSpent = true
        · simp [hs]
        · rw [if_neg hs] at hrep; cases hrep
    · rw [if_neg hF]
      simp only
      rw [AList.lookup_insert]
      rfl

/-! ## The loop of `BatchWrite` -/

theorem BatchWriteLoop_cons (X : ScriptOps) (key : COutPoint) (it : CCoinsCacheEntry)
    (rest : List (Sigma fun _ : COutPoint => CCoinsCacheEntry))
    (hnd : (⟨key, it⟩ :: rest).NodupKeys) (cacheCoins : CCoinsMap) (usage : Nat) :
    BatchWriteLoop X (⟨key, it⟩ :: rest) hnd cacheCoins usage =
      if it.flags &&& DIRTY = 0 then
        BatchWriteLoop X rest (List.nodupKeys_cons.1 hnd).2 cacheCoins usage
      else
        match cacheCoins.lookup key with
        | none =>
          if ¬ (it.flags &&& FRESH ≠ 0 ∧ it.coin.IsSpent) then
            BatchWriteLoop X rest (List.nodupKeys_cons.1 hnd).2
              (cacheCoins.insert key
                { coin := it.coin
                  flags := DIRTY ||| (if it.flags &&& FRESH ≠ 0 then FRESH else 0) })
              (usageAdd usage (it.coin.DynamicMemoryUsage X))
          else BatchWriteLoop X rest (List.nodupKeys_cons.1 hnd).2 cacheCoins usage
        | some itUs =>
          if it.flags &&& FRESH ≠ 0 ∧ ¬ itUs.coin.IsSpent then
            (.error .freshMisapplied, cacheCoins, usage, ⟨⟨key, it⟩ :: rest, hnd⟩)
          else if itUs.flags &&& FRESH ≠ 0 ∧ it.coin.IsSpent then
            BatchWriteLoop X rest (List.nodupKeys_cons.1 hnd).2 (cacheCoins.erase key)
              (usageSub usage (itUs.coin.DynamicMemoryUsage X))
          else
            BatchWriteLoop X rest (List.nodupKeys_cons.1 hnd).2
              (cacheCoins.insert key { coin := it.coin, flags := itUs.flags ||| DIRTY })
              (usageAdd (usageSub usage (itUs.coin.DynamicMemoryUsage X))
                (it.coin.DynamicMemoryUsage X)) := by
  rw [BatchWriteLoop]

theorem BatchWriteLoop_step (X : ScriptOps) (key : COutPoint) (it : CCoinsCacheEntry)
    (rest : List (Sigma fun _ : COutPoint => CCoinsCacheEntry))
    (hnd : (⟨key, it⟩ :: rest).NodupKeys) (m : CCoinsMap) (u : Nat) :
    (∃ e, mergeEntry it (m.lookup key) = .error e ∧
      BatchWriteLoop X (⟨key, it⟩ :: rest) hnd m u = (.error e, m, u, ⟨⟨key, it⟩ :: rest, hnd⟩)) ∨
    (∃ (m' : CCoinsMap) (u' : Nat), mergeEntry it (m.lookup key) = .ok (m'.lookup key) ∧
      (∀ k', k' ≠ key → m'.lookup k' = m.lookup k') ∧
      BatchWriteLoop X (⟨key, it⟩ :: rest) hnd m u =
        BatchWriteLoop X rest (List.nodupKeys_cons.1 hnd).2 m' u') := by
  rw [BatchWriteLoop_cons]
  unfold mergeEntry
  by_cases hd : it.flags &&& DIRTY = 0
  · right
    refine ⟨m, u, ?_, fun _ _ => rfl, ?_⟩
    · rw [if_pos hd]
    · simp only [hd, if_true]
  · simp only [hd, if_false]
    cases hl : m.lookup key with
    | none =>
      simp only
      right
      by_cases hc : ¬ (it.flags &&& FRESH ≠ 0 ∧ it.coin.IsSpent = true)
      · rw [if_pos hc, if_pos hc]
        exact ⟨_, _, by rw [AList.lookup_insert], fun k' hk => AList.lookup_insert_ne hk, rfl⟩
      · rw [if_neg hc, if_neg hc]
        exact ⟨m, u, by rw [hl], fun _ _ => rfl, rfl⟩
    | some itUs =>
      simp only
      by_cases h1 : it.flags &&& FRESH ≠ 0 ∧ ¬ itUs.coin.IsSpent = true
      · left
        rw [if_pos h1, if_pos h1]
        exact ⟨_, rfl, rfl⟩
      · right
        rw [if_neg h1, if_neg h1]
        by_cases h2 : itUs.flags &&& FRESH ≠ 0 ∧ it.coin.IsSpent = true
        · rw [if_pos h2, if_pos h2]
          exact ⟨_, _, by rw [AList.lookup_erase], fun k' hk => AList.lookup_erase_ne hk, rfl⟩
        · rw [if_neg h2, if_neg h2]
          exact ⟨_, _, by rw [AList.lookup_insert], fun k' hk => AList.lookup_insert_ne hk, rfl⟩

/-- The receiving map after the loop of `BatchWrite`: a key without incoming
entry keeps its entry; a key with an incoming entry keeps its entry or holds
the merged one; and when no incoming entry meets the logic error the loop
runs to its end and every such key holds the merged entry. -/
theorem BatchWriteLoop_lookup (X : ScriptOps) :
    ∀ (l : List (Sigma fun _ : COutPoint => CCoinsCacheEntry)) (hnd : l.NodupKeys)
      (m : CCoinsMap) (u : Nat),
      (∀ k, l.dlookup k = none → (BatchWriteLoop X l hnd m u).2.1.lookup k = m.lookup k) ∧
      (∀ k it, l.dlookup k = some it →
        (BatchWriteLoop X l hnd m u).2.1.lookup k = m.lookup k ∨
        mergeEntry it (m.lookup k) = .ok ((BatchWriteLoop X l hnd m u).2.1.lookup k)) ∧
      ((∀ k it, l.dlookup k = some it → ∀ e, mergeEntry it (m.lookup k) ≠ .error e) →
        (BatchWriteLoop X l hnd m u).1 = .ok () ∧
        ∀ k it, l.dlookup k = some it →
          mergeEntry it (m.lookup k) = .ok ((BatchWriteLoop X l hnd m u).2.1.lookup k)) := by
  intro l
  induction l with
  | nil =>
    intro hnd m u
    refine ⟨fun _ _ => rfl, fun k it h => by simp at h, fun _ => ⟨rfl, fun k it h => by simp at h⟩⟩
  | cons hd rest ih =>
    obtain ⟨key, it⟩ := hd
    intro hnd m u
    have hkey : rest.dlookup key = none :=
      List.dlookup_eq_none.2 (List.nodupKeys_cons.1 hnd).1
    rcases BatchWriteLoop_step X key it rest hnd m u with ⟨e, he, hloop⟩ | ⟨m', u', hm, hoth, hloop⟩
    · rw [hloop]
      refine ⟨fun _ _ => rfl, fun _ _ _ => Or.inl rfl, fun hno => ?_⟩
      exact absurd he (hno key it (List.dlookup_cons_eq _ _ _) e)
    · rw [hloop]
      obtain ⟨ihA, ihB, ihC⟩ := ih (List.nodupKeys_cons.1 hnd).2 m' u'
      refine ⟨?_, ?_, ?_⟩
      · intro k hk
        have hne : k ≠ key := by
          intro h
          subst h
          rw [List.dlookup_cons_eq] at hk
          cases hk
        rw [List.dlookup_cons_ne _ _ hne] at hk
        rw [ihA k hk, hoth k hne]
      · intro k it' hk
        by_cases hne : k = key
        · subst hne
          rw [List.dlookup_cons_eq] at hk
          cases hk
          right
          rw [ihA k hkey]
          exact hm
        · rw [List.dlookup_cons_ne _ _ hne] at hk
          rcases ihB k it' hk with h | h
          · left; rw [h, hoth k hne]
          · right; rw [← hoth k hne]; exact h
      · intro hno
        have hno' : ∀ k it', rest.dlookup k = some it' →
            ∀ e, mergeEntry it' (m'.lookup k) ≠ .error e := by
          intro k it' hk e
          have hne : k ≠ key := by
            intro h
            subst h
            rw [hkey] at hk
            cases hk
          rw [hoth k hne]
          exact hno k it' (by rw [List.dlookup_cons_ne _ _ hne]; exact hk) e
        obtain ⟨c1, c2⟩ := ihC hno'
        refine ⟨c1, ?_⟩
        intro k it' hk
        by_cases hne : k = key
        · subst hne
          rw [List.dlookup_cons_eq] at hk
          cases hk
          rw [ihA k hkey]
          exact hm
        · rw [List.dlookup_cons_ne _ _ hne] at hk
          rw [← hoth k hne]
          exact c2 k it' hk

/-- `BatchWrite` of a cache, in terms of its loop. -/
theorem BatchWrite_eq (X : ScriptOps) (c : CCoinsViewCache) (mapCoins : CCoinsMap)
    (h : uint256) :
    ∃ c' : CCoinsViewCache, (c.BatchWrite X mapCoins h).2.1 = c' ∧ c'.base = c.base ∧
      c'.cacheCoins =
        (BatchWriteLoop X mapCoins.entries mapCoins.nodupKeys c.cacheCoins
          c.cachedCoinsUsage).2.1 ∧
      ((BatchWriteLoop X mapCoins.entries mapCoins.nodupKeys c.cacheCoins
          c.cachedCoinsUsage).1 = .ok () → (c.BatchWrite X mapCoins h).1 = .ok true) := by
  unfold CCoinsViewCache.BatchWrite
  rcases BatchWriteLoop X mapCoins.entries mapCoins.nodupKeys c.cacheCoins
    c.cachedCoinsUsage with ⟨r, m', u', left⟩
  cases r with
  | error e => exact ⟨_, rfl, rfl, rfl, fun h => by cases h⟩
  | ok x => exact ⟨_, rfl, rfl, rfl, fun _ => rfl⟩

/-! ## What a cache reports -/

theorem Flush_into_cache (X : ScriptOps) (c P : CCoinsViewCache) (hb : c.base = P.view) :
    (c.Flush X).2.base = (P.BatchWrite X c.cacheCoins c.hashBlock).2.1.view ∧
    ((P.BatchWrite X c.cacheCoins c.hashBlock).1 = .ok true →
      (c.Flush X).1 = .ok true ∧ (c.Flush X).2.cacheCoins = ∅) := by
  unfold CCoinsViewCache.Flush
  have : P.view.BatchWrite X c.cacheCoins c.hashBlock =
      ((P.BatchWrite X c.cacheCoins c.hashBlock).1,
        (P.BatchWrite X c.cacheCoins c.hashBlock).2.1.view,
        (P.BatchWrite X c.cacheCoins c.hashBlock).2.2) := rfl
  rw [hb, this]
  rcases P.BatchWrite X c.cacheCoins c.hashBlock with ⟨r, P', left⟩
  cases r with
  | error e => exact ⟨rfl, fun h => by cases h⟩
  | ok b => exact ⟨rfl, fun h => ⟨by simp_all, rfl⟩⟩

theorem Flush_into_store (X : ScriptOps) (c : CCoinsViewCache)
    (coins : COutPoint → Option Coin) (ok : Bool) (w : List (CCoinsMap × uint256))
    (hb : c.base = .store coins ok w) :
    (c.Flush X).1 = .ok ok ∧
    (c.Flush X).2.base = .store coins ok (w ++ [(c.cacheCoins, c.hashBlock)]) := by
  unfold CCoinsViewCache.Flush
  rw [hb]
  exact ⟨rfl, rfl⟩

theorem mem_entries_of_lookup (m : CCoinsMap) (k : COutPoint) (e : CCoinsCacheEntry)
    (h : m.lookup k = some e) : (⟨k, e⟩ : Sigma fun _ : COutPoint => CCoinsCacheEntry) ∈ m.entries :=
  List.of_mem_dlookup (Option.mem_def.2 h)

theorem nonDirtyAgree_of_entries (X : ScriptOps) (m : CCoinsMap) (backing : CCoinsView)
    (h : ∀ p ∈ m.entries, p.2.flags &&& DIRTY = 0 → backing.reports X p.1 = p.2.unspent) :
    NonDirtyAgree X m backing :=
  fun k e hk hf => h ⟨k, e⟩ (mem_entries_of_lookup m k e hk) hf

/-! ## FRESH entries across a flush -/

theorem dirty_fresh_and_FRESH : (0 ||| (DIRTY ||| FRESH)) &&& FRESH ≠ 0 := by decide

theorem dirty_or_fresh_and_FRESH : (DIRTY ||| FRESH) &&& FRESH ≠ 0 := by decide

/-- An `AddCoin(id, coin, false)` on a cache without entry for `id` leaves no
entry for `id` or a FRESH-flagged one. -/
theorem AddCoin_fresh_at (X : ScriptOps) (c : CCoinsViewCache) (id : COutPoint) (coin : Coin)
    (hl : c.cacheCoins.lookup id = none) :
    ∀ e, (c.AddCoin X id coin false).2.cacheCoins.lookup id = some e →
      e.flags &&& FRESH ≠ 0 := by
  intro e he
  unfold CCoinsViewCache.AddCoin at he
  split at he
  · rw [hl] at he; cases he
  · split at he
    · rw [hl] at he; cases he
    · simp only [hl, Option.isNone_none, Option.getD_none, Coin.default_isSpent,
        Bool.not_false, Bool.not_true, Bool.and_false, Bool.false_eq_true, if_false,
        if_true, Bool.true_and] at he
      rw [AList.lookup_insert] at he
      cases he
      exact dirty_fresh_and_FRESH

/-- Merging a map whose entry for `id` is absent or FRESH-flagged into a cache
that has no entry for `id` leaves no entry for `id` or a FRESH-flagged one,
whether or not the merge runs to its end. -/
theorem BatchWrite_fresh_at (X : ScriptOps) (P : CCoinsViewCache) (mC : CCoinsMap)
    (h : uint256) (id : COutPoint) (hP : P.cacheCoins.lookup id = none)
    (hC : ∀ e, mC.lookup id = some e → e.flags &&& FRESH ≠ 0) :
    (P.BatchWrite X mC h).2.1.base = P.base ∧
    ∀ e, (P.BatchWrite X mC h).2.1.cacheCoins.lookup id = some e → e.flags &&& FRESH ≠ 0 := by
  obtain ⟨P', b1, b2, b3, -⟩ := BatchWrite_eq X P mC h
  obtain ⟨lA, lB, -⟩ := BatchWriteLoop_lookup X mC.entries mC.nodupKeys P.cacheCoins
    P.cachedCoinsUsage
  rw [b1]
  refine ⟨b2, ?_⟩
  intro e he
  rw [b3] at he
  cases hl : mC.lookup id with
  | none =>
    rw [lA id hl, hP] at he
    cases he
  | some it =>
    rcases lB id it hl with h1 | h1
    · rw [h1, hP] at he
      cases he
    · rw [hP, he] at h1
      unfold mergeEntry at h1
      split at h1
      · cases h1
      · simp only at h1
        split at h1
        · have := Except.ok.inj h1
          cases this
          simp only
          rw [if_pos (hC it hl)]
          exact dirty_or_fresh_and_FRESH
        · cases h1

/-- A `SpendCoin(id)` on a cache over a store that holds no coin at `id`, when
the cache's entry for `id` is absent or FRESH-flagged, leaves no entry for
`id` and the store as it was. -/
theorem SpendCoin_fresh_at (X : ScriptOps) (c : CCoinsViewCache) (id : COutPoint) (mv : Bool)
    (coins : COutPoint → Option Coin) (ok : Bool) (w : List (CCoinsMap × uint256))
    (hb : c.base = .store coins ok w) (hid : coins id = none)
    (hf : ∀ e, c.cacheCoins.lookup id = some e → e.flags &&& FRESH ≠ 0) :
    (c.SpendCoin X id mv).2.base = .store coins ok w ∧
    (c.SpendCoin X id mv).2.cacheCoins.lookup id = none := by
  rw [SpendCoin_eq]
  cases hl : c.cacheCoins.lookup id with
  | some e =>
    rw [FetchCoin_hit X c id e hl]
    simp only
    rw [if_pos (hf e hl)]
    exact ⟨hb, AList.lookup_erase _ _⟩
  | none =>
    have hfound : c.base.found X id = none := by rw [hb, found_store]; exact hid
    have hstate : (c.base.GetCoin X id {}).2 = .store coins ok w := by
      rw [hb]
      unfold CCoinsView.GetCoin
      rw [hid]
    rcases FetchCoin_miss X c id hl with ⟨-, h2, h3⟩ | ⟨tmp, h1, -, -⟩
    · rw [h2, h3]
      exact ⟨hstate, hl⟩
    · rw [hfound] at h1; cases h1

/-! ## `Flush`, `BatchWrite` and `Uncache` -/

/-- What `Flush` returns and what it leaves when `BatchWrite` returns. -/
theorem Flush_eq (X : ScriptOps) (c : CCoinsViewCache) :
    (c.Flush X).1 = (c.base.BatchWrite X c.cacheCoins c.hashBlock).1 ∧
    (∀ b, (c.Flush X).1 = .ok b →
      (c.Flush X).2 =
        { base := (c.base.BatchWrite X c.cacheCoins c.hashBlock).2.1
          hashBlock := c.hashBlock, cacheCoins := ∅, cachedCoinsUsage := 0 }) := by
  unfold CCoinsViewCache.Flush
  rcases c.base.BatchWrite X c.cacheCoins c.hashBlock with ⟨r, base', left⟩
  cases r with
  | error e => exact ⟨rfl, fun b h => by cases h⟩
  | ok b => exact ⟨rfl, fun _ _ => rfl⟩

/-- A loop of `BatchWrite` that runs to its end has consumed the incoming map. -/
theorem BatchWriteLoop_left (X : ScriptOps) :
    ∀ (l : List (Sigma fun _ : COutPoint => CCoinsCacheEntry)) (hnd : l.NodupKeys)
      (m : CCoinsMap) (u : Nat),
      (BatchWriteLoop X l hnd m u).1 = .ok () → (BatchWriteLoop X l hnd m u).2.2.2 = ∅ := by
  intro l
  induction l with
  | nil => intro hnd m u _; rfl
  | cons hd rest ih =>
    obtain ⟨key, it⟩ := hd
    intro hnd m u hok
    rcases BatchWriteLoop_step X key it rest hnd m u with ⟨e, -, hloop⟩ | ⟨m', u', -, -, hloop⟩
    · rw [hloop] at hok; cases hok
    · rw [hloop] at hok ⊢
      exact ih _ m' u' hok

/-- What `BatchWrite` of a cache returns and leaves when it returns. -/
theorem BatchWrite_ok (X : ScriptOps) (c : CCoinsViewCache) (incoming : CCoinsMap)
    (h : uint256) (b : Bool) (hret : (c.BatchWrite X incoming h).1 = .ok b) :
    b = true ∧ (c.BatchWrite X incoming h).2.2 = ∅ ∧
    (c.BatchWrite X incoming h).2.1.hashBlock = h ∧
    (c.BatchWrite X incoming h).2.1.base = c.base := by
  have hl := BatchWriteLoop_left X incoming.entries incoming.nodupKeys c.cacheCoins
    c.cachedCoinsUsage
  unfold CCoinsViewCache.BatchWrite at hret ⊢
  rcases hloop : BatchWriteLoop X incoming.entries incoming.nodupKeys c.cacheCoins
    c.cachedCoinsUsage with ⟨r, m', u', left⟩
  rw [hloop] at hret hl
  cases r with
  | error e => cases hret
  | ok x =>
    cases hret
    exact ⟨rfl, hl rfl, rfl, rfl⟩

/-- `BatchWrite` of a cache with an empty incoming map and the hash the cache
already has changes nothing. -/
theorem BatchWrite_empty (X : ScriptOps) (c : CCoinsViewCache) :
    c.BatchWrite X ∅ c.hashBlock = (.ok true, c, ∅) := rfl

theorem view_BatchWrite_empty (X : ScriptOps) (P : CCoinsViewCache) (h : uint256)
    (hh : P.hashBlock = h) : P.view.BatchWrite X ∅ h = (.ok true, P.view, ∅) := by
  subst hh
  rfl

theorem and_ne_zero_imp_ne_zero (f g : Nat) (h : f &&& g ≠ 0) : f ≠ 0 := by
  intro hf
  subst hf
  exact h (Nat.zero_and g)

theorem Uncache_eq (X : ScriptOps) (c : CCoinsViewCache) (id : COutPoint) :
    (c.cacheCoins.lookup id = none → c.Uncache X id = c) ∧
    (∀ e, c.cacheCoins.lookup id = some e → e.flags ≠ 0 → c.Uncache X id = c) ∧
    (∀ e, c.cacheCoins.lookup id = some e → e.flags = 0 →
      c.Uncache X id = { c with
        cacheCoins := c.cacheCoins.erase id
        cachedCoinsUsage := usageSub c.cachedCoinsUsage (e.coin.DynamicMemoryUsage X) }) := by
  unfold CCoinsViewCache.Uncache
  refine ⟨fun h => by rw [h], fun e h hf => by rw [h]; simp only; rw [if_neg hf],
    fun e h hf => by rw [h]; simp only; rw [if_pos hf]⟩

/-! ## The scenario of the specification -/

theorem coinScenario_store (X : ScriptOps) (writeOk : Bool) (w : List (CCoinsMap × uint256))
    (hashBlock : uint256) (id : COutPoint) (coin : Coin) (hs : coin.IsSpent = false)
    (hu : X.IsUnspendable coin.out.scriptPubKey = false) :
    coinScenario X { base := .store (fun _ => none) writeOk w, hashBlock := hashBlock } id coin
      = (.ok (), (true, coin), (true, some coin), false, .ok writeOk, 0) := by
  let c : CCoinsViewCache := { base := .store (fun _ => none) writeOk w, hashBlock := hashBlock }
  have hl : c.cacheCoins.lookup id = none := rfl
  obtain ⟨entry, e1, -, e3, e4, -, e6⟩ := AddCoin_ok X c id coin false hs hu
    (Or.inr (fun e he => by rw [hl] at he; cases he))
  have hfresh := AddCoin_fresh_at X c id coin hl entry e4
  -- GetCoin
  have h2 := GetCoin_hit X (c.AddCoin X id coin false).2 id entry e4 {}
  -- SpendCoin
  have h3 := SpendCoin_eq X (c.AddCoin X id coin false).2 id true
  rw [FetchCoin_hit X _ id entry e4] at h3
  simp only [if_pos hfresh, if_true] at h3
  -- HaveCoin
  have hl3 : (((c.AddCoin X id coin false).2.SpendCoin X id true).2).cacheCoins.lookup id
      = none := by
    rw [h3]
    exact AList.lookup_erase _ _
  have hb3 : (((c.AddCoin X id coin false).2.SpendCoin X id true).2).base
      = .store (fun _ => none) writeOk w := by
    rw [h3]
    exact e6
  have hfound : (((c.AddCoin X id coin false).2.SpendCoin X id true).2).base.found X id
      = none := by
    rw [hb3, found_store]
  have h4 := HaveCoin_eq_FetchCoin X ((c.AddCoin X id coin false).2.SpendCoin X id true).2 id
  have hb4 : (((c.AddCoin X id coin false).2.SpendCoin X id true).2.HaveCoin X id).2.base
      = .store (fun _ => none) writeOk w := by
    rw [h4.2]
    rcases (FetchCoin_state X ((c.AddCoin X id coin false).2.SpendCoin X id true).2 id).2.2
      with hh | hh
    · rw [hh, hb3]
    · rw [hh, hb3]
      rfl
  have h4r : (((c.AddCoin X id coin false).2.SpendCoin X id true).2.HaveCoin X id).1
      = false := by
    rw [h4.1, FetchCoin_entry, hl3]
    simp only
    rw [hfound]
    rfl
  -- Flush
  obtain ⟨f1, f2⟩ := Flush_into_store X
    (((c.AddCoin X id coin false).2.SpendCoin X id true).2.HaveCoin X id).2
    (fun _ => none) writeOk w hb4
  have f3 := (Flush_eq X
    (((c.AddCoin X id coin false).2.SpendCoin X id true).2.HaveCoin X id).2).2 writeOk f1
  have hspend : ((c.AddCoin X id coin false).2.SpendCoin X id true).1 = (true, some coin) := by
    rw [h3, e1]
  show ((c.AddCoin X id coin false).1,
    ((c.AddCoin X id coin false).2.GetCoin X id {}).1,
    (((c.AddCoin X id coin false).2.GetCoin X id {}).2.SpendCoin X id true).1,
    ((((c.AddCoin X id coin false).2.GetCoin X id {}).2.SpendCoin X id true).2.HaveCoin
      X id).1,
    (((((c.AddCoin X id coin false).2.GetCoin X id {}).2.SpendCoin X id true).2.HaveCoin
      X id).2.Flush X).1,
    (((((c.AddCoin X id coin false).2.GetCoin X id {}).2.SpendCoin X id true).2.HaveCoin
      X id).2.Flush X).2.GetCacheSize) = _
  rw [h2]
  simp only
  rw [e3, e1, hs, hspend, h4r, f1, f3]
  rfl

/-! ## The loop of `BatchWrite`, entry by entry -/

/-- The only entries the merge refuses: a dirty FRESH incoming entry over an
unspent local coin. -/
theorem mergeEntry_error (it : CCoinsCacheEntry) (us : Option CCoinsCacheEntry) (e : Err)
    (h : mergeEntry it us = .error e) :
    e = .freshMisapplied ∧ it.flags &&& DIRTY ≠ 0 ∧
      ∃ itUs, us = some itUs ∧ it.flags &&& FRESH ≠ 0 ∧ itUs.coin.IsSpent = false := by
  unfold mergeEntry at h
  split at h
  · cases h
  · rename_i hd
    cases us with
    | none =>
      simp only at h
      split at h <;> cases h
    | some itUs =>
      simp only at h
      split at h
      · rename_i h1
        cases h
        exact ⟨rfl, hd, itUs, rfl, h1.1, by simpa using h1.2⟩
      · split at h <;> cases h

/-- The merge of a dirty FRESH incoming entry over an unspent local coin. -/
theorem mergeEntry_misapplied (it itUs : CCoinsCacheEntry) (hd : it.flags &&& DIRTY ≠ 0)
    (hf : it.flags &&& FRESH ≠ 0) (hs : itUs.coin.IsSpent = false) :
    mergeEntry it (some itUs) = .error .freshMisapplied := by
  unfold mergeEntry
  rw [if_neg hd]
  simp only
  rw [if_pos ⟨hf, by simp [hs]⟩]

/-- The loop of `BatchWrite`, entry by entry.  A key without incoming entry
keeps its local entry.  An incoming entry is either still in the incoming
map, and then the local entry of its key is untouched, or consumed, and then
the local entry of its key is the merged one.  The loop raises exactly when
some incoming entry is refused by the merge, and what it raises is the
FRESH-misapplied logic error. -/
theorem BatchWriteLoop_trace (X : ScriptOps) :
    ∀ (l : List (Sigma fun _ : COutPoint => CCoinsCacheEntry)) (hnd : l.NodupKeys)
      (m : CCoinsMap) (u : Nat),
      (∀ k, l.dlookup k = none →
        (BatchWriteLoop X l hnd m u).2.1.lookup k = m.lookup k ∧
        (BatchWriteLoop X l hnd m u).2.2.2.lookup k = none) ∧
      (∀ k it, l.dlookup k = some it →
        ((BatchWriteLoop X l hnd m u).2.2.2.lookup k = some it ∧
          (BatchWriteLoop X l hnd m u).2.1.lookup k = m.lookup k) ∨
        ((BatchWriteLoop X l hnd m u).2.2.2.lookup k = none ∧
          mergeEntry it (m.lookup k) = .ok ((BatchWriteLoop X l hnd m u).2.1.lookup k))) ∧
      (((BatchWriteLoop X l hnd m u).1 = .ok () ∧ (BatchWriteLoop X l hnd m u).2.2.2 = ∅) ∨
        ((BatchWriteLoop X l hnd m u).1 = .error .freshMisapplied ∧
          ∃ key it, l.dlookup key = some it ∧
            (BatchWriteLoop X l hnd m u).2.2.2.lookup key = some it ∧
            mergeEntry it (m.lookup key) = .error .freshMisapplied)) ∧
      ((∃ k it e, l.dlookup k = some it ∧ mergeEntry it (m.lookup k) = .error e) →
        (BatchWriteLoop X l hnd m u).1 = .error .freshMisapplied) := by
  intro l
  induction l with
  | nil =>
    intro hnd m u
    refine ⟨fun _ _ => ⟨rfl, rfl⟩, fun k it h => by simp at h, Or.inl ⟨rfl, rfl⟩, ?_⟩
    rintro ⟨k, it, e, h, -⟩
    simp at h
  | cons hd rest ih =>
    obtain ⟨key, it⟩ := hd
    intro hnd m u
    have hkey : rest.dlookup key = none :=
      List.dlookup_eq_none.2 (List.nodupKeys_cons.1 hnd).1
    rcases BatchWriteLoop_step X key it rest hnd m u with ⟨e, he, hloop⟩ | ⟨m', u', hm, hoth, hloop⟩
    · rw [hloop]
      obtain ⟨he1, -, -⟩ := mergeEntry_error it _ e he
      subst he1
      refine ⟨fun k hk => ⟨rfl, hk⟩, fun k it' hk => Or.inl ⟨hk, rfl⟩, Or.inr ⟨rfl, ?_⟩,
        fun _ => rfl⟩
      exact ⟨key, it, List.dlookup_cons_eq _ _ _, List.dlookup_cons_eq _ _ _, he⟩
    · rw [hloop]
      obtain ⟨ihA, ihB, ihC, ihD⟩ := ih (List.nodupKeys_cons.1 hnd).2 m' u'
      refine ⟨?_, ?_, ?_, ?_⟩
      · intro k hk
        have hne : k ≠ key := by
          intro h
          subst h
          rw [List.dlookup_cons_eq] at hk
          cases hk
        rw [List.dlookup_cons_ne _ _ hne] at hk
        rw [(ihA k hk).1, hoth k hne]
        exact ⟨rfl, (ihA k hk).2⟩
      · intro k it' hk
        by_cases hne : k = key
        · subst hne
          rw [List.dlookup_cons_eq] at hk
          cases hk
          right
          rw [(ihA k hkey).1]
          exact ⟨(ihA k hkey).2, hm⟩
        · rw [List.dlookup_cons_ne _ _ hne] at hk
          rw [← hoth k hne]
          exact ihB k it' hk
      · rcases ihC with h | ⟨h1, key', it', h2, h3, h4⟩
        · exact Or.inl h
        · right
          have hne : key' ≠ key := by
            intro h
            subst h
            rw [hkey] at h2
            cases h2
          refine ⟨h1, key', it', ?_, h3, ?_⟩
          · rw [List.dlookup_cons_ne _ _ hne]
            exact h2
          · rw [← hoth key' hne]
            exact h4
      · rintro ⟨k, it', e, hk, hek⟩
        by_cases hne : k = key
        · subst hne
          rw [List.dlookup_cons_eq] at hk
          cases hk
          rw [hm] at hek
          cases hek
        · rw [List.dlookup_cons_ne _ _ hne] at hk
          exact ihD ⟨k, it', e, hk, by rw [hoth k hne]; exact hek⟩

/-- The method `BatchWrite` of a cache, in terms of its loop. -/
theorem BatchWrite_components (X : ScriptOps) (c : CCoinsViewCache) (incoming : CCoinsMap)
    (h : uint256) :
    (c.BatchWrite X incoming h).2.1.cacheCoins =
      (BatchWriteLoop X incoming.entries incoming.nodupKeys c.cacheCoins
        c.cachedCoinsUsage).2.1 ∧
    (c.BatchWrite X incoming h).2.1.cachedCoinsUsage =
      (BatchWriteLoop X incoming.entries incoming.nodupKeys c.cacheCoins
        c.cachedCoinsUsage).2.2.1 ∧
    (c.BatchWrite X incoming h).2.2 =
      (BatchWriteLoop X incoming.entries incoming.nodupKeys c.cacheCoins
        c.cachedCoinsUsage).2.2.2 ∧
    (c.BatchWrite X incoming h).2.1.base = c.base ∧
    ((BatchWriteLoop X incoming.entries incoming.nodupKeys c.cacheCoins
        c.cachedCoinsUsage).1 = .ok () →
      (c.BatchWrite X incoming h).1 = .ok true ∧ (c.BatchWrite X incoming h).2.1.hashBlock = h) ∧
    (∀ e, (BatchWriteLoop X incoming.entries incoming.nodupKeys c.cacheCoins
        c.cachedCoinsUsage).1 = .error e →
      (c.BatchWrite X incoming h).1 = .error e ∧
      (c.BatchWrite X incoming h).2.1.hashBlock = c.hashBlock) := by
  unfold CCoinsViewCache.BatchWrite
  rcases BatchWriteLoop X incoming.entries incoming.nodupKeys c.cacheCoins
    c.cachedCoinsUsage with ⟨r, m', u', left⟩
  cases r with
  | error e =>
    refine ⟨rfl, rfl, rfl, rfl, (fun h => by cases h), fun e' he => ?_⟩
    cases he
    exact ⟨rfl, rfl⟩
  | ok x => exact ⟨rfl, rfl, rfl, rfl, fun _ => ⟨rfl, rfl⟩, fun e' he => by cases he⟩

/-- The method `BatchWrite` of a cache, entry by entry (see
`BatchWriteLoop_trace`); a raise leaves the best-block hash as it was. -/
theorem BatchWrite_trace (X : ScriptOps) (c : CCoinsViewCache) (incoming : CCoinsMap)
    (h : uint256) :
    (∀ k, incoming.lookup k = none →
      (c.BatchWrite X incoming h).2.1.cacheCoins.lookup k = c.cacheCoins.lookup k ∧
      (c.BatchWrite X incoming h).2.2.lookup k = none) ∧
    (∀ k it, incoming.lookup k = some it →
      ((c.BatchWrite X incoming h).2.2.lookup k = some it ∧
        (c.BatchWrite X incoming h).2.1.cacheCoins.lookup k = c.cacheCoins.lookup k) ∨
      ((c.BatchWrite X incoming h).2.2.lookup k = none ∧
        mergeEntry it (c.cacheCoins.lookup k) =
          .ok ((c.BatchWrite X incoming h).2.1.cacheCoins.lookup k))) ∧
    (((c.BatchWrite X incoming h).1 = .ok true ∧ (c.BatchWrite X incoming h).2.2 = ∅ ∧
        (c.BatchWrite X incoming h).2.1.hashBlock = h) ∨
      ((c.BatchWrite X incoming h).1 = .error .freshMisapplied ∧
        (c.BatchWrite X incoming h).2.1.hashBlock = c.hashBlock ∧
        ∃ key it, incoming.lookup key = some it ∧
          (c.BatchWrite X incoming h).2.2.lookup key = some it ∧
          mergeEntry it (c.cacheCoins.lookup key) = .error .freshMisapplied)) ∧
    ((∃ k it e, incoming.lookup k = some it ∧
        mergeEntry it (c.cacheCoins.lookup k) = .error e) →
      (c.BatchWrite X incoming h).1 = .error .freshMisapplied) := by
  obtain ⟨c1, -, c3, -, c5, c6⟩ := BatchWrite_components X c incoming h
  obtain ⟨tA, tB, tC, tD⟩ := BatchWriteLoop_trace X incoming.entries incoming.nodupKeys
    c.cacheCoins c.cachedCoinsUsage
  rw [c1, c3]
  refine ⟨tA, tB, ?_, ?_⟩
  · rcases tC with ⟨h1, h2⟩ | ⟨h1, h2⟩
    · exact Or.inl ⟨(c5 h1).1, h2, (c5 h1).2⟩
    · exact Or.inr ⟨(c6 _ h1).1, (c6 _ h1).2, h2⟩
  · intro hex
    exact (c6 _ (tD hex)).1

/-- The loop of `BatchWrite` over entries none of which is DIRTY changes nothing. -/
theorem BatchWriteLoop_clean (X : ScriptOps) :
    ∀ (l : List (Sigma fun _ : COutPoint => CCoinsCacheEntry)) (hnd : l.NodupKeys)
      (m : CCoinsMap) (u : Nat),
      (∀ k it, l.dlookup k = some it → it.flags &&& DIRTY = 0) →
      BatchWriteLoop X l hnd m u = (.ok (), m, u, ∅) := by
  intro l
  induction l with
  | nil => intro hnd m u _; rfl
  | cons hd rest ih =>
    obtain ⟨key, it⟩ := hd
    intro hnd m u hall
    have hkey : rest.dlookup key = none :=
      List.dlookup_eq_none.2 (List.nodupKeys_cons.1 hnd).1
    rw [BatchWriteLoop_cons, if_pos (hall key it (List.dlookup_cons_eq _ _ _))]
    apply ih
    intro k it' hk
    have hne : k ≠ key := by
      intro h
      subst h
      rw [hkey] at hk
      cases hk
    exact hall k it' (by rw [List.dlookup_cons_ne _ _ hne]; exact hk)

/-- A `BatchWrite` with an incoming map without DIRTY entry returns true and
changes neither the map nor the counter of the receiving cache. -/
theorem BatchWrite_clean (X : ScriptOps) (c : CCoinsViewCache) (incoming : CCoinsMap)
    (h : uint256) (hall : ∀ k it, incoming.lookup k = some it → it.flags &&& DIRTY = 0) :
    (c.BatchWrite X incoming h).1 = .ok true ∧
    (c.BatchWrite X incoming h).2.1.cacheCoins = c.cacheCoins ∧
    (c.BatchWrite X incoming h).2.1.cachedCoinsUsage = c.cachedCoinsUsage := by
  obtain ⟨c1, c2, -, -, c5, -⟩ := BatchWrite_components X c incoming h
  have hl := BatchWriteLoop_clean X incoming.entries incoming.nodupKeys c.cacheCoins
    c.cachedCoinsUsage hall
  rw [c1, c2, hl]
  rw [hl] at c5
  exact ⟨(c5 rfl).1, rfl, rfl⟩

/-! ## Flag arithmetic -/

/-- Adding DIRTY to a flag byte sets DIRTY and leaves FRESH as it was. -/
theorem or_DIRTY (f : Nat) : (f ||| DIRTY) &&& DIRTY ≠ 0 ∧ (f ||| DIRTY) &&& FRESH = f &&& FRESH := by
  unfold DIRTY FRESH
  constructor
  · rw [Nat.and_distrib_right]
    intro h
    have h1 : (f &&& 1 ||| 1 &&& 1).testBit 0 = true := by
      rw [Nat.testBit_or]
      simp
    rw [h] at h1
    simp at h1
  · rw [Nat.and_distrib_right]
    have : (1 : Nat) &&& 2 = 0 := by decide
    rw [this, Nat.or_zero]

/-- Adding DIRTY and possibly FRESH to a flag byte: DIRTY is set, and FRESH is
set exactly when it was set or is being added. -/
theorem or_DIRTY_FRESH (f : Nat) (fresh : Bool) :
    (f ||| (DIRTY ||| (if fresh then FRESH else 0))) &&& DIRTY ≠ 0 ∧
    ((f ||| (DIRTY ||| (if fresh then FRESH else 0))) &&& FRESH ≠ 0 ↔
      (f &&& FRESH ≠ 0 ∨ fresh = true)) := by
  unfold DIRTY FRESH
  constructor
  · intro h
    have h1 : ((f ||| (1 ||| (if fresh then 2 else 0))) &&& 1).testBit 0 = true := by
      rw [Nat.testBit_and, Nat.testBit_or, Nat.testBit_or]
      simp
    rw [h] at h1
    simp at h1
  · rw [Nat.and_distrib_right, Nat.and_distrib_right]
    have h12 : (1 : Nat) &&& 2 = 0 := by decide
    rw [h12, Nat.zero_or]
    cases fresh with
    | false =>
      have : ((if false = true then 2 else 0 : Nat) &&& 2) = 0 := by decide
      rw [this, Nat.or_zero]
      simp
    | true =>
      have : ((if true = true then 2 else 0 : Nat) &&& 2) = 2 := by decide
      rw [this]
      constructor
      · intro _
        exact Or.inr rfl
      · intro _ h
        have h1 : (f &&& 2 ||| 2).testBit 1 = true := by
          rw [Nat.testBit_or]
          have : Nat.testBit 2 1 = true := by decide
          rw [this, Bool.or_true]
        rw [h] at h1
        simp at h1

/-! ## Reads and their effect on the map -/

theorem AccessCoin_eq_FetchCoin (X : ScriptOps) (c : CCoinsViewCache) (k : COutPoint) :
    (c.AccessCoin X k).1 = (match (c.FetchCoin X k).1 with
      | none => {}
      | some e => e.coin) ∧
    (c.AccessCoin X k).2 = (c.FetchCoin X k).2 := by
  unfold CCoinsViewCache.AccessCoin
  rcases c.FetchCoin X k with ⟨it, c'⟩
  cases it <;> exact ⟨rfl, rfl⟩

/-- The map `FetchCoin` leaves behind. -/
theorem FetchCoin_map (X : ScriptOps) (c : CCoinsViewCache) (k : COutPoint) :
    (c.FetchCoin X k).2.cacheCoins =
      match c.cacheCoins.lookup k, c.base.found X k with
      | some _, _ => c.cacheCoins
      | none, none => c.cacheCoins
      | none, some tmp =>
        c.cacheCoins.insert k { coin := tmp, flags := if tmp.IsSpent then FRESH else 0 } := by
  cases hl : c.cacheCoins.lookup k with
  | some e => rw [FetchCoin_hit X c k e hl]
  | none =>
    rcases FetchCoin_miss X c k hl with ⟨h1, -, h3⟩ | ⟨tmp, h1, -, h3⟩
    · rw [h1, h3]
    · rw [h1, h3]

/-- The result of `AddCoin` when it returns and the script is spendable. -/
theorem AddCoin_returns (X : ScriptOps) (c : CCoinsViewCache) (k : COutPoint) (coin : Coin)
    (ow : Bool) (hu : X.IsUnspendable coin.out.scriptPubKey = false)
    (hok : (c.AddCoin X k coin ow).1 = .ok ()) :
    coin.IsSpent = false ∧
    (ow = true ∨ ∀ e, c.cacheCoins.lookup k = some e → e.coin.IsSpent = true) := by
  unfold CCoinsViewCache.AddCoin at hok
  cases hs : coin.IsSpent with
  | true =>
    rw [hs] at hok
    simp only [if_true] at hok
    cases hok
  | false =>
    refine ⟨rfl, ?_⟩
    rw [hs, hu] at hok
    simp only [Bool.false_eq_true, if_false] at hok
    cases ow with
    | true => exact Or.inl rfl
    | false =>
      right
      intro e he
      rw [he] at hok
      simp only [Option.getD_some, Bool.not_false, Bool.true_and] at hok
      cases hsp : e.coin.IsSpent with
      | true => rfl
      | false =>
        rw [hsp] at hok
        simp only [Bool.not_false, if_true] at hok
        cases hok

/-! ## The byte counter -/

theorem usageAdd_sum (u S m : Nat) (h : u = S % 2 ^ 64) : usageAdd u m = (S + m) % 2 ^ 64 := by
  unfold usageAdd
  omega

theorem usageSub_sum (u S m : Nat) (h : u = (S + m) % 2 ^ 64) : usageSub u m = S % 2 ^ 64 := by
  unfold usageSub
  omega

theorem sum_kerase (f : CCoinsCacheEntry → Nat) (k : COutPoint) (e : CCoinsCacheEntry) :
    ∀ l : List (Sigma fun _ : COutPoint => CCoinsCacheEntry), l.dlookup k = some e →
      (l.map fun x => f x.2).sum = ((l.kerase k).map fun x => f x.2).sum + f e := by
  intro l
  induction l with
  | nil => intro h; simp at h
  | cons hd tl ih =>
    obtain ⟨k', e'⟩ := hd
    intro h
    by_cases hk : k = k'
    · subst hk
      rw [List.dlookup_cons_eq] at h
      cases h
      have hke : List.kerase k (⟨k, e⟩ :: tl) = tl := List.kerase_cons_eq rfl
      rw [hke, List.map_cons, List.sum_cons, Nat.add_comm]
    · rw [List.dlookup_cons_ne _ _ hk] at h
      have hke : List.kerase k (⟨k', e'⟩ :: tl) = ⟨k', e'⟩ :: List.kerase k tl :=
        List.kerase_cons_ne hk
      rw [hke, List.map_cons, List.sum_cons, List.map_cons, List.sum_cons, ih h, Nat.add_assoc]

/-- The sum over a map, split at an entry. -/
theorem coinsUsage_lookup (X : ScriptOps) (m : CCoinsMap) (k : COutPoint) (e : CCoinsCacheEntry)
    (h : m.lookup k = some e) :
    coinsUsage X m = coinsUsage X (m.erase k) + e.coin.DynamicMemoryUsage X :=
  sum_kerase (fun x => x.coin.DynamicMemoryUsage X) k e m.entries h

theorem erase_of_lookup_none (m : CCoinsMap) (k : COutPoint) (h : m.lookup k = none) :
    m.erase k = m := by
  apply AList.ext
  show m.entries.kerase k = m.entries
  exact List.kerase_of_not_mem_keys (AList.lookup_eq_none.1 h)

/-- The sum over a map after an insertion. -/
theorem coinsUsage_insert (X : ScriptOps) (m : CCoinsMap) (k : COutPoint) (e : CCoinsCacheEntry) :
    coinsUsage X (m.insert k e) = coinsUsage X (m.erase k) + e.coin.DynamicMemoryUsage X := by
  unfold coinsUsage
  rw [AList.insert_entries, List.map_cons, List.sum_cons, Nat.add_comm]
  rfl

theorem coinsUsage_insert_new (X : ScriptOps) (m : CCoinsMap) (k : COutPoint)
    (e : CCoinsCacheEntry) (h : m.lookup k = none) :
    coinsUsage X (m.insert k e) = coinsUsage X m + e.coin.DynamicMemoryUsage X := by
  rw [coinsUsage_insert, erase_of_lookup_none m k h]

/-- The operation `FetchCoin` keeps the byte-counter invariant. -/
theorem FetchCoin_usage (X : ScriptOps) (c : CCoinsViewCache) (k : COutPoint)
    (h : UsageOK X c) : UsageOK X (c.FetchCoin X k).2 := by
  cases hl : c.cacheCoins.lookup k with
  | some e =>
    rw [FetchCoin_hit X c k e hl]
    exact h
  | none =>
    rcases FetchCoin_miss X c k hl with ⟨-, -, h3⟩ | ⟨tmp, -, -, h3⟩
    · rw [h3]
      exact h
    · rw [h3]
      show usageAdd c.cachedCoinsUsage (tmp.DynamicMemoryUsage X) = _
      rw [coinsUsage_insert_new X _ _ _ hl]
      exact usageAdd_sum _ _ _ h

/-- The operation `SpendCoin` keeps the byte-counter invariant, an empty script
owning no dynamic memory. -/
theorem SpendCoin_usage (X : ScriptOps) (hX : X.DynamicUsage [] = 0) (c : CCoinsViewCache)
    (k : COutPoint) (mv : Bool) (h : UsageOK X c) : UsageOK X (c.SpendCoin X k mv).2 := by
  have hf := FetchCoin_usage X c k h
  have hs := (FetchCoin_state X c k).1
  rw [SpendCoin_eq]
  cases he : (c.FetchCoin X k).1 with
  | none => exact hf
  | some e =>
    rw [he] at hs
    simp only
    have hsum := coinsUsage_lookup X _ k e hs
    unfold UsageOK at hf
    rw [hsum] at hf
    split
    · exact usageSub_sum _ _ _ hf
    · show usageSub _ _ = coinsUsage X (AList.insert _ _ _) % 2 ^ 64
      rw [coinsUsage_insert]
      have h0 : (Coin.Clear e.coin).DynamicMemoryUsage X = 0 := hX
      rw [h0, Nat.add_zero]
      exact usageSub_sum _ _ _ hf

/-- The operation `Uncache` keeps the byte-counter invariant. -/
theorem Uncache_usage (X : ScriptOps) (c : CCoinsViewCache) (k : COutPoint)
    (h : UsageOK X c) : UsageOK X (c.Uncache X k) := by
  unfold CCoinsViewCache.Uncache
  cases hl : c.cacheCoins.lookup k with
  | none => exact h
  | some e =>
    simp only
    split
    · have hsum := coinsUsage_lookup X _ k e hl
      unfold UsageOK at h
      rw [hsum] at h
      exact usageSub_sum _ _ _ h
    · exact h

/-- The operation `AddCoin` keeps the byte-counter invariant when it returns. -/
theorem AddCoin_usage (X : ScriptOps) (c : CCoinsViewCache) (k : COutPoint) (coin : Coin)
    (ow : Bool) (h : UsageOK X c) (hok : (c.AddCoin X k coin ow).1 = .ok ()) :
    UsageOK X (c.AddCoin X k coin ow).2 := by
  unfold CCoinsViewCache.AddCoin at hok ⊢
  split
  · exact h
  · split
    · exact h
    · rename_i hs hu
      rw [if_neg hs, if_neg hu] at hok
      simp only at hok ⊢
      split
      · rename_i hthrow
        rw [if_pos hthrow] at hok
        cases hok
      · cases hl : c.cacheCoins.lookup k with
        | none =>
          simp only [Option.isNone_none, if_true, Bool.not_true, Bool.false_eq_true, if_false]
          show usageAdd c.cachedCoinsUsage (coin.DynamicMemoryUsage X) = _
          rw [AList.insert_insert, coinsUsage_insert_new X _ _ _ hl]
          exact usageAdd_sum _ _ _ h
        | some it =>
          simp only [Option.isNone_some, Bool.false_eq_true, if_false, Bool.not_false, if_true,
            Option.getD_some]
          show usageAdd (usageSub c.cachedCoinsUsage (it.coin.DynamicMemoryUsage X))
            (coin.DynamicMemoryUsage X) = _
          rw [coinsUsage_insert]
          have hsum := coinsUsage_lookup X _ k it hl
          unfold UsageOK at h
          rw [hsum] at h
          exact usageAdd_sum _ _ _ (usageSub_sum _ _ _ h)

/-- The loop of `BatchWrite` keeps the byte-counter invariant of the receiving
map, whether it runs to its end or raises. -/
theorem BatchWriteLoop_usage (X : ScriptOps) :
    ∀ (l : List (Sigma fun _ : COutPoint => CCoinsCacheEntry)) (hnd : l.NodupKeys)
      (m : CCoinsMap) (u : Nat), u = coinsUsage X m % 2 ^ 64 →
      (BatchWriteLoop X l hnd m u).2.2.1 =
        coinsUsage X (BatchWriteLoop X l hnd m u).2.1 % 2 ^ 64 := by
  intro l
  induction l with
  | nil => intro hnd m u h; exact h
  | cons hd rest ih =>
    obtain ⟨key, it⟩ := hd
    intro hnd m u h
    rw [BatchWriteLoop_cons]
    split
    · exact ih _ m u h
    · cases hl : m.lookup key with
      | none =>
        simp only
        split
        · apply ih
          rw [coinsUsage_insert_new X _ _ _ hl]
          exact usageAdd_sum _ _ _ h
        · exact ih _ m u h
      | some itUs =>
        simp only
        have hsum := coinsUsage_lookup X _ key itUs hl
        rw [hsum] at h
        split
        · rw [hsum]
          exact h
        · split
          · apply ih
            exact usageSub_sum _ _ _ h
          · apply ih
            rw [coinsUsage_insert]
            exact usageAdd_sum _ _ _ (usageSub_sum _ _ _ h)

/-- The operation `BatchWrite` keeps the byte-counter invariant of the
receiving cache, whether it returns or raises. -/
theorem BatchWrite_usage (X : ScriptOps) (c : CCoinsViewCache) (incoming : CCoinsMap)
    (hb : uint256) (h : UsageOK X c) : UsageOK X (c.BatchWrite X incoming hb).2.1 := by
  obtain ⟨c1, c2, -, -, -, -⟩ := BatchWrite_components X c incoming hb
  unfold UsageOK
  rw [c1, c2]
  exact BatchWriteLoop_usage X _ _ _ _ h

/-- The operation `Flush` keeps the byte-counter invariant when it returns. -/
theorem Flush_usage (X : ScriptOps) (c : CCoinsViewCache) (b : Bool)
    (hok : (c.Flush X).1 = .ok b) : UsageOK X (c.Flush X).2 := by
  rw [(Flush_eq X c).2 b hok]
  rfl

/-- Every operation keeps the byte-counter invariant when it returns, and
`BatchWrite` also when it raises. -/
theorem CacheOp_usage (X : ScriptOps) (hX : X.DynamicUsage [] = 0) (c : CCoinsViewCache)
    (op : CacheOp) (h : UsageOK X c)
    (hq : (op.run X c).1 = none ∨ op.isBatchWrite = true) : UsageOK X (op.run X c).2 := by
  cases op with
  | GetCoin k =>
    show UsageOK X (c.GetCoin X k {}).2
    rw [(GetCoin_eq_FetchCoin X c k {}).2]
    exact FetchCoin_usage X c k h
  | HaveCoin k =>
    show UsageOK X (c.HaveCoin X k).2
    rw [(HaveCoin_eq_FetchCoin X c k).2]
    exact FetchCoin_usage X c k h
  | AccessCoin k =>
    show UsageOK X (c.AccessCoin X k).2
    rw [(AccessCoin_eq_FetchCoin X c k).2]
    exact FetchCoin_usage X c k h
  | AddCoin k coin ow =>
    have hu := AddCoin_usage X c k coin ow h
    change (match c.AddCoin X k coin ow with
      | (.ok _, c') => ((none : Option Err), c')
      | (.error e, c') => (some e, c')).1 = none ∨ _ at hq
    show UsageOK X (match c.AddCoin X k coin ow with
      | (.ok _, c') => ((none : Option Err), c')
      | (.error e, c') => (some e, c')).2
    rcases hr : c.AddCoin X k coin ow with ⟨r, c'⟩
    rw [hr] at hq hu
    cases r with
    | ok x => exact hu rfl
    | error e =>
      rcases hq with hq | hq
      · cases hq
      · cases hq
  | SpendCoin k mv => exact SpendCoin_usage X hX c k mv h
  | BatchWrite m hb =>
    have hu := BatchWrite_usage X c m hb h
    show UsageOK X (match c.BatchWrite X m hb with
      | (.ok _, c', _) => ((none : Option Err), c')
      | (.error e, c', _) => (some e, c')).2
    rcases hr : c.BatchWrite X m hb with ⟨r, c', left⟩
    rw [hr] at hu
    cases r <;> exact hu
  | Flush =>
    have hu := Flush_usage X c
    change (match c.Flush X with
      | (.ok _, c') => ((none : Option Err), c')
      | (.error e, c') => (some e, c')).1 = none ∨ _ at hq
    show UsageOK X (match c.Flush X with
      | (.ok _, c') => ((none : Option Err), c')
      | (.error e, c') => (some e, c')).2
    rcases hr : c.Flush X with ⟨r, c'⟩
    rw [hr] at hq hu
    cases r with
    | ok b => exact hu b rfl
    | error e =>
      rcases hq with hq | hq
      · cases hq
      · cases hq
  | Uncache k => exact Uncache_usage X c k h

/-! ## The byte counter along a sequence of operations -/

/-- Along a sequence of calls in which nothing but `BatchWrite` raises, the
byte-counter invariant is kept. -/
theorem runOps_usage (X : ScriptOps) (hX : X.DynamicUsage [] = 0) :
    ∀ (ops : List CacheOp) (c : CCoinsViewCache), UsageOK X c →
      (∀ p ∈ ops.zip (runOps X ops c).1, p.2 = none ∨ p.1.isBatchWrite = true) →
      UsageOK X (runOps X ops c).2 := by
  intro ops
  induction ops with
  | nil => intro c h _; exact h
  | cons op ops ih =>
    intro c h hq
    have hq' : ∀ p ∈ (op, (op.run X c).1) :: ops.zip (runOps X ops (op.run X c).2).1,
        p.2 = none ∨ p.1.isBatchWrite = true := hq
    show UsageOK X (runOps X ops (op.run X c).2).2
    apply ih
    · exact CacheOp_usage X hX c op h (hq' _ (List.mem_cons_self _ _))
    · intro p hp
      exact hq' p (List.mem_cons_of_mem _ hp)

/-! ## `AddCoins` -/

/-- After `HaveCoin(outpoint)` has answered, an `AddCoin` on the same outpoint
with that answer as `possible_overwrite` finds no unspent entry it may not
overwrite. -/
theorem HaveCoin_allows (X : ScriptOps) (c : CCoinsViewCache) (k : COutPoint) :
    (c.HaveCoin X k).1 = true ∨
      ∀ e, (c.HaveCoin X k).2.cacheCoins.lookup k = some e → e.coin.IsSpent = true := by
  obtain ⟨h1, h2⟩ := HaveCoin_eq_FetchCoin X c k
  obtain ⟨f1, -, -⟩ := FetchCoin_state X c k
  rw [h1, h2, f1]
  cases hf : (c.FetchCoin X k).1 with
  | none =>
    right
    intro e he
    cases he
  | some e0 =>
    cases hs : e0.coin.IsSpent with
    | true =>
      right
      intro e he
      cases he
      exact hs
    | false =>
      left
      simp [hs]

/-- The outcome of `AddCoin` called with the answer of `HaveCoin`: the
assertion fails on a spent coin, and every other coin is accepted. -/
theorem AddCoin_after_HaveCoin (X : ScriptOps) (c : CCoinsViewCache) (k : COutPoint)
    (coin : Coin) :
    ((c.HaveCoin X k).2.AddCoin X k coin (c.HaveCoin X k).1).1 =
      if coin.IsSpent then .error .assertion else .ok () := by
  cases hs : coin.IsSpent with
  | true =>
    unfold CCoinsViewCache.AddCoin
    rw [hs]
    rfl
  | false =>
    simp only [Bool.false_eq_true, if_false]
    cases hu : X.IsUnspendable coin.out.scriptPubKey with
    | true =>
      unfold CCoinsViewCache.AddCoin
      rw [hs, hu]
      rfl
    | false =>
      obtain ⟨_, -, -, h, -⟩ := AddCoin_ok X (c.HaveCoin X k).2 k coin (c.HaveCoin X k).1 hs hu
        (HaveCoin_allows X c k)
      exact h

theorem AddCoinsLoop_cons (X : ScriptOps) (txid : uint256) (nHeight : Int)
    (fCoinBase check : Bool) (out : CTxOut) (rest : List CTxOut) (i : Nat)
    (cache : CCoinsViewCache) :
    AddCoinsLoop X txid nHeight fCoinBase check (out :: rest) i cache =
      match (if check then cache.HaveCoin X { hash := txid, n := i % 2 ^ 32 }
          else (fCoinBase, cache)).2.AddCoin X { hash := txid, n := i % 2 ^ 32 }
          { out := out, fCoinBase := fCoinBase, nHeight := (nHeight % 2 ^ 31).toNat }
          (if check then cache.HaveCoin X { hash := txid, n := i % 2 ^ 32 }
            else (fCoinBase, cache)).1 with
      | (.error e, cache) => (.error e, cache)
      | (.ok _, cache) => AddCoinsLoop X txid nHeight fCoinBase check rest (i + 1) cache :=
  rfl

/-- The loop of `AddCoins` with `check = true`: it stops with the failed
assertion at the first null output and returns when there is none. -/
theorem AddCoinsLoop_check (X : ScriptOps) (txid : uint256) (nHeight : Int) (fCoinBase : Bool) :
    ∀ (outs : List CTxOut) (i : Nat) (cache : CCoinsViewCache),
      (AddCoinsLoop X txid nHeight fCoinBase true outs i cache).1 =
        if outs.all (fun o => !o.IsNull) then .ok () else .error .assertion := by
  intro outs
  induction outs with
  | nil =>
    intro i cache
    rfl
  | cons out rest ih =>
    intro i cache
    rw [AddCoinsLoop_cons]
    simp only [if_true]
    have h := AddCoin_after_HaveCoin X cache { hash := txid, n := i % 2 ^ 32 }
      { out := out, fCoinBase := fCoinBase, nHeight := (nHeight % 2 ^ 31).toNat }
    rcases hr : (cache.HaveCoin X { hash := txid, n := i % 2 ^ 32 }).2.AddCoin X
      { hash := txid, n := i % 2 ^ 32 }
      { out := out, fCoinBase := fCoinBase, nHeight := (nHeight % 2 ^ 31).toNat }
      (cache.HaveCoin X { hash := txid, n := i % 2 ^ 32 }).1 with ⟨res, cache'⟩
    rw [hr] at h
    rw [hr]
    simp only at h
    have hsp :
        ({ out := out, fCoinBase := fCoinBase, nHeight := (nHeight % 2 ^ 31).toNat } : Coin).IsSpent
          = out.IsNull := rfl
    rw [hsp] at h
    cases hn : out.IsNull with
    | true =>
      rw [hn] at h
      simp only [if_true] at h
      subst h
      simp [hn]
    | false =>
      rw [hn] at h
      simp only [Bool.false_eq_true, if_false] at h
      subst h
      simp only
      rw [ih (i + 1) cache']
      simp [hn]

/-! ## The flags of the entries of a cache built by the operations -/

/-- C2. For a well-formed node `n` and any integer `h`: `n.GetAncestor(h)` is
null when `h < 0` or `h > n.nHeight`; otherwise it returns exactly the node
reached from `n` by following `pprev` `n.nHeight - h` times, and that node has
height `h`. -/
theorem GetAncestor_eq_pprevWalk (A : Arena) (n : Nat) (hwf : WellFormed A n) (h : Int) :
    ((h < 0 ∨ (A n).nHeight < h) → GetAncestor A n h = .ok none) ∧
    (0 ≤ h → h ≤ (A n).nHeight →
      ∃ m, pprevWalk A (some n) ((A n).nHeight - h).toNat = some m ∧
        GetAncestor A n h = .ok (some m) ∧ (A m).nHeight = h) := by
  constructor
  · intro hout
    unfold GetAncestor
    rw [if_pos (by omega)]
  · intro h0 hle
    exact GetAncestor_spec A n hwf h h0 hle

/-- C2, the scenario of the specification: in a chain of 1000 linked nodes,
`node[999].GetAncestor(500)` is the node reached by 499 `pprev` steps, which
is node 500; heights 1000 and -1 give the null pointer. -/
theorem GetAncestor_eq_pprevWalk_witness :
    WellFormed (linkedChain 1000) 999 ∧
    pprevWalk (linkedChain 1000) (some 999) 499 = some 500 ∧
    GetAncestor (linkedChain 1000) 999 500 = .ok (some 500) ∧
    GetAncestor (linkedChain 1000) 999 1000 = .ok none ∧
    GetAncestor (linkedChain 1000) 999 (-1) = .ok none := by
  have hwf := linkedChain_wellFormed 1000 999 (by decide)
  have hh : (linkedChain 1000 999).nHeight = 999 := linkedChain_nHeight 1000 999 (by decide)
  have hw : pprevWalk (linkedChain 1000) (some 999) 499 = some 500 := by
    rw [linkedChain_walk 1000 499 999 (by decide)]
    rfl
  have key := GetAncestor_eq_pprevWalk (linkedChain 1000) 999 hwf
  refine ⟨hwf, hw, ?_, ?_, ?_⟩
  · obtain ⟨m, h1, h2, -⟩ := (key 500).2 (by decide) (by rw [hh]; decide)
    have : ((linkedChain 1000 999).nHeight - 500).toNat = 499 := by rw [hh]; rfl
    rw [this, hw] at h1
    rw [h2, ← h1]
  · exact (key 1000).1 (Or.inr (by rw [hh]; decide))
  · exact (key (-1)).1 (Or.inl (by decide))

/-- C3. For a chain reachable from the empty chain by `SetTip` calls and a
well-formed node `n`, the call `chain.SetTip(n)` returns (given at least
`n.nHeight + 1` loop iterations), and afterwards `chain.Height() == n.nHeight`,
`chain.Tip() == n`, and `chain[h] == n.GetAncestor(h)` for every height
`0 <= h <= n.nHeight`. -/
theorem SetTip_tip_height_ancestors (A : Arena) (c : CChain) (hc : c.Reachable A)
    (n : Nat) (hwf : WellFormed A n) (fuel : Nat) (hf : (A n).nHeight + 1 ≤ (fuel : Int)) :
    ∃ c', c.SetTip A fuel (some n) = .ok c' ∧
      c'.Height = (A n).nHeight ∧ c'.Tip = some n ∧
      ∀ h : Int, 0 ≤ h → h ≤ (A n).nHeight → GetAncestor A n h = .ok (c'.at h) := by
  obtain ⟨H, hH⟩ := Int.eq_ofNat_of_zero_le hwf.nodeOK.1
  obtain ⟨c', h1, h2, h3⟩ := SetTip_spec A c n H fuel (Reachable_inv A c hc) hwf hH (by omega)
  refine ⟨c', h1, ?_, ?_, ?_⟩
  · unfold CChain.Height
    rw [h2, hH]
    push_cast
    ring
  · unfold CChain.Tip
    have hne : c'.vChain.isEmpty = false := by
      cases hv : c'.vChain with
      | nil => rw [hv] at h2; simp at h2
      | cons x xs => rfl
    rw [hne, h2]
    simp only [Bool.false_eq_true, if_false, Nat.add_sub_cancel]
    rw [h3 H (le_refl _), Nat.sub_self, pprevWalk_zero]
  · intro h h0 hle
    obtain ⟨m, w1, w2, -⟩ := GetAncestor_spec A n hwf h h0 hle
    rw [w2]
    unfold CChain.at
    rw [if_pos ⟨by omega, by rw [h2]; push_cast; omega⟩, h3 h.toNat (by omega), ← w1]
    congr 3
    omega

/-- C3 at a concrete input: on the chain built by `SetTip(node 7)` over eight
linked nodes, `SetTip(node 5)` cuts the chain back to heights 0..5. -/
theorem SetTip_tip_height_ancestors_witness :
    ∃ c', CChain.SetTip (linkedChain 8) 6
        { vChain := [some 0, some 1, some 2, some 3, some 4, some 5, some 6, some 7] }
        (some 5) = .ok c' ∧
      c'.Height = (linkedChain 8 5).nHeight ∧ c'.Tip = some 5 ∧
      ∀ h : Int, 0 ≤ h → h ≤ (linkedChain 8 5).nHeight →
        GetAncestor (linkedChain 8) 5 h = .ok (c'.at h) :=
  SetTip_tip_height_ancestors (linkedChain 8) _
    (CChain.Reachable.setTip 8 { vChain := [] } _ (some 7) CChain.Reachable.empty
      (fun n hn => by cases hn; exact linkedChain_wellFormed 8 7 (by decide)) rfl)
    5 (linkedChain_wellFormed 8 5 (by decide)) 6 (by decide)

/-- C4. For two well-formed nodes `a` and `b` whose `pprev`-chains end in a
common root, `LastCommonAncestor(a, b)` returns (given at least
`min(a.nHeight, b.nHeight)` loop iterations) a node that lies on the
`pprev`-chain of `a` and on that of `b`, and no node of greater height lies on
both chains. -/
theorem LastCommonAncestor_highest_common (A : Arena) (a b : Nat)
    (hwa : WellFormed A a) (hwb : WellFormed A b)
    (hroot : ∃ r, (A r).pprev = none ∧ OnChain A a r ∧ OnChain A b r)
    (fuel : Nat) (hf : min (A a).nHeight (A b).nHeight ≤ (fuel : Int)) :
    ∃ c, LastCommonAncestor A fuel (some a) (some b) = .ok (some c) ∧
      OnChain A a c ∧ OnChain A b c ∧
      ∀ m, OnChain A a m → OnChain A b m → (A m).nHeight ≤ (A c).nHeight := by
  obtain ⟨r, -, hra, hrb⟩ := hroot
  exact LastCommonAncestor_correct A a b hwa hwb ⟨r, hra, hrb⟩ fuel hf

/-- C4 at a concrete input: in the forked arena the tips 7 (main branch) and
11 (side branch) have a highest common ancestor, found within 7 iterations;
it is node 5, where the side branch leaves the main one. -/
theorem LastCommonAncestor_highest_common_witness :
    (∃ c, LastCommonAncestor forkedChain 7 (some 7) (some 11) = .ok (some c) ∧
      OnChain forkedChain 7 c ∧ OnChain forkedChain 11 c ∧
      ∀ m, OnChain forkedChain 7 m → OnChain forkedChain 11 m →
        (forkedChain m).nHeight ≤ (forkedChain c).nHeight) ∧
    LastCommonAncestor forkedChain 7 (some 7) (some 11) = .ok (some 5) :=
  ⟨LastCommonAncestor_highest_common forkedChain 7 11
    (forkedChain_wellFormed_low 7 (by decide)) forkedChain_wellFormed_11
    ⟨0, rfl, ⟨7, rfl⟩, ⟨7, rfl⟩⟩ 7 (by decide), rfl⟩

/-- C10. The ActiveChain invariant (no slot is null, slot `i` holds a node of
height `i`, slot 0 holds a node without parent, the node in slot `i > 0` has
the node in slot `i - 1` as its `pprev`) holds in every chain state reachable
from the empty chain by `SetTip` calls on well-formed nodes, and `SetTip`
preserves it: called on a chain that satisfies the invariant, with a
well-formed node or with the null pointer, it returns a chain that satisfies
the invariant. -/
theorem ActiveChain_invariant (A : Arena) :
    (∀ c : CChain, c.Reachable A → c.Inv A) ∧
    (∀ (c : CChain) (n fuel : Nat), c.Inv A → WellFormed A n →
      (A n).nHeight + 1 ≤ (fuel : Int) →
      ∃ c', c.SetTip A fuel (some n) = .ok c' ∧ c'.Inv A) ∧
    (∀ (c : CChain) (fuel : Nat), c.Inv A →
      ∃ c', c.SetTip A fuel none = .ok c' ∧ c'.Inv A) := by
  refine ⟨Reachable_inv A, ?_, ?_⟩
  · intro c n fuel hinv hwf hf
    obtain ⟨H, hH⟩ := Int.eq_ofNat_of_zero_le hwf.nodeOK.1
    obtain ⟨c', h1, h2, h3⟩ := SetTip_spec A c n H fuel hinv hwf hH (by omega)
    exact ⟨c', h1, Inv_of_slots A c' n H hwf hH h2 h3⟩
  · intro c fuel _
    exact ⟨{ vChain := [] }, rfl, Inv_empty A⟩

/-- C10 at a concrete input: the chain reached by `SetTip(node 7)` and then
`SetTip(node 11)` (a reorganisation onto the side branch of the forked arena)
satisfies the invariant, and a further `SetTip(node 6)` returns a chain that
satisfies it. -/
theorem ActiveChain_invariant_witness :
    CChain.Inv forkedChain
      { vChain := [some 0, some 1, some 2, some 3, some 4, some 5, some 10, some 11] } ∧
    ∃ c', CChain.SetTip forkedChain 7
      { vChain := [some 0, some 1, some 2, some 3, some 4, some 5, some 10, some 11] }
      (some 6) = .ok c' ∧ c'.Inv forkedChain := by
  have hr : CChain.Reachable forkedChain
      { vChain := [some 0, some 1, some 2, some 3, some 4, some 5, some 10, some 11] } :=
    CChain.Reachable.setTip 8 _ _ (some 11)
      (CChain.Reachable.setTip 8 { vChain := [] }
        { vChain := [some 0, some 1, some 2, some 3, some 4, some 5, some 6, some 7] }
        (some 7) CChain.Reachable.empty
        (fun n hn => by cases hn; exact forkedChain_wellFormed_low 7 (by decide)) rfl)
      (fun n hn => by cases hn; exact forkedChain_wellFormed_11) rfl
  have hinv := (ActiveChain_invariant forkedChain).1 _ hr
  exact ⟨hinv, (ActiveChain_invariant forkedChain).2.1 _ 6 7 hinv
    (forkedChain_wellFormed_low 6 (by decide)) (by decide)⟩

/-! ## Claims about the UTXO overlay cache -/

/-- C6. Add/get round trip: for every cache, outpoint `id` and unspent coin `c`
with a spendable script, if the cache holds no unspent entry for `id`, then
`AddCoin(id, c, false)` returns normally and the following `GetCoin(id)`
returns true and yields `c`. -/
theorem AddCoin_GetCoin_roundtrip (X : ScriptOps) (cache : CCoinsViewCache) (id : COutPoint)
    (c : Coin) (hs : c.IsSpent = false) (hu : X.IsUnspendable c.out.scriptPubKey = false)
    (hc : ∀ e, cache.cacheCoins.lookup id = some e → e.coin.IsSpent = true) (coin0 : Coin) :
    (cache.AddCoin X id c false).1 = .ok () ∧
    ((cache.AddCoin X id c false).2.GetCoin X id coin0).1 = (true, c) := by
  obtain ⟨entry, h1, -, h3, h4, -, -⟩ := AddCoin_ok X cache id c false hs hu (Or.inr hc)
  refine ⟨h3, ?_⟩
  rw [GetCoin_hit X _ id entry h4, h1, hs]
  rfl

/-- C9. For every cache holding an unspent entry at `id` and every unspent
coin `c` with a spendable script, `AddCoin(id, c, false)` raises the logic
error "Adding new coin that replaces non-pruned entry" and leaves the map,
hence the coin and flags of the entry at `id`, as they were. -/
theorem AddCoin_no_overwrite_raises (X : ScriptOps) (cache : CCoinsViewCache) (id : COutPoint)
    (e : CCoinsCacheEntry) (c : Coin) (he : cache.cacheCoins.lookup id = some e)
    (hes : e.coin.IsSpent = false) (hs : c.IsSpent = false)
    (hu : X.IsUnspendable c.out.scriptPubKey = false) :
    (cache.AddCoin X id c false).1 = .error .replacesNonPruned ∧
    (cache.AddCoin X id c false).2.cacheCoins = cache.cacheCoins ∧
    (cache.AddCoin X id c false).2.cacheCoins.lookup id = some e := by
  unfold CCoinsViewCache.AddCoin
  simp [hs, hu, he, hes]

/-- C7, as stated, fails: over a backing store that holds an unspent coin at
`(T, 0)`, an empty cache runs `AddCoin((T,0), coin, false)` (which flags the
new entry FRESH without consulting the store) and `SpendCoin((T,0))` (which
erases the FRESH entry), after which `HaveCoin((T,0))` fetches the store's
coin and returns true. -/
theorem SpendCoin_then_HaveCoin_counterexample :
    ((((CCoinsViewCache.mk storeWith50 0 ∅ 0).AddCoin sampleOps outT coin20 false).2.SpendCoin
      sampleOps outT false).2.HaveCoin sampleOps outT).1 = true := by
  decide

/-- C7, amended. If the backing view reports no unspent coin for `id` whenever
the cache holds a FRESH-flagged entry for `id`, then `HaveCoin(id)` returns
false after `SpendCoin(id)`; in particular it returns false after
`AddCoin(id, coin, false); SpendCoin(id)` whenever the backing view reports no
unspent coin for `id`. -/
theorem SpendCoin_then_HaveCoin (X : ScriptOps) (cache : CCoinsViewCache) (id : COutPoint)
    (moveout : Bool) :
    ((∀ e, cache.cacheCoins.lookup id = some e → e.flags &&& FRESH ≠ 0 →
        cache.base.reports X id = none) →
      ((cache.SpendCoin X id moveout).2.HaveCoin X id).1 = false) ∧
    (cache.base.reports X id = none → ∀ coin : Coin,
      (((cache.AddCoin X id coin false).2.SpendCoin X id moveout).2.HaveCoin X id).1 = false) := by
  refine ⟨SpendCoin_HaveCoin_false X cache id moveout, ?_⟩
  intro hb coin
  apply SpendCoin_HaveCoin_false
  intro e _ _
  rw [AddCoin_base]
  exact hb

/-- C7, amended, at a concrete input: over the store that holds no coin, the
sequence `AddCoin((T,0), coin50, false); SpendCoin((T,0))` leaves
`HaveCoin((T,0))` false. -/
theorem SpendCoin_then_HaveCoin_witness :
    ((((CCoinsViewCache.mk emptyStore 0 ∅ 0).AddCoin sampleOps outT coin50 false).2.SpendCoin
      sampleOps outT true).2.HaveCoin sampleOps outT).1 = false :=
  (SpendCoin_then_HaveCoin sampleOps (CCoinsViewCache.mk emptyStore 0 ∅ 0) outT true).2
    (by decide) coin50

/-- C8, as stated, fails: after a first `SpendCoin((T,0))` has left a spent,
DIRTY entry in the cache, `HaveCoin((T,0))` is false and yet a second
`SpendCoin((T,0))` returns true. -/
theorem SpendCoin_result_counterexample :
    (((CCoinsViewCache.mk storeWith50 0 ∅ 0).SpendCoin sampleOps outT false).2.HaveCoin
      sampleOps outT).1 = false ∧
    ((((CCoinsViewCache.mk storeWith50 0 ∅ 0).SpendCoin sampleOps outT false).2.SpendCoin
      sampleOps outT false).1).1 = true := by
  decide

/-- C8, amended. `SpendCoin(id)` returns true exactly when `FetchCoin(id)`
finds an entry for `id`, spent or not; hence it returns true whenever
`HaveCoin(id)` held immediately before the call, and false when `id` has
neither a cache entry nor a coin in the backing view. -/
theorem SpendCoin_result (X : ScriptOps) (cache : CCoinsViewCache) (id : COutPoint)
    (moveout : Bool) :
    (cache.SpendCoin X id moveout).1.1 = (cache.FetchCoin X id).1.isSome ∧
    ((cache.HaveCoin X id).1 = true → (cache.SpendCoin X id moveout).1.1 = true) ∧
    (cache.cacheCoins.lookup id = none → cache.base.found X id = none →
      (cache.SpendCoin X id moveout).1.1 = false) := by
  have h1 : (cache.SpendCoin X id moveout).1.1 = (cache.FetchCoin X id).1.isSome := by
    rw [SpendCoin_eq]
    cases (cache.FetchCoin X id).1 with
    | none => rfl
    | some e => simp only; split <;> rfl
  refine ⟨h1, ?_, ?_⟩
  · intro hh
    rw [h1]
    rw [(HaveCoin_eq_FetchCoin X cache id).1] at hh
    cases hf : (cache.FetchCoin X id).1 with
    | none => rw [hf] at hh; cases hh
    | some e => rfl
  · intro hl hf
    rw [h1, FetchCoin_entry, hl]
    simp only
    rw [hf]
    rfl

/-- C8, amended, at a concrete input: over the store that holds no coin, a
`SpendCoin((T,0))` on the empty cache returns false. -/
theorem SpendCoin_result_witness :
    ((CCoinsViewCache.mk emptyStore 0 ∅ 0).SpendCoin sampleOps outT false).1.1 = false :=
  (SpendCoin_result sampleOps (CCoinsViewCache.mk emptyStore 0 ∅ 0) outT false).2.2 rfl rfl

/-- C6 at a concrete input: the empty cache over the empty store. -/
theorem AddCoin_GetCoin_roundtrip_witness :
    ((CCoinsViewCache.mk emptyStore 0 ∅ 0).AddCoin sampleOps outT coin50 false).1 = .ok () ∧
    (((CCoinsViewCache.mk emptyStore 0 ∅ 0).AddCoin sampleOps outT coin50 false).2.GetCoin
      sampleOps outT {}).1 = (true, coin50) :=
  AddCoin_GetCoin_roundtrip sampleOps (CCoinsViewCache.mk emptyStore 0 ∅ 0) outT coin50
    (by decide) (by decide) (fun e he => by cases he) {}

/-- C9 at a concrete input: the cache already holds `coin20` at `(T, 0)`. -/
theorem AddCoin_no_overwrite_raises_witness :
    ((CCoinsViewCache.mk emptyStore 0 (AList.insert outT ⟨coin20, 1⟩ ∅) 0).AddCoin
      sampleOps outT coin50 false).1 = .error .replacesNonPruned ∧
    ((CCoinsViewCache.mk emptyStore 0 (AList.insert outT ⟨coin20, 1⟩ ∅) 0).AddCoin
      sampleOps outT coin50 false).2.cacheCoins = AList.insert outT ⟨coin20, 1⟩ ∅ ∧
    ((CCoinsViewCache.mk emptyStore 0 (AList.insert outT ⟨coin20, 1⟩ ∅) 0).AddCoin
      sampleOps outT coin50 false).2.cacheCoins.lookup outT = some ⟨coin20, 1⟩ :=
  AddCoin_no_overwrite_raises sampleOps _ outT ⟨coin20, 1⟩ coin50 (by decide) (by decide)
    (by decide) (by decide)

/-- C5. FRESH transitivity over three layers: a child cache on a parent cache
on a grandparent store that holds no coin at `id`, neither cache having an
entry for `id`.  After `child.AddCoin(id, coin, false)`, `child.Flush()`,
`parent.SpendCoin(id)` and `parent.Flush()`, the map handed to the
grandparent's `BatchWrite` (the last batch the store has recorded) contains no
entry for `id`.  Each step is taken from the state the previous one left,
whether it returned normally or raised. -/
theorem FRESH_transitivity (X : ScriptOps) (coinsG : COutPoint → Option Coin) (okG : Bool)
    (logG : List (CCoinsMap × uint256)) (hashP : uint256) (mP : CCoinsMap) (uP : Nat)
    (hashC : uint256) (mC : CCoinsMap) (uC : Nat) (id : COutPoint) (coin : Coin)
    (hG : coinsG id = none) (hP : mP.lookup id = none) (hC : mC.lookup id = none) :
    ∃ parent : CCoinsViewCache,
      (((CCoinsViewCache.mk (CCoinsViewCache.mk (.store coinsG okG logG) hashP mP uP).view
          hashC mC uC).AddCoin X id coin false).2.Flush X).2.base = parent.view ∧
      ∃ (m : CCoinsMap) (h : uint256),
        ((parent.SpendCoin X id false).2.Flush X).2.base
          = .store coinsG okG (logG ++ [(m, h)]) ∧
        m.lookup id = none := by
  have hadd := AddCoin_fresh_at X
    (CCoinsViewCache.mk (CCoinsViewCache.mk (.store coinsG okG logG) hashP mP uP).view
      hashC mC uC) id coin hC
  have hbase := AddCoin_base X
    (CCoinsViewCache.mk (CCoinsViewCache.mk (.store coinsG okG logG) hashP mP uP).view
      hashC mC uC) id coin false
  obtain ⟨f1, -⟩ := Flush_into_cache X _ (CCoinsViewCache.mk (.store coinsG okG logG) hashP mP uP)
    hbase
  obtain ⟨b1, b2⟩ := BatchWrite_fresh_at X (CCoinsViewCache.mk (.store coinsG okG logG) hashP mP uP)
    _ _ id hP hadd
  refine ⟨_, f1, ?_⟩
  obtain ⟨s1, s2⟩ := SpendCoin_fresh_at X _ id false coinsG okG logG b1 hG b2
  obtain ⟨-, g2⟩ := Flush_into_store X _ coinsG okG logG s1
  exact ⟨_, _, g2, s2⟩

/-- C5 at a concrete input: empty child and parent caches over the empty
store; the batch the store receives is empty. -/
theorem FRESH_transitivity_witness :
    ∃ parent : CCoinsViewCache,
      (((CCoinsViewCache.mk (CCoinsViewCache.mk emptyStore 0 ∅ 0).view
          0 ∅ 0).AddCoin sampleOps outT coin50 false).2.Flush sampleOps).2.base = parent.view ∧
      ∃ (m : CCoinsMap) (h : uint256),
        ((parent.SpendCoin sampleOps outT false).2.Flush sampleOps).2.base
          = .store (fun _ => none) true ([] ++ [(m, h)]) ∧
        m.lookup outT = none :=
  FRESH_transitivity sampleOps (fun _ => none) true [] 0 ∅ 0 0 ∅ 0 outT coin50 rfl rfl rfl

/-- C11. Ancestor lookup is transitive: for a well-formed node `n` and heights
`0 <= h1 <= h2 <= n.nHeight`, `n.GetAncestor(h2)` is a node, and its
`GetAncestor(h1)` is the node `n.GetAncestor(h1)`. -/
theorem GetAncestor_transitive (A : Arena) (n : Nat) (hwf : WellFormed A n) (h1 h2 : Int)
    (h0 : 0 ≤ h1) (h12 : h1 ≤ h2) (h2n : h2 ≤ (A n).nHeight) :
    ∃ m2 m1, GetAncestor A n h2 = .ok (some m2) ∧ GetAncestor A n h1 = .ok (some m1) ∧
      GetAncestor A m2 h1 = .ok (some m1) := by
  obtain ⟨m2, a1, a2, a3⟩ := GetAncestor_spec A n hwf h2 (by omega) h2n
  obtain ⟨m1, b1, b2, -⟩ := GetAncestor_spec A n hwf h1 h0 (by omega)
  obtain ⟨m, c1, c2, -⟩ := GetAncestor_spec A m2 (hwf.walk a1) h1 h0 (by omega)
  refine ⟨m2, m1, a2, b2, ?_⟩
  rw [c2]
  have : ((A n).nHeight - h1).toNat
      = ((A n).nHeight - h2).toNat + ((A m2).nHeight - h1).toNat := by omega
  rw [this, pprevWalk_add, a1, c1] at b1
  rw [b1]

/-- C11 at a concrete input: in the chain of 1000 linked nodes, from node 999
through height 500 down to height 100. -/
theorem GetAncestor_transitive_witness :
    ∃ m2 m1, GetAncestor (linkedChain 1000) 999 500 = .ok (some m2) ∧
      GetAncestor (linkedChain 1000) 999 100 = .ok (some m1) ∧
      GetAncestor (linkedChain 1000) m2 100 = .ok (some m1) :=
  GetAncestor_transitive (linkedChain 1000) 999 (linkedChain_wellFormed 1000 999 (by decide))
    100 500 (by decide) (by decide) (by rw [linkedChain_nHeight 1000 999 (by decide)]; decide)

/-- C12, as stated, fails: a chain that satisfies the ActiveChain invariant
need not contain any node of the `pprev`-chain of `n`, and then `FindFork(n)`
is null, not a node.  This is so on the empty chain (with node 7 of the forked
arena), and on the one-slot chain whose genesis is node 20 (with node 0, the
genesis of another tree). -/
theorem FindFork_greatest_counterexample :
    CChain.Inv forkedChain { vChain := [] } ∧ WellFormed forkedChain 7 ∧
    CChain.FindFork forkedChain 8 { vChain := [] } (some 7) = .ok none ∧
    CChain.Inv forkedChain { vChain := [some 20] } ∧ WellFormed forkedChain 0 ∧
    CChain.FindFork forkedChain 8 { vChain := [some 20] } (some 0) = .ok none := by
  refine ⟨Inv_empty _, forkedChain_wellFormed_low 7 (by decide), rfl, ?_,
    forkedChain_wellFormed_low 0 (by decide), rfl⟩
  intro i hi
  have : i = 0 := by simp at hi; omega
  subst this
  exact ⟨20, rfl, rfl, fun _ => rfl, fun h => absurd h (by decide)⟩

/-- C12, amended. For every chain (whether or not it satisfies the ActiveChain
invariant) and every well-formed node `n`, `FindFork(n)` returns (given at
least `n.nHeight + 1` loop iterations): the node of greatest height that is
both on the `pprev`-chain of `n` and contained in the chain, when there is such
a node; the null pointer exactly when there is none; and `n` itself when `n`
is contained in the chain. -/
theorem FindFork_greatest (A : Arena) (c : CChain) (n : Nat) (hwf : WellFormed A n)
    (fuel : Nat) (hf : (A n).nHeight + 1 ≤ (fuel : Int)) :
    ∃ r, c.FindFork A fuel (some n) = .ok r ∧
      (∀ m, r = some m → OnChain A n m ∧ c.Contains A m = true ∧
        ∀ m', OnChain A n m' → c.Contains A m' = true → (A m').nHeight ≤ (A m).nHeight) ∧
      (r = none ↔ ∀ m, OnChain A n m → c.Contains A m = false) ∧
      (c.Contains A n = true → r = some n) := by
  obtain ⟨r, h1, h2, h3⟩ := FindFork_spec A c n hwf fuel hf
  refine ⟨r, h1, h3, ⟨h2, ?_⟩, ?_⟩
  · intro hall
    cases r with
    | none => rfl
    | some m =>
      obtain ⟨a1, a2, -⟩ := h3 m rfl
      rw [hall m a1] at a2
      cases a2
  · intro hc
    cases r with
    | none =>
      rw [h2 rfl n (OnChain.refl A n)] at hc
      cases hc
    | some m =>
      obtain ⟨a1, a2, a3⟩ := h3 m rfl
      have hle := a3 n (OnChain.refl A n) hc
      have hge := a1.height_le hwf
      obtain ⟨k, hk⟩ := a1
      have hh := hwf.walk_height hk
      have : k = 0 := by omega
      subst this
      rw [pprevWalk_zero] at hk
      exact hk.symm

/-- C12, amended, at a concrete input: the chain runs along the main branch of
the forked arena up to node 7, and the node is the tip 11 of the side branch;
the fork point is node 5. -/
theorem FindFork_greatest_witness :
    (∃ r, CChain.FindFork forkedChain 8
        { vChain := [some 0, some 1, some 2, some 3, some 4, some 5, some 6, some 7] }
        (some 11) = .ok r ∧
      (∀ m, r = some m → OnChain forkedChain 11 m ∧
        CChain.Contains forkedChain
          { vChain := [some 0, some 1, some 2, some 3, some 4, some 5, some 6, some 7] } m = true ∧
        ∀ m', OnChain forkedChain 11 m' →
          CChain.Contains forkedChain
            { vChain := [some 0, some 1, some 2, some 3, some 4, some 5, some 6, some 7] } m'
              = true →
          (forkedChain m').nHeight ≤ (forkedChain m).nHeight) ∧
      (r = none ↔ ∀ m, OnChain forkedChain 11 m →
        CChain.Contains forkedChain
          { vChain := [some 0, some 1, some 2, some 3, some 4, some 5, some 6, some 7] } m
            = false) ∧
      (CChain.Contains forkedChain
          { vChain := [some 0, some 1, some 2, some 3, some 4, some 5, some 6, some 7] } 11
            = true → r = some 11)) ∧
    CChain.FindFork forkedChain 8
        { vChain := [some 0, some 1, some 2, some 3, some 4, some 5, some 6, some 7] }
        (some 11) = .ok (some 5) :=
  ⟨FindFork_greatest forkedChain _ 11 forkedChain_wellFormed_11 8 (by decide), rfl⟩

/-- C13, as stated, fails: on the empty chain `Height()` is -1, so `FindFork`
replaces a well-formed node by its `GetAncestor(-1)`, the null pointer, and
returns it. -/
theorem FindFork_nonnull_counterexample :
    WellFormed (linkedChain 8) 5 ∧
    CChain.FindFork (linkedChain 8) 6 { vChain := [] } (some 5) = .ok none :=
  ⟨linkedChain_wellFormed 8 5 (by decide), rfl⟩

/-- C13, amended. For every chain and every well-formed node `n`, `FindFork(n)`
returns (given at least `n.nHeight + 1` loop iterations), and what it returns
is non-null if and only if the chain contains some node of the `pprev`-chain
of `n`; in particular it is non-null when slot 0 of the chain holds a node of
that `pprev`-chain, and null on the empty chain. -/
theorem FindFork_nonnull_iff (A : Arena) (c : CChain) (n : Nat) (hwf : WellFormed A n)
    (fuel : Nat) (hf : (A n).nHeight + 1 ≤ (fuel : Int)) :
    ∃ r, c.FindFork A fuel (some n) = .ok r ∧
      (r ≠ none ↔ ∃ m, OnChain A n m ∧ c.Contains A m = true) ∧
      ((∃ g, c.vChain.getD 0 none = some g ∧ (A g).nHeight = 0 ∧ c.vChain ≠ [] ∧
          OnChain A n g) → r ≠ none) ∧
      (c.vChain = [] → r = none) := by
  obtain ⟨r, h1, h2, h3⟩ := FindFork_spec A c n hwf fuel hf
  have hiff : r ≠ none ↔ ∃ m, OnChain A n m ∧ c.Contains A m = true := by
    constructor
    · intro hr
      cases r with
      | none => exact absurd rfl hr
      | some m => exact ⟨m, (h3 m rfl).1, (h3 m rfl).2.1⟩
    · rintro ⟨m, hm, hc⟩ hr
      rw [h2 hr m hm] at hc
      cases hc
  refine ⟨r, h1, hiff, ?_, ?_⟩
  · rintro ⟨g, hg, hg0, hne, hog⟩
    apply hiff.2
    refine ⟨g, hog, ?_⟩
    unfold CChain.Contains CChain.at
    have hlen : 0 < c.vChain.length := List.length_pos.2 hne
    rw [hg0, if_pos ⟨le_refl _, by omega⟩]
    simp only [Int.toNat_zero, hg, beq_self_eq_true]
  · intro hempty
    by_contra hr
    obtain ⟨m, -, hc⟩ := hiff.1 hr
    have := Contains_height hc
    unfold CChain.Height at this
    rw [hempty] at this
    simp at this
    omega

/-- C13, amended, at a concrete input: the one-slot chain that holds the
genesis node 0 of the forked arena, and the tip 11 of its side branch. -/
theorem FindFork_nonnull_iff_witness :
    ∃ r, CChain.FindFork forkedChain 8 { vChain := [some 0] } (some 11) = .ok r ∧
      (r ≠ none ↔ ∃ m, OnChain forkedChain 11 m ∧
        CChain.Contains forkedChain { vChain := [some 0] } m = true) ∧
      ((∃ g, ({ vChain := [some 0] } : CChain).vChain.getD 0 none = some g ∧
          (forkedChain g).nHeight = 0 ∧ ({ vChain := [some 0] } : CChain).vChain ≠ [] ∧
          OnChain forkedChain 11 g) → r ≠ none) ∧
      (({ vChain := [some 0] } : CChain).vChain = [] → r = none) :=
  FindFork_nonnull_iff forkedChain { vChain := [some 0] } 11 forkedChain_wellFormed_11 8
    (by decide)

/-- C14. For a chain without null slot whose entries have non-decreasing
`nTimeMax` from slot to slot (that is, along increasing height) and every
query time `t`, `FindEarliestAtLeast(t)` returns the entry of the lowest slot
whose `GetBlockTimeMax() >= t`; it returns null exactly when no entry has
`GetBlockTimeMax() >= t`, in particular on the empty chain; and in a chain
that satisfies the ActiveChain invariant the entry returned has the smallest
height among the entries with `GetBlockTimeMax() >= t`. -/
theorem FindEarliestAtLeast_first (A : Arena) (c : CChain) (t : Int)
    (hnn : ∀ i, i < c.vChain.length → ∃ p, c.vChain[i]? = some (some p))
    (hmono : ∀ (i j p q : Nat), i ≤ j → c.vChain[i]? = some (some p) →
      c.vChain[j]? = some (some q) → (A p).GetBlockTimeMax ≤ (A q).GetBlockTimeMax) :
    ∃ r, c.FindEarliestAtLeast A t = .ok r ∧
      (r = none ↔ ∀ (i p : Nat), c.vChain[i]? = some (some p) → (A p).GetBlockTimeMax < t) ∧
      (∀ p, r = some p → ∃ i : Nat, c.vChain[i]? = some (some p) ∧
        t ≤ (A p).GetBlockTimeMax ∧
        ∀ (j q : Nat), j < i → c.vChain[j]? = some (some q) → (A q).GetBlockTimeMax < t) ∧
      (c.vChain = [] → r = none) ∧
      (c.Inv A → ∀ p, r = some p → ∀ (j q : Nat), c.vChain[j]? = some (some q) →
        t ≤ (A q).GetBlockTimeMax → (A p).nHeight ≤ (A q).nHeight) := by
  obtain ⟨r, h1, h2, h3⟩ := FindEarliestAtLeast_spec A c t hnn hmono
  refine ⟨r, h1, h2, h3, ?_, ?_⟩
  · intro he
    apply h2.2
    intro i p hp
    rw [he] at hp
    simp at hp
  · intro hinv p hr j q hq hqt
    obtain ⟨i, hi, -, hbelow⟩ := h3 p hr
    have hil : i < c.vChain.length := by
      by_contra hc
      rw [List.getElem?_eq_none (by omega)] at hi
      cases hi
    have hjl : j < c.vChain.length := by
      by_contra hc
      rw [List.getElem?_eq_none (by omega)] at hq
      cases hq
    obtain ⟨p', e1, e2⟩ := Inv_slot hinv i hil
    obtain ⟨q', f1, f2⟩ := Inv_slot hinv j hjl
    rw [hi] at e1
    rw [hq] at f1
    cases e1
    cases f1
    by_contra hlt
    have := hbelow j q (by omega) hq
    omega

/-- C14 at a concrete input: eight nodes with `nTimeMax = 0, 10, .., 70` and the
query time 35; the answer is node 4. -/
theorem FindEarliestAtLeast_first_witness :
    (∃ r, (rangeChain 8).FindEarliestAtLeast (timedChain 8) 35 = .ok r ∧
      (r = none ↔ ∀ (i p : Nat), (rangeChain 8).vChain[i]? = some (some p) →
        (timedChain 8 p).GetBlockTimeMax < 35) ∧
      (∀ p, r = some p → ∃ i : Nat, (rangeChain 8).vChain[i]? = some (some p) ∧
        35 ≤ (timedChain 8 p).GetBlockTimeMax ∧
        ∀ (j q : Nat), j < i → (rangeChain 8).vChain[j]? = some (some q) →
          (timedChain 8 q).GetBlockTimeMax < 35) ∧
      ((rangeChain 8).vChain = [] → r = none) ∧
      ((rangeChain 8).Inv (timedChain 8) → ∀ p, r = some p → ∀ (j q : Nat),
        (rangeChain 8).vChain[j]? = some (some q) →
        35 ≤ (timedChain 8 q).GetBlockTimeMax →
        (timedChain 8 p).nHeight ≤ (timedChain 8 q).nHeight)) ∧
    (rangeChain 8).FindEarliestAtLeast (timedChain 8) 35 = .ok (some 4) ∧
    (rangeChain 8).FindEarliestAtLeast (timedChain 8) 71 = .ok none :=
  ⟨FindEarliestAtLeast_first (timedChain 8) (rangeChain 8) 35
    (fun i hi => by
      rw [rangeChain_length] at hi
      exact ⟨i, by rw [rangeChain_slot, if_pos hi]⟩)
    (fun i j p q hij hp hq => by
      rw [rangeChain_slot] at hp hq
      split at hp
      · split at hq
        · cases hp
          cases hq
          rw [timedChain_time, timedChain_time]
          omega
        · cases hq
      · cases hp),
   rfl, rfl⟩

/-- C15. For a chain that satisfies the ActiveChain invariant and a
well-formed node `n` that is the argument of `GetLocator`, or the chain's tip
when the argument is null: `GetLocator` returns (given at least `n.nHeight + 1`
loop iterations) a non-empty list, the hashes of nodes on the `pprev`-chain of
`n` at strictly decreasing heights; its first element is the hash of `n` and
its last element is the hash of the ancestor of `n` at height 0. -/
theorem GetLocator_ancestors (A : Arena) (c : CChain) (hinv : c.Inv A) (pindex : Ptr)
    (n : Nat) (hn : pindex = some n ∨ (pindex = none ∧ c.Tip = some n))
    (hwf : WellFormed A n) (fuel : Nat) (hf : (A n).nHeight + 1 ≤ (fuel : Int)) :
    ∃ nodes : List Nat,
      c.GetLocator A fuel pindex = .ok (nodes.map fun m => (A m).GetBlockHash) ∧
      nodes ≠ [] ∧ nodes.head? = some n ∧
      (∀ m ∈ nodes, OnChain A n m) ∧
      nodes.Chain' (fun a b => (A b).nHeight < (A a).nHeight) ∧
      ∃ g, nodes.getLast? = some g ∧ (A g).nHeight = 0 ∧ OnChain A n g := by
  have hstart : (if pindex.isNone then c.Tip else pindex) = some n := by
    rcases hn with rfl | ⟨rfl, ht⟩
    · rfl
    · exact ht
  obtain ⟨nodes, h1, h2, h3, h4, g, h5, h6⟩ :=
    GetLocatorLoop_spec A c hinv fuel n [] 1 hwf (le_refl _) hf
  refine ⟨nodes, ?_, ?_, h2, h3, h4, g, h5, h6, ?_⟩
  · unfold CChain.GetLocator
    rw [hstart, h1]
    rfl
  · intro he
    rw [he] at h2
    cases h2
  · exact h3 g (List.mem_of_mem_getLast? h5)

/-- C15 at a concrete input: 100 linked nodes with hashes `1000 .. 1099`, the
chain over the first 50 of them, and node 99 as the argument; and the locator
the chain over the first 50 nodes builds for its tip. -/
theorem GetLocator_ancestors_witness :
    (∃ nodes : List Nat,
      (rangeChain 50).GetLocator (timedChain 100) 100 (some 99)
        = .ok (nodes.map fun m => (timedChain 100 m).GetBlockHash) ∧
      nodes ≠ [] ∧ nodes.head? = some 99 ∧
      (∀ m ∈ nodes, OnChain (timedChain 100) 99 m) ∧
      nodes.Chain' (fun a b => (timedChain 100 b).nHeight < (timedChain 100 a).nHeight) ∧
      ∃ g, nodes.getLast? = some g ∧ (timedChain 100 g).nHeight = 0 ∧
        OnChain (timedChain 100) 99 g) ∧
    (rangeChain 50).GetLocator (timedChain 100) 50 none
      = .ok [1049, 1048, 1047, 1046, 1045, 1044, 1043, 1042, 1041, 1040, 1039, 1038, 1036,
          1032, 1024, 1008, 1000] :=
  ⟨GetLocator_ancestors (timedChain 100) (rangeChain 50) (rangeChain_inv 50 100 (by decide))
    (some 99) 99 (Or.inl rfl) (timedChain_wellFormed 100 99 (by decide)) 100 (by decide), rfl⟩

/-! ## Claims about `Flush`, `BatchWrite`, the scenario and `Uncache` -/

/-- C16. For every cache, `Flush()` returns exactly what
`base->BatchWrite(cacheCoins, hashBlock)` returns, and after it has returned,
with true or with false, the cache map is empty (`GetCacheSize() == 0`) and
`cachedCoinsUsage` is 0. -/
theorem Flush_propagates_and_hands_off (X : ScriptOps) (cache : CCoinsViewCache) :
    (cache.Flush X).1 = (cache.base.BatchWrite X cache.cacheCoins cache.hashBlock).1 ∧
    ∀ b : Bool, (cache.Flush X).1 = .ok b →
      (cache.Flush X).2.cacheCoins = ∅ ∧ (cache.Flush X).2.GetCacheSize = 0 ∧
      (cache.Flush X).2.cachedCoinsUsage = 0 := by
  obtain ⟨h1, h2⟩ := Flush_eq X cache
  refine ⟨h1, fun b hb => ?_⟩
  rw [h2 b hb]
  exact ⟨rfl, rfl, rfl⟩

/-- C16 at a concrete input: a cache with three entries over the default
`CCoinsView`, whose `BatchWrite` returns false; `Flush` returns false and
leaves the cache empty. -/
theorem Flush_propagates_and_hands_off_witness :
    ((CCoinsViewCache.mk defaultView 0 sampleChildMap 5).Flush sampleOps).1 = .ok false ∧
    ((CCoinsViewCache.mk defaultView 0 sampleChildMap 5).Flush sampleOps).2.cacheCoins = ∅ ∧
    ((CCoinsViewCache.mk defaultView 0 sampleChildMap 5).Flush sampleOps).2.GetCacheSize = 0 ∧
    ((CCoinsViewCache.mk defaultView 0 sampleChildMap 5).Flush sampleOps).2.cachedCoinsUsage
      = 0 :=
  ⟨rfl, (Flush_propagates_and_hands_off sampleOps
    (CCoinsViewCache.mk defaultView 0 sampleChildMap 5)).2 false rfl⟩

/-- C17. Whenever `CCoinsViewCache::BatchWrite(incoming, h)` returns, it returns
true, nothing is left of the incoming map, and the best-block hash of the
cache is `h`, whatever `h` is and whether or not an incoming entry was dirty. -/
theorem BatchWrite_returns (X : ScriptOps) (cache : CCoinsViewCache) (incoming : CCoinsMap)
    (h : uint256) (b : Bool) (hret : (cache.BatchWrite X incoming h).1 = .ok b) :
    b = true ∧ (cache.BatchWrite X incoming h).2.2 = ∅ ∧
    (cache.BatchWrite X incoming h).2.1.hashBlock = h := by
  obtain ⟨h1, h2, h3, -⟩ := BatchWrite_ok X cache incoming h b hret
  exact ⟨h1, h2, h3⟩

/-- C17 at a concrete input: the sample child map merged into the sample parent
with the null hash; and a map without dirty entry merged with the hash 9. -/
theorem BatchWrite_returns_witness :
    (true = true ∧
      ((CCoinsViewCache.mk sampleStore 4 sampleParentMap 0).BatchWrite sampleOps
        sampleChildMap 0).2.2 = ∅ ∧
      ((CCoinsViewCache.mk sampleStore 4 sampleParentMap 0).BatchWrite sampleOps
        sampleChildMap 0).2.1.hashBlock = 0) ∧
    (true = true ∧
      ((CCoinsViewCache.mk sampleStore 4 sampleParentMap 0).BatchWrite sampleOps
        freshOnlyMap 9).2.2 = ∅ ∧
      ((CCoinsViewCache.mk sampleStore 4 sampleParentMap 0).BatchWrite sampleOps
        freshOnlyMap 9).2.1.hashBlock = 9) :=
  ⟨BatchWrite_returns sampleOps (CCoinsViewCache.mk sampleStore 4 sampleParentMap 0)
    sampleChildMap 0 true rfl,
   BatchWrite_returns sampleOps (CCoinsViewCache.mk sampleStore 4 sampleParentMap 0)
    freshOnlyMap 9 true rfl⟩

/-- C18. Flush is idempotent: for a cache stacked on a parent overlay cache
whose first `Flush()` has returned, the map a second `Flush()` passes to the
parent's `BatchWrite` is empty, the second `Flush()` returns true, and it
leaves the child and the parent below it (map, flags, best-block hash and
byte counter) exactly as the first one left them. -/
theorem Flush_idempotent (X : ScriptOps) (cache parent : CCoinsViewCache)
    (hb : cache.base = parent.view) (b : Bool) (h1 : (cache.Flush X).1 = .ok b) :
    (cache.Flush X).2.cacheCoins = ∅ ∧
    (cache.Flush X).2.Flush X = (.ok true, (cache.Flush X).2) := by
  obtain ⟨f1, f2⟩ := Flush_eq X cache
  have hstate := f2 b h1
  rw [f1, hb] at h1
  have hbw : parent.view.BatchWrite X cache.cacheCoins cache.hashBlock =
      ((parent.BatchWrite X cache.cacheCoins cache.hashBlock).1,
        (parent.BatchWrite X cache.cacheCoins cache.hashBlock).2.1.view,
        (parent.BatchWrite X cache.cacheCoins cache.hashBlock).2.2) := rfl
  rw [hbw] at h1
  obtain ⟨-, -, g3, -⟩ := BatchWrite_ok X parent cache.cacheCoins cache.hashBlock b h1
  rw [hb, hbw] at hstate
  simp only at hstate
  rw [hstate]
  refine ⟨rfl, ?_⟩
  unfold CCoinsViewCache.Flush
  simp only
  have hsecond := view_BatchWrite_empty X
    (parent.BatchWrite X cache.cacheCoins cache.hashBlock).2.1 cache.hashBlock g3
  rw [hsecond]

/-- C18 at a concrete input: the sample child on the sample parent. -/
theorem Flush_idempotent_witness :
    ((CCoinsViewCache.mk (CCoinsViewCache.mk sampleStore 0 sampleParentMap 0).view 3
      sampleChildMap 0).Flush sampleOps).2.cacheCoins = ∅ ∧
    ((CCoinsViewCache.mk (CCoinsViewCache.mk sampleStore 0 sampleParentMap 0).view 3
      sampleChildMap 0).Flush sampleOps).2.Flush sampleOps
      = (.ok true, ((CCoinsViewCache.mk (CCoinsViewCache.mk sampleStore 0 sampleParentMap 0).view
          3 sampleChildMap 0).Flush sampleOps).2) :=
  Flush_idempotent sampleOps _ (CCoinsViewCache.mk sampleStore 0 sampleParentMap 0) rfl true rfl

/-- C19, as stated, fails over the backing view coins.cpp:11-20 defines, the
default `CCoinsView`: it holds no coins, and its `BatchWrite` returns false,
so the `Flush()` that ends the scenario returns false, not true.  The other
answers are as the scenario says. -/
theorem coinScenario_counterexample :
    coinScenario sampleOps { base := defaultView } outT coin50
      = (.ok (), (true, coin50), (true, some coin50), false, .ok false, 0) ∧
    coin50.out.nValue = 50 ∧ defaultView.found sampleOps outT = none :=
  ⟨rfl, rfl, rfl⟩

/-- C19, amended. In an empty overlay cache over a backing store that holds no
coins, after `AddCoin((T,0), coin of value 50, false)`: `GetCoin((T,0))`
returns true with that coin; `SpendCoin((T,0), &moved)` returns true and
`moved` is that coin; `HaveCoin((T,0))` is then false; `Flush()` returns what
the store's `BatchWrite` returns (true when the store accepts the batch, false
over the default `CCoinsView`) and `GetCacheSize()` is 0. -/
theorem coinScenario_result (X : ScriptOps) (writeOk : Bool)
    (written : List (CCoinsMap × uint256)) (T : uint256) (coin : Coin)
    (hv : coin.out.nValue = 50) (hu : X.IsUnspendable coin.out.scriptPubKey = false) :
    coinScenario X { base := .store (fun _ => none) writeOk written } { hash := T, n := 0 } coin
      = (.ok (), (true, coin), (true, some coin), false, .ok writeOk, 0) := by
  refine coinScenario_store X writeOk written 0 _ coin ?_ hu
  unfold Coin.IsSpent CTxOut.IsNull
  rw [hv]
  rfl

/-- C19, amended, at a concrete input: the store that holds no coin and accepts
batches, and `coin50`; `Flush()` returns true. -/
theorem coinScenario_result_witness :
    coinScenario sampleOps { base := emptyStore } outT coin50
      = (.ok (), (true, coin50), (true, some coin50), false, .ok true, 0) :=
  coinScenario_result sampleOps true [] 7 coin50 rfl rfl

/-- C20. For every cache and outpoint `id`: `Uncache(id)` erases the entry of
`id` if and only if that entry exists and its flags are 0; an entry that
carries DIRTY or FRESH is left as it is, and so are the entry of every other
key, the best-block hash and the backing view. -/
theorem Uncache_frame (X : ScriptOps) (cache : CCoinsViewCache) (id : COutPoint) :
    (((cache.cacheCoins.lookup id).isSome ∧ (cache.Uncache X id).cacheCoins.lookup id = none) ↔
      ∃ e, cache.cacheCoins.lookup id = some e ∧ e.flags = 0) ∧
    (∀ e, cache.cacheCoins.lookup id = some e →
      e.flags &&& DIRTY ≠ 0 ∨ e.flags &&& FRESH ≠ 0 → cache.Uncache X id = cache) ∧
    (∀ k, k ≠ id → (cache.Uncache X id).cacheCoins.lookup k = cache.cacheCoins.lookup k) ∧
    (cache.Uncache X id).hashBlock = cache.hashBlock ∧
    (cache.Uncache X id).base = cache.base := by
  obtain ⟨u1, u2, u3⟩ := Uncache_eq X cache id
  cases hl : cache.cacheCoins.lookup id with
  | none =>
    rw [u1 hl]
    refine ⟨⟨fun h => ?_, fun h => ?_⟩, fun e he => ?_, fun _ _ => rfl, rfl, rfl⟩
    · cases h.1
    · obtain ⟨e, he, -⟩ := h
      cases he
    · cases he
  | some e =>
    by_cases hf : e.flags = 0
    · rw [u3 e hl hf]
      refine ⟨⟨fun _ => ⟨e, rfl, hf⟩, fun _ => ⟨rfl, AList.lookup_erase _ _⟩⟩, ?_,
        fun k hk => AList.lookup_erase_ne hk, rfl, rfl⟩
      intro e' he' hflag
      cases he'
      rcases hflag with h | h
      · exact absurd hf (and_ne_zero_imp_ne_zero _ _ h)
      · exact absurd hf (and_ne_zero_imp_ne_zero _ _ h)
    · rw [u2 e hl hf]
      refine ⟨⟨fun h => ?_, fun h => ?_⟩, fun _ _ _ => rfl, fun _ _ => rfl, rfl, rfl⟩
      · rw [hl] at h
        cases h.2
      · obtain ⟨e', he', hf'⟩ := h
        cases he'
        exact absurd hf' hf

/-- C20 at a concrete input: in the sample child map `Uncache` leaves the DIRTY
entry at `(T, 0)` and erases the flagless entry at `(T, 1)`. -/
theorem Uncache_frame_witness :
    (CCoinsViewCache.mk emptyStore 3 sampleChildMap 9).Uncache sampleOps outT
      = CCoinsViewCache.mk emptyStore 3 sampleChildMap 9 ∧
    ((CCoinsViewCache.mk emptyStore 3 sampleChildMap 9).cacheCoins.lookup
        { hash := 7, n := 1 }).isSome ∧
    ((CCoinsViewCache.mk emptyStore 3 sampleChildMap 9).Uncache sampleOps
      { hash := 7, n := 1 }).cacheCoins.lookup { hash := 7, n := 1 } = none :=
  ⟨(Uncache_frame sampleOps (CCoinsViewCache.mk emptyStore 3 sampleChildMap 9) outT).2.1
    { coin := {}, flags := DIRTY } rfl (Or.inl (by decide)),
   (Uncache_frame sampleOps (CCoinsViewCache.mk emptyStore 3 sampleChildMap 9)
    { hash := 7, n := 1 }).1.2 ⟨{ coin := coin20, flags := 0 }, rfl, rfl⟩⟩

/-- C21. For every node, `GetBlockProof(node)` is 0 when `node.nBits` decodes
(`SetCompact`) as negative, overflowed or zero; otherwise, with `t` the decoded
256-bit target, the division `~t / (t + 1)` of 256-bit arithmetic returns a
quotient `q`, `GetBlockProof(node)` is `q + 1` in 256-bit arithmetic, and that
number is exactly `floor(2^256 / (t + 1))`. -/
theorem GetBlockProof_value (block : CBlockIndex) :
    ((SetCompact block.nBits).2.1 = true ∨ (SetCompact block.nBits).2.2 = true ∨
        (SetCompact block.nBits).1 = 0 → GetBlockProof block = .ok 0) ∧
    (¬ ((SetCompact block.nBits).2.1 = true ∨ (SetCompact block.nBits).2.2 = true ∨
        (SetCompact block.nBits).1 = 0) →
      ∃ q, base_uint.div (base_uint.not (SetCompact block.nBits).1)
            (base_uint.add (SetCompact block.nBits).1 1) = .ok q ∧
        GetBlockProof block = .ok (base_uint.add q 1) ∧
        base_uint.add q 1 = 2 ^ 256 / ((SetCompact block.nBits).1 + 1)) := by
  have h := GetBlockProof_eq block
  constructor
  · intro hbad
    rw [h, if_pos hbad]
  · intro hgood
    rw [if_neg hgood] at h
    have ht0 : (SetCompact block.nBits).1 ≠ 0 := fun h0 => hgood (Or.inr (Or.inr h0))
    obtain ⟨h1, h2, -, -⟩ := work_formula _ (SetCompact_lt block.nBits) ht0
    exact ⟨_, h1, by rw [h, h2], h2⟩

/-- C21 at concrete inputs: the compact targets `0x04923456` (negative),
`0xff123456` (overflowed) and `0x01003456` (zero) give work 0, and the compact
target `0x1d00ffff` gives work `0x100010001`. -/
theorem GetBlockProof_value_witness :
    GetBlockProof { nBits := 0x04923456 } = .ok 0 ∧
    GetBlockProof { nBits := 0xff123456 } = .ok 0 ∧
    GetBlockProof { nBits := 0x01003456 } = .ok 0 ∧
    ¬ ((SetCompact 0x1d00ffff).2.1 = true ∨ (SetCompact 0x1d00ffff).2.2 = true ∨
        (SetCompact 0x1d00ffff).1 = 0) ∧
    (∃ q, base_uint.div (base_uint.not (SetCompact 0x1d00ffff).1)
          (base_uint.add (SetCompact 0x1d00ffff).1 1) = .ok q ∧
      GetBlockProof { nBits := 0x1d00ffff } = .ok (base_uint.add q 1) ∧
      base_uint.add q 1 = 2 ^ 256 / ((SetCompact 0x1d00ffff).1 + 1)) ∧
    GetBlockProof { nBits := 0x1d00ffff } = .ok 0x100010001 :=
  ⟨(GetBlockProof_value { nBits := 0x04923456 }).1 (Or.inl (by decide)),
   (GetBlockProof_value { nBits := 0xff123456 }).1 (Or.inr (Or.inl (by decide))),
   (GetBlockProof_value { nBits := 0x01003456 }).1 (Or.inr (Or.inr (by decide))),
   by decide,
   (GetBlockProof_value { nBits := 0x1d00ffff }).2 (by decide),
   rfl⟩

/-- C22. For all nodes `to`, `from`, `tip` with `GetBlockProof(tip) != 0` and a
non-negative target spacing `s` (an `int64_t`) such that
`|to.nChainWork - from.nChainWork| * s < 2^256`,
`GetBlockProofEquivalentTime(to, from, tip, params)` returns
`sign * min(floor(|to.nChainWork - from.nChainWork| * s / GetBlockProof(tip)), 2^63 - 1)`,
where `sign` is `+1` if `to.nChainWork > from.nChainWork` and `-1` otherwise. -/
theorem GetBlockProofEquivalentTime_value (blockTo blockFrom tip : CBlockIndex)
    (params : Consensus.Params) (proof : Nat)
    (hp : GetBlockProof tip = .ok proof) (hp0 : proof ≠ 0)
    (hs0 : 0 ≤ params.nPowTargetSpacing) (hs1 : params.nPowTargetSpacing < 2 ^ 63)
    (hlt : Int.natAbs ((blockTo.nChainWork : Int) - (blockFrom.nChainWork : Int)) *
      params.nPowTargetSpacing.toNat < 2 ^ 256) :
    GetBlockProofEquivalentTime blockTo blockFrom tip params =
      .ok ((if blockTo.nChainWork > blockFrom.nChainWork then 1 else -1) *
        ((min (Int.natAbs ((blockTo.nChainWork : Int) - (blockFrom.nChainWork : Int)) *
          params.nPowTargetSpacing.toNat / proof) (2 ^ 63 - 1) : Nat) : Int)) :=
  GetBlockProofEquivalentTime_spec blockTo blockFrom tip params proof hp hp0 hs0 hs1 hlt

/-- C22 at concrete inputs, with a tip of work 255 and the spacing 120: the
work difference 999500 gives 470352 seconds, the opposite order gives
-470352, and the work difference `2^200 - 5` saturates at `-(2^63 - 1)`. -/
theorem GetBlockProofEquivalentTime_value_witness :
    GetBlockProofEquivalentTime { nChainWork := 1000000 } { nChainWork := 500 }
      { nBits := 0x22000001 } { nPowTargetSpacing := 120 } = .ok 470352 ∧
    GetBlockProofEquivalentTime { nChainWork := 500 } { nChainWork := 1000000 }
      { nBits := 0x22000001 } { nPowTargetSpacing := 120 } = .ok (-470352) ∧
    GetBlockProofEquivalentTime { nChainWork := 5 } { nChainWork := 2 ^ 200 }
      { nBits := 0x22000001 } { nPowTargetSpacing := 120 } = .ok (-(2 ^ 63 - 1)) :=
  ⟨GetBlockProofEquivalentTime_value { nChainWork := 1000000 } { nChainWork := 500 }
      { nBits := 0x22000001 } { nPowTargetSpacing := 120 } 255 rfl (by decide) (by decide)
      (by decide) (by decide),
   GetBlockProofEquivalentTime_value { nChainWork := 500 } { nChainWork := 1000000 }
      { nBits := 0x22000001 } { nPowTargetSpacing := 120 } 255 rfl (by decide) (by decide)
      (by decide) (by decide),
   GetBlockProofEquivalentTime_value { nChainWork := 5 } { nChainWork := 2 ^ 200 }
      { nBits := 0x22000001 } { nPowTargetSpacing := 120 } 255 rfl (by decide) (by decide)
      (by decide) (by decide)⟩

/-- C23. `BatchWrite`, key absent locally. For every dirty incoming entry whose
key has no entry in the receiving cache, once the entry has been consumed (as
every entry has when `BatchWrite` returns) the receiving cache has no entry
for that key when the incoming entry is both FRESH and spent, and otherwise
has an entry that holds the incoming coin and whose flags are exactly DIRTY,
plus FRESH if and only if the incoming entry was FRESH. An incoming entry
without DIRTY leaves the receiving cache's entry for its key as it was, and an
incoming map without any DIRTY entry leaves the receiving cache's map and
counter as they were. -/
theorem BatchWrite_key_absent (X : ScriptOps) (c : CCoinsViewCache) (incoming : CCoinsMap)
    (h : uint256) (k : COutPoint) (it : CCoinsCacheEntry)
    (hin : incoming.lookup k = some it) :
    (it.flags &&& DIRTY ≠ 0 → c.cacheCoins.lookup k = none →
      ((c.BatchWrite X incoming h).1 = .ok true ∨
        (c.BatchWrite X incoming h).2.2.lookup k = none) →
      (c.BatchWrite X incoming h).2.1.cacheCoins.lookup k =
        if it.flags &&& FRESH ≠ 0 ∧ it.coin.IsSpent = true then none
        else some { coin := it.coin
                    flags := DIRTY ||| (if it.flags &&& FRESH ≠ 0 then FRESH else 0) }) ∧
    (it.flags &&& DIRTY = 0 →
      (c.BatchWrite X incoming h).2.1.cacheCoins.lookup k = c.cacheCoins.lookup k) ∧
    ((∀ k' it', incoming.lookup k' = some it' → it'.flags &&& DIRTY = 0) →
      (c.BatchWrite X incoming h).1 = .ok true ∧
      (c.BatchWrite X incoming h).2.1.cacheCoins = c.cacheCoins ∧
      (c.BatchWrite X incoming h).2.1.cachedCoinsUsage = c.cachedCoinsUsage) := by
  obtain ⟨-, tB, tC, -⟩ := BatchWrite_trace X c incoming h
  refine ⟨?_, ?_, ?_⟩
  · intro hd hus hdone
    have hleft : (c.BatchWrite X incoming h).2.2.lookup k = none := by
      rcases hdone with hok | hl
      · rcases tC with ⟨-, he, -⟩ | ⟨he, -⟩
        · rw [he]
          rfl
        · rw [hok] at he
          cases he
      · exact hl
    rcases tB k it hin with ⟨h1, -⟩ | ⟨-, h2⟩
    · rw [hleft] at h1
      cases h1
    · rw [hus] at h2
      unfold mergeEntry at h2
      rw [if_neg hd] at h2
      simp only at h2
      by_cases hc : it.flags &&& FRESH ≠ 0 ∧ it.coin.IsSpent = true
      · rw [if_neg (not_not.2 hc)] at h2
        rw [if_pos hc]
        exact (Except.ok.inj h2).symm
      · rw [if_pos hc] at h2
        rw [if_neg hc]
        exact (Except.ok.inj h2).symm
  · intro hd
    rcases tB k it hin with ⟨-, h1⟩ | ⟨-, h2⟩
    · exact h1
    · unfold mergeEntry at h2
      rw [if_pos hd] at h2
      exact (Except.ok.inj h2).symm
  · intro hall
    exact BatchWrite_clean X c incoming h hall

/-- C23 at concrete inputs: merged into an empty cache, the entry of
`sampleChildMap` at `(T, 2)` (DIRTY and FRESH, unspent) arrives with flags
DIRTY and FRESH, its entry at `(T, 0)` (DIRTY, spent) arrives with flag DIRTY,
its flagless entry at `(T, 1)` does not arrive, and the entry of
`cancelledChildMap` (DIRTY and FRESH, spent) does not arrive. -/
theorem BatchWrite_key_absent_witness :
    ((CCoinsViewCache.mk emptyStore 0 ∅ 0).BatchWrite sampleOps sampleChildMap 9).2.1.cacheCoins.lookup
        { hash := 7, n := 2 } = some { coin := coin50, flags := DIRTY ||| FRESH } ∧
    ((CCoinsViewCache.mk emptyStore 0 ∅ 0).BatchWrite sampleOps sampleChildMap 9).2.1.cacheCoins.lookup
        outT = some { coin := {}, flags := DIRTY } ∧
    ((CCoinsViewCache.mk emptyStore 0 ∅ 0).BatchWrite sampleOps sampleChildMap 9).2.1.cacheCoins.lookup
        { hash := 7, n := 1 } = none ∧
    ((CCoinsViewCache.mk emptyStore 0 ∅ 0).BatchWrite sampleOps cancelledChildMap 9).2.1.cacheCoins.lookup
        { hash := 7, n := 3 } = none :=
  ⟨(BatchWrite_key_absent sampleOps (CCoinsViewCache.mk emptyStore 0 ∅ 0) sampleChildMap 9
      { hash := 7, n := 2 } { coin := coin50, flags := DIRTY ||| FRESH } (by decide)).1
      (by decide) (by decide) (Or.inl rfl),
   (BatchWrite_key_absent sampleOps (CCoinsViewCache.mk emptyStore 0 ∅ 0) sampleChildMap 9
      outT { coin := {}, flags := DIRTY } (by decide)).1 (by decide) (by decide) (Or.inl rfl),
   (BatchWrite_key_absent sampleOps (CCoinsViewCache.mk emptyStore 0 ∅ 0) sampleChildMap 9
      { hash := 7, n := 1 } { coin := coin20, flags := 0 } (by decide)).2.1 (by decide),
   (BatchWrite_key_absent sampleOps (CCoinsViewCache.mk emptyStore 0 ∅ 0) cancelledChildMap 9
      { hash := 7, n := 3 } { coin := {}, flags := DIRTY ||| FRESH } (by decide)).1
      (by decide) (by decide) (Or.inl rfl)⟩

/-- C24. `BatchWrite`, key present locally. For every dirty incoming entry whose
key has an entry in the receiving cache: (1) if the incoming entry is FRESH
and the local coin is unspent, `BatchWrite` raises the logic error; (2)
otherwise, once the entry has been consumed (as every entry has when
`BatchWrite` returns), the local entry is erased if it was FRESH and the
incoming coin is spent, and (3) else it holds the incoming coin with DIRTY
added to the local flags; adding DIRTY sets DIRTY and keeps the local FRESH
flag as it was. -/
theorem BatchWrite_key_present (X : ScriptOps) (c : CCoinsViewCache) (incoming : CCoinsMap)
    (h : uint256) (k : COutPoint) (it itUs : CCoinsCacheEntry)
    (hin : incoming.lookup k = some it) (hd : it.flags &&& DIRTY ≠ 0)
    (hus : c.cacheCoins.lookup k = some itUs) :
    (it.flags &&& FRESH ≠ 0 ∧ itUs.coin.IsSpent = false →
      (c.BatchWrite X incoming h).1 = .error .freshMisapplied) ∧
    (¬ (it.flags &&& FRESH ≠ 0 ∧ itUs.coin.IsSpent = false) →
      ((c.BatchWrite X incoming h).1 = .ok true ∨
        (c.BatchWrite X incoming h).2.2.lookup k = none) →
      (c.BatchWrite X incoming h).2.1.cacheCoins.lookup k =
        if itUs.flags &&& FRESH ≠ 0 ∧ it.coin.IsSpent = true then none
        else some { coin := it.coin, flags := itUs.flags ||| DIRTY }) ∧
    ((itUs.flags ||| DIRTY) &&& DIRTY ≠ 0 ∧
      (itUs.flags ||| DIRTY) &&& FRESH = itUs.flags &&& FRESH) := by
  obtain ⟨-, tB, tC, tD⟩ := BatchWrite_trace X c incoming h
  refine ⟨?_, ?_, or_DIRTY itUs.flags⟩
  · rintro ⟨hf, hs⟩
    apply tD
    exact ⟨k, it, .freshMisapplied, hin, by rw [hus]; exact mergeEntry_misapplied it itUs hd hf hs⟩
  · intro hno hdone
    have hleft : (c.BatchWrite X incoming h).2.2.lookup k = none := by
      rcases hdone with hok | hl
      · rcases tC with ⟨-, he, -⟩ | ⟨he, -⟩
        · rw [he]
          rfl
        · rw [hok] at he
          cases he
      · exact hl
    rcases tB k it hin with ⟨h1, -⟩ | ⟨-, h2⟩
    · rw [hleft] at h1
      cases h1
    · rw [hus] at h2
      unfold mergeEntry at h2
      rw [if_neg hd] at h2
      simp only at h2
      have hno' : ¬ (it.flags &&& FRESH ≠ 0 ∧ ¬ itUs.coin.IsSpent = true) := by
        intro hc
        exact hno ⟨hc.1, by simpa using hc.2⟩
      rw [if_neg hno'] at h2
      by_cases hc : itUs.flags &&& FRESH ≠ 0 ∧ it.coin.IsSpent = true
      · rw [if_pos hc] at h2 ⊢
        exact (Except.ok.inj h2).symm
      · rw [if_neg hc] at h2 ⊢
        exact (Except.ok.inj h2).symm

/-- C24 at concrete inputs, merging into the cache `sampleParent`: (1)
`raisingChildMap` brings a DIRTY and FRESH entry for `(T, 1)`, where the cache
holds an unspent coin, and `BatchWrite` raises; (2) `sampleChildMap` brings a
spent DIRTY entry for `(T, 0)`, where the cache holds a FRESH entry, and the
entry is erased; (3) `spendingChildMap` brings a spent DIRTY entry for
`(T, 1)`, where the cache holds a flagless entry, and the entry becomes the
spent coin flagged DIRTY. -/
theorem BatchWrite_key_present_witness :
    (sampleParent.BatchWrite sampleOps raisingChildMap 9).1 = .error .freshMisapplied ∧
    (sampleParent.BatchWrite sampleOps sampleChildMap 9).2.1.cacheCoins.lookup outT = none ∧
    (sampleParent.BatchWrite sampleOps spendingChildMap 9).2.1.cacheCoins.lookup
      { hash := 7, n := 1 } = some { coin := {}, flags := DIRTY } :=
  ⟨(BatchWrite_key_present sampleOps sampleParent raisingChildMap 9 { hash := 7, n := 1 }
      { coin := coin50, flags := DIRTY ||| FRESH } { coin := coin20, flags := 0 }
      (by decide) (by decide) (by decide)).1 (by decide),
   (BatchWrite_key_present sampleOps sampleParent sampleChildMap 9 outT
      { coin := {}, flags := DIRTY } { coin := coin50, flags := DIRTY ||| FRESH }
      (by decide) (by decide) (by decide)).2.1 (by decide) (Or.inl rfl),
   (BatchWrite_key_present sampleOps sampleParent spendingChildMap 9 { hash := 7, n := 1 }
      { coin := {}, flags := DIRTY } { coin := coin20, flags := 0 }
      (by decide) (by decide) (by decide)).2.1 (by decide) (Or.inl rfl)⟩

/-- C25. `SpendCoin`'s two branches. For every cache in which `FetchCoin(id)`
finds an entry, `SpendCoin(id, &moved)` returns true and stores the entry's
previous coin in `moved` (when the pointer is non-null); if the entry carried
FRESH it removes the entry from the map altogether, and otherwise it keeps
the entry with DIRTY added to its flags and its coin cleared to the spent
sentinel (null output, height 0, not coinbase); entries at other keys are
unchanged. -/
theorem SpendCoin_branches (X : ScriptOps) (c : CCoinsViewCache) (id : COutPoint)
    (moveout : Bool) (e : CCoinsCacheEntry) (hfetch : (c.FetchCoin X id).1 = some e) :
    (c.SpendCoin X id moveout).1 = (true, if moveout then some e.coin else none) ∧
    (e.flags &&& FRESH ≠ 0 → (c.SpendCoin X id moveout).2.cacheCoins.lookup id = none) ∧
    (e.flags &&& FRESH = 0 →
      (c.SpendCoin X id moveout).2.cacheCoins.lookup id =
        some { coin := { out := { nValue := -1, scriptPubKey := [] }, fCoinBase := false,
                         nHeight := 0 }
               flags := e.flags ||| DIRTY }) ∧
    ((e.flags ||| DIRTY) &&& DIRTY ≠ 0 ∧ (e.flags ||| DIRTY) &&& FRESH = e.flags &&& FRESH) ∧
    ({ out := { nValue := -1, scriptPubKey := [] }, fCoinBase := false,
       nHeight := 0 } : Coin).IsSpent = true ∧
    (∀ k, k ≠ id → (c.SpendCoin X id moveout).2.cacheCoins.lookup k = c.cacheCoins.lookup k) := by
  obtain ⟨-, hoth, -⟩ := FetchCoin_state X c id
  rw [SpendCoin_eq, hfetch]
  simp only
  by_cases hf : e.flags &&& FRESH ≠ 0
  · rw [if_pos hf]
    refine ⟨rfl, fun _ => AList.lookup_erase _ _, fun h0 => absurd h0 hf, or_DIRTY e.flags, rfl, ?_⟩
    intro k hk
    simp only
    rw [AList.lookup_erase_ne hk, hoth k hk]
  · rw [if_neg hf]
    refine ⟨rfl, fun h1 => absurd h1 hf, fun _ => ?_, or_DIRTY e.flags, rfl, ?_⟩
    · simp only
      rw [AList.lookup_insert]
      rfl
    · intro k hk
      simp only
      rw [AList.lookup_insert_ne hk, hoth k hk]

/-- C25 at concrete inputs: over the store that holds `coin50` at `(T, 0)`, an
empty cache fetches the coin without flags, and `SpendCoin` keeps a cleared
DIRTY entry; in a cache that holds `coin50` at `(T, 0)` flagged DIRTY and
FRESH, `SpendCoin` erases the entry and leaves the entry at `(T, 1)` alone. -/
theorem SpendCoin_branches_witness :
    ((CCoinsViewCache.mk storeWith50 0 ∅ 0).SpendCoin sampleOps outT true).1 =
      (true, some coin50) ∧
    ((CCoinsViewCache.mk storeWith50 0 ∅ 0).SpendCoin sampleOps outT true).2.cacheCoins.lookup
      outT = some { coin := {}, flags := DIRTY } ∧
    (sampleParent.SpendCoin sampleOps outT true).1 = (true, some coin50) ∧
    (sampleParent.SpendCoin sampleOps outT true).2.cacheCoins.lookup outT = none ∧
    (sampleParent.SpendCoin sampleOps outT true).2.cacheCoins.lookup { hash := 7, n := 1 } =
      some { coin := coin20, flags := 0 } :=
  ⟨(SpendCoin_branches sampleOps (CCoinsViewCache.mk storeWith50 0 ∅ 0) outT true
      { coin := coin50, flags := 0 } rfl).1,
   (SpendCoin_branches sampleOps (CCoinsViewCache.mk storeWith50 0 ∅ 0) outT true
      { coin := coin50, flags := 0 } rfl).2.2.1 (by decide),
   (SpendCoin_branches sampleOps sampleParent outT true
      { coin := coin50, flags := DIRTY ||| FRESH } rfl).1,
   (SpendCoin_branches sampleOps sampleParent outT true
      { coin := coin50, flags := DIRTY ||| FRESH } rfl).2.1 (by decide),
   (SpendCoin_branches sampleOps sampleParent outT true
      { coin := coin50, flags := DIRTY ||| FRESH } rfl).2.2.2.2.2 { hash := 7, n := 1 }
      (by decide)⟩

/-- C26. `AddCoin` flag rule. For every `AddCoin(id, c, allow_overwrite)` that
returns, with a spendable script, the resulting entry holds `c` and its flags
are the previous flags at `id` (0 if there was no entry) with DIRTY added, and
with FRESH added if and only if `allow_overwrite` is false and the previous
flags did not contain DIRTY; so DIRTY is set, and FRESH is set exactly when
it was set before or is added; no other key's entry changes. -/
theorem AddCoin_flag_rule (X : ScriptOps) (c : CCoinsViewCache) (id : COutPoint) (coin : Coin)
    (allow_overwrite : Bool) (prev : Nat)
    (hprev : prev = match c.cacheCoins.lookup id with
      | some e => e.flags
      | none => 0)
    (hu : X.IsUnspendable coin.out.scriptPubKey = false)
    (hok : (c.AddCoin X id coin allow_overwrite).1 = .ok ()) :
    (c.AddCoin X id coin allow_overwrite).2.cacheCoins.lookup id =
      some { coin := coin
             flags := prev ||| (DIRTY |||
               (if allow_overwrite = false ∧ prev &&& DIRTY = 0 then FRESH else 0)) } ∧
    (prev ||| (DIRTY |||
        (if allow_overwrite = false ∧ prev &&& DIRTY = 0 then FRESH else 0))) &&& DIRTY ≠ 0 ∧
    ((prev ||| (DIRTY |||
        (if allow_overwrite = false ∧ prev &&& DIRTY = 0 then FRESH else 0))) &&& FRESH ≠ 0 ↔
      (prev &&& FRESH ≠ 0 ∨ (allow_overwrite = false ∧ prev &&& DIRTY = 0))) ∧
    (∀ k, k ≠ id →
      (c.AddCoin X id coin allow_overwrite).2.cacheCoins.lookup k = c.cacheCoins.lookup k) := by
  obtain ⟨hs, hc⟩ := AddCoin_returns X c id coin allow_overwrite hu hok
  obtain ⟨entry, e1, e2, -, e4, e5, -⟩ := AddCoin_ok X c id coin allow_overwrite hs hu hc
  have hp : ((c.cacheCoins.lookup id).getD {}).flags = prev := by
    rw [hprev]
    cases c.cacheCoins.lookup id <;> rfl
  rw [hp] at e2
  have hif : (if (!allow_overwrite && (prev &&& DIRTY == 0)) = true then FRESH else 0) =
      (if allow_overwrite = false ∧ prev &&& DIRTY = 0 then FRESH else 0) := by
    cases allow_overwrite <;> simp
  have hb := or_DIRTY_FRESH prev (decide (allow_overwrite = false ∧ prev &&& DIRTY = 0))
  simp only [decide_eq_true_eq] at hb
  refine ⟨?_, hb.1, hb.2, e5⟩
  rw [e4]
  congr 1
  rw [hif] at e2
  cases entry
  simp only at e1 e2
  rw [e1, e2]

/-- C26 at concrete inputs: `AddCoin((T,0), coin50, false)` on an empty cache
gives flags DIRTY and FRESH; on a spent DIRTY entry it gives DIRTY alone; and
`AddCoin((T,1), coin50, true)` over the flagless `coin20` of `sampleParent`
gives DIRTY alone and leaves `(T, 0)` as it was. -/
theorem AddCoin_flag_rule_witness :
    ((CCoinsViewCache.mk emptyStore 0 ∅ 0).AddCoin sampleOps outT coin50 false).2.cacheCoins.lookup
      outT = some { coin := coin50, flags := DIRTY ||| FRESH } ∧
    ((CCoinsViewCache.mk emptyStore 0 spendingChildMap 0).AddCoin sampleOps { hash := 7, n := 1 }
      coin50 false).2.cacheCoins.lookup { hash := 7, n := 1 } =
        some { coin := coin50, flags := DIRTY } ∧
    (sampleParent.AddCoin sampleOps { hash := 7, n := 1 } coin50 true).2.cacheCoins.lookup
      { hash := 7, n := 1 } = some { coin := coin50, flags := DIRTY } ∧
    (sampleParent.AddCoin sampleOps { hash := 7, n := 1 } coin50 true).2.cacheCoins.lookup
      outT = some { coin := coin50, flags := DIRTY ||| FRESH } :=
  ⟨(AddCoin_flag_rule sampleOps (CCoinsViewCache.mk emptyStore 0 ∅ 0) outT coin50 false 0 rfl
      rfl rfl).1,
   (AddCoin_flag_rule sampleOps (CCoinsViewCache.mk emptyStore 0 spendingChildMap 0)
      { hash := 7, n := 1 } coin50 false DIRTY rfl rfl rfl).1,
   (AddCoin_flag_rule sampleOps sampleParent { hash := 7, n := 1 } coin50 true 0 rfl
      rfl rfl).1,
   (AddCoin_flag_rule sampleOps sampleParent { hash := 7, n := 1 } coin50 true 0 rfl
      rfl rfl).2.2.2 outT (by decide)⟩

/-- C27, as stated, fails after an operation that raises, in two ways.
(1) A new cache over the cache `sampleParent` runs
`AddCoin((T,1), coin50, false)`, `AddCoin((T,2), coin30, true)` and `Flush()`.
The parent's `BatchWrite` consumes the entry for `(T, 2)` and raises on the
FRESH entry for `(T, 1)`, so the exception leaves `Flush` before the map is
cleared and the counter reset: the map holds the entry for `(T, 1)` alone, two
bytes of script memory, and `cachedCoinsUsage` is still 42.
(2) A new cache over the empty store runs `AddCoin((T,0), coin30, false)`
and then `AddCoin((T,0), coin20, false)`, which raises after the counter has
been lowered by the 40 bytes of the entry it finds: the map still holds
`coin30` and `cachedCoinsUsage` is 0. -/
theorem usage_invariant_counterexample :
    ((runOps sampleOps
      [.AddCoin { hash := 7, n := 1 } coin50 false, .AddCoin { hash := 7, n := 2 } coin30 true,
        .Flush] { base := sampleParent.view }).1 = [none, none, some .freshMisapplied] ∧
    (runOps sampleOps
      [.AddCoin { hash := 7, n := 1 } coin50 false, .AddCoin { hash := 7, n := 2 } coin30 true,
        .Flush] { base := sampleParent.view }).2.cachedCoinsUsage = 42 ∧
    coinsUsage sampleOps (runOps sampleOps
      [.AddCoin { hash := 7, n := 1 } coin50 false, .AddCoin { hash := 7, n := 2 } coin30 true,
        .Flush] { base := sampleParent.view }).2.cacheCoins = 2) ∧
    ((runOps sampleOps [.AddCoin outT coin30 false, .AddCoin outT coin20 false]
      { base := emptyStore }).1 = [none, some .replacesNonPruned] ∧
    (runOps sampleOps [.AddCoin outT coin30 false, .AddCoin outT coin20 false]
      { base := emptyStore }).2.cachedCoinsUsage = 0 ∧
    coinsUsage sampleOps (runOps sampleOps [.AddCoin outT coin30 false,
      .AddCoin outT coin20 false] { base := emptyStore }).2.cacheCoins = 40) := by
  decide

/-- C27, amended. Byte-counter invariant: starting from a newly constructed
cache, after every sequence of operations (`GetCoin`, `HaveCoin`,
`AccessCoin`, `AddCoin`, `SpendCoin`, `BatchWrite`, `Flush`, `Uncache`) each of
which returned normally or was a `BatchWrite` that raised,
`cachedCoinsUsage` equals, in `size_t` arithmetic (modulo `2^64`), the sum of
`DynamicMemoryUsage()` over the coins of all entries currently in the cache
map, and equals that sum outright when the sum is below `2^64`; an empty
script is taken to own no dynamic memory. -/
theorem usage_invariant (X : ScriptOps) (hX : X.DynamicUsage [] = 0) (base : CCoinsView)
    (ops : List CacheOp)
    (hq : ∀ p ∈ ops.zip (runOps X ops { base := base }).1,
      p.2 = none ∨ p.1.isBatchWrite = true) :
    (runOps X ops { base := base }).2.cachedCoinsUsage =
      coinsUsage X (runOps X ops { base := base }).2.cacheCoins % 2 ^ 64 ∧
    (coinsUsage X (runOps X ops { base := base }).2.cacheCoins < 2 ^ 64 →
      (runOps X ops { base := base }).2.cachedCoinsUsage =
        coinsUsage X (runOps X ops { base := base }).2.cacheCoins) := by
  have h : UsageOK X (runOps X ops { base := base }).2 :=
    runOps_usage X hX ops { base := base } rfl hq
  refine ⟨h, fun hlt => ?_⟩
  rw [h]
  exact Nat.mod_eq_of_lt hlt

/-- C27, amended, at a concrete input: a new cache over `sampleStore` adds
`coin30` at `(T, 0)`, reads `(T, 1)` from the store, receives
`raisingChildMap` (which raises after its first entry has been merged),
spends `(T, 0)` and drops `(T, 1)`; the counter ends at the one byte of the
script of the remaining entry, the merged one for `(T, 2)`. -/
theorem usage_invariant_witness :
    (runOps sampleOps
      [.AddCoin outT coin30 false, .HaveCoin { hash := 7, n := 1 },
        .BatchWrite raisingChildMap 9, .SpendCoin outT true, .Uncache { hash := 7, n := 1 }]
      { base := sampleStore }).1 = [none, none, some .freshMisapplied, none, none] ∧
    (runOps sampleOps
      [.AddCoin outT coin30 false, .HaveCoin { hash := 7, n := 1 },
        .BatchWrite raisingChildMap 9, .SpendCoin outT true, .Uncache { hash := 7, n := 1 }]
      { base := sampleStore }).2.cachedCoinsUsage = 1 ∧
    (runOps sampleOps
      [.AddCoin outT coin30 false, .HaveCoin { hash := 7, n := 1 },
        .BatchWrite raisingChildMap 9, .SpendCoin outT true, .Uncache { hash := 7, n := 1 }]
      { base := sampleStore }).2.cachedCoinsUsage =
      coinsUsage sampleOps (runOps sampleOps
        [.AddCoin outT coin30 false, .HaveCoin { hash := 7, n := 1 },
          .BatchWrite raisingChildMap 9, .SpendCoin outT true, .Uncache { hash := 7, n := 1 }]
        { base := sampleStore }).2.cacheCoins :=
  ⟨by decide, by decide,
   (usage_invariant sampleOps rfl sampleStore
      [.AddCoin outT coin30 false, .HaveCoin { hash := 7, n := 1 },
        .BatchWrite raisingChildMap 9, .SpendCoin outT true, .Uncache { hash := 7, n := 1 }]
      (by decide)).2 (by decide)⟩

/-- C28, as stated, fails: merging `raisingChildMap` into the cache
`sampleParent`, the loop of `BatchWrite` first inserts the incoming entry for
`(T, 2)` and then raises the logic error on the incoming entry for `(T, 1)`;
the cache, which had no entry for `(T, 2)`, is left with one. -/
theorem BatchWrite_raise_state_counterexample :
    (sampleParent.BatchWrite sampleOps raisingChildMap 9).1 = .error .freshMisapplied ∧
    sampleParent.cacheCoins.lookup { hash := 7, n := 2 } = none ∧
    (sampleParent.BatchWrite sampleOps raisingChildMap 9).2.1.cacheCoins.lookup
      { hash := 7, n := 2 } = some { coin := coin20, flags := DIRTY } ∧
    (sampleParent.BatchWrite sampleOps raisingChildMap 9).2.1.cacheCoins ≠
      sampleParent.cacheCoins :=
  ⟨rfl, by decide, by decide, fun heq =>
    absurd (congrArg (fun m : CCoinsMap => m.lookup { hash := 7, n := 2 }) heq) (by decide)⟩

/-- C28, amended. If `BatchWrite` raises the FRESH-misapplied logic error, then
the receiving cache's best-block hash and backing view are exactly what they
were before the call; its map holds, at every key that has no incoming entry
or whose incoming entry has not been consumed, the entry it held before the
call, and at the key of every consumed incoming entry the merged entry; and
the offending entry is still in the incoming map, dirty and FRESH, over a
local entry with an unspent coin that is as it was. -/
theorem BatchWrite_raise_state (X : ScriptOps) (c : CCoinsViewCache) (incoming : CCoinsMap)
    (h : uint256) (hraise : (c.BatchWrite X incoming h).1 = .error .freshMisapplied) :
    (c.BatchWrite X incoming h).2.1.hashBlock = c.hashBlock ∧
    (c.BatchWrite X incoming h).2.1.base = c.base ∧
    (∀ k, incoming.lookup k = none ∨ (c.BatchWrite X incoming h).2.2.lookup k ≠ none →
      (c.BatchWrite X incoming h).2.1.cacheCoins.lookup k = c.cacheCoins.lookup k) ∧
    (∀ k it, incoming.lookup k = some it → (c.BatchWrite X incoming h).2.2.lookup k = none →
      mergeEntry it (c.cacheCoins.lookup k) =
        .ok ((c.BatchWrite X incoming h).2.1.cacheCoins.lookup k)) ∧
    (∃ key it itUs, incoming.lookup key = some it ∧
      (c.BatchWrite X incoming h).2.2.lookup key = some it ∧
      c.cacheCoins.lookup key = some itUs ∧
      (c.BatchWrite X incoming h).2.1.cacheCoins.lookup key = some itUs ∧
      it.flags &&& DIRTY ≠ 0 ∧ it.flags &&& FRESH ≠ 0 ∧ itUs.coin.IsSpent = false) := by
  obtain ⟨tA, tB, tC, -⟩ := BatchWrite_trace X c incoming h
  obtain ⟨-, -, -, hbase, -, -⟩ := BatchWrite_components X c incoming h
  rcases tC with ⟨hok, -⟩ | ⟨-, hhash, key, it, hk1, hk2, hk3⟩
  · rw [hraise] at hok
    cases hok
  · refine ⟨hhash, hbase, ?_, ?_, ?_⟩
    · intro k hk
      cases hl : incoming.lookup k with
      | none => exact (tA k hl).1
      | some it' =>
        rcases tB k it' hl with ⟨-, h2⟩ | ⟨h1, -⟩
        · exact h2
        · rcases hk with hk | hk
          · rw [hl] at hk
            cases hk
          · exact absurd h1 hk
    · intro k it' hl hleft
      rcases tB k it' hl with ⟨h1, -⟩ | ⟨-, h2⟩
      · rw [hleft] at h1
        cases h1
      · exact h2
    · obtain ⟨-, hd, itUs, hus, hf, hs⟩ := mergeEntry_error it _ _ hk3
      refine ⟨key, it, itUs, hk1, hk2, hus, ?_, hd, hf, hs⟩
      rcases tB key it hk1 with ⟨-, h2⟩ | ⟨h1, -⟩
      · rw [h2, hus]
      · rw [hk2] at h1
        cases h1

/-- C28, amended, at a concrete input: the merge of `raisingChildMap` into
`sampleParent` raises; the best-block hash stays 1, the entries for `(T, 0)`
and `(T, 1)` are as they were, and the consumed entry for `(T, 2)` has been
merged. -/
theorem BatchWrite_raise_state_witness :
    (sampleParent.BatchWrite sampleOps raisingChildMap 9).2.1.hashBlock = 1 ∧
    (sampleParent.BatchWrite sampleOps raisingChildMap 9).2.1.cacheCoins.lookup outT =
      some { coin := coin50, flags := DIRTY ||| FRESH } ∧
    (sampleParent.BatchWrite sampleOps raisingChildMap 9).2.1.cacheCoins.lookup
      { hash := 7, n := 1 } = some { coin := coin20, flags := 0 } ∧
    mergeEntry { coin := coin20, flags := DIRTY } none =
      .ok ((sampleParent.BatchWrite sampleOps raisingChildMap 9).2.1.cacheCoins.lookup
        { hash := 7, n := 2 }) :=
  ⟨(BatchWrite_raise_state sampleOps sampleParent raisingChildMap 9 rfl).1,
   (BatchWrite_raise_state sampleOps sampleParent raisingChildMap 9 rfl).2.2.1 outT
     (Or.inl (by decide)),
   (BatchWrite_raise_state sampleOps sampleParent raisingChildMap 9 rfl).2.2.1
     { hash := 7, n := 1 } (Or.inr (by decide)),
   (BatchWrite_raise_state sampleOps sampleParent raisingChildMap 9 rfl).2.2.2.1
     { hash := 7, n := 2 } { coin := coin20, flags := DIRTY } (by decide) (by decide)⟩

/-- C29. Lazy fetch. For every cache and outpoint `id` with no cached entry, a
read (`GetCoin`, `HaveCoin` or `AccessCoin`) leaves the cache map unchanged
when the backing view's `GetCoin(id)` fails, and otherwise inserts exactly
one entry at `id` that holds the backing view's coin, with flags 0 if that
coin is unspent and flags FRESH if it is spent; a read of an `id` that is
already cached never changes the map. -/
theorem read_lazy_fetch (X : ScriptOps) (c : CCoinsViewCache) (id : COutPoint) (coin0 : Coin) :
    ((c.GetCoin X id coin0).2.cacheCoins = (c.FetchCoin X id).2.cacheCoins ∧
      (c.HaveCoin X id).2.cacheCoins = (c.FetchCoin X id).2.cacheCoins ∧
      (c.AccessCoin X id).2.cacheCoins = (c.FetchCoin X id).2.cacheCoins) ∧
    (c.cacheCoins.lookup id = none → c.base.found X id = none →
      (c.FetchCoin X id).2.cacheCoins = c.cacheCoins) ∧
    (∀ tmp, c.cacheCoins.lookup id = none → c.base.found X id = some tmp →
      (c.FetchCoin X id).2.cacheCoins =
        c.cacheCoins.insert id { coin := tmp, flags := if tmp.IsSpent then FRESH else 0 } ∧
      (c.FetchCoin X id).2.cacheCoins.entries =
        ⟨id, { coin := tmp, flags := if tmp.IsSpent then FRESH else 0 }⟩ ::
          c.cacheCoins.entries) ∧
    (∀ e, c.cacheCoins.lookup id = some e → (c.FetchCoin X id).2.cacheCoins = c.cacheCoins) := by
  have hm := FetchCoin_map X c id
  refine ⟨⟨?_, ?_, ?_⟩, ?_, ?_, ?_⟩
  · rw [(GetCoin_eq_FetchCoin X c id coin0).2]
  · rw [(HaveCoin_eq_FetchCoin X c id).2]
  · rw [(AccessCoin_eq_FetchCoin X c id).2]
  · intro hl hf
    rw [hm, hl, hf]
  · intro tmp hl hf
    rw [hm, hl, hf]
    exact ⟨rfl, AList.insert_entries_of_neg (AList.lookup_eq_none.1 hl)⟩
  · intro e hl
    rw [hm, hl]

/-- C29 at concrete inputs: reading `(T, 0)` through an empty cache leaves the
map empty over the empty store and inserts the flagless `coin50` over the
store that holds it; reading `(T, 0)` through `sampleParent`, which has it
cached, leaves the map as it was. -/
theorem read_lazy_fetch_witness :
    ((CCoinsViewCache.mk emptyStore 0 ∅ 0).HaveCoin sampleOps outT).2.cacheCoins = ∅ ∧
    ((CCoinsViewCache.mk storeWith50 0 ∅ 0).HaveCoin sampleOps outT).2.cacheCoins.entries =
      [⟨outT, { coin := coin50, flags := 0 }⟩] ∧
    (sampleParent.HaveCoin sampleOps outT).2.cacheCoins = sampleParentMap :=
  ⟨((read_lazy_fetch sampleOps (CCoinsViewCache.mk emptyStore 0 ∅ 0) outT {}).1.2.1).trans
      ((read_lazy_fetch sampleOps (CCoinsViewCache.mk emptyStore 0 ∅ 0) outT {}).2.1 rfl rfl),
   (congrArg AList.entries
      (read_lazy_fetch sampleOps (CCoinsViewCache.mk storeWith50 0 ∅ 0) outT {}).1.2.1).trans
      ((read_lazy_fetch sampleOps (CCoinsViewCache.mk storeWith50 0 ∅ 0) outT {}).2.2.1
        coin50 rfl rfl).2,
   ((read_lazy_fetch sampleOps sampleParent outT {}).1.2.1).trans
      ((read_lazy_fetch sampleOps sampleParent outT {}).2.2.2
        { coin := coin50, flags := DIRTY ||| FRESH } rfl)⟩

/-- C30. The three read operations agree. For every cache state and outpoint
`id`, `HaveCoin(id)` is true if and only if `GetCoin(id)` returns true, if and
only if `AccessCoin(id)` is not spent; and when no entry can be fetched for
`id`, `AccessCoin(id)` returns the empty coin, for which `IsSpent()` is true. -/
theorem reads_agree (X : ScriptOps) (c : CCoinsViewCache) (id : COutPoint) (coin0 : Coin) :
    ((c.HaveCoin X id).1 = true ↔ (c.GetCoin X id coin0).1.1 = true) ∧
    ((c.GetCoin X id coin0).1.1 = true ↔ (c.AccessCoin X id).1.IsSpent = false) ∧
    ((c.FetchCoin X id).1 = none →
      (c.AccessCoin X id).1 = {} ∧ (c.AccessCoin X id).1.IsSpent = true) := by
  rw [(HaveCoin_eq_FetchCoin X c id).1, (GetCoin_eq_FetchCoin X c id coin0).1,
    (AccessCoin_eq_FetchCoin X c id).1]
  cases (c.FetchCoin X id).1 with
  | none =>
    refine ⟨Iff.rfl, ?_, fun _ => ⟨rfl, rfl⟩⟩
    simp only
    constructor
    · intro h
      cases h
    · intro h
      rw [Coin.default_isSpent] at h
      cases h
  | some e =>
    refine ⟨Iff.rfl, ?_, fun h => by cases h⟩
    simp only
    cases e.coin.IsSpent <;> simp

/-- C30 at concrete inputs: for `(T, 0)` in an empty cache over the empty
store nothing can be fetched, and `AccessCoin` returns the empty coin; over
the store that holds `coin50` there, the three reads agree on true. -/
theorem reads_agree_witness :
    ((CCoinsViewCache.mk emptyStore 0 ∅ 0).AccessCoin sampleOps outT).1 = {} ∧
    ((CCoinsViewCache.mk emptyStore 0 ∅ 0).AccessCoin sampleOps outT).1.IsSpent = true ∧
    ((CCoinsViewCache.mk storeWith50 0 ∅ 0).AccessCoin sampleOps outT).1.IsSpent = false :=
  ⟨((reads_agree sampleOps (CCoinsViewCache.mk emptyStore 0 ∅ 0) outT {}).2.2 rfl).1,
   ((reads_agree sampleOps (CCoinsViewCache.mk emptyStore 0 ∅ 0) outT {}).2.2 rfl).2,
   (reads_agree sampleOps (CCoinsViewCache.mk storeWith50 0 ∅ 0) outT {}).2.1.1
     (((reads_agree sampleOps (CCoinsViewCache.mk storeWith50 0 ∅ 0) outT {}).1).1 rfl)⟩

/-- C40. `GetBlockProofEquivalentTime` raises the "Division by zero"
`uint_error` if and only if `GetBlockProof(tip)` is zero, which is the case
exactly when `tip.nBits` decodes to a negative, overflowed or zero target; for
every other input it returns normally. -/
theorem GetBlockProofEquivalentTime_raises (blockTo blockFrom tip : CBlockIndex)
    (params : Consensus.Params) :
    (GetBlockProofEquivalentTime blockTo blockFrom tip params = .error .divisionByZero ↔
      GetBlockProof tip = .ok 0) ∧
    (GetBlockProof tip = .ok 0 ↔
      ((SetCompact tip.nBits).2.1 = true ∨ (SetCompact tip.nBits).2.2 = true ∨
        (SetCompact tip.nBits).1 = 0)) ∧
    (GetBlockProof tip ≠ .ok 0 →
      ∃ v, GetBlockProofEquivalentTime blockTo blockFrom tip params = .ok v) := by
  obtain ⟨p, hp⟩ : ∃ p, GetBlockProof tip = .ok p := ⟨_, GetBlockProof_eq tip⟩
  obtain ⟨h1, h2⟩ := GetBlockProofEquivalentTime_cases blockTo blockFrom tip params p hp
  refine ⟨⟨fun he => ?_, fun hz => ?_⟩, GetBlockProof_zero_iff tip, fun hnz => ?_⟩
  · by_contra hnz
    have hp0 : p ≠ 0 := by
      intro h0
      subst h0
      exact hnz hp
    obtain ⟨v, hv⟩ := h2 hp0
    rw [hv] at he
    cases he
  · rw [hp] at hz
    exact h1 (Except.ok.inj hz)
  · have hp0 : p ≠ 0 := by
      intro h0
      subst h0
      exact hnz hp
    exact h2 hp0

/-- C40 at concrete inputs: with a tip whose compact target `0x04923456`
decodes as negative the call raises the division error; with the tip of
compact target `0x22000001` (work 255) it returns 470352. -/
theorem GetBlockProofEquivalentTime_raises_witness :
    GetBlockProofEquivalentTime { nChainWork := 1000000 } { nChainWork := 500 }
      { nBits := 0x04923456 } { nPowTargetSpacing := 120 } = .error .divisionByZero ∧
    (∃ v, GetBlockProofEquivalentTime { nChainWork := 1000000 } { nChainWork := 500 }
      { nBits := 0x22000001 } { nPowTargetSpacing := 120 } = .ok v) :=
  ⟨(GetBlockProofEquivalentTime_raises { nChainWork := 1000000 } { nChainWork := 500 }
      { nBits := 0x04923456 } { nPowTargetSpacing := 120 }).1.2 rfl,
   (GetBlockProofEquivalentTime_raises { nChainWork := 1000000 } { nChainWork := 500 }
      { nBits := 0x22000001 } { nPowTargetSpacing := 120 }).2.2
      (fun h => absurd (Except.ok.inj h) (by decide))⟩

/-- C33. Skip-height formula: `GetSkipHeight(h)` is 0 for `h < 2`; for even
`h >= 2` it is `h` with its lowest set bit cleared, that is `h - 2^k` for the
largest power of two `2^k` that divides `h`; for odd `h >= 3` it is 1 when
`h - 1` has a single set bit, and otherwise 1 plus the value of `h - 1` with
its two lowest set bits `2^k1` and `2^k2` cleared. -/
theorem GetSkipHeight_formula :
    (∀ h : Int, h < 2 → GetSkipHeight h = 0) ∧
    (∀ n : Nat, 2 ≤ n → n % 2 = 0 →
      ∃ k : Nat, 2 ^ k ∣ n ∧ ¬ 2 ^ (k + 1) ∣ n ∧ 2 ^ k ≤ n ∧
        GetSkipHeight (n : Int) = ((n - 2 ^ k : Nat) : Int)) ∧
    (∀ n : Nat, 3 ≤ n → n % 2 = 1 →
      ((∃ k : Nat, n - 1 = 2 ^ k) → GetSkipHeight (n : Int) = 1) ∧
      ((¬ ∃ k : Nat, n - 1 = 2 ^ k) →
        ∃ k1 k2 : Nat, k1 < k2 ∧ 2 ^ k1 ∣ n - 1 ∧ ¬ 2 ^ (k1 + 1) ∣ n - 1 ∧
          2 ^ k2 ∣ n - 1 - 2 ^ k1 ∧ ¬ 2 ^ (k2 + 1) ∣ n - 1 - 2 ^ k1 ∧
          2 ^ k1 + 2 ^ k2 ≤ n - 1 ∧
          GetSkipHeight (n : Int) = 1 + ((n - 1 - 2 ^ k1 - 2 ^ k2 : Nat) : Int))) := by
  refine ⟨?_, ?_, ?_⟩
  · intro h hlt
    unfold GetSkipHeight
    rw [if_pos hlt]
  · intro n h2 heven
    obtain ⟨k, h1, h3, h4, -, h5⟩ := InvertLowestOne_pos n (by omega)
    refine ⟨k, h1, h3, h4, ?_⟩
    unfold GetSkipHeight
    rw [if_neg (by omega), Int_land_one, heven, if_neg (by decide), h5]
  · intro n h3 hodd
    have hg : GetSkipHeight (n : Int) =
        InvertLowestOne (InvertLowestOne ((n - 1 : Nat) : Int)) + 1 := by
      unfold GetSkipHeight
      rw [if_neg (by omega), Int_land_one, hodd, if_pos (by decide)]
      congr 3
      omega
    constructor
    · rintro ⟨k, hk⟩
      rw [hg, hk, InvertLowestOne_nat, Nat.and_pow_two_sub_one_eq_mod, Nat.mod_self]
      rw [InvertLowestOne_nat]
      rfl
    · intro hnot
      obtain ⟨k1, a1, a2, a3, a4, a5⟩ := InvertLowestOne_pos (n - 1) (by omega)
      have hne : n - 1 - 2 ^ k1 ≠ 0 := by
        intro h0
        exact hnot ⟨k1, by omega⟩
      obtain ⟨k2, b1, b2, b3, -, b5⟩ := InvertLowestOne_pos (n - 1 - 2 ^ k1) hne
      refine ⟨k1, k2, ?_, a1, a2, b1, b2, by omega, ?_⟩
      · by_contra hle
        exact b2 (Dvd.dvd.trans (pow_dvd_pow 2 (by omega)) a4)
      · rw [hg, a5, b5, Int.add_comm]

/-- C33 at concrete inputs: `GetSkipHeight(1) = 0`; 12 is even and
`GetSkipHeight(12) = 12 - 4 = 8`; `9 - 1 = 2^3` and `GetSkipHeight(9) = 1`;
`13 - 1 = 12` has the two lowest set bits 4 and 8 and `GetSkipHeight(13) = 1`;
`999 - 1 = 998` has the two lowest set bits 2 and 4 and
`GetSkipHeight(999) = 993`. -/
theorem GetSkipHeight_formula_witness :
    GetSkipHeight 1 = 0 ∧
    (∃ k : Nat, 2 ^ k ∣ 12 ∧ ¬ 2 ^ (k + 1) ∣ 12 ∧ 2 ^ k ≤ 12 ∧
      GetSkipHeight ((12 : Nat) : Int) = ((12 - 2 ^ k : Nat) : Int)) ∧
    GetSkipHeight ((9 : Nat) : Int) = 1 ∧
    (∃ k1 k2 : Nat, k1 < k2 ∧ 2 ^ k1 ∣ 999 - 1 ∧ ¬ 2 ^ (k1 + 1) ∣ 999 - 1 ∧
      2 ^ k2 ∣ 999 - 1 - 2 ^ k1 ∧ ¬ 2 ^ (k2 + 1) ∣ 999 - 1 - 2 ^ k1 ∧
      2 ^ k1 + 2 ^ k2 ≤ 999 - 1 ∧
      GetSkipHeight ((999 : Nat) : Int) = 1 + ((999 - 1 - 2 ^ k1 - 2 ^ k2 : Nat) : Int)) ∧
    GetSkipHeight 12 = 8 ∧ GetSkipHeight 13 = 1 ∧ GetSkipHeight 999 = 993 :=
  ⟨GetSkipHeight_formula.1 1 (by decide),
   GetSkipHeight_formula.2.1 12 (by decide) (by decide),
   (GetSkipHeight_formula.2.2 9 (by decide) (by decide)).1 ⟨3, by decide⟩,
   (GetSkipHeight_formula.2.2 999 (by decide) (by decide)).2 (by
     rintro ⟨k, hk⟩
     have h1 : k < 10 := by
       by_contra hge
       have : 2 ^ 10 ≤ 2 ^ k := Nat.pow_le_pow_right (by decide) (by omega)
       omega
     interval_cases k <;> omega),
   by decide, by decide, by decide⟩

/-- C31. `BuildSkip` establishes well-formedness: for every node `n` with a
non-null well-formed parent of height `n.nHeight - 1`, `n.BuildSkip()` returns
and changes nothing but `n.pskip`, which afterwards is non-null and is the
ancestor of `n` at height `GetSkipHeight(n.nHeight)`, so that `n` is
well-formed; for a node with null `pprev`, `BuildSkip` leaves the heap, and
with it `pskip`, unchanged. -/
theorem BuildSkip_wellFormed (A : Arena) (n : Nat) :
    (∀ q, (A n).pprev = some q → WellFormed A q → (A q).nHeight = (A n).nHeight - 1 →
      ∃ A' s, BuildSkip A n = .ok A' ∧ (A' n).pskip = some s ∧
        pprevWalk A' (some n) ((A' n).nHeight - GetSkipHeight (A' n).nHeight).toNat = some s ∧
        (A' s).nHeight = GetSkipHeight (A' n).nHeight ∧
        WellFormed A' n ∧
        (∀ i, i ≠ n → A' i = A i) ∧ (A' n).pprev = (A n).pprev ∧
        (A' n).nHeight = (A n).nHeight) ∧
    ((A n).pprev = none → BuildSkip A n = .ok A) := by
  refine ⟨?_, BuildSkip_null A n⟩
  intro q hp hwf hq
  obtain ⟨s, h1, h2, h3, h4⟩ := BuildSkip_spec A n q hp hwf hq
  have hpp : ∀ i, (Function.update A n { A n with pskip := some s } i).pprev = (A i).pprev := by
    intro i
    by_cases hi : i = n
    · subst hi
      rw [Function.update_same]
    · rw [Function.update_noteq hi]
  have hsn : s ≠ n := by
    intro he
    rw [he] at h3
    have := GetSkipHeight_bounds (h := (A n).nHeight) (by have := hwf.nodeOK.1; omega)
    omega
  refine ⟨_, s, h1, ?_, ?_, ?_, h4, fun i hi => Function.update_noteq hi _ _, ?_, ?_⟩
  · rw [Function.update_same]
  · rw [pprevWalk_congr A _ hpp, Function.update_same]
    exact h2
  · rw [Function.update_noteq hsn, Function.update_same]
    exact h3
  · rw [Function.update_same]
  · rw [Function.update_same]

/-- C31 at a concrete input: node 7 of the linked chain of eight nodes, whose
parent is node 6; `BuildSkip` stores the skip pointer to node 1, the node at
height `GetSkipHeight(7) = 1`. Node 0 has no parent and `BuildSkip` leaves the
heap as it is. -/
theorem BuildSkip_wellFormed_witness :
    (∃ A' s, BuildSkip (linkedChain 8) 7 = .ok A' ∧ (A' 7).pskip = some s ∧
      pprevWalk A' (some 7) ((A' 7).nHeight - GetSkipHeight (A' 7).nHeight).toNat = some s ∧
      (A' s).nHeight = GetSkipHeight (A' 7).nHeight ∧
      WellFormed A' 7 ∧
      (∀ i, i ≠ 7 → A' i = linkedChain 8 i) ∧ (A' 7).pprev = (linkedChain 8 7).pprev ∧
      (A' 7).nHeight = (linkedChain 8 7).nHeight) ∧
    BuildSkip (linkedChain 8) 0 = .ok (linkedChain 8) ∧
    GetSkipHeight 7 = 1 :=
  ⟨(BuildSkip_wellFormed (linkedChain 8) 7).1 6 rfl (linkedChain_wellFormed 8 6 (by decide)) rfl,
   (BuildSkip_wellFormed (linkedChain 8) 0).2 rfl,
   by decide⟩

/-- C32. In `GetAncestor`, for every well-formed node `n` and target height `h`
with `0 <= h <= n.nHeight`: `0 <= GetSkipHeight(k) < k` for every `k >= 1`;
the loop runs its body while `heightWalk > h`; from every state in which
`pindexWalk` is a node of `n`'s chain, `heightWalk == pindexWalk->nHeight` and
`heightWalk > h`, the body passes the assertion and leaves such a state again,
with `h <= heightWalk` and `heightWalk` strictly smaller than before; and so
the loop makes at most `n.nHeight - h` iterations and `GetAncestor` returns a
node of height `h`. -/
theorem GetAncestor_loop_safe (A : Arena) (n : Nat) (hwf : WellFormed A n) (h : Int)
    (h0 : 0 ≤ h) (hle : h ≤ (A n).nHeight) :
    (∀ k : Int, 1 ≤ k → 0 ≤ GetSkipHeight k ∧ GetSkipHeight k < k) ∧
    (∀ (fuel p : Nat) (hw : Int), GetAncestorLoop A h (fuel + 1) p hw =
      if hw > h then
        match GetAncestorStep A h p hw with
        | .error e => .error e
        | .ok (p', hw') => GetAncestorLoop A h fuel p' hw'
      else .ok (some p)) ∧
    (∀ (p : Nat) (hw : Int), OnChain A n p → (A p).nHeight = hw → h < hw →
      ∃ p' hw', GetAncestorStep A h p hw = .ok (p', hw') ∧ h ≤ hw' ∧ hw' < hw ∧
        (A p').nHeight = hw' ∧ OnChain A n p') ∧
    (∃ k, GetAncestorHops A h ((A n).nHeight - h).toNat n (A n).nHeight = .ok k ∧
      (k : Int) ≤ (A n).nHeight - h) ∧
    (∃ m, GetAncestor A n h = .ok (some m) ∧ (A m).nHeight = h ∧ OnChain A n m) := by
  refine ⟨fun k hk => GetSkipHeight_bounds hk, GetAncestorLoop_step A h, ?_, ?_, ?_⟩
  · intro p hw hon hp hgt
    obtain ⟨j, hj⟩ := hon
    obtain ⟨p', hw', e1, e2, e3, e4, -, e6⟩ :=
      GetAncestorStep_spec A h p hw (hwf.walk hj) hp h0 hgt
    exact ⟨p', hw', e1, e2, e3, e4, OnChain.trans ⟨j, hj⟩ e6⟩
  · exact GetAncestorHops_spec A h h0 _ n _ hwf rfl hle (le_refl _)
  · obtain ⟨m, w1, w2, w3⟩ := GetAncestor_spec A n hwf h h0 hle
    exact ⟨m, w2, w3, ⟨_, w1⟩⟩

/-- C32 at a concrete input: node 7 of the linked chain of eight nodes and the
target height 4; the first iteration takes the parent edge to node 6 (the skip
edge of node 7 leads to height 1, below the target), and `GetAncestor` returns
node 4. -/
theorem GetAncestor_loop_safe_witness :
    (∃ p' hw', GetAncestorStep (linkedChain 8) 4 7 7 = .ok (p', hw') ∧ 4 ≤ hw' ∧ hw' < 7 ∧
      (linkedChain 8 p').nHeight = hw' ∧ OnChain (linkedChain 8) 7 p') ∧
    GetAncestorStep (linkedChain 8) 4 7 7 = .ok (6, 6) ∧
    (∃ m, GetAncestor (linkedChain 8) 7 4 = .ok (some m) ∧ (linkedChain 8 m).nHeight = 4 ∧
      OnChain (linkedChain 8) 7 m) ∧
    GetAncestor (linkedChain 8) 7 4 = .ok (some 4) :=
  ⟨(GetAncestor_loop_safe (linkedChain 8) 7 (linkedChain_wellFormed 8 7 (by decide)) 4
      (by decide) (by decide)).2.2.1 7 7 (OnChain.refl _ 7) rfl (by decide),
   rfl,
   (GetAncestor_loop_safe (linkedChain 8) 7 (linkedChain_wellFormed 8 7 (by decide)) 4
      (by decide) (by decide)).2.2.2.2,
   rfl⟩

/-- C36. Hop bound on the 1000-node scenario: the chain of 1000 nodes with
heights 0..999, each linked to its parent and given its skip pointer by
`BuildSkip`, is built without error; on it `node[999].GetAncestor(500)` returns
node 500, its loop makes 10 iterations, each following one skip or parent
edge, which is at most 20; the walk along `pprev` alone reaches node 500 after
499 edges and not before. -/
theorem GetAncestor_hops_1000 :
    ∃ A, buildChain 1000 = .ok A ∧
      (∀ i, i < 1000 → (A i).nHeight = (i : Int) ∧
        (A i).pprev = (if i = 0 then none else some (i - 1))) ∧
      GetAncestor A 999 500 = .ok (some 500) ∧
      (∃ k, GetAncestorHops A 500 ((A 999).nHeight - 500).toNat 999 (A 999).nHeight = .ok k ∧
        k = 10 ∧ k ≤ 20) ∧
      pprevWalk A (some 999) 499 = some 500 ∧
      (∀ k, k < 499 → pprevWalk A (some 999) k ≠ some 500) := by
  refine ⟨linkedChain 1000, buildChain_eq 1000, ?_, ?_, ⟨10, linkedChain_1000_hops, rfl, by decide⟩,
    ?_, ?_⟩
  · intro i hi
    exact ⟨linkedChain_nHeight 1000 i hi, linkedChain_pprev 1000 i hi⟩
  · obtain ⟨m, h1, h2, -⟩ := GetAncestor_spec (linkedChain 1000) 999
      (linkedChain_wellFormed 1000 999 (by decide)) 500 (by decide) (by decide)
    rw [linkedChain_walk 1000 _ 999 (by decide)] at h1
    have hm : m = 500 := by
      have h3 : (if 499 ≤ 999 then some (999 - 499) else none) = some m := h1
      rw [if_pos (by decide)] at h3
      exact (Option.some.inj h3).symm
    rw [h2, hm]
  · rw [linkedChain_walk 1000 _ 999 (by decide), if_pos (by decide)]
  · intro k hk
    rw [linkedChain_walk 1000 _ 999 (by decide), if_pos (by omega)]
    intro h
    have := Option.some.inj h
    omega

/-- C34. `SetTip` touches only the slots above the fork point: for every chain
satisfying the ActiveChain invariant and every well-formed node `n`, `SetTip(n)`
returns (given `n.nHeight + 1` iterations), `FindFork(n)` on the chain before
the call returns, and when it returns a node `f`, every height up to
`f.nHeight` holds after the call the node it held before; when `n.pprev` is
the tip of the chain, the new vector is the old one with one slot, holding
`n`, appended. -/
theorem SetTip_frame (A : Arena) (c : CChain) (hinv : c.Inv A) (n H : Nat)
    (hwf : WellFormed A n) (hH : (A n).nHeight = (H : Int)) (fuel fuelF : Nat)
    (hf : H + 1 ≤ fuel) (hfF : H + 1 ≤ fuelF) :
    ∃ c', c.SetTip A fuel (some n) = .ok c' ∧
      (∃ r, c.FindFork A fuelF (some n) = .ok r ∧
        ∀ f, r = some f → ∀ i : Int, i ≤ (A f).nHeight → c'.at i = c.at i) ∧
      ((A n).pprev = c.Tip → c'.vChain = c.vChain ++ [some n]) := by
  obtain ⟨c', h1, h2, h3⟩ := SetTip_spec A c n H fuel hinv hwf hH hf
  obtain ⟨r, hr, -, hr2⟩ := FindFork_spec A c n hwf fuelF (by rw [hH]; omega)
  refine ⟨c', h1, ⟨r, hr, ?_⟩, SetTip_append A c c' n H hinv hwf hH h2 h3⟩
  intro f hrf i hi
  obtain ⟨hon, hc, -⟩ := hr2 f hrf
  exact SetTip_frame_below A c c' n H hinv hwf hH h2 h3 f hon hc i hi

/-- C34 at a concrete input: the chain runs along the main branch of the
forked arena up to node 7 and `SetTip` is called on the tip 11 of the side
branch, whose fork point is node 5. -/
theorem SetTip_frame_witness :
    (∃ c', CChain.SetTip forkedChain 8
        { vChain := [some 0, some 1, some 2, some 3, some 4, some 5, some 6, some 7] }
        (some 11) = .ok c' ∧
      (∃ r, CChain.FindFork forkedChain 8
          { vChain := [some 0, some 1, some 2, some 3, some 4, some 5, some 6, some 7] }
          (some 11) = .ok r ∧
        ∀ f, r = some f → ∀ i : Int, i ≤ (forkedChain f).nHeight → c'.at i =
          CChain.at
            { vChain := [some 0, some 1, some 2, some 3, some 4, some 5, some 6, some 7] } i) ∧
      ((forkedChain 11).pprev = CChain.Tip
          { vChain := [some 0, some 1, some 2, some 3, some 4, some 5, some 6, some 7] } →
        c'.vChain =
          [some 0, some 1, some 2, some 3, some 4, some 5, some 6, some 7] ++ [some 11])) ∧
    CChain.SetTip forkedChain 8
        { vChain := [some 0, some 1, some 2, some 3, some 4, some 5, some 6, some 7] }
        (some 11) =
      .ok { vChain := [some 0, some 1, some 2, some 3, some 4, some 5, some 10, some 11] } ∧
    CChain.FindFork forkedChain 8
        { vChain := [some 0, some 1, some 2, some 3, some 4, some 5, some 6, some 7] }
        (some 11) = .ok (some 5) :=
  ⟨SetTip_frame forkedChain _ forkedChain_main_inv 11 7 forkedChain_wellFormed_11 rfl 8 8
    (by decide) (by decide), rfl, rfl⟩

/-- C35, as stated, fails: in the locator of the node of height 49 the twelfth
entry is the hash of the node of height 38, one below the eleventh, where the
schedule that doubles the step from the tenth hash onward puts it at height
37; the step is still 1 in the iteration that collects the eleventh hash. -/
theorem GetLocator_schedule_counterexample :
    ∃ l, (rangeChain 50).GetLocator (timedChain 100) 50 none = .ok l ∧
      l[10]? = some (timedChain 100 39).GetBlockHash ∧
      l[11]? = some (timedChain 100 38).GetBlockHash ∧
      (timedChain 100 38).nHeight = 38 ∧
      doubledFromTenthHeight 49 12 = 37 ∧
      (timedChain 100 37).nHeight = 37 ∧
      (timedChain 100 37).GetBlockHash ≠ (timedChain 100 38).GetBlockHash :=
  ⟨[1049, 1048, 1047, 1046, 1045, 1044, 1043, 1042, 1041, 1040, 1039, 1038, 1036,
      1032, 1024, 1008, 1000], rfl, rfl, rfl, rfl, by decide, rfl, by decide⟩

/-- C35, amended. Locator step schedule: for a chain that satisfies the
ActiveChain invariant and a well-formed node `n` of height `H` that is the
argument of `GetLocator`, or the chain's tip when the argument is null,
`GetLocator` returns (given at least `H + 1` loop iterations) the hashes of
ancestors of `n` whose heights follow the schedule in which the step is 1
until 11 hashes have been collected and is doubled in every iteration from the
one that collects the 11th hash onward: entries 1 to 12 are at heights
`H, H-1, ..., H-11`, the following height gaps are 2, 4, 8, ..., the height is
clamped at 0 and the list ends with the first entry of height 0. -/
theorem GetLocator_schedule (A : Arena) (c : CChain) (hinv : c.Inv A) (pindex : Ptr)
    (n : Nat) (hn : pindex = some n ∨ (pindex = none ∧ c.Tip = some n))
    (hwf : WellFormed A n) (H : Int) (hH : (A n).nHeight = H) (fuel : Nat)
    (hf : H + 1 ≤ (fuel : Int)) :
    (∃ nodes : List Nat,
      c.GetLocator A fuel pindex = .ok (nodes.map fun m => (A m).GetBlockHash) ∧
      nodes ≠ [] ∧
      ∀ j m, nodes[j]? = some m → OnChain A n m ∧ (A m).nHeight = locatorHeight H j ∧
        ((A m).nHeight = 0 ↔ j + 1 = nodes.length)) ∧
    (∀ j : Nat, j ≤ 11 → locatorHeight H j = max (H - (j : Int)) 0) ∧
    (∀ j : Nat, 11 ≤ j → locatorHeight H j ≠ 0 →
      locatorHeight H (j + 1) = max (locatorHeight H j - 2 ^ (j - 10)) 0) := by
  have hstart : (if pindex.isNone then c.Tip else pindex) = some n := by
    rcases hn with rfl | ⟨rfl, ht⟩
    · rfl
    · exact ht
  have hH0 : 0 ≤ H := by rw [← hH]; exact hwf.nodeOK.1
  have h0 : (A n).nHeight = locatorHeight H 0 := by
    rw [hH]
    unfold locatorHeight
    rw [if_pos (by omega)]
    push_cast
    omega
  obtain ⟨nodes, h1, h2, h3⟩ := GetLocatorLoop_schedule A c hinv n hwf H fuel 0 n [] rfl
    (OnChain.refl A n) h0 (by rw [hH]; exact hf)
  refine ⟨⟨nodes, ?_, h2, ?_⟩, ?_, ?_⟩
  · unfold CChain.GetLocator
    rw [hstart]
    have e : locatorStep 0 = 1 := rfl
    rw [← e, h1]
    rfl
  · intro j m hj
    have := h3 j m hj
    rw [Nat.zero_add] at this
    exact this
  · intro j hj
    unfold locatorHeight
    rw [if_pos hj]
  · intro j hj hne
    have := locatorHeight_succ H j hne
    unfold locatorStep at this
    rw [if_neg (show ¬ j ≤ 10 by omega)] at this
    exact this.symm

/-- C35, amended, at a concrete input: 100 linked nodes with hashes
`1000 .. 1099`, the chain over the first 50 of them and its tip, node 49, as
the starting node: the heights are 49 down to 38, then 36, 32, 24, 8 and 0. -/
theorem GetLocator_schedule_witness :
    ((∃ nodes : List Nat,
      (rangeChain 50).GetLocator (timedChain 100) 50 none
        = .ok (nodes.map fun m => (timedChain 100 m).GetBlockHash) ∧
      nodes ≠ [] ∧
      ∀ j m, nodes[j]? = some m → OnChain (timedChain 100) 49 m ∧
        (timedChain 100 m).nHeight = locatorHeight 49 j ∧
        ((timedChain 100 m).nHeight = 0 ↔ j + 1 = nodes.length)) ∧
    (∀ j : Nat, j ≤ 11 → locatorHeight 49 j = max (49 - (j : Int)) 0) ∧
    (∀ j : Nat, 11 ≤ j → locatorHeight 49 j ≠ 0 →
      locatorHeight 49 (j + 1) = max (locatorHeight 49 j - 2 ^ (j - 10)) 0)) ∧
    (rangeChain 50).GetLocator (timedChain 100) 50 none
      = .ok [1049, 1048, 1047, 1046, 1045, 1044, 1043, 1042, 1041, 1040, 1039, 1038, 1036,
          1032, 1024, 1008, 1000] ∧
    (List.range 17).map (locatorHeight 49)
      = [49, 48, 47, 46, 45, 44, 43, 42, 41, 40, 39, 38, 36, 32, 24, 8, 0] :=
  ⟨GetLocator_schedule (timedChain 100) (rangeChain 50) (rangeChain_inv 50 100 (by decide))
    none 49 (Or.inr ⟨rfl, rfl⟩) (timedChain_wellFormed 100 49 (by decide)) 49 rfl 50
    (by decide), rfl, by decide⟩

/-! ## Amount compression (`compressor.cpp:136-175`) -/

/-- C37, the code at the failing input: the amount 2049638230412172403 is in
the money range, `CompressAmount` maps it to 5 (the sum
`1 + (n * 9 + d - 1) * 10 + e` passes `2^64` and wraps around), and
`DecompressAmount(5)` is 10000; every smaller amount is restored, and
`MAX_MONEY - 1` comes back as 9613136053960817408. -/
theorem CompressAmount_roundtrip_fails :
    MoneyRange 2049638230412172403 = true ∧
    CompressAmount 2049638230412172403 = .ok 5 ∧
    DecompressAmount 5 = 10000 ∧
    (1 + (204963823041217240 * 9 + 3 - 1) * 10 + 0 : Nat) = 2 ^ 64 + 5 ∧
    (∀ n : Nat, n < 2049638230412172403 → (CompressAmount n).map DecompressAmount = .ok n) ∧
    (CompressAmount 2049638230412172402).map DecompressAmount = .ok 2049638230412172402 ∧
    MoneyRange (MAX_MONEY - 1) = true ∧
    MAX_MONEY - 1 = 5499999999999999999 ∧
    CompressAmount 5499999999999999999 = .ok 12606511852580896759 ∧
    DecompressAmount 12606511852580896759 = 9613136053960817408 :=
  ⟨by decide, rfl, rfl, by decide, CompressAmount_roundtrip_below, rfl, by decide, by decide,
    rfl, rfl⟩

/-- C38. The compact-target encoding is a stable round trip: for every 256-bit
value `v`, decoding `GetCompact(v)` with `SetCompact` reports neither the
negative nor the overflow flag and yields a 256-bit value `w`, at most `v`,
with `GetCompact(w) == GetCompact(v)`. -/
theorem compact_stable (v : arith_uint256) (hv : v < 2 ^ 256) :
    ∃ w, SetCompact (GetCompact v false) = (w, false, false) ∧ w < 2 ^ 256 ∧ w ≤ v ∧
      GetCompact w false = GetCompact v false :=
  compact_roundtrip v hv

/-- C38 at concrete inputs: the largest 256-bit value, whose encoding is
`0x2100ffff` and decodes to `0xffff * 2^240`, and the value `2^255 + 1`,
whose encoding is `0x21008000` and decodes to `2^255`. -/
theorem compact_stable_witness :
    (∃ w, SetCompact (GetCompact (2 ^ 256 - 1) false) = (w, false, false) ∧ w < 2 ^ 256 ∧
      w ≤ 2 ^ 256 - 1 ∧ GetCompact w false = GetCompact (2 ^ 256 - 1) false) ∧
    GetCompact (2 ^ 256 - 1) false = 0x2100ffff ∧
    SetCompact 0x2100ffff = (0xffff * 2 ^ 240, false, false) ∧
    GetCompact (0xffff * 2 ^ 240) false = 0x2100ffff ∧
    GetCompact (2 ^ 255 + 1) false = 0x21008000 ∧
    SetCompact 0x21008000 = (2 ^ 255, false, false) ∧
    GetCompact (2 ^ 255) false = 0x21008000 :=
  ⟨compact_stable (2 ^ 256 - 1) (by norm_num), by decide, by decide, by decide, by decide,
    by decide, by decide⟩

/-- C39. `AddCoins` with `check = true` never trips the overwrite violation:
for every cache and every transaction, `AddCoins(cache, tx, height, true)`
does not raise the "Adding new coin that replaces non-pruned entry" logic
error, and it returns when the outputs of the transaction are all non-null;
each `AddCoin` call gets as `possible_overwrite` the answer of `HaveCoin` for
its outpoint, after which the cache holds an unspent entry at the outpoint only
if that answer was true. -/
theorem AddCoins_check_no_overwrite_error (X : ScriptOps) (cache : CCoinsViewCache)
    (tx : CTransaction) (nHeight : Int) :
    (AddCoins X cache tx nHeight true).1 ≠ .error .replacesNonPruned ∧
    ((∀ o ∈ tx.vout, o.IsNull = false) → (AddCoins X cache tx nHeight true).1 = .ok ()) ∧
    (∀ (out : CTxOut) (rest : List CTxOut) (i : Nat) (c : CCoinsViewCache),
      AddCoinsLoop X tx.hash nHeight tx.fCoinBase true (out :: rest) i c =
        match (c.HaveCoin X { hash := tx.hash, n := i % 2 ^ 32 }).2.AddCoin X
            { hash := tx.hash, n := i % 2 ^ 32 }
            { out := out, fCoinBase := tx.fCoinBase, nHeight := (nHeight % 2 ^ 31).toNat }
            (c.HaveCoin X { hash := tx.hash, n := i % 2 ^ 32 }).1 with
        | (.error e, c') => (.error e, c')
        | (.ok _, c') => AddCoinsLoop X tx.hash nHeight tx.fCoinBase true rest (i + 1) c') ∧
    (∀ (c : CCoinsViewCache) (k : COutPoint),
      (c.HaveCoin X k).1 = true ∨
        ∀ e, (c.HaveCoin X k).2.cacheCoins.lookup k = some e → e.coin.IsSpent = true) := by
  have h := AddCoinsLoop_check X tx.hash nHeight tx.fCoinBase tx.vout 0 cache
  refine ⟨?_, ?_, fun _ _ _ _ => rfl, HaveCoin_allows X⟩
  · unfold AddCoins
    rw [h]
    split
    · intro hc
      cases hc
    · intro hc
      cases hc
  · intro hall
    unfold AddCoins
    rw [h, if_pos]
    rw [List.all_eq_true]
    intro o ho
    rw [hall o ho]
    rfl

/-- C39 at a concrete input: a transaction with id 7 and three non-null
outputs, added to a cache that holds unspent coins at `(7, 0)` and `(7, 1)`
and none at `(7, 2)`.  With `check = true` the call returns; with
`check = false` and a non-coinbase transaction the first `AddCoin` raises. -/
theorem AddCoins_check_no_overwrite_error_witness :
    (AddCoins sampleOps sampleParent
      { hash := 7, vout := [{ nValue := 5, scriptPubKey := [81] },
          { nValue := 6, scriptPubKey := [82] }, { nValue := 7, scriptPubKey := [83] }],
        fCoinBase := false } 9 true).1 = .ok () ∧
    (sampleParent.HaveCoin sampleOps { hash := 7, n := 0 }).1 = true ∧
    (sampleParent.HaveCoin sampleOps { hash := 7, n := 2 }).1 = false ∧
    (AddCoins sampleOps sampleParent
      { hash := 7, vout := [{ nValue := 5, scriptPubKey := [81] },
          { nValue := 6, scriptPubKey := [82] }, { nValue := 7, scriptPubKey := [83] }],
        fCoinBase := false } 9 false).1 = .error .replacesNonPruned :=
  ⟨(AddCoins_check_no_overwrite_error sampleOps sampleParent
      { hash := 7, vout := [{ nValue := 5, scriptPubKey := [81] },
          { nValue := 6, scriptPubKey := [82] }, { nValue := 7, scriptPubKey := [83] }],
        fCoinBase := false } 9).2.1 (by decide), by decide, by decide, rfl⟩

end NoteChain
